import Mathlib

/-!
# Collective communication primitives, loser trees and disk configuration of Thrill

A verification development for `thrill/net/collective.hpp` (the collectives
`PrefixSum`, `PrefixSumHypercube`, `BroadcastTrivial`, `BroadcastBinomialTree`,
`Broadcast`, `Reduce`, `AllReduce`, `AllReduceHypercube`), for the loser trees
`LoserTreeCopy` and `LoserTreeCopyUnguarded` of `thrill/core/losertree.hpp`, and
for the parser of the disk configuration file, `thrill/io/config_file.cpp`.

* Each collective is embedded as the program a single worker runs (`Prog`): a
  sequence of sends, blocking receives and a final value.
* The group is a network of such programs connected by FIFO queues, one per
  ordered pair of ranks (`Net`); a scheduler (`Net.run`) interleaves the workers.
* The outcome does not depend on the interleaving (`Net.diamond`,
  `Net.Reach.strip`, `Net.run_of_reach`), so each collective can be analysed round
  by round (`Net.round_matched`).
* The calls a worker issues are read off its program (`Prog.trace`) and compared
  with round-tagged schedules.
* The loser tree is embedded as its array of nodes with the methods acting on
  it; its correctness rests on an invariant relating the array to the current
  elements of the players (`Tournament`, `LoserTreeCopy.Invariant`).
* A multiway merge driven by the stable tree is modelled on top of the embedded
  methods (`LoserTreeCopy.merge`).
* The configuration parser is embedded as functions on strings that return the
  parsed entry or the exception thrown; the string helpers that are not part of
  the file are collected in `Externals`.
-/

namespace Thrill

/-- What one worker does during a collective call, as seen from the network:
it sends, it blocks on a receive from a named peer, or it has returned with its
final `value`.  `spin` stands for a loop that never leaves (fuel exhausted). -/
inductive Prog (α : Type) where
  | done (value : α) : Prog α
  | send (dst : Nat) (msg : α) (next : Prog α) : Prog α
  | recv (src : Nat) (next : α → Prog α) : Prog α
  | spin : Prog α

/-- Guarded send: `if (cond) net.SendTo(dst, msg);` followed by `next`. -/
def Prog.sendIf {α : Type} (cond : Bool) (dst : Nat) (msg : α) (next : Prog α) : Prog α :=
  if cond then Prog.send dst msg next else next

/-- Sequential composition: run `p`, then continue with `k` on the value it left. -/
def Prog.andThen {α : Type} : Prog α → (α → Prog α) → Prog α
  | .done v, k => k v
  | .send dst msg next, k => .send dst msg (next.andThen k)
  | .recv src next, k => .recv src (fun m => (next m).andThen k)
  | .spin, _ => .spin

/-- The value a returned worker holds. -/
def Prog.result {α : Type} : Prog α → Option α
  | .done v => some v
  | _ => none

/-- The group: every worker's remaining program and, for every ordered pair of
ranks, the FIFO queue of messages sent but not yet received. -/
structure Net (α : Type) where
  procs : Nat → Prog α
  chan : Nat → Nat → List α

def Net.setProc {α : Type} (c : Net α) (i : Nat) (p : Prog α) : Net α :=
  { procs := fun j => if j = i then p else c.procs j, chan := c.chan }

def Net.setChan {α : Type} (c : Net α) (s d : Nat) (q : List α) : Net α :=
  { procs := c.procs, chan := fun a b => if a = s ∧ b = d then q else c.chan a b }

/-- One action of worker `i`: a send appends to the queue towards `dst`; a
receive takes the head of the queue from `src` and blocks (`none`) when that
queue is empty; a returned or spinning worker does nothing. -/
def Net.stepAt {α : Type} (c : Net α) (i : Nat) : Option (Net α) :=
  match c.procs i with
  | .send dst msg next => some ((c.setChan i dst (c.chan i dst ++ [msg])).setProc i next)
  | .recv src next =>
    match c.chan src i with
    | [] => none
    | m :: q => some ((c.setChan src i q).setProc i (next m))
  | .done _ => none
  | .spin => none

/-- Values of workers `0..k-1` if all of them have returned. -/
def Net.collect {α : Type} (c : Net α) : Nat → Option (List α)
  | 0 => some []
  | k + 1 =>
    match c.collect k, (c.procs k).result with
    | some l, some v => some (l ++ [v])
    | _, _ => none

/-- Scheduler: repeatedly let the lowest-ranked worker that can act perform one
action.  When nobody can act (or the step budget is used up) the outcome is the
vector of final values, or `none` if some worker has not returned. -/
def Net.run {α : Type} (n : Nat) : Nat → Net α → Option (List α)
  | 0, c => c.collect n
  | fuel + 1, c =>
    match (List.range n).findSome? c.stepAt with
    | some c1 => Net.run n fuel c1
    | none => c.collect n

/-- Group state with empty queues in which worker `i < n` is about to run
`prog i`; ranks outside the group never act. -/
def Net.init {α : Type} (n : Nat) (prog : Nat → Prog α) : Net α :=
  { procs := fun i => if i < n then prog i else Prog.spin, chan := fun _ _ => [] }

/-- Step budget given to the scheduler for a group of `n` workers. -/
def Net.budget (n : Nat) : Nat := 4 * n * n

/-- Run a collective on `n` workers, worker `i` executing `prog i`. -/
def Net.exec {α : Type} (n : Nat) (prog : Nat → Prog α) : Option (List α) :=
  Net.run n (Net.budget n) (Net.init n prog)

/-- Some worker of rank below `n` performs one action. -/
def Net.Step {α : Type} (n : Nat) (c c2 : Net α) : Prop :=
  ∃ i, i < n ∧ c.stepAt i = some c2

/-- Exactly `k` actions lead from the first state to the second. -/
inductive Net.Reach {α : Type} (n : Nat) : Nat → Net α → Net α → Prop
  | refl (c : Net α) : Net.Reach n 0 c c
  | head {k : Nat} {c c1 c2 : Net α} : Net.Step n c c1 → Net.Reach n k c1 c2 → Net.Reach n (k + 1) c c2

/-- At most `k` actions lead from the first state to the second. -/
def Net.ReachLE {α : Type} (n k : Nat) (c t : Net α) : Prop :=
  ∃ j, j ≤ k ∧ Net.Reach n j c t

/-- Apply a continuation to every worker: worker `i` goes on with `K i` once
its current program has returned. -/
def Net.lift {α : Type} (K : Nat → α → Prog α) (c : Net α) : Net α :=
  { procs := fun i => (c.procs i).andThen (K i), chan := c.chan }

/-- State inside the send phase of a round: workers below `k` have performed
their send (if they have one, `S`) and moved from `P` to `Q`. -/
def Net.midSend {α : Type} (n : Nat) (P Q : Nat → Prog α) (S : Nat → Bool)
    (t : Nat → Nat) (m : Nat → α) (k : Nat) : Net α :=
  { procs := fun i => if i < n then (if i < k then Q i else P i) else Prog.spin,
    chan := fun a b => if a < k ∧ S a = true ∧ t a = b then [m a] else [] }

/-- State inside the receive phase of a round: all sends are done, workers
below `k` have performed their receive and moved from `Q` to `P2`. -/
def Net.midRecv {α : Type} (n : Nat) (Q P2 : Nat → Prog α) (S : Nat → Bool)
    (t : Nat → Nat) (m : Nat → α) (k : Nat) : Net α :=
  { procs := fun i => if i < n then (if i < k then P2 i else Q i) else Prog.spin,
    chan := fun a b => if (a < n ∧ S a = true ∧ t a = b) ∧ ¬ b < k then [m a] else [] }

/-- Nobody of rank below `n` can act. -/
def Net.Quiet {α : Type} (n : Nat) (c : Net α) : Prop :=
  ∀ i, i < n → c.stepAt i = none

/-! ## The collectives of `thrill/net/collective.hpp`

Each collective is written as the program one worker runs: `num_hosts` is
`net.num_hosts()`, `my_host_rank` is `net.my_host_rank()`, `value` is the
in/out argument.  `size_t` is modelled by `Nat`; with `num_hosts < 2^62` none of
the index computations below leaves the range of a 64-bit `size_t`.  The `for` loops carry
a fuel argument bounding the number of iterations; a loop that is still running
when the fuel is gone never returns (`Prog.spin`). -/

/-- Loop of `PrefixSum` (lines 62-87) followed by the fix-up of lines 90-91;
the arguments after the fuel are the loop variable `d` and the locals `value`,
`to_forward`, `first`. -/
def PrefixSum.loop {α : Type} [Inhabited α] (sum_op : α → α → α) (inclusive : Bool)
    (num_hosts my_host_rank : Nat) : Nat → Nat → α → α → Bool → Prog α
  | 0, d, value, _, _ =>
    if d < num_hosts then Prog.spin
    else Prog.done (if !inclusive && my_host_rank == 0 then default else value)
  | fuel + 1, d, value, to_forward, first =>
    if d < num_hosts then
      Prog.sendIf (decide (my_host_rank + d < num_hosts)) (my_host_rank + d) to_forward
        (if my_host_rank ≥ d then
          Prog.recv (my_host_rank - d) (fun recv_value =>
            if !first || inclusive then
              PrefixSum.loop sum_op inclusive num_hosts my_host_rank fuel (d <<< 1)
                (sum_op recv_value value) (sum_op recv_value to_forward) first
            else
              PrefixSum.loop sum_op inclusive num_hosts my_host_rank fuel (d <<< 1)
                recv_value (sum_op recv_value to_forward) false)
        else
          PrefixSum.loop sum_op inclusive num_hosts my_host_rank fuel (d <<< 1)
            value to_forward first)
    else Prog.done (if !inclusive && my_host_rank == 0 then default else value)

/-- The function `PrefixSum` (lines 48-92): `first = true`, `to_forward = value`, `d = 1`. -/
def PrefixSum {α : Type} [Inhabited α] (sum_op : α → α → α) (inclusive : Bool)
    (num_hosts my_host_rank : Nat) (value : α) : Prog α :=
  PrefixSum.loop sum_op inclusive num_hosts my_host_rank num_hosts 1 value value true

/-- Loop of `PrefixSumHypercube` (lines 117-146); locals `value`, `total_sum`. -/
def PrefixSumHypercube.loop {α : Type} (sum_op : α → α → α)
    (num_hosts my_host_rank : Nat) : Nat → Nat → α → α → Prog α
  | 0, d, value, _ => if d < num_hosts then Prog.spin else Prog.done value
  | fuel + 1, d, value, total_sum =>
    if d < num_hosts then
      Prog.sendIf (decide ((my_host_rank ^^^ d) < num_hosts)) (my_host_rank ^^^ d) total_sum
        (if (my_host_rank ^^^ d) < num_hosts then
          Prog.recv (my_host_rank ^^^ d) (fun recv_data =>
            PrefixSumHypercube.loop sum_op num_hosts my_host_rank fuel (d <<< 1)
              (if my_host_rank &&& d ≠ 0 then sum_op recv_data value else value)
              (if my_host_rank &&& d ≠ 0 then sum_op recv_data total_sum
               else sum_op total_sum recv_data))
        else
          PrefixSumHypercube.loop sum_op num_hosts my_host_rank fuel (d <<< 1) value total_sum)
    else Prog.done value

/-- The function `PrefixSumHypercube` (lines 109-149): `total_sum = value`, `d = 1`. -/
def PrefixSumHypercube {α : Type} (sum_op : α → α → α)
    (num_hosts my_host_rank : Nat) (value : α) : Prog α :=
  PrefixSumHypercube.loop sum_op num_hosts my_host_rank num_hosts 1 value value

/-- Send loop of `BroadcastTrivial` (lines 170-173), loop variable `p`. -/
def BroadcastTrivial.sendLoop {α : Type} (num_hosts origin : Nat) (value : α) :
    Nat → Nat → Prog α
  | 0, p => if p < num_hosts then Prog.spin else Prog.done value
  | fuel + 1, p =>
    if p < num_hosts then
      Prog.sendIf (decide (p ≠ origin)) p value
        (BroadcastTrivial.sendLoop num_hosts origin value fuel (p + 1))
    else Prog.done value

/-- The function `BroadcastTrivial` (lines 164-179). -/
def BroadcastTrivial {α : Type} (num_hosts my_host_rank origin : Nat) (value : α) : Prog α :=
  if my_host_rank = origin then
    BroadcastTrivial.sendLoop num_hosts origin value num_hosts 0
  else
    Prog.recv origin (fun received => Prog.done received)

/-- Modelled from the spec: `common::ffs` of thrill/common/math.hpp, which is not
among the sources.  The spec (4.3) takes `r`, computed as `ffs(my_rank) - 1`, to
be the index of the lowest set bit; so `ffs x` is one plus that index, and 0 for
`x = 0`.  The first argument bounds the number of bits inspected. -/
def ffs.go : Nat → Nat → Nat
  | 0, _ => 0
  | fuel + 1, x => if x % 2 = 1 then 1 else 1 + ffs.go fuel (x / 2)

/-- Modelled from the spec: `common::ffs`, see `ffs.go`. -/
def ffs (x : Nat) : Nat :=
  if x = 0 then 0 else ffs.go x x

/-- Modelled from the spec: `common::RoundUpToPowerOfTwo` of
thrill/common/math.hpp, which is not among the sources.  The spec (4.3): "the
smallest power of two ≥ n".  Doubles `p` until it reaches `n`. -/
def RoundUpToPowerOfTwo.go (n : Nat) : Nat → Nat → Nat
  | 0, p => p
  | fuel + 1, p => if n ≤ p then p else RoundUpToPowerOfTwo.go n fuel (2 * p)

/-- Modelled from the spec: `common::RoundUpToPowerOfTwo`, see
`RoundUpToPowerOfTwo.go`. -/
def RoundUpToPowerOfTwo (n : Nat) : Nat :=
  RoundUpToPowerOfTwo.go n n 1

/-- Send loop of `BroadcastBinomialTree` (lines 215-222), entered at the loop
test `d > 0` (the initial `d >>= 1` is done by the caller). -/
def BroadcastBinomialTree.sendLoop {α : Type} (num_hosts origin my_rank : Nat) (value : α) :
    Nat → Nat → Prog α
  | 0, d => if d > 0 then Prog.spin else Prog.done value
  | fuel + 1, d =>
    if d > 0 then
      Prog.sendIf (decide (my_rank + d < num_hosts)) ((my_rank + d + origin) % num_hosts) value
        (BroadcastBinomialTree.sendLoop num_hosts origin my_rank value fuel (d >>> 1))
    else Prog.done value

/-- The function `BroadcastBinomialTree` (lines 191-223).  `my_rank` is the rank
in the cyclically shifted tree. -/
def BroadcastBinomialTree {α : Type} (num_hosts my_host_rank origin : Nat) (value : α) :
    Prog α :=
  if (my_host_rank + num_hosts - origin) % num_hosts > 0 then
    Prog.recv
      ((((my_host_rank + num_hosts - origin) % num_hosts ^^^
          (1 <<< (ffs ((my_host_rank + num_hosts - origin) % num_hosts) - 1))) + origin)
        % num_hosts)
      (fun received =>
        BroadcastBinomialTree.sendLoop num_hosts origin
          ((my_host_rank + num_hosts - origin) % num_hosts) received num_hosts
          ((1 <<< (ffs ((my_host_rank + num_hosts - origin) % num_hosts) - 1)) >>> 1))
  else
    BroadcastBinomialTree.sendLoop num_hosts origin
      ((my_host_rank + num_hosts - origin) % num_hosts) value num_hosts
      (RoundUpToPowerOfTwo num_hosts >>> 1)

/-- The function `Broadcast` (lines 235-239). -/
def Broadcast {α : Type} (num_hosts my_host_rank origin : Nat) (value : α) : Prog α :=
  BroadcastBinomialTree num_hosts my_host_rank origin value

/-- Loop of `Reduce` (lines 270-286).  `my_rank` is `my_host_rank + num_hosts`;
the `break` after the send leaves the loop and the function returns. -/
def Reduce.loop {α : Type} (sum_op : α → α → α) (num_hosts my_rank shifted_rank : Nat) :
    Nat → Nat → α → Prog α
  | 0, d, value => if d < num_hosts then Prog.spin else Prog.done value
  | fuel + 1, d, value =>
    if d < num_hosts then
      if shifted_rank &&& d ≠ 0 then
        Prog.send ((my_rank - d) % num_hosts) value (Prog.done value)
      else if shifted_rank + d < num_hosts then
        Prog.recv ((my_rank + d) % num_hosts) (fun recv_data =>
          Reduce.loop sum_op num_hosts my_rank shifted_rank fuel (d <<< 1)
            (sum_op value recv_data))
      else
        Reduce.loop sum_op num_hosts my_rank shifted_rank fuel (d <<< 1) value
    else Prog.done value

/-- The function `Reduce` (lines 260-287). -/
def Reduce {α : Type} (sum_op : α → α → α) (num_hosts my_host_rank root : Nat) (value : α) :
    Prog α :=
  Reduce.loop sum_op num_hosts (my_host_rank + num_hosts)
    ((my_host_rank + num_hosts - root) % num_hosts) num_hosts 1 value

/-- The function `AllReduce` (lines 299-304): `Reduce` to rank 0, then
`Broadcast` from rank 0. -/
def AllReduce {α : Type} (sum_op : α → α → α) (num_hosts my_host_rank : Nat) (value : α) :
    Prog α :=
  (Reduce sum_op num_hosts my_host_rank 0 value).andThen
    (fun reduced => Broadcast num_hosts my_host_rank 0 reduced)

/-- Loop of `AllReduceHypercube` (lines 320-347). -/
def AllReduceHypercube.loop {α : Type} (sum_op : α → α → α)
    (num_hosts my_host_rank : Nat) : Nat → Nat → α → Prog α
  | 0, d, value => if d < num_hosts then Prog.spin else Prog.done value
  | fuel + 1, d, value =>
    if d < num_hosts then
      Prog.sendIf (decide ((my_host_rank ^^^ d) < num_hosts)) (my_host_rank ^^^ d) value
        (if (my_host_rank ^^^ d) < num_hosts then
          Prog.recv (my_host_rank ^^^ d) (fun recv_data =>
            AllReduceHypercube.loop sum_op num_hosts my_host_rank fuel (d <<< 1)
              (if my_host_rank &&& d ≠ 0 then sum_op recv_data value
               else sum_op value recv_data))
        else
          AllReduceHypercube.loop sum_op num_hosts my_host_rank fuel (d <<< 1) value)
    else Prog.done value

/-- The function `AllReduceHypercube` (lines 312-350). -/
def AllReduceHypercube {α : Type} (sum_op : α → α → α)
    (num_hosts my_host_rank : Nat) (value : α) : Prog α :=
  AllReduceHypercube.loop sum_op num_hosts my_host_rank num_hosts 1 value

/-- A whole group runs a collective: the group has one worker per entry of
`values`, worker `rank` starts with `values[rank]`, and the outcome is the vector
of the workers' final values (`none` if the call does not return everywhere). -/
def Group.run {α : Type} [Inhabited α] (collective : Nat → Nat → α → Prog α)
    (values : List α) : Option (List α) :=
  Net.exec values.length (fun rank => collective values.length rank (values.getD rank default))

/-! ## Round view

The state of the whole group between two rounds of a collective, and the effect
of one round on it: what a worker receives in round `d` is what its peer sent in
round `d`, i.e. the peer's locals from before that round.  The theorems below
show that the scheduler, run on the worker programs above, ends in exactly the
state these round functions compute. -/

/-- Locals of a `PrefixSum` worker between two rounds. -/
structure PrefixSum.Locals (α : Type) where
  value : α
  to_forward : α
  first : Bool

/-- Effect of round `d` of `PrefixSum` on the locals of all workers. -/
def PrefixSum.round {α : Type} (sum_op : α → α → α) (inclusive : Bool) (d : Nat)
    (st : Nat → PrefixSum.Locals α) : Nat → PrefixSum.Locals α :=
  fun i =>
    if i ≥ d then
      { value := if !(st i).first || inclusive then sum_op (st (i - d)).to_forward (st i).value
                 else (st (i - d)).to_forward,
        to_forward := sum_op (st (i - d)).to_forward (st i).to_forward,
        first := if !(st i).first || inclusive then (st i).first else false }
    else st i

/-- Effect of the rounds `d, 2d, 4d, ... < num_hosts` of `PrefixSum`. -/
def PrefixSum.rounds {α : Type} (sum_op : α → α → α) (inclusive : Bool) (num_hosts : Nat) :
    Nat → Nat → (Nat → PrefixSum.Locals α) → Nat → PrefixSum.Locals α
  | 0, _, st => st
  | fuel + 1, d, st =>
    if d < num_hosts then
      PrefixSum.rounds sum_op inclusive num_hosts fuel (d <<< 1)
        (PrefixSum.round sum_op inclusive d st)
    else st

/-- Locals of a `PrefixSumHypercube` worker between two rounds. -/
structure PrefixSumHypercube.Locals (α : Type) where
  value : α
  total_sum : α

/-- Effect of round `d` of `PrefixSumHypercube` on the locals of all workers. -/
def PrefixSumHypercube.round {α : Type} (sum_op : α → α → α) (num_hosts d : Nat)
    (st : Nat → PrefixSumHypercube.Locals α) : Nat → PrefixSumHypercube.Locals α :=
  fun i =>
    if (i ^^^ d) < num_hosts then
      { value := if i &&& d ≠ 0 then sum_op (st (i ^^^ d)).total_sum (st i).value
                 else (st i).value,
        total_sum := if i &&& d ≠ 0 then sum_op (st (i ^^^ d)).total_sum (st i).total_sum
                     else sum_op (st i).total_sum (st (i ^^^ d)).total_sum }
    else st i

/-- Effect of the rounds `d, 2d, 4d, ... < num_hosts` of `PrefixSumHypercube`. -/
def PrefixSumHypercube.rounds {α : Type} (sum_op : α → α → α) (num_hosts : Nat) :
    Nat → Nat → (Nat → PrefixSumHypercube.Locals α) → Nat → PrefixSumHypercube.Locals α
  | 0, _, st => st
  | fuel + 1, d, st =>
    if d < num_hosts then
      PrefixSumHypercube.rounds sum_op num_hosts fuel (d <<< 1)
        (PrefixSumHypercube.round sum_op num_hosts d st)
    else st

/-- Effect of round `d` of `AllReduceHypercube` on the values of all workers. -/
def AllReduceHypercube.round {α : Type} (sum_op : α → α → α) (num_hosts d : Nat)
    (st : Nat → α) : Nat → α :=
  fun i =>
    if (i ^^^ d) < num_hosts then
      (if i &&& d ≠ 0 then sum_op (st (i ^^^ d)) (st i) else sum_op (st i) (st (i ^^^ d)))
    else st i

/-- Effect of the rounds `d, 2d, 4d, ... < num_hosts` of `AllReduceHypercube`. -/
def AllReduceHypercube.rounds {α : Type} (sum_op : α → α → α) (num_hosts : Nat) :
    Nat → Nat → (Nat → α) → Nat → α
  | 0, _, st => st
  | fuel + 1, d, st =>
    if d < num_hosts then
      AllReduceHypercube.rounds sum_op num_hosts fuel (d <<< 1)
        (AllReduceHypercube.round sum_op num_hosts d st)
    else st

/-- Locals of a `Reduce` worker between two rounds; `active` is false once the
worker has sent its value and left the loop. -/
structure Reduce.Locals (α : Type) where
  value : α
  active : Bool

/-- Effect of round `d` of `Reduce` on the locals of all workers. -/
def Reduce.round {α : Type} (sum_op : α → α → α) (num_hosts root d : Nat)
    (st : Nat → Reduce.Locals α) : Nat → Reduce.Locals α :=
  fun i =>
    if (st i).active then
      if (i + num_hosts - root) % num_hosts &&& d ≠ 0 then
        { value := (st i).value, active := false }
      else if (i + num_hosts - root) % num_hosts + d < num_hosts then
        { value := sum_op (st i).value (st ((i + num_hosts + d) % num_hosts)).value,
          active := true }
      else st i
    else st i

/-- Effect of the rounds `d, 2d, 4d, ... < num_hosts` of `Reduce`. -/
def Reduce.rounds {α : Type} (sum_op : α → α → α) (num_hosts root : Nat) :
    Nat → Nat → (Nat → Reduce.Locals α) → Nat → Reduce.Locals α
  | 0, _, st => st
  | fuel + 1, d, st =>
    if d < num_hosts then
      Reduce.rounds sum_op num_hosts root fuel (d <<< 1) (Reduce.round sum_op num_hosts root d st)
    else st

/-- What is left to run for a `Reduce` worker with locals `l` at the loop test
of round `d`. -/
def Reduce.resume {α : Type} (sum_op : α → α → α) (num_hosts root my_host_rank fuel d : Nat)
    (l : Reduce.Locals α) : Prog α :=
  if l.active then
    Reduce.loop sum_op num_hosts (my_host_rank + num_hosts)
      ((my_host_rank + num_hosts - root) % num_hosts) fuel d l.value
  else Prog.done l.value

/-- Programs of the group while the origin of `BroadcastTrivial` holding `x` is
at the test of its send loop with loop variable `p`: ranks below `p` have
received, the others still wait. -/
def BroadcastTrivial.stage {α : Type} (num_hosts origin : Nat) (x : α) (p : Nat) :
    Nat → Prog α :=
  fun i =>
    if i = origin then BroadcastTrivial.sendLoop num_hosts origin x (num_hosts - p) p
    else if i < p then Prog.done x
    else Prog.recv origin (fun received => Prog.done received)

/-- Programs of the group in `BroadcastBinomialTree` once the tree edges of
length `2^e` and more have been used: the workers whose shifted rank is a
multiple of `2^e` hold the origin's value and are at the loop test with
`d = 2^e >> 1`; the others have not started. -/
def BroadcastBinomialTree.level {α : Type} (num_hosts origin : Nat) (v : Nat → α) (e : Nat) :
    Nat → Prog α :=
  fun i =>
    if (i + num_hosts - origin) % num_hosts % 2 ^ e = 0 then
      BroadcastBinomialTree.sendLoop num_hosts origin ((i + num_hosts - origin) % num_hosts)
        (v origin) (2 ^ e >>> 1) (2 ^ e >>> 1)
    else BroadcastBinomialTree num_hosts i origin (v i)

/-! ## Reference results -/

/-- Sequential left-to-right fold `op(...op(v0, v1)..., vk)` of a non-empty
vector. -/
def foldLeft {α : Type} [Inhabited α] (op : α → α → α) : List α → α
  | [] => default
  | a :: rest => rest.foldl op a

/-- Fold `op(...op(v a, v (a+1))..., v (a+k))` over `k + 1` consecutive ranks. -/
def foldRange {α : Type} (op : α → α → α) (v : Nat → α) (a : Nat) : Nat → α
  | 0 => v a
  | k + 1 => op (foldRange op v a k) (v (a + k + 1))

/-! ## Calls issued by a worker

The sequence of `SendTo` / `ReceiveFrom` calls a worker program issues, and, for
the loops over rounds, the same calls tagged with the round `d` in which the loop
body issues them. -/

/-- A call on the group: `SendTo(dst, _)` or `ReceiveFrom(src, _)`. -/
inductive Act where
  | send (dst : Nat) : Act
  | recv (src : Nat) : Act
  deriving DecidableEq, Repr

def Act.isSend : Act → Bool
  | .send _ => true
  | .recv _ => false

def Act.isRecv : Act → Bool
  | .send _ => false
  | .recv _ => true

/-- The calls a worker program issues, in order, when the value delivered by its
`i`-th receive (counting from `k`) is `feed i`. -/
def Prog.trace {α : Type} (feed : Nat → α) : Prog α → Nat → List Act
  | .done _, _ => []
  | .send dst _ next, k => Act.send dst :: Prog.trace feed next k
  | .recv src next, k => Act.recv src :: Prog.trace feed (next (feed k)) (k + 1)
  | .spin, _ => []

/-- Number of send calls in a list of calls. -/
def sendCount (l : List Act) : Nat := l.countP Act.isSend

/-- Number of receive calls in a list of calls. -/
def recvCount (l : List Act) : Nat := l.countP Act.isRecv

/-- Calls of a loop `for (; d < num_hosts; d <<= 1)` whose body issues the calls
`body d`, each tagged with its round `d`. -/
def roundLoop (num_hosts : Nat) (body : Nat → List Act) : Nat → Nat → List (Nat × Act)
  | 0, _ => []
  | fuel + 1, d =>
    if d < num_hosts then
      (body d).map (fun a => (d, a)) ++ roundLoop num_hosts body fuel (d <<< 1)
    else []

/-- Calls of the loop body of `PrefixSum` (lines 64-86) in round `d`. -/
def PrefixSum.calls (num_hosts my_host_rank d : Nat) : List Act :=
  (if my_host_rank + d < num_hosts then [Act.send (my_host_rank + d)] else []) ++
  (if my_host_rank ≥ d then [Act.recv (my_host_rank - d)] else [])

/-- Round-tagged calls of `PrefixSum`. -/
def PrefixSum.schedule (num_hosts my_host_rank : Nat) : List (Nat × Act) :=
  roundLoop num_hosts (PrefixSum.calls num_hosts my_host_rank) num_hosts 1

/-- Calls of the loop body of `PrefixSumHypercube` (lines 120-145) in round `d`. -/
def PrefixSumHypercube.calls (num_hosts my_host_rank d : Nat) : List Act :=
  (if (my_host_rank ^^^ d) < num_hosts then [Act.send (my_host_rank ^^^ d)] else []) ++
  (if (my_host_rank ^^^ d) < num_hosts then [Act.recv (my_host_rank ^^^ d)] else [])

/-- Round-tagged calls of `PrefixSumHypercube`. -/
def PrefixSumHypercube.schedule (num_hosts my_host_rank : Nat) : List (Nat × Act) :=
  roundLoop num_hosts (PrefixSumHypercube.calls num_hosts my_host_rank) num_hosts 1

/-- Calls of the loop body of `AllReduceHypercube` (lines 322-346) in round `d`. -/
def AllReduceHypercube.calls (num_hosts my_host_rank d : Nat) : List Act :=
  (if (my_host_rank ^^^ d) < num_hosts then [Act.send (my_host_rank ^^^ d)] else []) ++
  (if (my_host_rank ^^^ d) < num_hosts then [Act.recv (my_host_rank ^^^ d)] else [])

/-- Round-tagged calls of `AllReduceHypercube`. -/
def AllReduceHypercube.schedule (num_hosts my_host_rank : Nat) : List (Nat × Act) :=
  roundLoop num_hosts (AllReduceHypercube.calls num_hosts my_host_rank) num_hosts 1

/-- Round-tagged calls of the loop of `Reduce` (lines 270-286); the send is the
last call because of the `break`. -/
def Reduce.scheduleLoop (num_hosts my_rank shifted_rank : Nat) : Nat → Nat → List (Nat × Act)
  | 0, _ => []
  | fuel + 1, d =>
    if d < num_hosts then
      if shifted_rank &&& d ≠ 0 then
        [(d, Act.send ((my_rank - d) % num_hosts))]
      else if shifted_rank + d < num_hosts then
        (d, Act.recv ((my_rank + d) % num_hosts)) ::
          Reduce.scheduleLoop num_hosts my_rank shifted_rank fuel (d <<< 1)
      else Reduce.scheduleLoop num_hosts my_rank shifted_rank fuel (d <<< 1)
    else []

/-- Round-tagged calls of `Reduce`. -/
def Reduce.schedule (num_hosts my_host_rank root : Nat) : List (Nat × Act) :=
  Reduce.scheduleLoop num_hosts (my_host_rank + num_hosts)
    ((my_host_rank + num_hosts - root) % num_hosts) num_hosts 1

/-- The lowest set bit of `s` as a number, `1 << (ffs(s) - 1)`, the way
`BroadcastBinomialTree` computes it. -/
def lowBit (s : Nat) : Nat := 1 <<< (ffs s - 1)

/-- The sends of the loop of `BroadcastBinomialTree` when it is entered with
`d = 2^e >> 1`, at the worker of shifted rank `my_rank`: to the shifted ranks
`my_rank + 2^(e-1)`, ..., `my_rank + 2`, `my_rank + 1` that are below `num_hosts`. -/
def BroadcastBinomialTree.sends (num_hosts origin my_rank e : Nat) : List Act :=
  ((List.range e).reverse.filter (fun t => decide (my_rank + 2 ^ t < num_hosts))).map
    (fun t => Act.send ((my_rank + 2 ^ t + origin) % num_hosts))

/-- The calls a collective issues on one worker, computed on a payload without
content; the calls do not depend on the payload. -/
def callsOf (prog : Unit → Prog Unit) : List Act :=
  Prog.trace (fun _ => ()) (prog ()) 0

/-! ## The guarded loser tree of `thrill/core/losertree.hpp`

`size_type` (`unsigned int`) is modelled by `Nat` and `Source` (`int`) by `Int`.
For trees of at most `2^30` players no index computation below leaves the range
of `unsigned int`; the one subtraction that can wrap (`ik_ - 1`) and the one
mixed signed/unsigned sum (`k_ + source`) are written out.  The memory obtained
from `operator new` is not initialised: the constructor takes its content
(`junk`) as an argument. -/

/-- The struct `Loser` (lines 62-70): a tree node. -/
structure Loser (α : Type) where
  sup : Bool
  source : Int
  key : α

/-- The data members of `LoserTreeCopyBase` (lines 72-81); the array `losers_` is
a map from index to node. -/
structure LoserTreeCopyBase (α : Type) where
  ik_ : Nat
  k_ : Nat
  losers_ : Nat → Loser α
  first_insert_ : Bool

/-- Assignment `losers_[i] = x`. -/
def LoserTreeCopyBase.store {α : Type} (losers : Nat → Loser α) (i : Nat) (x : Loser α) :
    Nat → Loser α :=
  fun j => if j = i then x else losers j

/-- The constructor (lines 84-98).  The loop starts at `ik_ - 1`, computed in
`unsigned int` (it wraps to `2^32 - 1` for `ik_ = 0`), and runs while `i < k_`;
it sets `sup` and `source` of `losers_[i + k_]` and leaves the key alone. -/
def LoserTreeCopyBase.construct {α : Type} (k : Nat) (junk : Nat → Loser α) :
    LoserTreeCopyBase α :=
  { ik_ := k,
    k_ := RoundUpToPowerOfTwo k,
    losers_ :=
      (List.range' (if k = 0 then 2 ^ 32 - 1 else k - 1)
          (RoundUpToPowerOfTwo k - (if k = 0 then 2 ^ 32 - 1 else k - 1))).foldl
        (fun losers i =>
          LoserTreeCopyBase.store losers (i + RoundUpToPowerOfTwo k)
            { sup := true, source := -1, key := (losers (i + RoundUpToPowerOfTwo k)).key })
        junk,
    first_insert_ := true }

/-- The method `min_source` (lines 120-122). -/
def LoserTreeCopyBase.min_source {α : Type} (t : LoserTreeCopyBase α) : Int :=
  (t.losers_ 0).source

/-- The method `insert_start` (lines 132-153); `keyp = none` is the null pointer,
`default` is `ValueType()` and `keyp.getD default` is `keyp ? *keyp : ValueType()`.  `pos = k_ + source` is an `unsigned int`; for
`source ≥ -k_` it is the integer sum.  On the first insert the loop over all
`2 * k_` nodes copies the key into every node, or, without a key, assigns
`ValueType()` to `losers_[pos]` in every iteration. -/
def LoserTreeCopyBase.insert_start {α : Type} [Inhabited α] (t : LoserTreeCopyBase α)
    (keyp : Option α) (source : Int) (sup : Bool) : LoserTreeCopyBase α :=
  if t.first_insert_ then
    { ik_ := t.ik_, k_ := t.k_,
      losers_ :=
        (List.range (2 * t.k_)).foldl
          (fun losers i =>
            match keyp with
            | some key =>
              LoserTreeCopyBase.store losers i
                { sup := (losers i).sup, source := (losers i).source, key := key }
            | none =>
              LoserTreeCopyBase.store losers (((t.k_ : Int) + source).toNat)
                { sup := (losers (((t.k_ : Int) + source).toNat)).sup,
                  source := (losers (((t.k_ : Int) + source).toNat)).source,
                  key := default })
          (LoserTreeCopyBase.store t.losers_ (((t.k_ : Int) + source).toNat)
            { sup := sup, source := source,
              key := (t.losers_ (((t.k_ : Int) + source).toNat)).key }),
      first_insert_ := false }
  else
    { ik_ := t.ik_, k_ := t.k_,
      losers_ :=
        LoserTreeCopyBase.store t.losers_ (((t.k_ : Int) + source).toNat)
          { sup := sup, source := source, key := keyp.getD default },
      first_insert_ := t.first_insert_ }

/-- The method `init_winner` (lines 161-180) on the array `losers_`; the first
argument bounds the depth of the recursion, and a call that would go deeper does
not return (`none`). -/
def LoserTreeCopyBase.init_winner {α : Type} (cmp : α → α → Bool) (k_ : Nat) :
    Nat → Nat → (Nat → Loser α) → Option (Nat × (Nat → Loser α))
  | 0, root, losers => if root ≥ k_ then some (root, losers) else none
  | fuel + 1, root, losers =>
    if root ≥ k_ then some (root, losers)
    else
      match LoserTreeCopyBase.init_winner cmp k_ fuel (2 * root) losers with
      | none => none
      | some (left, losers1) =>
        match LoserTreeCopyBase.init_winner cmp k_ fuel (2 * root + 1) losers1 with
        | none => none
        | some (right, losers2) =>
          if (losers2 right).sup ||
              (!(losers2 left).sup && !cmp (losers2 right).key (losers2 left).key) then
            some (left, LoserTreeCopyBase.store losers2 root (losers2 right))
          else
            some (right, LoserTreeCopyBase.store losers2 root (losers2 left))

/-- The method `init` (lines 182-184); the recursion of `init_winner` is given
depth `k_`. -/
def LoserTreeCopyBase.init {α : Type} (cmp : α → α → Bool) (t : LoserTreeCopyBase α) :
    Option (LoserTreeCopyBase α) :=
  match LoserTreeCopyBase.init_winner cmp t.k_ t.k_ 1 t.losers_ with
  | none => none
  | some (winner, losers) =>
    some { ik_ := t.ik_, k_ := t.k_,
           losers_ := LoserTreeCopyBase.store losers 0 (losers winner),
           first_insert_ := t.first_insert_ }

/-- The test of the `if` in the loop of `delete_min_insert`: whether the node
stored at `pos` is promoted and the travelling node `(sup, source, key)` stays
behind.  Lines 227-228 for the unstable tree, lines 283-286 for the stable one. -/
def LoserTreeCopy.promote {α : Type} (Stable : Bool) (cmp : α → α → Bool)
    (stored travelling : Loser α) : Bool :=
  if Stable then
    (travelling.sup && (!stored.sup || decide (stored.source < travelling.source))) ||
    (!travelling.sup && !stored.sup &&
      (cmp stored.key travelling.key ||
        (!cmp travelling.key stored.key && decide (stored.source < travelling.source))))
  else
    travelling.sup || (!stored.sup && cmp stored.key travelling.key)

/-- The loop of `delete_min_insert` (lines 224-235 and 281-293), loop variable
`pos`; the locals `sup`, `source`, `key` travel as one node, and the three swaps
exchange it with `losers_[pos]`.  The first argument bounds the number of
iterations. -/
def LoserTreeCopy.replay {α : Type} (Stable : Bool) (cmp : α → α → Bool) :
    Nat → Nat → Loser α → (Nat → Loser α) → Option (Loser α × (Nat → Loser α))
  | 0, pos, travelling, losers => if pos > 0 then none else some (travelling, losers)
  | fuel + 1, pos, travelling, losers =>
    if pos > 0 then
      if LoserTreeCopy.promote Stable cmp (losers pos) travelling then
        LoserTreeCopy.replay Stable cmp fuel (pos / 2) (losers pos)
          (LoserTreeCopyBase.store losers pos travelling)
      else
        LoserTreeCopy.replay Stable cmp fuel (pos / 2) travelling losers
    else some (travelling, losers)

/-- The method `delete_min_insert` of `LoserTreeCopy<Stable>` (lines 218-240 and
275-298).  `(k_ + source) / 2` is computed in `unsigned int`; for `source ≥ -k_`
the sum is the integer sum.  The loop is given `k_ + 1` iterations. -/
def LoserTreeCopy.delete_min_insert {α : Type} [Inhabited α] (Stable : Bool)
    (cmp : α → α → Bool) (t : LoserTreeCopyBase α) (keyp : Option α) (sup : Bool) :
    Option (LoserTreeCopyBase α) :=
  match LoserTreeCopy.replay Stable cmp (t.k_ + 1)
      ((((t.k_ : Int) + (t.losers_ 0).source).toNat) / 2)
      { sup := sup, source := (t.losers_ 0).source, key := keyp.getD default }
      t.losers_ with
  | none => none
  | some (travelling, losers) =>
    some { ik_ := t.ik_, k_ := t.k_,
           losers_ := LoserTreeCopyBase.store losers 0 travelling,
           first_insert_ := t.first_insert_ }

/-! ### Driving the tree

The players as the caller sees them: player `p` holds a key (`some key`) or is
exhausted (`none`, inserted as `sup`). -/

/-- Set-up of a tree for `k` players: construct it, call `insert_start` once for
each entry of `order` with that player's key or `sup`, then call `init`. -/
def LoserTreeCopyBase.start {α : Type} [Inhabited α] (cmp : α → α → Bool) (k : Nat)
    (junk : Nat → Loser α) (players : Nat → Option α) (order : List Nat) :
    Option (LoserTreeCopyBase α) :=
  LoserTreeCopyBase.init cmp
    (order.foldl
      (fun t p => LoserTreeCopyBase.insert_start t (players p) (p : Int) (players p).isNone)
      (LoserTreeCopyBase.construct k junk))

/-- The players after the element of the player `source` has been replaced. -/
def LoserTreeCopy.replaced {α : Type} (players : Nat → Option α) (source : Int)
    (keyp : Option α) : Nat → Option α :=
  fun p => if (p : Int) = source then keyp else players p

/-- A sequence of `delete_min_insert` calls, each replacing the element of the
player that `min_source` names by the next entry of `calls` (a key, or `none`
for `sup`); the players are tracked alongside the tree. -/
def LoserTreeCopy.play {α : Type} [Inhabited α] (Stable : Bool) (cmp : α → α → Bool) :
    List (Option α) → LoserTreeCopyBase α → (Nat → Option α) →
    Option (LoserTreeCopyBase α × (Nat → Option α))
  | [], t, players => some (t, players)
  | keyp :: rest, t, players =>
    match LoserTreeCopy.delete_min_insert Stable cmp t keyp keyp.isNone with
    | none => none
    | some t1 =>
      LoserTreeCopy.play Stable cmp rest t1
        (LoserTreeCopy.replaced players (LoserTreeCopyBase.min_source t) keyp)

/-- A comparator that is a strict weak order: irreflexive, transitive, and with
a transitive incomparability relation. -/
structure StrictWeakOrder {α : Type} (cmp : α → α → Bool) : Prop where
  irrefl : ∀ a, cmp a a = false
  trans : ∀ a b c, cmp a b = true → cmp b c = true → cmp a c = true
  incomp : ∀ a b c, cmp a b = false → cmp b a = false → cmp b c = false → cmp c b = false →
    cmp a c = false

/-- Node `a` does not lose against node `b` in the unstable tree: `b` is a
sentinel, or neither is and the key of `b` is not less than the key of `a`. -/
def Loser.le {α : Type} (cmp : α → α → Bool) (a b : Loser α) : Prop :=
  b.sup = true ∨ (a.sup = false ∧ cmp b.key a.key = false)

/-- Node `v` is `u` or lies above `u` in the tree: `v = u / 2^t` for some `t`. -/
def Above (v u : Nat) : Prop := ∃ t, u / 2 ^ t = v

/-- The game at the inner node `v` has been played: with `W c` the leaf that won
the subtree at `c` and `cur` the current elements of the leaves, the winner of
`v` is the better of the winners of its children and `losers v` is the other. -/
def Played {α : Type} (le : Loser α → Loser α → Prop) (losers cur : Nat → Loser α)
    (W : Nat → Nat) (v : Nat) : Prop :=
  (W v = W (2 * v) ∧ losers v = cur (W (2 * v + 1)) ∧
      le (cur (W (2 * v))) (cur (W (2 * v + 1)))) ∨
  (W v = W (2 * v + 1) ∧ losers v = cur (W (2 * v)) ∧
      le (cur (W (2 * v + 1))) (cur (W (2 * v))))

/-- The array `losers` is a loser tree over the leaf elements `cur` with winners
`W`: every game has been played and node 0 holds the overall winner. -/
structure Tournament {α : Type} (le : Loser α → Loser α → Prop) (k_ : Nat)
    (losers cur : Nat → Loser α) (W : Nat → Nat) : Prop where
  leaf : ∀ u, k_ ≤ u → W u = u
  node : ∀ v, 1 ≤ v → v < k_ → Played le losers cur W v
  top : losers 0 = cur (W 1)

/-- The leaf elements `cur` are those of the players: leaf `k_ + p` carries
player `p`, and the leaves beyond the last player are sentinels of source -1. -/
def Seated {α : Type} (k k_ : Nat) (cur : Nat → Loser α) (players : Nat → Option α) : Prop :=
  (∀ p, p < k → (cur (k_ + p)).sup = (players p).isNone ∧ (cur (k_ + p)).source = (p : Int) ∧
      ∀ x, players p = some x → (cur (k_ + p)).key = x) ∧
  (∀ q, k ≤ q → q < k_ → (cur (k_ + q)).sup = true ∧ (cur (k_ + q)).source = -1)

/-- Every inner node is a sentinel, and so is every player except possibly the
one at node 0. -/
def Drained {α : Type} (k k_ : Nat) (losers : Nat → Loser α) (players : Nat → Option α) :
    Prop :=
  (∀ v, 1 ≤ v → v < k_ →
      (losers v).sup = true ∧ -1 ≤ (losers v).source ∧ (losers v).source < (k : Int)) ∧
  (-1 ≤ (losers 0).source ∧ (losers 0).source < (k : Int)) ∧
  (∀ p x, p < k → players p = some x →
      (losers 0).sup = false ∧ (losers 0).source = (p : Int) ∧ (losers 0).key = x)

/-- The state of an unstable tree between two calls, for `k` players: either it
is a loser tree over leaves seated with the players whose overall winner is the
leaf of a player, or every inner node is a sentinel. -/
def LoserTreeCopy.Invariant {α : Type} (cmp : α → α → Bool) (k : Nat)
    (t : LoserTreeCopyBase α) (players : Nat → Option α) : Prop :=
  1 ≤ k ∧ k ≤ t.k_ ∧
  ((∃ cur W, Tournament (Loser.le cmp) t.k_ t.losers_ cur W ∧ Seated k t.k_ cur players ∧
      W 1 < t.k_ + k) ∨
    Drained k t.k_ t.losers_ players)

/-! ## Disk configuration (`thrill/io/config_file.cpp`)

The helpers `common::Split` and `common::ParseSiIecUnits`, the constants of
`FileBase`, the C library call `strtoul` and the process id are not part of the
file; the functions below take them as an argument (`Externals`).  The
declaration of `DiskConfig` and the macro `THRILL_THROW` are in headers that are
not among the sources: the fields are the ones the constructors initialise, a
numeric field holds the value assigned to it, and an exception carries the text
streamed into `THRILL_THROW`. -/

/-- What a call throws: `std::runtime_error` with its text, or the
`std::out_of_range` of `std::string::substr`. -/
inductive Thrown where
  | runtime_error (what : String) : Thrown
  | out_of_range : Thrown
  deriving DecidableEq, Repr

/-- The values `DIRECT_OFF`, `DIRECT_TRY`, `DIRECT_ON` of the field `direct`. -/
inductive Direct where
  | DIRECT_OFF : Direct
  | DIRECT_TRY : Direct
  | DIRECT_ON : Direct
  deriving DecidableEq, Repr

/-- What `config_file.cpp` uses and does not define.  `Split str sep min limit`
is `common::Split(str, sep, min_fields, limit_fields)`, `none` standing for an
argument left to its default; `ParseSiIecUnits str unit` is `some size` when the
call returns true; `strtoul str` is the value of `strtoul(str, &endp, 10)`
together with the text `endp` points to. -/
structure Externals where
  Split : String → String → Option Nat → Option Nat → List String
  ParseSiIecUnits : String → Char → Option Nat
  strtoul : String → Nat × String
  getpid : Int
  DEFAULT_QUEUE : Int
  DEFAULT_DEVICE_ID : Int

/-- The members of `DiskConfig` (lines 208-219). -/
structure DiskConfig where
  path : String
  size : Nat
  io_impl : String
  autogrow : Bool
  delete_on_exit : Bool
  direct : Direct
  flash : Bool
  queue : Int
  device_id : Int
  raw_device : Bool
  unlink_on_open : Bool
  queue_length : Int

/-- The value `std::string::npos`. -/
def npos : Nat := 2 ^ 64 - 1

/-- The call `s.find_first_not_of(c)`. -/
def find_first_not_of (s : List Char) (c : Char) : Nat :=
  if (s.takeWhile (fun x => x == c)).length < s.length then
    (s.takeWhile (fun x => x == c)).length
  else npos

/-- The call `s.find(c)` for a character `c`. -/
def find (s : List Char) (c : Char) : Nat :=
  if (s.takeWhile (fun x => x != c)).length < s.length then
    (s.takeWhile (fun x => x != c)).length
  else npos

/-- The call `s.substr(pos, count)`; it throws when `pos` is beyond the end. -/
def substr (s : List Char) (pos count : Nat) : Except Thrown (List Char) :=
  if pos > s.length then Except.error Thrown.out_of_range
  else Except.ok ((s.drop pos).take count)

/-- The text a C function sees behind `s.c_str()`: up to the first NUL. -/
def c_str (s : String) : String :=
  String.mk (s.data.takeWhile (fun x => x != Char.ofNat 0))

/-- The conversion `static_cast<int>` of an `unsigned long`. -/
def toInt32 (v : Nat) : Int :=
  if v % 2 ^ 32 < 2 ^ 31 then ((v % 2 ^ 32 : Nat) : Int) else ((v % 2 ^ 32 : Nat) : Int) - 2 ^ 32

/-- Lines 285-296: the first `$$` of the path is replaced by the process id. -/
def replace_pid (pid : List Char) : List Char → List Char
  | [] => []
  | [c] => [c]
  | c :: d :: rest =>
    if c = '$' ∧ d = '$' then pid ++ rest else c :: replace_pid pid (d :: rest)

/-- The default constructor `DiskConfig::DiskConfig()` (lines 208-219). -/
def DiskConfig.construct (ext : Externals) : DiskConfig :=
  { path := "", size := 0, io_impl := "", autogrow := true, delete_on_exit := false,
    direct := Direct.DIRECT_TRY, flash := false, queue := ext.DEFAULT_QUEUE,
    device_id := ext.DEFAULT_DEVICE_ID, raw_device := false, unlink_on_open := false,
    queue_length := 0 }

/-- The body of the loop of `parse_fileio` (lines 335-439) for the option `p`. -/
def DiskConfig.parse_option (ext : Externals) (c : DiskConfig) (p : String) :
    Except Thrown DiskConfig :=
  if p = "" then Except.ok c
  else if p = "autogrow" ∨ p = "noautogrow" ∨
      (ext.Split p "=" (some 2) (some 2)).getD 0 "" = "autogrow" then
    if p = "autogrow" then Except.ok { c with autogrow := true }
    else if p = "noautogrow" then Except.ok { c with autogrow := false }
    else if (ext.Split p "=" (some 2) (some 2)).getD 1 "" = "off" then
      Except.ok { c with autogrow := false }
    else if (ext.Split p "=" (some 2) (some 2)).getD 1 "" = "on" then
      Except.ok { c with autogrow := true }
    else if (ext.Split p "=" (some 2) (some 2)).getD 1 "" = "no" then
      Except.ok { c with autogrow := false }
    else if (ext.Split p "=" (some 2) (some 2)).getD 1 "" = "yes" then
      Except.ok { c with autogrow := true }
    else
      Except.error (Thrown.runtime_error
        ("Invalid parameter '" ++ p ++ "' in disk configuration file."))
  else if p = "delete" ∨ p = "delete_on_exit" then
    Except.ok { c with delete_on_exit := true }
  else if p = "direct" ∨ p = "nodirect" ∨
      (ext.Split p "=" (some 2) (some 2)).getD 0 "" = "direct" then
    if p = "direct" then Except.ok { c with direct := Direct.DIRECT_ON }
    else if p = "nodirect" then Except.ok { c with direct := Direct.DIRECT_OFF }
    else if (ext.Split p "=" (some 2) (some 2)).getD 1 "" = "off" then
      Except.ok { c with direct := Direct.DIRECT_OFF }
    else if (ext.Split p "=" (some 2) (some 2)).getD 1 "" = "try" then
      Except.ok { c with direct := Direct.DIRECT_TRY }
    else if (ext.Split p "=" (some 2) (some 2)).getD 1 "" = "on" then
      Except.ok { c with direct := Direct.DIRECT_ON }
    else if (ext.Split p "=" (some 2) (some 2)).getD 1 "" = "no" then
      Except.ok { c with direct := Direct.DIRECT_OFF }
    else if (ext.Split p "=" (some 2) (some 2)).getD 1 "" = "yes" then
      Except.ok { c with direct := Direct.DIRECT_ON }
    else
      Except.error (Thrown.runtime_error
        ("Invalid parameter '" ++ p ++ "' in disk configuration file."))
  else if (ext.Split p "=" (some 2) (some 2)).getD 0 "" = "queue" then
    if c.io_impl = "linuxaio" then
      Except.error (Thrown.runtime_error
        ("Parameter '" ++ p ++ "' invalid for fileio '" ++ c.io_impl ++
          "' in disk configuration file."))
    else if (ext.strtoul (c_str ((ext.Split p "=" (some 2) (some 2)).getD 1 ""))).2 ≠ "" then
      Except.error (Thrown.runtime_error
        ("Invalid parameter '" ++ p ++ "' in disk configuration file."))
    else
      Except.ok { c with queue :=
        (toInt32 (ext.strtoul (c_str ((ext.Split p "=" (some 2) (some 2)).getD 1 ""))).1) }
  else if (ext.Split p "=" (some 2) (some 2)).getD 0 "" = "queue_length" then
    if c.io_impl ≠ "linuxaio" then
      Except.error (Thrown.runtime_error
        ("Parameter '" ++ p ++ "' is only valid for fileio linuxaio " ++
          "in disk configuration file."))
    else if (ext.strtoul (c_str ((ext.Split p "=" (some 2) (some 2)).getD 1 ""))).2 ≠ "" then
      Except.error (Thrown.runtime_error
        ("Invalid parameter '" ++ p ++ "' in disk configuration file."))
    else
      Except.ok { c with queue_length :=
        (toInt32 (ext.strtoul (c_str ((ext.Split p "=" (some 2) (some 2)).getD 1 ""))).1) }
  else if (ext.Split p "=" (some 2) (some 2)).getD 0 "" = "device_id" ∨
      (ext.Split p "=" (some 2) (some 2)).getD 0 "" = "devid" then
    if (ext.strtoul (c_str ((ext.Split p "=" (some 2) (some 2)).getD 1 ""))).2 ≠ "" then
      Except.error (Thrown.runtime_error
        ("Invalid parameter '" ++ p ++ "' in disk configuration file."))
    else
      Except.ok { c with device_id :=
        (toInt32 (ext.strtoul (c_str ((ext.Split p "=" (some 2) (some 2)).getD 1 ""))).1) }
  else if p = "raw_device" then
    if ¬ c.io_impl = "syscall" then
      Except.error (Thrown.runtime_error
        ("Parameter '" ++ p ++ "' invalid for fileio '" ++ c.io_impl ++
          "' in disk configuration file."))
    else Except.ok { c with raw_device := true }
  else if p = "unlink" ∨ p = "unlink_on_open" then
    if ¬ (c.io_impl = "syscall" ∨ c.io_impl = "linuxaio" ∨ c.io_impl = "mmap" ∨
        c.io_impl = "wbtl") then
      Except.error (Thrown.runtime_error
        ("Parameter '" ++ p ++ "' invalid for fileio '" ++ c.io_impl ++
          "' in disk configuration file."))
    else Except.ok { c with unlink_on_open := true }
  else
    Except.error (Thrown.runtime_error
      ("Invalid optional parameter '" ++ p ++ "' in disk configuration file."))

/-- The loop of `parse_fileio` (lines 332-440) over the options. -/
def DiskConfig.parse_options (ext : Externals) : List String → DiskConfig →
    Except Thrown DiskConfig
  | [], c => Except.ok c
  | p :: rest, c =>
    match DiskConfig.parse_option ext c p with
    | Except.error e => Except.error e
    | Except.ok c1 => DiskConfig.parse_options ext rest c1

/-- The method `DiskConfig::parse_fileio` (lines 314-441). -/
def DiskConfig.parse_fileio (ext : Externals) (c : DiskConfig) : Except Thrown DiskConfig :=
  match (if find_first_not_of c.io_impl.data ' ' > 0 then
          substr c.io_impl.data (find_first_not_of c.io_impl.data ' ') npos
        else Except.ok c.io_impl.data) with
  | Except.error e => Except.error e
  | Except.ok io_impl =>
    if find io_impl ' ' = npos then Except.ok { c with io_impl := String.mk io_impl }
    else
      match substr io_impl (find io_impl ' ' + 1) npos, substr io_impl 0 (find io_impl ' ') with
      | Except.ok paramstr, Except.ok io_impl2 =>
        DiskConfig.parse_options ext (ext.Split (String.mk paramstr) " " none none)
          { c with io_impl := String.mk io_impl2 }
      | Except.error e, _ => Except.error e
      | _, Except.error e => Except.error e

/-- The method `DiskConfig::parse_line` (lines 252-312). -/
def DiskConfig.parse_line (ext : Externals) (c : DiskConfig) (line : String) :
    Except Thrown DiskConfig :=
  if (ext.Split line "=" (some 2) (some 2)).getD 0 "" = "disk" ∨
      (ext.Split line "=" (some 2) (some 2)).getD 0 "" = "flash" then
    match ext.ParseSiIecUnits
        (c_str ((ext.Split ((ext.Split line "=" (some 2) (some 2)).getD 1 "") ","
          (some 3) (some 3)).getD 1 "")) 'M' with
    | none =>
      Except.error (Thrown.runtime_error
        ("Invalid disk size '" ++
          (ext.Split ((ext.Split line "=" (some 2) (some 2)).getD 1 "") ","
            (some 3) (some 3)).getD 1 "" ++ "' in disk configuration file."))
    | some size =>
      DiskConfig.parse_fileio ext
        { path := String.mk (replace_pid (toString ext.getpid).data
            ((ext.Split ((ext.Split line "=" (some 2) (some 2)).getD 1 "") ","
              (some 3) (some 3)).getD 0 "").data),
          size := size,
          io_impl := (ext.Split ((ext.Split line "=" (some 2) (some 2)).getD 1 "") ","
              (some 3) (some 3)).getD 2 "",
          autogrow := true,
          delete_on_exit := if size = 0 then true else false,
          direct := Direct.DIRECT_TRY,
          flash := if (ext.Split line "=" (some 2) (some 2)).getD 0 "" = "disk" then false
                   else true,
          queue := ext.DEFAULT_QUEUE,
          device_id := ext.DEFAULT_DEVICE_ID,
          raw_device := c.raw_device,
          unlink_on_open := false,
          queue_length := c.queue_length }
  else
    Except.error (Thrown.runtime_error
      ("Unknown configuration token " ++ (ext.Split line "=" (some 2) (some 2)).getD 0 ""))

/-- The constructor `DiskConfig(path, size, io_impl)` (lines 221-236). -/
def DiskConfig.make (ext : Externals) (path : String) (size : Nat) (io_impl : String) :
    Except Thrown DiskConfig :=
  DiskConfig.parse_fileio ext
    { path := path, size := size, io_impl := io_impl, autogrow := true,
      delete_on_exit := false, direct := Direct.DIRECT_TRY, flash := false,
      queue := ext.DEFAULT_QUEUE, device_id := ext.DEFAULT_DEVICE_ID, raw_device := false,
      unlink_on_open := false, queue_length := 0 }

/-- The members `disks_list` and `first_flash` of `Config`. -/
structure Config where
  disks_list : List DiskConfig
  first_flash : Nat

/-- The method `Config::load_default_config` (lines 117-140), outside Windows;
`first_flash` is the size as an `unsigned int`. -/
def Config.load_default_config (ext : Externals) (cfg : Config) : Except Thrown Config :=
  match DiskConfig.make ext "/tmp/thrill.tmp" (1000 * 1024 * 1024) "syscall" with
  | Except.error e => Except.error e
  | Except.ok entry1 =>
    Except.ok
      { disks_list := cfg.disks_list ++ [{ entry1 with unlink_on_open := true, autogrow := true }],
        first_flash := (cfg.disks_list ++ [entry1]).length % 2 ^ 32 }

/-- The loop of `load_config_file` (lines 151-163) over the lines `getline`
returns, with the lists `disks_list` and `flash_list`. -/
def Config.load_lines (ext : Externals) : List String → List DiskConfig → List DiskConfig →
    Except Thrown (List DiskConfig × List DiskConfig)
  | [], disks_list, flash_list => Except.ok (disks_list, flash_list)
  | line :: rest, disks_list, flash_list =>
    if line.length = 0 ∨ line.data.head? = some '#' then
      Config.load_lines ext rest disks_list flash_list
    else
      match DiskConfig.parse_line ext (DiskConfig.construct ext) line with
      | Except.error e => Except.error e
      | Except.ok entry =>
        if ¬ entry.flash = true then
          Config.load_lines ext rest (disks_list ++ [entry]) flash_list
        else
          Config.load_lines ext rest disks_list (flash_list ++ [entry])

/-- The method `Config::load_config_file` (lines 142-174).  `file` is `none` when
the file cannot be opened and the list of its lines otherwise. -/
def Config.load_config_file (ext : Externals) (cfg : Config) (config_path : String)
    (file : Option (List String)) : Except Thrown Config :=
  match file with
  | none => Config.load_default_config ext cfg
  | some lines =>
    match Config.load_lines ext lines cfg.disks_list [] with
    | Except.error e => Except.error e
    | Except.ok (disks_list, flash_list) =>
      if (disks_list ++ flash_list).isEmpty then
        Except.error (Thrown.runtime_error ("No disks found in '" ++ config_path ++ "'."))
      else
        Except.ok { disks_list := disks_list ++ flash_list,
                    first_flash := disks_list.length % 2 ^ 32 }

/-- The lines of a file that `load_config_file` does not skip: neither empty nor
starting with `#`. -/
def Config.is_entry_line (line : String) : Bool :=
  decide (¬ (line.length = 0 ∨ line.data.head? = some '#'))

/-! ### Sample helpers

Helpers with which the functions above run on concrete lines: a splitter at a
one-character separator, a size parser for plain decimal numbers of MiB and a
`strtoul` for plain decimal numbers. -/

/-- Fields of `s` between the first `splits` occurrences of `sep`. -/
def sampleFields (sep : Char) : Nat → List Char → List (List Char)
  | 0, s => [s]
  | splits + 1, s =>
    if (s.takeWhile (fun x => x != sep)).length < s.length then
      s.takeWhile (fun x => x != sep) ::
        sampleFields sep splits (s.drop ((s.takeWhile (fun x => x != sep)).length + 1))
    else [s]

/-- Value of a string of decimal digits read after the value `acc`, and the text
from the first other character on. -/
def sampleDigits : List Char → Nat → Nat × List Char
  | [], acc => (acc, [])
  | c :: rest, acc =>
    if c.isDigit then sampleDigits rest (10 * acc + (c.toNat - 48)) else (acc, c :: rest)

/-- The sample helpers. -/
def Externals.sample : Externals :=
  { Split := fun str sep min_fields limit_fields =>
      (sampleFields (sep.data.headD ' ') ((limit_fields.getD (str.length + 1)) - 1) str.data
        ++ List.replicate (min_fields.getD 0 -
            (sampleFields (sep.data.headD ' ') ((limit_fields.getD (str.length + 1)) - 1)
              str.data).length) []).map String.mk,
    ParseSiIecUnits := fun str _ =>
      if str.data ≠ [] ∧ (sampleDigits str.data 0).2 = [] then
        some ((sampleDigits str.data 0).1 * 1048576)
      else none,
    strtoul := fun str => ((sampleDigits str.data 0).1, String.mk (sampleDigits str.data 0).2),
    getpid := 4711,
    DEFAULT_QUEUE := -1,
    DEFAULT_DEVICE_ID := -1 }

/-! ## The stable guarded tree: order and invariant -/

/-- Node `a` does not lose against node `b` in the stable tree: `b` is a
sentinel, or neither is, the key of `b` is not less than the key of `a`, and
for equivalent keys the source of `a` is not the larger one. -/
def Loser.leStable {α : Type} (cmp : α → α → Bool) (a b : Loser α) : Prop :=
  b.sup = true ∨
  (a.sup = false ∧ cmp b.key a.key = false ∧ (cmp a.key b.key = true ∨ a.source ≤ b.source))

/-- The state of a stable tree between two calls, for `k` players: either it is
a loser tree in the stable order over leaves seated with the players whose
overall winner is the leaf of a player, or every inner node is a sentinel. -/
def LoserTreeCopy.StableInvariant {α : Type} (cmp : α → α → Bool) (k : Nat)
    (t : LoserTreeCopyBase α) (players : Nat → Option α) : Prop :=
  1 ≤ k ∧ k ≤ t.k_ ∧
  ((∃ cur W, Tournament (Loser.leStable cmp) t.k_ t.losers_ cur W ∧
      Seated k t.k_ cur players ∧ W 1 < t.k_ + k) ∨
    Drained k t.k_ t.losers_ players)

/-! ## The unguarded loser tree `LoserTreeCopyUnguarded` -/

/-- The struct `Loser` of `LoserTreeCopyUnguardedBase` (lines 539-546). -/
structure LoserTreeCopyUnguardedBase.Loser (α : Type) where
  source : Int
  key : α

/-- The data members of `LoserTreeCopyUnguardedBase` (lines 548-555). -/
structure LoserTreeCopyUnguardedBase (α : Type) where
  ik_ : Nat
  k_ : Nat
  losers_ : Nat → LoserTreeCopyUnguardedBase.Loser α

/-- Assignment `losers_[i] = x`. -/
def LoserTreeCopyUnguardedBase.store {α : Type}
    (losers : Nat → LoserTreeCopyUnguardedBase.Loser α) (i : Nat)
    (x : LoserTreeCopyUnguardedBase.Loser α) : Nat → LoserTreeCopyUnguardedBase.Loser α :=
  fun j => if j = i then x else losers j

/-- The constructor (lines 558-569): every one of the `2 * k_` nodes gets the
source -1 and the key `sentinel`; `junk` is what the memory beyond held. -/
def LoserTreeCopyUnguardedBase.construct {α : Type} (k : Nat) (sentinel : α)
    (junk : Nat → LoserTreeCopyUnguardedBase.Loser α) : LoserTreeCopyUnguardedBase α :=
  { ik_ := k,
    k_ := RoundUpToPowerOfTwo k,
    losers_ := fun i =>
      if i < 2 * RoundUpToPowerOfTwo k then { source := -1, key := sentinel } else junk i }

/-- The method `min_source` (lines 586-590); the assertion
`losers_[0].source != -1` fails with `none`. -/
def LoserTreeCopyUnguardedBase.min_source {α : Type} (t : LoserTreeCopyUnguardedBase α) :
    Option Int :=
  if (t.losers_ 0).source = -1 then none else some (t.losers_ 0).source

/-- The method `insert_start` (lines 592-597); `pos = k_ + source` is an
`unsigned int`, for `source ≥ -k_` it is the integer sum. -/
def LoserTreeCopyUnguardedBase.insert_start {α : Type} (t : LoserTreeCopyUnguardedBase α)
    (key : α) (source : Int) : LoserTreeCopyUnguardedBase α :=
  { ik_ := t.ik_, k_ := t.k_,
    losers_ :=
      LoserTreeCopyUnguardedBase.store t.losers_ (((t.k_ : Int) + source).toNat)
        { source := source, key := key } }

/-- The method `init_winner` (lines 599-616) on the array `losers_`; the first
argument bounds the depth of the recursion, and a call that would go deeper does
not return (`none`). -/
def LoserTreeCopyUnguardedBase.init_winner {α : Type} (cmp : α → α → Bool) (k_ : Nat) :
    Nat → Nat → (Nat → LoserTreeCopyUnguardedBase.Loser α) →
      Option (Nat × (Nat → LoserTreeCopyUnguardedBase.Loser α))
  | 0, root, losers => if root ≥ k_ then some (root, losers) else none
  | fuel + 1, root, losers =>
    if root ≥ k_ then some (root, losers)
    else
      match LoserTreeCopyUnguardedBase.init_winner cmp k_ fuel (2 * root) losers with
      | none => none
      | some (left, losers1) =>
        match LoserTreeCopyUnguardedBase.init_winner cmp k_ fuel (2 * root + 1) losers1 with
        | none => none
        | some (right, losers2) =>
          if !cmp (losers2 right).key (losers2 left).key then
            some (left, LoserTreeCopyUnguardedBase.store losers2 root (losers2 right))
          else
            some (right, LoserTreeCopyUnguardedBase.store losers2 root (losers2 left))

/-- The method `init` (lines 618-620); the recursion of `init_winner` is given
depth `k_`. -/
def LoserTreeCopyUnguardedBase.init {α : Type} (cmp : α → α → Bool)
    (t : LoserTreeCopyUnguardedBase α) : Option (LoserTreeCopyUnguardedBase α) :=
  match LoserTreeCopyUnguardedBase.init_winner cmp t.k_ t.k_ 1 t.losers_ with
  | none => none
  | some (winner, losers) =>
    some { ik_ := t.ik_, k_ := t.k_,
           losers_ := LoserTreeCopyUnguardedBase.store losers 0 (losers winner) }

/-- The test of the `if` in the loop of `LoserTreeCopyUnguarded::delete_min_insert`:
whether the node stored at `pos` is promoted and the travelling node
`(source, key)` stays behind.  Line 652 for the unstable tree, line 684 for the
stable one. -/
def LoserTreeCopyUnguarded.promote {α : Type} (Stable : Bool) (cmp : α → α → Bool)
    (stored travelling : LoserTreeCopyUnguardedBase.Loser α) : Bool :=
  if Stable then
    !cmp travelling.key stored.key && decide (stored.source < travelling.source)
  else
    cmp stored.key travelling.key

/-- The test of the `if` in the loop of
`LoserTreePointerUnguarded::delete_min_insert`, with the keys the stored
pointers point to: line 828 for the unstable tree, lines 858-859 for the stable
one. -/
def LoserTreePointerUnguarded.promote {α : Type} (Stable : Bool) (cmp : α → α → Bool)
    (stored travelling : LoserTreeCopyUnguardedBase.Loser α) : Bool :=
  if Stable then
    cmp stored.key travelling.key ||
      (!cmp travelling.key stored.key && decide (stored.source < travelling.source))
  else
    cmp stored.key travelling.key

/-- The loop of `LoserTreeCopyUnguarded::delete_min_insert` (lines 649-658 and
682-690), loop variable `pos`; the locals `source`, `key` travel as one node and
the two swaps exchange it with `losers_[pos]`.  The first argument bounds the
number of iterations. -/
def LoserTreeCopyUnguarded.replay {α : Type} (Stable : Bool) (cmp : α → α → Bool) :
    Nat → Nat → LoserTreeCopyUnguardedBase.Loser α →
      (Nat → LoserTreeCopyUnguardedBase.Loser α) →
      Option (LoserTreeCopyUnguardedBase.Loser α × (Nat → LoserTreeCopyUnguardedBase.Loser α))
  | 0, pos, travelling, losers => if pos > 0 then none else some (travelling, losers)
  | fuel + 1, pos, travelling, losers =>
    if pos > 0 then
      if LoserTreeCopyUnguarded.promote Stable cmp (losers pos) travelling then
        LoserTreeCopyUnguarded.replay Stable cmp fuel (pos / 2) (losers pos)
          (LoserTreeCopyUnguardedBase.store losers pos travelling)
      else
        LoserTreeCopyUnguarded.replay Stable cmp fuel (pos / 2) travelling losers
    else some (travelling, losers)

/-- The method `delete_min_insert` of `LoserTreeCopyUnguarded<Stable>` (lines
645-662 and 678-694).  `(k_ + source) / 2` is computed in `unsigned int`; for
`source ≥ -k_` the sum is the integer sum.  The loop is given `k_ + 1`
iterations. -/
def LoserTreeCopyUnguarded.delete_min_insert {α : Type} (Stable : Bool)
    (cmp : α → α → Bool) (t : LoserTreeCopyUnguardedBase α) (key : α) :
    Option (LoserTreeCopyUnguardedBase α) :=
  match LoserTreeCopyUnguarded.replay Stable cmp (t.k_ + 1)
      ((((t.k_ : Int) + (t.losers_ 0).source).toNat) / 2)
      { source := (t.losers_ 0).source, key := key } t.losers_ with
  | none => none
  | some (travelling, losers) =>
    some { ik_ := t.ik_, k_ := t.k_,
           losers_ := LoserTreeCopyUnguardedBase.store losers 0 travelling }

/-- Set-up of an unguarded tree for the players `keys`: construct it, call
`insert_start` for the players `0, 1, ...` in turn, then call `init`. -/
def LoserTreeCopyUnguardedBase.start {α : Type} (cmp : α → α → Bool) (sentinel : α)
    (junk : Nat → LoserTreeCopyUnguardedBase.Loser α) (keys : List α) :
    Option (LoserTreeCopyUnguardedBase α) :=
  LoserTreeCopyUnguardedBase.init cmp
    ((List.range keys.length).foldl
      (fun t p => LoserTreeCopyUnguardedBase.insert_start t (keys.getD p sentinel) (p : Int))
      (LoserTreeCopyUnguardedBase.construct keys.length sentinel junk))

/-- A sequence of `delete_min_insert` calls on an unguarded tree, each replacing
the element of the player that node 0 names by the next entry of `calls`; the
keys of the players are tracked alongside the tree. -/
def LoserTreeCopyUnguarded.play {α : Type} (Stable : Bool) (cmp : α → α → Bool) :
    List α → LoserTreeCopyUnguardedBase α → List α →
    Option (LoserTreeCopyUnguardedBase α × List α)
  | [], t, keys => some (t, keys)
  | key :: rest, t, keys =>
    match LoserTreeCopyUnguarded.delete_min_insert Stable cmp t key with
    | none => none
    | some t1 =>
      LoserTreeCopyUnguarded.play Stable cmp rest t1 (keys.set (t.losers_ 0).source.toNat key)

/-! ## The binomial tree of `BroadcastBinomialTree` -/

/-- The rank `from` that a worker of `BroadcastBinomialTree` with `my_rank > 0`
receives from (lines 200-206): its rank in the shifted tree with the lowest one
bit flipped to zero, shifted back by `origin`. -/
def BroadcastBinomialTree.predecessor (num_hosts my_host_rank origin : Nat) : Nat :=
  (((my_host_rank + num_hosts - origin) % num_hosts ^^^
      (1 <<< (ffs ((my_host_rank + num_hosts - origin) % num_hosts) - 1))) + origin)
    % num_hosts

/-- Number of messages on the way of the value from the origin to a worker:
follow `predecessor` until the worker with `my_rank = 0` is reached.  The first
argument bounds the number of hops; `none` if the origin is not reached within
the bound. -/
def BroadcastBinomialTree.hops (num_hosts origin : Nat) : Nat → Nat → Option Nat
  | 0, my_host_rank =>
    if (my_host_rank + num_hosts - origin) % num_hosts > 0 then none else some 0
  | fuel + 1, my_host_rank =>
    if (my_host_rank + num_hosts - origin) % num_hosts > 0 then
      (BroadcastBinomialTree.hops num_hosts origin fuel
        (BroadcastBinomialTree.predecessor num_hosts my_host_rank origin)).map (fun h => h + 1)
    else some 0

/-! ## Merging with the guarded tree -/

/-- The current element of the sequence `p`, of which `consumed p` elements have
been emitted; `none` when the sequence is exhausted. -/
def LoserTreeCopy.current {α : Type} (seqs : List (List α)) (consumed : Nat → Nat) :
    Nat → Option α :=
  fun p => (seqs.getD p [])[consumed p]?

/-- Modelled from the spec: the loop of a multiway merge driven by the guarded
tree (the driver itself is not among the sources): once per input element, emit
the head of the sequence named by `min_source()` and call `delete_min_insert`
with that sequence's next element, or with `sup` when it is exhausted.  The
first argument is the number of elements still to emit; `consumed p` is the
number of elements of the sequence `p` emitted so far.  Every emitted element
is recorded with the sequence and the position it was taken from.  A
`min_source()` that names no sequence, or one without a current element, has
nothing to emit (`none`). -/
def LoserTreeCopy.merge_loop {α : Type} [Inhabited α] (Stable : Bool) (cmp : α → α → Bool)
    (seqs : List (List α)) :
    Nat → LoserTreeCopyBase α → (Nat → Nat) → Option (List (Nat × Nat × α))
  | 0, _, _ => some []
  | n + 1, t, consumed =>
    if LoserTreeCopyBase.min_source t < 0 then none
    else
      match LoserTreeCopy.current seqs consumed (LoserTreeCopyBase.min_source t).toNat with
      | none => none
      | some x =>
        match LoserTreeCopy.delete_min_insert Stable cmp t
            ((seqs.getD (LoserTreeCopyBase.min_source t).toNat [])[
              consumed (LoserTreeCopyBase.min_source t).toNat + 1]?)
            ((seqs.getD (LoserTreeCopyBase.min_source t).toNat [])[
              consumed (LoserTreeCopyBase.min_source t).toNat + 1]?).isNone with
        | none => none
        | some t2 =>
          (LoserTreeCopy.merge_loop Stable cmp seqs n t2
            (fun p => if p = (LoserTreeCopyBase.min_source t).toNat then consumed p + 1
                      else consumed p)).map
            (fun out => ((LoserTreeCopyBase.min_source t).toNat,
              consumed (LoserTreeCopyBase.min_source t).toNat, x) :: out)

/-- Modelled from the spec: a multiway merge of the `k` sequences `seqs` driven
by the guarded tree: `insert_start` with the head of each sequence, or with
`sup` if it is empty, then `init()`, then the loop `merge_loop`, once per input
element. -/
def LoserTreeCopy.merge {α : Type} [Inhabited α] (Stable : Bool) (cmp : α → α → Bool)
    (junk : Nat → Loser α) (seqs : List (List α)) : Option (List (Nat × Nat × α)) :=
  match LoserTreeCopyBase.start cmp seqs.length junk
      (LoserTreeCopy.current seqs (fun _ => 0)) (List.range seqs.length) with
  | none => none
  | some t =>
    LoserTreeCopy.merge_loop Stable cmp seqs (seqs.map List.length).sum t (fun _ => 0)

/-- The elements of `l`, taken from the sequence `p` from position `i` on, with
their sequence and position. -/
def LoserTreeCopy.tagFrom {α : Type} (p : Nat) : Nat → List α → List (Nat × Nat × α)
  | _, [] => []
  | i, x :: xs => (p, i, x) :: LoserTreeCopy.tagFrom p (i + 1) xs

/-- The elements not yet emitted, with their sequence and position. -/
def LoserTreeCopy.remaining {α : Type} (seqs : List (List α)) (consumed : Nat → Nat) :
    List (Nat × Nat × α) :=
  (List.range seqs.length).flatMap
    (fun p => LoserTreeCopy.tagFrom p (consumed p) ((seqs.getD p []).drop (consumed p)))

/-- The order of the output of a stable merge on recorded elements: `b` is not
less than `a`, and if they are equivalent then `a` comes from a sequence of
lower index, or from the same sequence at a lower position. -/
def LoserTreeCopy.mergeOrder {α : Type} (cmp : α → α → Bool) (a b : Nat × Nat × α) : Prop :=
  cmp b.2.2 a.2.2 = false ∧
  (cmp a.2.2 b.2.2 = false → a.1 < b.1 ∨ (a.1 = b.1 ∧ a.2.1 < b.2.1))


/-! # Theorems -/

/-! ### Independence of the schedule -/

theorem Net.ext_of_pointwise {α : Type} (c d : Net α) (hp : ∀ i, c.procs i = d.procs i)
    (hc : ∀ a b, c.chan a b = d.chan a b) : c = d := by
  cases c; cases d
  simp only [Net.mk.injEq]
  exact ⟨funext hp, funext fun a => funext fun b => hc a b⟩

theorem Net.diamond {α : Type} (c c1 c2 : Net α) (i j : Nat) (hij : i ≠ j)
    (h1 : c.stepAt i = some c1) (h2 : c.stepAt j = some c2) :
    ∃ d, c1.stepAt j = some d ∧ c2.stepAt i = some d := by
  have hji : j ≠ i := fun h => hij h.symm
  unfold Net.stepAt at h1 h2
  cases hpi : c.procs i with
  | done v => simp [hpi] at h1
  | spin => simp [hpi] at h1
  | send di mi ni =>
    simp only [hpi, Option.some.injEq] at h1
    cases hpj : c.procs j with
    | done v => simp [hpj] at h2
    | spin => simp [hpj] at h2
    | send dj mj nj =>
      simp only [hpj, Option.some.injEq] at h2
      subst h1 h2
      refine ⟨((((c.setChan i di (c.chan i di ++ [mi])).setProc i ni).setChan j dj
        (c.chan j dj ++ [mj])).setProc j nj), ?_, ?_⟩
      · simp [Net.stepAt, Net.setProc, Net.setChan, hji, hij, hpj]
      · simp only [Net.stepAt, Net.setProc, Net.setChan, hij, hpi, if_false]
        simp only [hji, false_and, if_false, Option.some.injEq]
        apply Net.ext_of_pointwise
        · intro k; simp only; split_ifs <;> simp_all
        · intro a b; simp only; split_ifs <;> simp_all
    | recv sj kj =>
      simp only [hpj] at h2
      cases hq : c.chan sj j with
      | nil => simp [hq] at h2
      | cons m q =>
        simp only [hq, Option.some.injEq] at h2
        subst h1 h2
        by_cases hsame : sj = i ∧ j = di
        · obtain ⟨rfl, rfl⟩ := hsame
          refine ⟨(((c.setChan sj j (c.chan sj j ++ [mi])).setProc sj ni).setChan sj j
            (q ++ [mi])).setProc j (kj m), ?_, ?_⟩
          · simp [Net.stepAt, Net.setProc, Net.setChan, hji, hij, hpj, hq]
          · simp only [Net.stepAt, Net.setProc, Net.setChan, hij, hpi, if_false]
            simp only [and_self, if_true, Option.some.injEq]
            apply Net.ext_of_pointwise
            · intro k; simp only; split_ifs <;> simp_all
            · intro a b; simp only; split_ifs <;> simp_all
        · refine ⟨(((c.setChan i di (c.chan i di ++ [mi])).setProc i ni).setChan sj j
            q).setProc j (kj m), ?_, ?_⟩
          · have : ¬ (sj = i ∧ j = di) := hsame
            simp [Net.stepAt, Net.setProc, Net.setChan, hji, hij, hpj, hq, this]
          · simp only [Net.stepAt, Net.setProc, Net.setChan, hij, hpi, if_false]
            have h3 : ¬ (i = sj ∧ di = j) := fun h => hsame ⟨h.1.symm, h.2.symm⟩
            simp only [h3, if_false, Option.some.injEq]
            apply Net.ext_of_pointwise
            · intro k; simp only; split_ifs <;> simp_all
            · intro a b; simp only; split_ifs <;> simp_all
  | recv si ki =>
    simp only [hpi] at h1
    cases hqi : c.chan si i with
    | nil => simp [hqi] at h1
    | cons m1 q1 =>
      simp only [hqi, Option.some.injEq] at h1
      cases hpj : c.procs j with
      | done v => simp [hpj] at h2
      | spin => simp [hpj] at h2
      | send dj mj nj =>
        simp only [hpj, Option.some.injEq] at h2
        subst h1 h2
        by_cases hsame : si = j ∧ i = dj
        · obtain ⟨rfl, rfl⟩ := hsame
          refine ⟨(((c.setChan si i q1).setProc i (ki m1)).setChan si i
            (q1 ++ [mj])).setProc si nj, ?_, ?_⟩
          · simp [Net.stepAt, Net.setProc, Net.setChan, hji, hij, hpj, hqi]
          · simp only [Net.stepAt, Net.setProc, Net.setChan, hij, hpi, if_false]
            simp only [and_self, if_true, hqi, List.cons_append, Option.some.injEq]
            apply Net.ext_of_pointwise
            · intro k; simp only; split_ifs <;> simp_all
            · intro a b; simp only; split_ifs <;> simp_all
        · refine ⟨(((c.setChan si i q1).setProc i (ki m1)).setChan j dj
            (c.chan j dj ++ [mj])).setProc j nj, ?_, ?_⟩
          · have h3 : ¬ (j = si ∧ dj = i) := fun h => hsame ⟨h.1.symm, h.2.symm⟩
            simp [Net.stepAt, Net.setProc, Net.setChan, hji, hij, hpj, hqi, h3]
          · simp only [Net.stepAt, Net.setProc, Net.setChan, hij, hpi, if_false]
            simp only [hsame, if_false, hqi, Option.some.injEq]
            apply Net.ext_of_pointwise
            · intro k; simp only; split_ifs <;> simp_all
            · intro a b; simp only; split_ifs <;> simp_all
      | recv sj kj =>
        simp only [hpj] at h2
        cases hqj : c.chan sj j with
        | nil => simp [hqj] at h2
        | cons m2 q2 =>
          simp only [hqj, Option.some.injEq] at h2
          subst h1 h2
          refine ⟨(((c.setChan si i q1).setProc i (ki m1)).setChan sj j q2).setProc j (kj m2),
            ?_, ?_⟩
          · simp [Net.stepAt, Net.setProc, Net.setChan, hji, hij, hpj, hqj]
          · simp only [Net.stepAt, Net.setProc, Net.setChan, hij, hpi, if_false]
            simp only [hji, and_false, if_false, hqi, Option.some.injEq]
            apply Net.ext_of_pointwise
            · intro k; simp only; split_ifs <;> simp_all
            · intro a b; simp only; split_ifs <;> simp_all

theorem Net.Reach.append {α : Type} {n a b : Nat} {c1 c2 c3 : Net α}
    (h1 : Net.Reach n a c1 c2) (h2 : Net.Reach n b c2 c3) : Net.Reach n (a + b) c1 c3 := by
  induction h1 with
  | refl c => simpa using h2
  | head hs _ ih =>
    have := Net.Reach.head hs (ih h2)
    rw [show ∀ k : Nat, k + 1 + b = k + b + 1 from fun k => by omega]
    exact this

theorem Net.Reach.single {α : Type} {n i : Nat} {c c1 : Net α} (hi : i < n)
    (h : c.stepAt i = some c1) : Net.Reach n 1 c c1 :=
  Net.Reach.head ⟨i, hi, h⟩ (Net.Reach.refl c1)

/-- Strip lemma: any action taken from a state that reaches a quiet state in `k`
actions leaves a state that reaches the same quiet state in `k - 1` actions. -/
theorem Net.Reach.strip {α : Type} {n k : Nat} {c t c1 : Net α}
    (h : Net.Reach n k c t) (hq : Net.Quiet n t) (hs : Net.Step n c c1) :
    ∃ k1, k = k1 + 1 ∧ Net.Reach n k1 c1 t := by
  induction h generalizing c1 with
  | refl c =>
    obtain ⟨i, hi, hstep⟩ := hs
    rw [hq i hi] at hstep
    cases hstep
  | @head k c c0 t hs0 hr ih =>
    obtain ⟨i, hi, hstepi⟩ := hs
    obtain ⟨j, hj, hstepj⟩ := hs0
    by_cases hij : i = j
    · subst hij
      rw [hstepi] at hstepj
      cases hstepj
      exact ⟨k, rfl, hr⟩
    · obtain ⟨d, hd1, hd2⟩ := Net.diamond c c1 c0 i j hij hstepi hstepj
      obtain ⟨k1, hk1, hr1⟩ := ih hq ⟨i, hi, hd2⟩
      subst hk1
      exact ⟨k1 + 1, rfl, Net.Reach.head ⟨j, hj, hd1⟩ hr1⟩

theorem Net.findSome_step {α : Type} (n : Nat) (c c1 : Net α)
    (h : (List.range n).findSome? c.stepAt = some c1) : Net.Step n c c1 := by
  obtain ⟨i, hi, hs⟩ := List.exists_of_findSome?_eq_some h
  exact ⟨i, List.mem_range.mp hi, hs⟩

theorem Net.findSome_none {α : Type} (n : Nat) (c : Net α)
    (h : (List.range n).findSome? c.stepAt = none) : Net.Quiet n c := by
  intro i hi
  rw [List.findSome?_eq_none_iff] at h
  exact h i (List.mem_range.mpr hi)

/-- The scheduler returns the values of the quiet state that any execution
reaches, provided its budget covers the length of that execution. -/
theorem Net.run_of_reach {α : Type} (n : Nat) (fuel k : Nat) (c t : Net α)
    (h : Net.Reach n k c t) (hq : Net.Quiet n t) (hk : k ≤ fuel) :
    Net.run n fuel c = t.collect n := by
  induction fuel generalizing k c with
  | zero =>
    have hk0 : k = 0 := by omega
    subst hk0
    cases h
    rfl
  | succ fuel ih =>
    unfold Net.run
    cases hf : (List.range n).findSome? c.stepAt with
    | some c1 =>
      obtain ⟨k1, hk1, hr1⟩ := h.strip hq (Net.findSome_step n c c1 hf)
      simp only
      exact ih k1 c1 hr1 (by omega)
    | none =>
      simp only
      cases h with
      | refl => rfl
      | head hs _ =>
        obtain ⟨i, hi, hstep⟩ := hs
        rw [Net.findSome_none n c hf i hi] at hstep
        cases hstep

theorem Net.ReachLE.stay {α : Type} (n k : Nat) (c : Net α) : Net.ReachLE n k c c :=
  ⟨0, Nat.zero_le k, Net.Reach.refl c⟩

theorem Net.ReachLE.trans {α : Type} {n a b : Nat} {c1 c2 c3 : Net α}
    (h1 : Net.ReachLE n a c1 c2) (h2 : Net.ReachLE n b c2 c3) : Net.ReachLE n (a + b) c1 c3 := by
  obtain ⟨j1, hj1, r1⟩ := h1
  obtain ⟨j2, hj2, r2⟩ := h2
  exact ⟨j1 + j2, by omega, r1.append r2⟩

theorem Net.ReachLE.mono {α : Type} {n a b : Nat} {c1 c2 : Net α}
    (h : Net.ReachLE n a c1 c2) (hab : a ≤ b) : Net.ReachLE n b c1 c2 := by
  obtain ⟨j, hj, r⟩ := h
  exact ⟨j, by omega, r⟩

theorem Net.ReachLE.step {α : Type} {n i : Nat} {c c1 : Net α} (hi : i < n)
    (h : c.stepAt i = some c1) : Net.ReachLE n 1 c c1 :=
  ⟨1, Nat.le_refl 1, Net.Reach.single hi h⟩

theorem Net.run_of_reachLE {α : Type} (n : Nat) (fuel k : Nat) (c t : Net α)
    (h : Net.ReachLE n k c t) (hq : Net.Quiet n t) (hk : k ≤ fuel) :
    Net.run n fuel c = t.collect n := by
  obtain ⟨j, hj, r⟩ := h
  exact Net.run_of_reach n fuel j c t r hq (by omega)

/-! ### Continuations -/

theorem Net.stepAt_lift {α : Type} (K : Nat → α → Prog α) (c c1 : Net α) (i : Nat)
    (h : c.stepAt i = some c1) : (Net.lift K c).stepAt i = some (Net.lift K c1) := by
  unfold Net.stepAt at h ⊢
  cases hp : c.procs i with
  | done v => simp [hp] at h
  | spin => simp [hp] at h
  | send d m nx =>
    simp only [hp, Option.some.injEq] at h
    subst h
    simp only [Net.lift, hp, Prog.andThen, Option.some.injEq]
    apply Net.ext_of_pointwise
    · intro k; simp only [Net.setProc, Net.setChan]; split_ifs <;> simp_all
    · intro a b; simp only [Net.setProc, Net.setChan]
  | recv sr kk =>
    simp only [hp] at h
    cases hq : c.chan sr i with
    | nil => simp [hq] at h
    | cons m q =>
      simp only [hq, Option.some.injEq] at h
      subst h
      simp only [Net.lift, hp, Prog.andThen, hq, Option.some.injEq]
      apply Net.ext_of_pointwise
      · intro k; simp only [Net.setProc, Net.setChan]; split_ifs <;> simp_all
      · intro a b; simp only [Net.setProc, Net.setChan]

theorem Net.Reach.lifted {α : Type} (K : Nat → α → Prog α) {n k : Nat} {c t : Net α}
    (h : Net.Reach n k c t) : Net.Reach n k (Net.lift K c) (Net.lift K t) := by
  induction h with
  | refl c => exact Net.Reach.refl _
  | head hs _ ih =>
    obtain ⟨i, hi, hstep⟩ := hs
    exact Net.Reach.head ⟨i, hi, Net.stepAt_lift K _ _ i hstep⟩ ih

theorem Net.lift_init {α : Type} (K : Nat → α → Prog α) (n : Nat) (P : Nat → Prog α) :
    Net.lift K (Net.init n P) = Net.init n (fun i => (P i).andThen (K i)) := by
  apply Net.ext_of_pointwise
  · intro i; simp only [Net.lift, Net.init]; split_ifs <;> simp [Prog.andThen]
  · intro a b; rfl

theorem Net.ReachLE.lifted_init {α : Type} (K : Nat → α → Prog α) {n k : Nat}
    {P Q : Nat → Prog α} (h : Net.ReachLE n k (Net.init n P) (Net.init n Q)) :
    Net.ReachLE n k (Net.init n (fun i => (P i).andThen (K i)))
      (Net.init n (fun i => (Q i).andThen (K i))) := by
  obtain ⟨j, hj, r⟩ := h
  refine ⟨j, hj, ?_⟩
  have := r.lifted K
  rwa [Net.lift_init, Net.lift_init] at this

theorem Net.init_congr {α : Type} (n : Nat) (P Q : Nat → Prog α)
    (h : ∀ i, i < n → P i = Q i) : Net.init n P = Net.init n Q := by
  apply Net.ext_of_pointwise
  · intro i; simp only [Net.init]; split_ifs with hi
    · exact h i hi
    · rfl
  · intro a b; rfl

/-! ### One round of matched sends and receives -/

theorem Net.round_sends {α : Type} (n : Nat) (P Q : Nat → Prog α) (S : Nat → Bool)
    (t : Nat → Nat) (m : Nat → α)
    (hsend : ∀ i, i < n → P i = Prog.sendIf (S i) (t i) (m i) (Q i)) (k : Nat) (hk : k ≤ n) :
    Net.ReachLE n k (Net.init n P) (Net.midSend n P Q S t m k) := by
  induction k with
  | zero =>
    have : Net.init n P = Net.midSend n P Q S t m 0 := by
      apply Net.ext_of_pointwise
      · intro i; simp [Net.init, Net.midSend]
      · intro a b; simp [Net.init, Net.midSend]
    rw [← this]
    exact Net.ReachLE.stay n 0 _
  | succ k ih =>
    have hkn : k < n := by omega
    have h1 := ih (by omega)
    cases hS : S k with
    | false =>
      have hP : P k = Q k := by rw [hsend k hkn, hS]; rfl
      refine Net.ReachLE.mono ?_ (Nat.le_succ k)
      have : Net.midSend n P Q S t m (k + 1) = Net.midSend n P Q S t m k := by
        apply Net.ext_of_pointwise
        · intro i
          simp only [Net.midSend]
          by_cases hi : i = k
          · subst hi; simp [hP]
          · have : (i < k + 1) = (i < k) := by apply propext; omega
            simp only [this]
        · intro a b
          simp only [Net.midSend]
          by_cases ha : a = k
          · subst ha; simp [hS]
          · have : (a < k + 1) = (a < k) := by apply propext; omega
            simp only [this]
      rw [this]; exact h1
    | true =>
      have hP : P k = Prog.send (t k) (m k) (Q k) := by rw [hsend k hkn, hS]; rfl
      refine Net.ReachLE.trans h1 (Net.ReachLE.step hkn ?_)
      simp only [Net.stepAt, Net.midSend, hkn, if_true, lt_irrefl, if_false, hP, false_and,
        List.nil_append, Option.some.injEq]
      apply Net.ext_of_pointwise
      · intro i
        simp only [Net.setProc, Net.setChan]
        by_cases hi : i = k
        · subst hi; simp [hkn]
        · have : (i < k + 1) = (i < k) := by apply propext; omega
          simp only [hi, if_false, this]
      · intro a b
        simp only [Net.setProc, Net.setChan]
        by_cases ha : a = k
        · subst ha
          by_cases hb : b = t a
          · subst hb; simp [hS]
          · have hb2 : ¬ t a = b := fun h => hb h.symm
            simp [hb, hb2]
        · have : (a < k + 1) = (a < k) := by apply propext; omega
          simp only [ha, false_and, if_false, this]

theorem Net.round_recvs {α : Type} (n : Nat) (Q P2 : Nat → Prog α) (S R : Nat → Bool)
    (t s : Nat → Nat) (m : Nat → α)
    (hrecv : ∀ j, j < n → R j = true → ∃ k, Q j = Prog.recv (s j) k ∧ P2 j = k (m (s j)))
    (hidle : ∀ j, j < n → R j = false → P2 j = Q j)
    (hm1 : ∀ i, i < n → S i = true → t i < n ∧ R (t i) = true ∧ s (t i) = i)
    (hm2 : ∀ j, j < n → R j = true → s j < n ∧ S (s j) = true ∧ t (s j) = j)
    (k : Nat) (hk : k ≤ n) :
    Net.ReachLE n k (Net.midRecv n Q P2 S t m 0) (Net.midRecv n Q P2 S t m k) := by
  induction k with
  | zero => exact Net.ReachLE.stay n 0 _
  | succ k ih =>
    have hkn : k < n := by omega
    have h1 := ih (by omega)
    cases hR : R k with
    | false =>
      have hP : P2 k = Q k := hidle k hkn hR
      refine Net.ReachLE.mono ?_ (Nat.le_succ k)
      have : Net.midRecv n Q P2 S t m (k + 1) = Net.midRecv n Q P2 S t m k := by
        apply Net.ext_of_pointwise
        · intro i
          simp only [Net.midRecv]
          by_cases hi : i = k
          · subst hi; simp [hP]
          · have : (i < k + 1) = (i < k) := by apply propext; omega
            simp only [this]
        · intro a b
          simp only [Net.midRecv]
          by_cases hb : b = k
          · subst hb
            have : ¬ (a < n ∧ S a = true ∧ t a = b) := by
              rintro ⟨ha, hSa, hta⟩
              have := (hm1 a ha hSa).2.1
              rw [hta, hR] at this
              cases this
            simp [this]
          · have : (b < k + 1) = (b < k) := by apply propext; omega
            simp only [this]
      rw [this]; exact h1
    | true =>
      obtain ⟨kk, hQ, hP2⟩ := hrecv k hkn hR
      obtain ⟨hs1, hs2, hs3⟩ := hm2 k hkn hR
      refine Net.ReachLE.trans h1 (Net.ReachLE.step hkn ?_)
      simp only [Net.stepAt, Net.midRecv, hkn, if_true, lt_irrefl, if_false, hQ, hs1, hs2, hs3,
        and_self, not_false_eq_true, Option.some.injEq]
      apply Net.ext_of_pointwise
      · intro i
        simp only [Net.setProc, Net.setChan]
        by_cases hi : i = k
        · subst hi; simp [hkn, hP2]
        · have : (i < k + 1) = (i < k) := by apply propext; omega
          simp only [hi, if_false, this]
      · intro a b
        simp only [Net.setProc, Net.setChan]
        by_cases hb : b = k
        · subst hb
          by_cases ha : a = s b
          · subst ha; simp
          · have : ¬ (a < n ∧ S a = true ∧ t a = b) := by
              rintro ⟨ha1, hSa, hta⟩
              have := (hm1 a ha1 hSa).2.2
              rw [hta] at this
              exact ha this.symm
            simp [ha, this]
        · have : (b < k + 1) = (b < k) := by apply propext; omega
          simp only [hb, and_false, if_false, this]

/-- One round: every worker `i` performs an optional send (`S i`, to `t i`,
message `m i`) followed by an optional receive (`R i`, from `s i`); sends and
receives match up pairwise.  The group moves from programs `P` to programs `P2`
with all queues empty again. -/
theorem Net.round_matched {α : Type} (n : Nat) (P Q P2 : Nat → Prog α) (S R : Nat → Bool)
    (t s : Nat → Nat) (m : Nat → α)
    (hsend : ∀ i, i < n → P i = Prog.sendIf (S i) (t i) (m i) (Q i))
    (hrecv : ∀ j, j < n → R j = true → ∃ k, Q j = Prog.recv (s j) k ∧ P2 j = k (m (s j)))
    (hidle : ∀ j, j < n → R j = false → P2 j = Q j)
    (hm1 : ∀ i, i < n → S i = true → t i < n ∧ R (t i) = true ∧ s (t i) = i)
    (hm2 : ∀ j, j < n → R j = true → s j < n ∧ S (s j) = true ∧ t (s j) = j) :
    Net.ReachLE n (2 * n) (Net.init n P) (Net.init n P2) := by
  have hA := Net.round_sends n P Q S t m hsend n (Nat.le_refl n)
  have hB := Net.round_recvs n Q P2 S R t s m hrecv hidle hm1 hm2 n (Nat.le_refl n)
  have e1 : Net.midSend n P Q S t m n = Net.midRecv n Q P2 S t m 0 := by
    apply Net.ext_of_pointwise
    · intro i; simp only [Net.midSend, Net.midRecv]; split_ifs <;> simp_all
    · intro a b; simp only [Net.midSend, Net.midRecv, Nat.not_lt_zero, not_false_eq_true, and_true]
  have e2 : Net.midRecv n Q P2 S t m n = Net.init n P2 := by
    apply Net.ext_of_pointwise
    · intro i; simp only [Net.midRecv, Net.init]; split_ifs <;> simp_all
    · intro a b
      simp only [Net.midRecv, Net.init]
      have : ¬ ((a < n ∧ S a = true ∧ t a = b) ∧ ¬ b < n) := by
        rintro ⟨⟨ha, hSa, hta⟩, hb⟩
        exact hb (hta ▸ (hm1 a ha hSa).1)
      rw [if_neg this]
  rw [e1] at hA
  rw [e2] at hB
  exact (Net.ReachLE.trans hA hB).mono (by omega)

/-! ### Folds -/

theorem foldRange_append {α : Type} (op : α → α → α)
    (hassoc : ∀ a b c, op (op a b) c = op a (op b c)) (v : Nat → α) (a j k : Nat) :
    op (foldRange op v a j) (foldRange op v (a + j + 1) k) = foldRange op v a (j + k + 1) := by
  induction k with
  | zero => rfl
  | succ k ih =>
    show op (foldRange op v a j) (op (foldRange op v (a + j + 1) k) (v (a + j + 1 + k + 1)))
      = op (foldRange op v a (j + k + 1)) (v (a + (j + k + 1) + 1))
    rw [← hassoc, ih]
    have e2 : a + j + 1 + k + 1 = a + (j + k + 1) + 1 := by omega
    rw [e2]

theorem foldRange_congr {α : Type} (op : α → α → α) (v w : Nat → α) (a k : Nat)
    (h : ∀ i, a ≤ i → i ≤ a + k → v i = w i) : foldRange op v a k = foldRange op w a k := by
  induction k with
  | zero => simpa [foldRange] using h a (Nat.le_refl a) (by omega)
  | succ k ih =>
    simp only [foldRange]
    rw [ih (fun i h1 h2 => h i h1 (by omega)), h (a + k + 1) (by omega) (by omega)]

theorem foldl_take_succ {α : Type} (op : α → α → α) (l : List α) (a x : α) (k : Nat)
    (hk : k < l.length) (hx : l.getD k a = x) :
    (l.take (k + 1)).foldl op a = op ((l.take k).foldl op a) x := by
  induction l generalizing a k with
  | nil => simp at hk
  | cons b l ih =>
    cases k with
    | zero => simp at hx; simp [hx]
    | succ k =>
      simp only [List.take_succ_cons, List.foldl_cons]
      simp only [List.length_cons, Nat.add_lt_add_iff_right] at hk
      have hx2 : l.getD k (op a b) = x := by
        simp only [List.getD_cons_succ] at hx
        rw [List.getD_eq_getElem _ _ hk] at hx ⊢
        exact hx
      exact ih (op a b) k hk hx2

/-- The reference fold of the first `k + 1` entries is the fold over ranks `0..k`. -/
theorem foldLeft_take {α : Type} [Inhabited α] (op : α → α → α) (vs : List α) (k : Nat)
    (hk : k < vs.length) :
    foldLeft op (vs.take (k + 1)) = foldRange op (fun i => vs.getD i default) 0 k := by
  cases vs with
  | nil => simp at hk
  | cons a l =>
    simp only [List.take_succ_cons, foldLeft]
    induction k with
    | zero => simp [foldRange]
    | succ k ih =>
      simp only [List.length_cons, Nat.add_lt_add_iff_right] at hk
      have hk2 : k < (a :: l).length := by simp only [List.length_cons]; omega
      simp only [foldRange]
      rw [← ih hk2]
      simp only [Nat.zero_add, List.getD_cons_succ]
      rw [List.getD_eq_getElem _ _ hk]
      apply foldl_take_succ op l a _ k hk
      rw [List.getD_eq_getElem _ _ hk]

theorem foldLeft_all {α : Type} [Inhabited α] (op : α → α → α) (vs : List α) (n : Nat)
    (hn : vs.length = n + 1) :
    foldLeft op vs = foldRange op (fun i => vs.getD i default) 0 n := by
  rw [← foldLeft_take op vs n (by omega), List.take_of_length_le (by omega)]

theorem shl_one (d : Nat) : d <<< 1 = 2 * d := by
  rw [Nat.shiftLeft_eq, pow_one, Nat.mul_comm]

theorem fuel_step (n d fuel : Nat) (h : n ≤ d * 2 ^ (fuel + 1)) : n ≤ d <<< 1 * 2 ^ fuel := by
  have e : d * 2 ^ (fuel + 1) = d <<< 1 * 2 ^ fuel := by rw [shl_one, pow_succ]; ring
  rw [← e]; exact h

/-! ### Collecting results -/

theorem Net.collect_init_done {α : Type} (n : Nat) (f : Nat → α) (k : Nat) (hk : k ≤ n) :
    (Net.init n (fun i => Prog.done (f i))).collect k = some ((List.range k).map f) := by
  induction k with
  | zero => rfl
  | succ k ih =>
    have hkn : k < n := by omega
    simp only [Net.collect, ih (by omega)]
    simp [Net.init, hkn, Prog.result, List.range_succ]

theorem Net.quiet_init_done {α : Type} (n : Nat) (f : Nat → α) :
    Net.Quiet n (Net.init n (fun i => Prog.done (f i))) := by
  intro i hi
  simp [Net.stepAt, Net.init, hi]

/-- If some execution of at most `Net.budget n` actions ends with every worker
returned, the scheduler delivers exactly those values. -/
theorem Net.exec_of_reach {α : Type} (n k : Nat) (prog : Nat → Prog α) (f : Nat → α)
    (h : Net.ReachLE n k (Net.init n prog) (Net.init n (fun i => Prog.done (f i))))
    (hk : k ≤ Net.budget n) :
    Net.exec n prog = some ((List.range n).map f) := by
  unfold Net.exec
  rw [Net.run_of_reachLE n _ k _ _ h (Net.quiet_init_done n f) hk]
  exact Net.collect_init_done n f n (Nat.le_refl n)

/-! ### PrefixSum: the scheduler realises the rounds -/

theorem PrefixSum.ps_reach_rounds {α : Type} [Inhabited α] (sum_op : α → α → α) (inclusive : Bool)
    (n : Nat) (fuel d : Nat) (st : Nat → PrefixSum.Locals α)
    (hf : n ≤ d * 2 ^ fuel) :
    Net.ReachLE n (2 * n * fuel)
      (Net.init n (fun i => PrefixSum.loop sum_op inclusive n i fuel d
        (st i).value (st i).to_forward (st i).first))
      (Net.init n (fun i => Prog.done
        (if !inclusive && i == 0 then default
         else (PrefixSum.rounds sum_op inclusive n fuel d st i).value))) := by
  induction fuel generalizing d st with
  | zero =>
    have hd : ¬ d < n := by simp at hf; omega
    simp only [PrefixSum.loop, hd, if_false, PrefixSum.rounds]
    exact Net.ReachLE.stay n _ _
  | succ fuel ih =>
    by_cases hd : d < n
    · have hround : Net.ReachLE n (2 * n)
          (Net.init n (fun i => PrefixSum.loop sum_op inclusive n i (fuel + 1) d
            (st i).value (st i).to_forward (st i).first))
          (Net.init n (fun i => PrefixSum.loop sum_op inclusive n i fuel (d <<< 1)
            (PrefixSum.round sum_op inclusive d st i).value
            (PrefixSum.round sum_op inclusive d st i).to_forward
            (PrefixSum.round sum_op inclusive d st i).first)) := by
        apply Net.round_matched n _
          (fun i => if i ≥ d then
              Prog.recv (i - d) (fun recv_value =>
                if !(st i).first || inclusive then
                  PrefixSum.loop sum_op inclusive n i fuel (d <<< 1)
                    (sum_op recv_value (st i).value) (sum_op recv_value (st i).to_forward)
                    (st i).first
                else
                  PrefixSum.loop sum_op inclusive n i fuel (d <<< 1)
                    recv_value (sum_op recv_value (st i).to_forward) false)
            else
              PrefixSum.loop sum_op inclusive n i fuel (d <<< 1)
                (st i).value (st i).to_forward (st i).first)
          _ (fun i => decide (i + d < n)) (fun j => decide (j ≥ d)) (fun i => i + d)
          (fun j => j - d) (fun i => (st i).to_forward)
        · intro i _
          simp only [PrefixSum.loop, hd, if_true]
        · intro j _ hR
          have hjd : j ≥ d := by simpa using hR
          refine ⟨_, by simp only [hjd, if_true]; rfl, ?_⟩
          simp only [PrefixSum.round, hjd, if_true]
          split_ifs <;> rfl
        · intro j _ hR
          have hjd : ¬ j ≥ d := by simpa using hR
          simp only [PrefixSum.round, hjd, if_false]
        · intro i _ hS
          have : i + d < n := by simpa using hS
          refine ⟨this, by simp, by simp⟩
        · intro j hj hR
          have hjd : j ≥ d := by simpa using hR
          refine ⟨by omega, ?_, by omega⟩
          simp only [decide_eq_true_eq]
          omega
      have hrest := ih (d <<< 1) (PrefixSum.round sum_op inclusive d st)
        (fuel_step n d fuel hf)
      have := Net.ReachLE.trans hround hrest
      simp only [PrefixSum.rounds, hd, if_true]
      exact this.mono (by rw [Nat.mul_succ]; omega)
    · simp only [PrefixSum.loop, hd, if_false, PrefixSum.rounds]
      exact Net.ReachLE.stay n _ _

/-! ### PrefixSum: what the rounds compute -/

theorem PrefixSum.round_forward {α : Type} (op : α → α → α)
    (hassoc : ∀ a b c, op (op a b) c = op a (op b c)) (inclusive : Bool) (v : Nat → α)
    (d : Nat) (st : Nat → PrefixSum.Locals α) (hd : 1 ≤ d)
    (hfw : ∀ i, (st i).to_forward = foldRange op v (i - min i (d - 1)) (min i (d - 1))) (i : Nat) :
    (PrefixSum.round op inclusive d st i).to_forward
      = foldRange op v (i - min i (2 * d - 1)) (min i (2 * d - 1)) := by
  unfold PrefixSum.round
  by_cases hid : i ≥ d
  · simp only [hid, if_true]
    rw [hfw (i - d), hfw i]
    have e1 : i - min i (d - 1) = (i - d - min (i - d) (d - 1)) + min (i - d) (d - 1) + 1 := by
      omega
    rw [e1, foldRange_append op hassoc]
    have e2 : i - d - min (i - d) (d - 1) = i - min i (2 * d - 1) := by omega
    have e3 : min (i - d) (d - 1) + min i (d - 1) + 1 = min i (2 * d - 1) := by omega
    rw [e2, e3]
  · simp only [hid, if_false]
    rw [hfw i]
    have e2 : min i (d - 1) = min i (2 * d - 1) := by omega
    rw [e2]

theorem PrefixSum.rounds_inclusive {α : Type} (op : α → α → α)
    (hassoc : ∀ a b c, op (op a b) c = op a (op b c)) (n : Nat) (v : Nat → α)
    (fuel d : Nat) (st : Nat → PrefixSum.Locals α) (hd : 1 ≤ d) (hf : n ≤ d * 2 ^ fuel)
    (hfw : ∀ i, (st i).to_forward = foldRange op v (i - min i (d - 1)) (min i (d - 1)))
    (hval : ∀ i, (st i).value = foldRange op v (i - min i (d - 1)) (min i (d - 1)))
    (i : Nat) (hi : i < n) :
    (PrefixSum.rounds op true n fuel d st i).value = foldRange op v 0 i := by
  induction fuel generalizing d st with
  | zero =>
    simp only [PrefixSum.rounds]
    rw [hval i]
    have hnd : n ≤ d := by simpa using hf
    have e : min i (d - 1) = i := by omega
    rw [e, Nat.sub_self]
  | succ fuel ih =>
    by_cases hdn : d < n
    · simp only [PrefixSum.rounds, hdn, if_true]
      apply ih (d <<< 1) _ (by rw [shl_one]; omega) (fuel_step n d fuel hf)
      · intro j
        rw [shl_one]
        exact PrefixSum.round_forward op hassoc true v d st hd hfw j
      · intro j
        rw [shl_one]
        unfold PrefixSum.round
        by_cases hjd : j ≥ d
        · simp only [hjd, if_true, Bool.or_true]
          rw [hfw (j - d), hval j]
          have e1 : j - min j (d - 1)
              = (j - d - min (j - d) (d - 1)) + min (j - d) (d - 1) + 1 := by omega
          rw [e1, foldRange_append op hassoc]
          have e2 : j - d - min (j - d) (d - 1) = j - min j (2 * d - 1) := by omega
          have e3 : min (j - d) (d - 1) + min j (d - 1) + 1 = min j (2 * d - 1) := by omega
          rw [e2, e3]
        · simp only [hjd, if_false]
          rw [hval j]
          have e2 : min j (d - 1) = min j (2 * d - 1) := by omega
          rw [e2]
    · simp only [PrefixSum.rounds, hdn, if_false]
      rw [hval i]
      have e : min i (d - 1) = i := by omega
      rw [e, Nat.sub_self]

theorem PrefixSum.rounds_exclusive {α : Type} (op : α → α → α)
    (hassoc : ∀ a b c, op (op a b) c = op a (op b c)) (n : Nat) (v : Nat → α)
    (fuel d : Nat) (st : Nat → PrefixSum.Locals α) (hd : 1 ≤ d) (hf : n ≤ d * 2 ^ fuel)
    (hfw : ∀ i, (st i).to_forward = foldRange op v (i - min i (d - 1)) (min i (d - 1)))
    (hfirst : d = 1 → ∀ i, (st i).first = true)
    (hval : 2 ≤ d → ∀ i, 1 ≤ i → (st i).first = false ∧
      (st i).value = foldRange op v (i - 1 - min (i - 1) (d - 2)) (min (i - 1) (d - 2)))
    (i : Nat) (hi0 : 1 ≤ i) (hi : i < n) :
    (PrefixSum.rounds op false n fuel d st i).value = foldRange op v 0 (i - 1) := by
  induction fuel generalizing d st with
  | zero =>
    simp only [PrefixSum.rounds]
    have hnd : n ≤ d := by simpa using hf
    rw [(hval (by omega) i hi0).2]
    have e : min (i - 1) (d - 2) = i - 1 := by omega
    rw [e, Nat.sub_self]
  | succ fuel ih =>
    by_cases hdn : d < n
    · simp only [PrefixSum.rounds, hdn, if_true]
      apply ih (d <<< 1) _ (by rw [shl_one]; omega) (fuel_step n d fuel hf)
      · intro j
        rw [shl_one]
        exact PrefixSum.round_forward op hassoc false v d st hd hfw j
      · intro h; rw [shl_one] at h; omega
      · intro _ j hj
        rw [shl_one]
        unfold PrefixSum.round
        by_cases hjd : j ≥ d
        · simp only [hjd, if_true, Bool.or_false]
          by_cases hd1 : d = 1
          · subst hd1
            simp only [hfirst rfl j, Bool.not_true, if_false, Bool.false_eq_true, true_and]
            rw [hfw (j - 1)]
          · obtain ⟨h1, h2⟩ := hval (by omega) j hj
            simp only [h1, Bool.not_false, if_true, true_and]
            rw [hfw (j - d), h2]
            have e1 : j - 1 - min (j - 1) (d - 2)
                = (j - d - min (j - d) (d - 1)) + min (j - d) (d - 1) + 1 := by omega
            rw [e1, foldRange_append op hassoc]
            have e2 : j - d - min (j - d) (d - 1) = j - 1 - min (j - 1) (2 * d - 2) := by omega
            have e3 : min (j - d) (d - 1) + min (j - 1) (d - 2) + 1 = min (j - 1) (2 * d - 2) := by
              omega
            rw [e2, e3]
        · simp only [hjd, if_false]
          obtain ⟨h1, h2⟩ := hval (by omega) j hj
          refine ⟨h1, ?_⟩
          rw [h2]
          have e2 : min (j - 1) (d - 2) = min (j - 1) (2 * d - 2) := by omega
          rw [e2]
    · simp only [PrefixSum.rounds, hdn, if_false]
      rw [(hval (by omega) i hi0).2]
      have e : min (i - 1) (d - 2) = i - 1 := by omega
      rw [e, Nat.sub_self]

theorem two_pow_ge (n : Nat) : n ≤ 1 * 2 ^ n := by
  rw [Nat.one_mul]; exact Nat.le_of_lt (Nat.lt_two_pow n)

theorem budget_rounds (n : Nat) : 2 * n * n ≤ Net.budget n := by
  unfold Net.budget; nlinarith

/-- Outcome of `PrefixSum` on a whole group, in terms of the round view. -/
theorem PrefixSum.ps_run_eq {α : Type} [Inhabited α] (op : α → α → α) (inclusive : Bool)
    (vs : List α) :
    Group.run (PrefixSum op inclusive) vs = some ((List.range vs.length).map (fun i =>
      if !inclusive && i == 0 then default
      else (PrefixSum.rounds op inclusive vs.length vs.length 1
        (fun j => { value := vs.getD j default, to_forward := vs.getD j default, first := true })
        i).value)) := by
  unfold Group.run
  apply Net.exec_of_reach vs.length (2 * vs.length * vs.length) _ _ _ (budget_rounds _)
  exact PrefixSum.ps_reach_rounds op inclusive vs.length vs.length 1
    (fun j => { value := vs.getD j default, to_forward := vs.getD j default, first := true })
    (two_pow_ge _)

/-! ### Bit arithmetic at a power of two -/

theorem two_pow_pos1 (j : Nat) : 1 ≤ 2 ^ j := Nat.one_le_two_pow

theorem and_two_pow_ne_zero (i j : Nat) : i &&& 2 ^ j ≠ 0 ↔ i / 2 ^ j % 2 = 1 := by
  rw [Nat.and_two_pow, Nat.testBit_to_div_mod]
  have hp := two_pow_pos1 j
  by_cases h : i / 2 ^ j % 2 = 1
  · simp only [h, decide_True, Bool.toNat_true, Nat.one_mul, ne_eq, iff_true]
    omega
  · simp [h]

theorem xor_two_pow (i j : Nat) :
    i ^^^ 2 ^ j = if i / 2 ^ j % 2 = 1 then i - 2 ^ j else i + 2 ^ j := by
  induction j generalizing i with
  | zero =>
    have h1 : (i ^^^ 1) / 2 = i / 2 := by rw [Nat.xor_div_two]; simp
    have h2 : (i ^^^ 1) % 2 = (i + 1) % 2 := Nat.xor_mod_two_eq
    simp only [pow_zero, Nat.div_one]
    split_ifs <;> omega
  | succ j ih =>
    have hp := two_pow_pos1 j
    have e : 2 ^ (j + 1) = 2 * 2 ^ j := by rw [pow_succ]; ring
    have h1 : (i ^^^ 2 ^ (j + 1)) / 2 = i / 2 ^^^ 2 ^ j := by
      rw [Nat.xor_div_two, e, Nat.mul_div_cancel_left _ (by decide : 0 < 2)]
    have h2 : (i ^^^ 2 ^ (j + 1)) % 2 = i % 2 := by
      rw [Nat.xor_mod_two_eq, e]; omega
    have h3 : i / 2 ^ (j + 1) = i / 2 / 2 ^ j := by
      rw [e, Nat.div_div_eq_div_mul]
    have ih2 := ih (i / 2)
    rw [e] at h1 h2
    rw [h3, e]
    by_cases hb : i / 2 / 2 ^ j % 2 = 1
    · simp only [hb, if_true] at ih2 ⊢
      have hge : 2 ^ j ≤ i / 2 := by
        by_contra hlt
        rw [Nat.div_eq_of_lt (by omega)] at hb
        simp at hb
      omega
    · simp only [hb, if_false] at ih2 ⊢
      omega

theorem div_mod_set (i d : Nat) (hp : 0 < d) (h : i / d % 2 = 1) :
    d ≤ i ∧ i % (2 * d) = i % d + d ∧ (i - d) % d = i % d ∧
      (i - d) / d % 2 = 0 ∧ (i - d) % (2 * d) = i % d := by
  have hge : d ≤ i := by
    by_contra hlt
    rw [Nat.div_eq_of_lt (by omega)] at h
    simp at h
  have hm : i % (d * 2) = i % d + d * (i / d % 2) := Nat.mod_mul
  rw [h, Nat.mul_one, Nat.mul_comm] at hm
  have hsub : (i - d) % d = i % d := by
    conv_rhs => rw [← Nat.sub_add_cancel hge]
    rw [Nat.add_mod_right]
  have hdiv : i / d = (i - d) / d + 1 := by
    have h5 := Nat.add_div_right (i - d) hp
    rw [Nat.sub_add_cancel hge] at h5
    exact h5
  have hm2 : (i - d) % (d * 2) = (i - d) % d + d * ((i - d) / d % 2) := Nat.mod_mul
  have hd0 : (i - d) / d % 2 = 0 := by omega
  rw [hd0, Nat.mul_zero, Nat.add_zero, hsub, Nat.mul_comm] at hm2
  exact ⟨hge, hm, hsub, hd0, hm2⟩

theorem div_mod_clear (i d : Nat) (hp : 0 < d) (h : ¬ i / d % 2 = 1) :
    i % (2 * d) = i % d ∧ (i + d) % d = i % d ∧
      (i + d) / d % 2 = 1 ∧ (i + d) % (2 * d) = i % d + d := by
  have h0 : i / d % 2 = 0 := by omega
  have hm : i % (d * 2) = i % d + d * (i / d % 2) := Nat.mod_mul
  rw [h0, Nat.mul_zero, Nat.add_zero, Nat.mul_comm] at hm
  have hadd : (i + d) % d = i % d := Nat.add_mod_right _ _
  have hdiv : (i + d) / d = i / d + 1 := Nat.add_div_right _ hp
  have hd1 : (i + d) / d % 2 = 1 := by omega
  have hm2 : (i + d) % (d * 2) = (i + d) % d + d * ((i + d) / d % 2) := Nat.mod_mul
  rw [hd1, Nat.mul_one, hadd, Nat.mul_comm] at hm2
  exact ⟨hm, hadd, hd1, hm2⟩

/-- Everything needed about round `d = 2^j` at rank `i`, bit `j` of `i` set. -/
theorem bit_set_facts (i j : Nat) (h : i / 2 ^ j % 2 = 1) :
    i &&& 2 ^ j ≠ 0 ∧ i ^^^ 2 ^ j = i - 2 ^ j ∧ 2 ^ j ≤ i ∧
      i % (2 * 2 ^ j) = i % 2 ^ j + 2 ^ j ∧ (i - 2 ^ j) % 2 ^ j = i % 2 ^ j ∧
      (i - 2 ^ j) / 2 ^ j % 2 = 0 ∧ (i - 2 ^ j) % (2 * 2 ^ j) = i % 2 ^ j := by
  obtain ⟨h1, h2, h3, h4, h5⟩ := div_mod_set i (2 ^ j) (two_pow_pos1 j) h
  refine ⟨(and_two_pow_ne_zero i j).mpr h, ?_, h1, h2, h3, h4, h5⟩
  rw [xor_two_pow, if_pos h]

/-- Everything needed about round `d = 2^j` at rank `i`, bit `j` of `i` clear. -/
theorem bit_clear_facts (i j : Nat) (h : ¬ i / 2 ^ j % 2 = 1) :
    i &&& 2 ^ j = 0 ∧ i ^^^ 2 ^ j = i + 2 ^ j ∧
      i % (2 * 2 ^ j) = i % 2 ^ j ∧ (i + 2 ^ j) % 2 ^ j = i % 2 ^ j ∧
      (i + 2 ^ j) / 2 ^ j % 2 = 1 ∧ (i + 2 ^ j) % (2 * 2 ^ j) = i % 2 ^ j + 2 ^ j := by
  obtain ⟨h2, h3, h4, h5⟩ := div_mod_clear i (2 ^ j) (two_pow_pos1 j) h
  refine ⟨?_, ?_, h2, h3, h4, h5⟩
  · by_contra hne
    exact h ((and_two_pow_ne_zero i j).mp hne)
  · rw [xor_two_pow, if_neg h]

theorem xor_xor_self (i d : Nat) : (i ^^^ d) ^^^ d = i := Nat.xor_cancel_right d i

/-- An aligned block of size `e` that starts below `n` ends at or below `n`
when `e` divides `n`. -/
theorem block_le (i n e : Nat) (he : e ∣ n) (hi : i < n) : i - i % e + e ≤ n := by
  obtain ⟨c, rfl⟩ := he
  rcases Nat.eq_zero_or_pos e with h0 | hpos
  · subst h0; simp at hi
  have h1 : i / e < c := Nat.div_lt_of_lt_mul hi
  have h2 : e * (i / e) + i % e = i := Nat.div_add_mod i e
  have h3 : e * (i / e + 1) ≤ e * c := Nat.mul_le_mul_left e h1
  have h4 : e * (i / e + 1) = e * (i / e) + e := by ring
  omega

theorem two_pow_dvd_of_lt (j m : Nat) (h : 2 ^ j < 2 ^ m) : 2 * 2 ^ j ∣ 2 ^ m := by
  have hjm : j < m := (Nat.pow_lt_pow_iff_right (by decide : 1 < 2)).mp h
  have e : 2 * 2 ^ j = 2 ^ (j + 1) := by rw [pow_succ]; ring
  rw [e]
  exact Nat.pow_dvd_pow 2 hjm

/-! ### Cyclic shift of ranks -/

theorem mod_lt2 (x n : Nat) (h : x < 2 * n) : x % n = if x < n then x else x - n := by
  split_ifs with hx
  · exact Nat.mod_eq_of_lt hx
  · rw [Nat.mod_eq_sub_mod (by omega), Nat.mod_eq_of_lt (by omega)]

theorem mod_lt3 (x n : Nat) (h : x < 3 * n) :
    x % n = if x < n then x else if x < 2 * n then x - n else x - 2 * n := by
  split_ifs with hx hx2
  · exact Nat.mod_eq_of_lt hx
  · rw [Nat.mod_eq_sub_mod (by omega), Nat.mod_eq_of_lt (by omega)]
  · rw [Nat.mod_eq_sub_mod (by omega), Nat.mod_eq_sub_mod (by omega), Nat.mod_eq_of_lt (by omega)]
    omega

/-- Shifted rank of `i` relative to `root`, by cases. -/
theorem shifted_eq (n root i : Nat) (hr : root < n) (hi : i < n) :
    (i + n - root) % n = if root ≤ i then i - root else i + n - root := by
  rw [mod_lt2 _ n (by omega)]
  split_ifs <;> omega

theorem shifted_lt (n root i : Nat) (hr : root < n) : (i + n - root) % n < n :=
  Nat.mod_lt _ (by omega)

/-- Real rank of shifted rank `s`, by cases. -/
theorem unshift_eq (n root s : Nat) (hr : root < n) (hs : s < n) :
    (s + root) % n = if s + root < n then s + root else s + root - n := by
  rw [mod_lt2 _ n (by omega)]

theorem unshift_shifted (n root i : Nat) (hr : root < n) (hi : i < n) :
    ((i + n - root) % n + root) % n = i := by
  rw [shifted_eq n root i hr hi]
  split_ifs with h
  · rw [mod_lt2 _ n (by omega)]; split_ifs <;> omega
  · rw [mod_lt2 _ n (by omega)]; split_ifs <;> omega

theorem shifted_unshift (n root s : Nat) (hr : root < n) (hs : s < n) :
    ((s + root) % n + n - root) % n = s := by
  rw [unshift_eq n root s hr hs]
  split_ifs with h
  · rw [mod_lt2 _ n (by omega)]; split_ifs <;> omega
  · rw [mod_lt2 _ n (by omega)]; split_ifs <;> omega

/-- The rank `Reduce` sends to: shifted rank lowered by `d`. -/
theorem reduce_dst (n root i d : Nat) (hr : root < n) (hi : i < n)
    (hd : d ≤ (i + n - root) % n) :
    (i + n - d) % n = ((i + n - root) % n - d + root) % n := by
  rw [shifted_eq n root i hr hi] at hd ⊢
  split_ifs at hd ⊢ with h
  · rw [mod_lt2 _ n (by omega), mod_lt2 _ n (by omega)]; split_ifs <;> omega
  · rw [mod_lt2 _ n (by omega), mod_lt2 _ n (by omega)]; split_ifs <;> omega

/-- The rank `Reduce` receives from: shifted rank raised by `d`. -/
theorem reduce_src (n root i d : Nat) (hr : root < n) (hi : i < n)
    (hd : (i + n - root) % n + d < n) :
    (i + n + d) % n = ((i + n - root) % n + d + root) % n := by
  rw [shifted_eq n root i hr hi] at hd ⊢
  split_ifs at hd ⊢ with h
  · rw [mod_lt3 _ n (by omega), mod_lt2 _ n (by omega)]; split_ifs <;> omega
  · rw [mod_lt3 _ n (by omega), mod_lt2 _ n (by omega)]; split_ifs <;> omega

/-! ### Hypercube collectives: the scheduler realises the rounds -/

theorem PrefixSumHypercube.psh_reach_rounds {α : Type} (sum_op : α → α → α)
    (n : Nat) (fuel d : Nat) (st : Nat → PrefixSumHypercube.Locals α)
    (hf : n ≤ d * 2 ^ fuel) :
    Net.ReachLE n (2 * n * fuel)
      (Net.init n (fun i => PrefixSumHypercube.loop sum_op n i fuel d
        (st i).value (st i).total_sum))
      (Net.init n (fun i => Prog.done
        (PrefixSumHypercube.rounds sum_op n fuel d st i).value)) := by
  induction fuel generalizing d st with
  | zero =>
    have hd : ¬ d < n := by simp at hf; omega
    simp only [PrefixSumHypercube.loop, hd, if_false, PrefixSumHypercube.rounds]
    exact Net.ReachLE.stay n _ _
  | succ fuel ih =>
    by_cases hd : d < n
    · have hround : Net.ReachLE n (2 * n)
          (Net.init n (fun i => PrefixSumHypercube.loop sum_op n i (fuel + 1) d
            (st i).value (st i).total_sum))
          (Net.init n (fun i => PrefixSumHypercube.loop sum_op n i fuel (d <<< 1)
            (PrefixSumHypercube.round sum_op n d st i).value
            (PrefixSumHypercube.round sum_op n d st i).total_sum)) := by
        apply Net.round_matched n _
          (fun i => if (i ^^^ d) < n then
              Prog.recv (i ^^^ d) (fun recv_data =>
                PrefixSumHypercube.loop sum_op n i fuel (d <<< 1)
                  (if i &&& d ≠ 0 then sum_op recv_data (st i).value else (st i).value)
                  (if i &&& d ≠ 0 then sum_op recv_data (st i).total_sum
                   else sum_op (st i).total_sum recv_data))
            else
              PrefixSumHypercube.loop sum_op n i fuel (d <<< 1) (st i).value (st i).total_sum)
          _ (fun i => decide ((i ^^^ d) < n)) (fun j => decide ((j ^^^ d) < n))
          (fun i => i ^^^ d) (fun j => j ^^^ d) (fun i => (st i).total_sum)
        · intro i _
          simp only [PrefixSumHypercube.loop, hd, if_true]
        · intro j _ hR
          have hjd : (j ^^^ d) < n := by simpa using hR
          refine ⟨_, by simp only [hjd, if_true]; rfl, ?_⟩
          simp only [PrefixSumHypercube.round, hjd, if_true]
        · intro j _ hR
          have hjd : ¬ (j ^^^ d) < n := by simpa using hR
          simp only [PrefixSumHypercube.round, hjd, if_false]
        · intro i hi hS
          have : (i ^^^ d) < n := by simpa using hS
          refine ⟨this, ?_, xor_xor_self i d⟩
          simp only [xor_xor_self, decide_eq_true_eq]; exact hi
        · intro j hj hR
          have hjd : (j ^^^ d) < n := by simpa using hR
          refine ⟨hjd, ?_, xor_xor_self j d⟩
          simp only [xor_xor_self, decide_eq_true_eq]; exact hj
      have hrest := ih (d <<< 1) (PrefixSumHypercube.round sum_op n d st) (fuel_step n d fuel hf)
      have := Net.ReachLE.trans hround hrest
      simp only [PrefixSumHypercube.rounds, hd, if_true]
      exact this.mono (by rw [Nat.mul_succ]; omega)
    · simp only [PrefixSumHypercube.loop, hd, if_false, PrefixSumHypercube.rounds]
      exact Net.ReachLE.stay n _ _

theorem AllReduceHypercube.arh_reach_rounds {α : Type} (sum_op : α → α → α)
    (n : Nat) (fuel d : Nat) (st : Nat → α) (hf : n ≤ d * 2 ^ fuel) :
    Net.ReachLE n (2 * n * fuel)
      (Net.init n (fun i => AllReduceHypercube.loop sum_op n i fuel d (st i)))
      (Net.init n (fun i => Prog.done (AllReduceHypercube.rounds sum_op n fuel d st i))) := by
  induction fuel generalizing d st with
  | zero =>
    have hd : ¬ d < n := by simp at hf; omega
    simp only [AllReduceHypercube.loop, hd, if_false, AllReduceHypercube.rounds]
    exact Net.ReachLE.stay n _ _
  | succ fuel ih =>
    by_cases hd : d < n
    · have hround : Net.ReachLE n (2 * n)
          (Net.init n (fun i => AllReduceHypercube.loop sum_op n i (fuel + 1) d (st i)))
          (Net.init n (fun i => AllReduceHypercube.loop sum_op n i fuel (d <<< 1)
            (AllReduceHypercube.round sum_op n d st i))) := by
        apply Net.round_matched n _
          (fun i => if (i ^^^ d) < n then
              Prog.recv (i ^^^ d) (fun recv_data =>
                AllReduceHypercube.loop sum_op n i fuel (d <<< 1)
                  (if i &&& d ≠ 0 then sum_op recv_data (st i) else sum_op (st i) recv_data))
            else
              AllReduceHypercube.loop sum_op n i fuel (d <<< 1) (st i))
          _ (fun i => decide ((i ^^^ d) < n)) (fun j => decide ((j ^^^ d) < n))
          (fun i => i ^^^ d) (fun j => j ^^^ d) (fun i => st i)
        · intro i _
          simp only [AllReduceHypercube.loop, hd, if_true]
        · intro j _ hR
          have hjd : (j ^^^ d) < n := by simpa using hR
          refine ⟨_, by simp only [hjd, if_true]; rfl, ?_⟩
          simp only [AllReduceHypercube.round, hjd, if_true]
        · intro j _ hR
          have hjd : ¬ (j ^^^ d) < n := by simpa using hR
          simp only [AllReduceHypercube.round, hjd, if_false]
        · intro i hi hS
          have : (i ^^^ d) < n := by simpa using hS
          refine ⟨this, ?_, xor_xor_self i d⟩
          simp only [xor_xor_self, decide_eq_true_eq]; exact hi
        · intro j hj hR
          have hjd : (j ^^^ d) < n := by simpa using hR
          refine ⟨hjd, ?_, xor_xor_self j d⟩
          simp only [xor_xor_self, decide_eq_true_eq]; exact hj
      have hrest := ih (d <<< 1) (AllReduceHypercube.round sum_op n d st) (fuel_step n d fuel hf)
      have := Net.ReachLE.trans hround hrest
      simp only [AllReduceHypercube.rounds, hd, if_true]
      exact this.mono (by rw [Nat.mul_succ]; omega)
    · simp only [AllReduceHypercube.loop, hd, if_false, AllReduceHypercube.rounds]
      exact Net.ReachLE.stay n _ _

/-- Outcome of `PrefixSumHypercube` on a whole group, in terms of the round view. -/
theorem PrefixSumHypercube.psh_run_eq {α : Type} [Inhabited α] (op : α → α → α) (vs : List α) :
    Group.run (PrefixSumHypercube op) vs = some ((List.range vs.length).map (fun i =>
      (PrefixSumHypercube.rounds op vs.length vs.length 1
        (fun j => { value := vs.getD j default, total_sum := vs.getD j default }) i).value)) := by
  unfold Group.run
  apply Net.exec_of_reach vs.length (2 * vs.length * vs.length) _ _ _ (budget_rounds _)
  exact PrefixSumHypercube.psh_reach_rounds op vs.length vs.length 1
    (fun j => { value := vs.getD j default, total_sum := vs.getD j default }) (two_pow_ge _)

/-- Outcome of `AllReduceHypercube` on a whole group, in terms of the round view. -/
theorem AllReduceHypercube.arh_run_eq {α : Type} [Inhabited α] (op : α → α → α) (vs : List α) :
    Group.run (AllReduceHypercube op) vs = some ((List.range vs.length).map (fun i =>
      AllReduceHypercube.rounds op vs.length vs.length 1 (fun j => vs.getD j default) i)) := by
  unfold Group.run
  apply Net.exec_of_reach vs.length (2 * vs.length * vs.length) _ _ _ (budget_rounds _)
  exact AllReduceHypercube.arh_reach_rounds op vs.length vs.length 1
    (fun j => vs.getD j default) (two_pow_ge _)

/-! ### Hypercube collectives on a power-of-two group -/

/-- One round keeps the block invariant: `total_sum` is the fold of the aligned
block of size `d` around the worker, `value` the fold of that block up to the
worker. -/
theorem PrefixSumHypercube.round_inv {α : Type} (op : α → α → α)
    (hassoc : ∀ a b c, op (op a b) c = op a (op b c)) (n j : Nat) (v : Nat → α)
    (st : Nat → PrefixSumHypercube.Locals α) (hdvd : 2 * 2 ^ j ∣ n)
    (hinv : ∀ i, i < n →
      (st i).total_sum = foldRange op v (i - i % 2 ^ j) (2 ^ j - 1) ∧
      (st i).value = foldRange op v (i - i % 2 ^ j) (i % 2 ^ j))
    (i : Nat) (hi : i < n) :
    (PrefixSumHypercube.round op n (2 ^ j) st i).total_sum
        = foldRange op v (i - i % (2 * 2 ^ j)) (2 * 2 ^ j - 1) ∧
    (PrefixSumHypercube.round op n (2 ^ j) st i).value
        = foldRange op v (i - i % (2 * 2 ^ j)) (i % (2 * 2 ^ j)) := by
  have hp := two_pow_pos1 j
  have hmod := Nat.mod_lt i hp
  have hblk := block_le i n (2 * 2 ^ j) hdvd hi
  have hmle := Nat.mod_le i (2 * 2 ^ j)
  unfold PrefixSumHypercube.round
  by_cases hb : i / 2 ^ j % 2 = 1
  · obtain ⟨f1, f2, f3, f4, f5, -, -⟩ := bit_set_facts i j hb
    have hpeer : i - 2 ^ j < n := by omega
    obtain ⟨q1, q2⟩ := hinv (i - 2 ^ j) hpeer
    obtain ⟨p1, p2⟩ := hinv i hi
    rw [f5] at q1 q2
    simp only [f2, hpeer, if_true, f1, ne_eq, not_false_eq_true]
    rw [q1, p1, p2, f4]
    generalize 2 ^ j = d at *
    have e1 : i - i % d = (i - d - i % d) + (d - 1) + 1 := by omega
    rw [e1, foldRange_append op hassoc, foldRange_append op hassoc]
    have e2 : i - d - i % d = i - (i % d + d) := by omega
    have e3 : d - 1 + (d - 1) + 1 = 2 * d - 1 := by omega
    have e4 : d - 1 + i % d + 1 = i % d + d := by omega
    rw [e2, e3, e4]
    exact ⟨rfl, rfl⟩
  · obtain ⟨f1, f2, f4, f5, -, -⟩ := bit_clear_facts i j hb
    have hpeer : i + 2 ^ j < n := by omega
    obtain ⟨q1, q2⟩ := hinv (i + 2 ^ j) hpeer
    obtain ⟨p1, p2⟩ := hinv i hi
    rw [f5] at q1 q2
    simp only [f2, hpeer, if_true, f1, ne_eq, not_true_eq_false, if_false]
    rw [q1, p1, p2, f4]
    generalize 2 ^ j = d at *
    have e1 : i + d - i % d = (i - i % d) + (d - 1) + 1 := by omega
    rw [e1, foldRange_append op hassoc]
    have e3 : d - 1 + (d - 1) + 1 = 2 * d - 1 := by omega
    rw [e3]
    exact ⟨rfl, rfl⟩

theorem PrefixSumHypercube.rounds_pow2 {α : Type} (op : α → α → α)
    (hassoc : ∀ a b c, op (op a b) c = op a (op b c)) (m : Nat) (v : Nat → α)
    (fuel j : Nat) (st : Nat → PrefixSumHypercube.Locals α)
    (hj : j ≤ m) (hf : 2 ^ m ≤ 2 ^ j * 2 ^ fuel)
    (hinv : ∀ i, i < 2 ^ m →
      (st i).total_sum = foldRange op v (i - i % 2 ^ j) (2 ^ j - 1) ∧
      (st i).value = foldRange op v (i - i % 2 ^ j) (i % 2 ^ j))
    (i : Nat) (hi : i < 2 ^ m) :
    (PrefixSumHypercube.rounds op (2 ^ m) fuel (2 ^ j) st i).total_sum
        = foldRange op v 0 (2 ^ m - 1) ∧
    (PrefixSumHypercube.rounds op (2 ^ m) fuel (2 ^ j) st i).value = foldRange op v 0 i := by
  have hfinal : ¬ 2 ^ j < 2 ^ m →
      (st i).total_sum = foldRange op v 0 (2 ^ m - 1) ∧ (st i).value = foldRange op v 0 i := by
    intro hnot
    have hle : 2 ^ j ≤ 2 ^ m := Nat.pow_le_pow_right (by decide) hj
    have heq : 2 ^ j = 2 ^ m := by omega
    obtain ⟨p1, p2⟩ := hinv i hi
    rw [heq, Nat.mod_eq_of_lt hi, Nat.sub_self] at p1 p2
    exact ⟨p1, p2⟩
  induction fuel generalizing j st with
  | zero =>
    simp only [PrefixSumHypercube.rounds]
    apply hfinal
    simp only [pow_zero, Nat.mul_one] at hf
    omega
  | succ fuel ih =>
    by_cases hd : 2 ^ j < 2 ^ m
    · simp only [PrefixSumHypercube.rounds, hd, if_true]
      have hjm : j < m := (Nat.pow_lt_pow_iff_right (by decide : 1 < 2)).mp hd
      have e : (2 ^ j) <<< 1 = 2 ^ (j + 1) := by rw [shl_one, pow_succ]; ring
      have e2 : 2 * 2 ^ j = 2 ^ (j + 1) := by rw [pow_succ]; ring
      rw [e]
      have hinv2 := PrefixSumHypercube.round_inv op hassoc (2 ^ m) j v st
        (two_pow_dvd_of_lt j m hd) hinv
      rw [e2] at hinv2
      refine ih (j + 1) _ hjm ?_ hinv2 ?_
      · have := fuel_step (2 ^ m) (2 ^ j) fuel hf
        rwa [e] at this
      · intro hnot
        have hle : 2 ^ (j + 1) ≤ 2 ^ m := Nat.pow_le_pow_right (by decide) hjm
        have heq : 2 ^ (j + 1) = 2 ^ m := by omega
        obtain ⟨p1, p2⟩ := hinv2 i hi
        rw [heq, Nat.mod_eq_of_lt hi, Nat.sub_self] at p1 p2
        exact ⟨p1, p2⟩
    · simp only [PrefixSumHypercube.rounds, hd, if_false]
      exact hfinal hd

/-- The values of `AllReduceHypercube` evolve like the `total_sum` of
`PrefixSumHypercube`. -/
theorem AllReduceHypercube.rounds_eq_total {α : Type} (op : α → α → α) (n fuel d : Nat)
    (st : Nat → PrefixSumHypercube.Locals α) (i : Nat) :
    AllReduceHypercube.rounds op n fuel d (fun k => (st k).total_sum) i
      = (PrefixSumHypercube.rounds op n fuel d st i).total_sum := by
  induction fuel generalizing d st with
  | zero => rfl
  | succ fuel ih =>
    simp only [AllReduceHypercube.rounds, PrefixSumHypercube.rounds]
    split_ifs with hd
    · rw [← ih]
      congr 1
      funext k
      simp only [AllReduceHypercube.round, PrefixSumHypercube.round]
      split_ifs <;> rfl
    · rfl

/-! ### Reduce: senders and receivers of a round match -/

theorem Reduce.send_match (n root i j : Nat) (hr : root < n) (hi : i < n)
    (hact : (i + n - root) % n % 2 ^ j = 0) (hbit : (i + n - root) % n &&& 2 ^ j ≠ 0) :
    (i + n - 2 ^ j) % n < n ∧
    (((i + n - 2 ^ j) % n + n - root) % n) % 2 ^ j = 0 ∧
    (((i + n - 2 ^ j) % n + n - root) % n) &&& 2 ^ j = 0 ∧
    (((i + n - 2 ^ j) % n + n - root) % n) + 2 ^ j < n ∧
    ((i + n - 2 ^ j) % n + n + 2 ^ j) % n = i := by
  have hp := two_pow_pos1 j
  have hb := (and_two_pow_ne_zero _ j).mp hbit
  obtain ⟨h1, -, h3, h4, -⟩ := div_mod_set _ (2 ^ j) hp hb
  have hs := shifted_lt n root i hr
  have hdst := reduce_dst n root i (2 ^ j) hr hi h1
  have hlt : (i + n - root) % n - 2 ^ j < n := by omega
  have hsh := shifted_unshift n root ((i + n - root) % n - 2 ^ j) hr hlt
  rw [← hdst] at hsh
  have htn : (i + n - 2 ^ j) % n < n := Nat.mod_lt _ (by omega)
  refine ⟨htn, ?_, ?_, ?_, ?_⟩
  · rw [hsh, h3]; exact hact
  · rw [hsh]
    by_contra hne
    have := (and_two_pow_ne_zero _ j).mp hne
    omega
  · rw [hsh]; omega
  · rw [reduce_src n root _ (2 ^ j) hr htn (by rw [hsh]; omega), hsh,
      Nat.sub_add_cancel h1]
    exact unshift_shifted n root i hr hi

theorem Reduce.recv_match (n root i j : Nat) (hr : root < n) (hi : i < n)
    (hact : (i + n - root) % n % 2 ^ j = 0) (hbit : (i + n - root) % n &&& 2 ^ j = 0)
    (hlt : (i + n - root) % n + 2 ^ j < n) :
    (i + n + 2 ^ j) % n < n ∧
    (((i + n + 2 ^ j) % n + n - root) % n) = (i + n - root) % n + 2 ^ j ∧
    (((i + n + 2 ^ j) % n + n - root) % n) % 2 ^ j = 0 ∧
    (((i + n + 2 ^ j) % n + n - root) % n) &&& 2 ^ j ≠ 0 ∧
    ((i + n + 2 ^ j) % n + n - 2 ^ j) % n = i := by
  have hp := two_pow_pos1 j
  have hb : ¬ (i + n - root) % n / 2 ^ j % 2 = 1 := by
    intro h
    exact (and_two_pow_ne_zero _ j).mpr h hbit
  obtain ⟨-, h3, h4, -⟩ := div_mod_clear _ (2 ^ j) hp hb
  have hsrc := reduce_src n root i (2 ^ j) hr hi hlt
  have hsh := shifted_unshift n root ((i + n - root) % n + 2 ^ j) hr hlt
  rw [← hsrc] at hsh
  have hsn : (i + n + 2 ^ j) % n < n := Nat.mod_lt _ (by omega)
  refine ⟨hsn, hsh, ?_, ?_, ?_⟩
  · rw [hsh, h3]; exact hact
  · rw [hsh]; exact (and_two_pow_ne_zero _ j).mpr h4
  · rw [reduce_dst n root _ (2 ^ j) hr hsn (by rw [hsh]; omega), hsh, Nat.add_sub_cancel]
    exact unshift_shifted n root i hr hi

/-- Who is still in the loop after round `2^j`: the workers whose shifted rank
is a multiple of `2^(j+1)`. -/
theorem Reduce.round_active {α : Type} (op : α → α → α) (n root j : Nat)
    (st : Nat → Reduce.Locals α)
    (hact : ∀ i, i < n → ((st i).active = true ↔ (i + n - root) % n % 2 ^ j = 0))
    (i : Nat) (hi : i < n) :
    (Reduce.round op n root (2 ^ j) st i).active = true
      ↔ (i + n - root) % n % 2 ^ (j + 1) = 0 := by
  have hp := two_pow_pos1 j
  have e2 : 2 ^ (j + 1) = 2 * 2 ^ j := by rw [pow_succ]; ring
  rw [e2]
  have ha := hact i hi
  unfold Reduce.round
  by_cases hb : (i + n - root) % n / 2 ^ j % 2 = 1
  · obtain ⟨h1, h2, -, -, -⟩ := div_mod_set _ (2 ^ j) hp hb
    have hne := (and_two_pow_ne_zero _ j).mpr hb
    by_cases hA : (st i).active = true
    · simp only [hA, if_true, hne, ne_eq, not_false_eq_true]
      simp only [Bool.false_eq_true, false_iff]
      omega
    · simp only [hA, if_false, Bool.false_eq_true, false_iff]
      omega
  · obtain ⟨h2, -, -, -⟩ := div_mod_clear _ (2 ^ j) hp hb
    have hne : (i + n - root) % n &&& 2 ^ j = 0 := by
      by_contra h
      exact hb ((and_two_pow_ne_zero _ j).mp h)
    by_cases hA : (st i).active = true
    · simp only [hA, if_true, hne, ne_eq, not_true_eq_false, if_false]
      have h0 := ha.mp hA
      split_ifs
      · simp only [true_iff]; omega
      · simp only [hA, true_iff]; omega
    · simp only [hA, if_false, Bool.false_eq_true, false_iff]
      have h0 : ¬ (i + n - root) % n % 2 ^ j = 0 := fun h => hA (ha.mpr h)
      omega

/-! ### Reduce: the scheduler realises the rounds -/

theorem Reduce.reach_round {α : Type} (op : α → α → α) (n root : Nat) (hr : root < n)
    (fuel j : Nat) (st : Nat → Reduce.Locals α) (hd : 2 ^ j < n)
    (hact : ∀ i, i < n → ((st i).active = true ↔ (i + n - root) % n % 2 ^ j = 0)) :
    Net.ReachLE n (2 * n)
      (Net.init n (fun i => Reduce.resume op n root i (fuel + 1) (2 ^ j) (st i)))
      (Net.init n (fun i => Reduce.resume op n root i fuel ((2 ^ j) <<< 1)
        (Reduce.round op n root (2 ^ j) st i))) := by
  apply Net.round_matched n _
    (fun i =>
      if (st i).active then
        if (i + n - root) % n &&& 2 ^ j ≠ 0 then Prog.done (st i).value
        else if (i + n - root) % n + 2 ^ j < n then
          Prog.recv ((i + n + 2 ^ j) % n) (fun recv_data =>
            Reduce.loop op n (i + n) ((i + n - root) % n) fuel ((2 ^ j) <<< 1)
              (op (st i).value recv_data))
        else Reduce.loop op n (i + n) ((i + n - root) % n) fuel ((2 ^ j) <<< 1) (st i).value
      else Prog.done (st i).value)
    _
    (fun i => (st i).active && decide ((i + n - root) % n &&& 2 ^ j ≠ 0))
    (fun i => (st i).active && decide ((i + n - root) % n &&& 2 ^ j = 0)
      && decide ((i + n - root) % n + 2 ^ j < n))
    (fun i => (i + n - 2 ^ j) % n) (fun i => (i + n + 2 ^ j) % n) (fun i => (st i).value)
  · intro i _
    simp only [Reduce.resume, Reduce.loop, hd, if_true]
    by_cases hA : (st i).active = true
    · by_cases hb : (i + n - root) % n &&& 2 ^ j ≠ 0
      · simp only [hA, hb, if_true, Prog.sendIf, decide_True, Bool.and_self, ne_eq,
          not_false_eq_true]
      · simp only [hA, hb, if_true, if_false, Prog.sendIf, decide_False, Bool.and_false,
          Bool.false_eq_true, ne_eq, not_false_eq_true]
    · simp only [hA, if_false, Prog.sendIf, Bool.false_eq_true]
      simp only [Bool.not_eq_true] at hA
      simp [hA]
  · intro i _ hR
    simp only [Bool.and_eq_true, decide_eq_true_eq] at hR
    obtain ⟨⟨hA, hb⟩, hlt⟩ := hR
    refine ⟨_, by simp only [hA, hb, hlt, if_true, ne_eq, not_true_eq_false, if_false]; rfl, ?_⟩
    simp only [Reduce.resume, Reduce.round, hA, hb, hlt, if_true, ne_eq, not_true_eq_false,
      if_false]
  · intro i _ hR
    by_cases hA : (st i).active = true
    · by_cases hb : (i + n - root) % n &&& 2 ^ j = 0
      · have hlt : ¬ (i + n - root) % n + 2 ^ j < n := by
          intro h
          simp [hA, hb, h] at hR
        simp only [Reduce.resume, Reduce.round, hA, hb, hlt, if_true, ne_eq, not_true_eq_false,
          if_false]
      · simp only [Reduce.resume, Reduce.round, hA, hb, if_true, ne_eq, not_false_eq_true,
          Bool.false_eq_true, if_false]
    · simp only [Reduce.resume, Reduce.round, hA, if_false, Bool.false_eq_true]
  · intro i hi hS
    simp only [Bool.and_eq_true, decide_eq_true_eq] at hS
    obtain ⟨hA, hb⟩ := hS
    obtain ⟨h1, h2, h3, h4, h5⟩ :=
      Reduce.send_match n root i j hr hi ((hact i hi).mp hA) hb
    refine ⟨h1, ?_, h5⟩
    simp only [Bool.and_eq_true, decide_eq_true_eq]
    exact ⟨⟨(hact _ h1).mpr h2, h3⟩, h4⟩
  · intro i hi hR
    simp only [Bool.and_eq_true, decide_eq_true_eq] at hR
    obtain ⟨⟨hA, hb⟩, hlt⟩ := hR
    obtain ⟨h1, -, h3, h4, h5⟩ :=
      Reduce.recv_match n root i j hr hi ((hact i hi).mp hA) hb hlt
    refine ⟨h1, ?_, h5⟩
    simp only [Bool.and_eq_true, decide_eq_true_eq]
    exact ⟨(hact _ h1).mpr h3, h4⟩

theorem Reduce.resume_done {α : Type} (op : α → α → α) (n root i fuel d : Nat)
    (l : Reduce.Locals α) (hd : ¬ d < n) :
    Reduce.resume op n root i fuel d l = Prog.done l.value := by
  unfold Reduce.resume
  cases fuel <;> simp [Reduce.loop, hd]

theorem Reduce.red_reach_rounds {α : Type} (op : α → α → α) (n root : Nat) (hr : root < n)
    (fuel j : Nat) (st : Nat → Reduce.Locals α) (hf : n ≤ 2 ^ j * 2 ^ fuel)
    (hact : ∀ i, i < n → ((st i).active = true ↔ (i + n - root) % n % 2 ^ j = 0)) :
    Net.ReachLE n (2 * n * fuel)
      (Net.init n (fun i => Reduce.resume op n root i fuel (2 ^ j) (st i)))
      (Net.init n (fun i => Prog.done (Reduce.rounds op n root fuel (2 ^ j) st i).value)) := by
  induction fuel generalizing j st with
  | zero =>
    have hd : ¬ 2 ^ j < n := by simp at hf; omega
    simp only [Reduce.resume_done op n root _ 0 (2 ^ j) _ hd, Reduce.rounds]
    exact Net.ReachLE.stay n _ _
  | succ fuel ih =>
    by_cases hd : 2 ^ j < n
    · have hround := Reduce.reach_round op n root hr fuel j st hd hact
      have e : (2 ^ j) <<< 1 = 2 ^ (j + 1) := by rw [shl_one, pow_succ]; ring
      have hf2 := fuel_step n (2 ^ j) fuel hf
      rw [e] at hround hf2
      have hrest := ih (j + 1) (Reduce.round op n root (2 ^ j) st) hf2
        (Reduce.round_active op n root j st hact)
      have := Net.ReachLE.trans hround hrest
      simp only [Reduce.rounds, hd, if_true, e]
      exact this.mono (by rw [Nat.mul_succ]; omega)
    · simp only [Reduce.resume_done op n root _ (fuel + 1) (2 ^ j) _ hd, Reduce.rounds, hd,
        if_false]
      exact Net.ReachLE.stay n _ _

/-! ### Reduce: what the rounds compute -/

theorem mod_two_mul_zero (s d : Nat) (hp : 0 < d) (h : s % (2 * d) = 0) :
    s % d = 0 ∧ ¬ s / d % 2 = 1 := by
  have hm : s % (d * 2) = s % d + d * (s / d % 2) := Nat.mod_mul
  rw [Nat.mul_comm, h] at hm
  have h1 : s % d = 0 := by omega
  have h2 : d * (s / d % 2) = 0 := by omega
  rcases Nat.mul_eq_zero.mp h2 with h3 | h3
  · omega
  · exact ⟨h1, by omega⟩

/-- One round keeps the subtree invariant: a worker whose shifted rank `s` is a
multiple of the round step holds the fold of the shifted ranks from `s` up to
the end of its block (cut at `n`). -/
theorem Reduce.round_value {α : Type} (op : α → α → α)
    (hassoc : ∀ a b c, op (op a b) c = op a (op b c)) (n root j : Nat) (hr : root < n)
    (v : Nat → α) (st : Nat → Reduce.Locals α)
    (hact : ∀ i, i < n → ((st i).active = true ↔ (i + n - root) % n % 2 ^ j = 0))
    (hval : ∀ i, i < n → (i + n - root) % n % 2 ^ j = 0 →
      (st i).value = foldRange op (fun s => v ((s + root) % n)) ((i + n - root) % n)
        (min (2 ^ j) (n - (i + n - root) % n) - 1))
    (i : Nat) (hi : i < n) (h0 : (i + n - root) % n % 2 ^ (j + 1) = 0) :
    (Reduce.round op n root (2 ^ j) st i).value
      = foldRange op (fun s => v ((s + root) % n)) ((i + n - root) % n)
        (min (2 ^ (j + 1)) (n - (i + n - root) % n) - 1) := by
  have hp := two_pow_pos1 j
  have e2 : 2 ^ (j + 1) = 2 * 2 ^ j := by rw [pow_succ]; ring
  rw [e2] at h0 ⊢
  obtain ⟨hd0, hb⟩ := mod_two_mul_zero _ (2 ^ j) hp h0
  have hA := (hact i hi).mpr hd0
  have hbit : (i + n - root) % n &&& 2 ^ j = 0 := by
    by_contra h
    exact hb ((and_two_pow_ne_zero _ j).mp h)
  have hs := shifted_lt n root i hr
  unfold Reduce.round
  simp only [hA, if_true, hbit, ne_eq, not_true_eq_false, if_false]
  by_cases hlt : (i + n - root) % n + 2 ^ j < n
  · obtain ⟨h1, h2, h3, -, -⟩ := Reduce.recv_match n root i j hr hi hd0 hbit hlt
    simp only [hlt, if_true]
    rw [hval i hi hd0, hval _ h1 h3, h2]
    generalize (i + n - root) % n = s at *
    generalize 2 ^ j = d at *
    have e1 : s + d = s + (min d (n - s) - 1) + 1 := by omega
    rw [e1, foldRange_append op hassoc]
    have e3 : min d (n - s) - 1 + (min d (n - (s + (min d (n - s) - 1) + 1)) - 1) + 1
        = min (2 * d) (n - s) - 1 := by omega
    rw [e3]
  · simp only [hlt, if_false]
    rw [hval i hi hd0]
    generalize (i + n - root) % n = s at *
    generalize 2 ^ j = d at *
    have e3 : min d (n - s) = min (2 * d) (n - s) := by omega
    rw [e3]

theorem Reduce.rounds_value {α : Type} (op : α → α → α)
    (hassoc : ∀ a b c, op (op a b) c = op a (op b c)) (n root : Nat) (hr : root < n)
    (v : Nat → α) (fuel j : Nat) (st : Nat → Reduce.Locals α) (hf : n ≤ 2 ^ j * 2 ^ fuel)
    (hact : ∀ i, i < n → ((st i).active = true ↔ (i + n - root) % n % 2 ^ j = 0))
    (hval : ∀ i, i < n → (i + n - root) % n % 2 ^ j = 0 →
      (st i).value = foldRange op (fun s => v ((s + root) % n)) ((i + n - root) % n)
        (min (2 ^ j) (n - (i + n - root) % n) - 1)) :
    (Reduce.rounds op n root fuel (2 ^ j) st root).value
      = foldRange op (fun s => v ((s + root) % n)) 0 (n - 1) := by
  have hroot : (root + n - root) % n = 0 := by
    rw [Nat.add_sub_cancel_left, Nat.mod_self]
  have hfinal : ∀ (jj : Nat) (st2 : Nat → Reduce.Locals α), ¬ 2 ^ jj < n →
      (∀ i, i < n → (i + n - root) % n % 2 ^ jj = 0 →
        (st2 i).value = foldRange op (fun s => v ((s + root) % n)) ((i + n - root) % n)
          (min (2 ^ jj) (n - (i + n - root) % n) - 1)) →
      (st2 root).value = foldRange op (fun s => v ((s + root) % n)) 0 (n - 1) := by
    intro jj st2 hnot hv
    have := hv root hr (by rw [hroot]; exact Nat.zero_mod _)
    rw [hroot] at this
    rw [this]
    have e : min (2 ^ jj) (n - 0) - 1 = n - 1 := by omega
    rw [e]
  induction fuel generalizing j st with
  | zero =>
    simp only [Reduce.rounds]
    apply hfinal j st _ hval
    simp only [pow_zero, Nat.mul_one] at hf
    omega
  | succ fuel ih =>
    by_cases hd : 2 ^ j < n
    · have e : (2 ^ j) <<< 1 = 2 ^ (j + 1) := by rw [shl_one, pow_succ]; ring
      simp only [Reduce.rounds, hd, if_true, e]
      have hf2 := fuel_step n (2 ^ j) fuel hf
      rw [e] at hf2
      exact ih (j + 1) _ hf2 (Reduce.round_active op n root j st hact)
        (Reduce.round_value op hassoc n root j hr v st hact hval)
    · simp only [Reduce.rounds, hd, if_false]
      exact hfinal j st hd hval

/-- Outcome of `Reduce` on a whole group, in terms of the round view. -/
theorem Reduce.red_run_eq {α : Type} [Inhabited α] (op : α → α → α) (vs : List α) (root : Nat)
    (hr : root < vs.length) :
    Group.run (fun n r => Reduce op n r root) vs = some ((List.range vs.length).map (fun i =>
      (Reduce.rounds op vs.length root vs.length 1
        (fun k => { value := vs.getD k default, active := true }) i).value)) := by
  unfold Group.run
  apply Net.exec_of_reach vs.length (2 * vs.length * vs.length) _ _ _ (budget_rounds _)
  have h := Reduce.red_reach_rounds op vs.length root hr vs.length 0
    (fun k => { value := vs.getD k default, active := true })
    (by rw [pow_zero]; exact two_pow_ge _) (by intro i _; simp [Nat.mod_one])
  rw [pow_zero] at h
  exact h

/-- The value `Reduce` leaves at the root: the fold in cyclic rank order
starting at the root. -/
theorem Reduce.rounds_root {α : Type} [Inhabited α] (op : α → α → α)
    (hassoc : ∀ a b c, op (op a b) c = op a (op b c)) (vs : List α) (root : Nat)
    (hr : root < vs.length) :
    (Reduce.rounds op vs.length root vs.length 1
        (fun k => { value := vs.getD k default, active := true }) root).value
      = foldLeft op (vs.rotate root) := by
  have h := Reduce.rounds_value op hassoc vs.length root hr (fun k => vs.getD k default)
    vs.length 0 (fun k => { value := vs.getD k default, active := true })
    (by rw [pow_zero]; exact two_pow_ge _) (by intro i _; simp [Nat.mod_one])
    (by
      intro i hi _
      simp only [pow_zero]
      have hs := shifted_lt vs.length root i hr
      have e : min 1 (vs.length - (i + vs.length - root) % vs.length) - 1 = 0 := by omega
      rw [e]
      simp only [foldRange]
      rw [unshift_shifted vs.length root i hr hi])
  rw [pow_zero] at h
  rw [h]
  have hlen : (vs.rotate root).length = (vs.length - 1) + 1 := by
    rw [List.length_rotate]; omega
  rw [foldLeft_all op (vs.rotate root) (vs.length - 1) hlen]
  apply foldRange_congr
  intro s _ hs
  have hs2 : s < vs.length := by omega
  have hs3 : s < (vs.rotate root).length := by rw [List.length_rotate]; exact hs2
  rw [List.getD_eq_getElem _ _ hs3, List.getElem_rotate]
  show vs.getD ((s + root) % vs.length) default = _
  rw [List.getD_eq_getElem _ _ (Nat.mod_lt _ (by omega))]

/-! ### BroadcastTrivial -/

theorem BroadcastTrivial.reach_stage {α : Type} (n origin : Nat) (x : α) (p : Nat)
    (ho : origin < n) (hp : p < n) :
    Net.ReachLE n (2 * n) (Net.init n (BroadcastTrivial.stage n origin x p))
      (Net.init n (BroadcastTrivial.stage n origin x (p + 1))) := by
  apply Net.round_matched n _
    (fun i => if i = origin then BroadcastTrivial.stage n origin x (p + 1) i
      else BroadcastTrivial.stage n origin x p i)
    _
    (fun i => decide (i = origin ∧ p ≠ origin)) (fun j => decide (j = p ∧ p ≠ origin))
    (fun _ => p) (fun _ => origin) (fun _ => x)
  · intro i _
    by_cases hio : i = origin
    · subst hio
      have e : n - p = (n - (p + 1)) + 1 := by omega
      simp only [BroadcastTrivial.stage, if_true, true_and]
      rw [e]
      simp only [BroadcastTrivial.sendLoop, hp, if_true]
    · simp only [hio, if_false, false_and, decide_False, Prog.sendIf, Bool.false_eq_true]
  · intro j _ hR
    simp only [decide_eq_true_eq] at hR
    obtain ⟨rfl, hne⟩ := hR
    refine ⟨fun received => Prog.done received, ?_, ?_⟩
    · simp only [hne, if_false, BroadcastTrivial.stage, lt_irrefl]
    · simp only [BroadcastTrivial.stage, hne, if_false, Nat.lt_succ_self, if_true]
  · intro j _ hR
    simp only [decide_eq_false_iff_not, not_and, not_not] at hR
    by_cases hjo : j = origin
    · simp only [hjo, if_true]
    · simp only [hjo, if_false, BroadcastTrivial.stage]
      have hjp : j ≠ p := by
        intro h
        exact hjo (h ▸ (hR h))
      have : (j < p + 1) = (j < p) := by apply propext; omega
      simp only [this]
  · intro i _ hS
    simp only [decide_eq_true_eq] at hS
    obtain ⟨rfl, hne⟩ := hS
    refine ⟨hp, ?_, rfl⟩
    simp only [decide_eq_true_eq]
    exact ⟨trivial, hne⟩
  · intro j _ hR
    simp only [decide_eq_true_eq] at hR
    obtain ⟨rfl, hne⟩ := hR
    refine ⟨ho, ?_, rfl⟩
    simp only [decide_eq_true_eq]
    exact ⟨trivial, hne⟩

theorem BroadcastTrivial.reach_stages {α : Type} (n origin : Nat) (x : α) (ho : origin < n)
    (p : Nat) (hp : p ≤ n) :
    Net.ReachLE n (2 * n * p) (Net.init n (BroadcastTrivial.stage n origin x 0))
      (Net.init n (BroadcastTrivial.stage n origin x p)) := by
  induction p with
  | zero => exact Net.ReachLE.stay n _ _
  | succ p ih =>
    have := Net.ReachLE.trans (ih (by omega)) (BroadcastTrivial.reach_stage n origin x p ho
      (by omega))
    exact this.mono (by rw [Nat.mul_succ])

/-- Outcome of `BroadcastTrivial` on a whole group. -/
theorem BroadcastTrivial.bt_run_eq {α : Type} [Inhabited α] (vs : List α) (origin : Nat)
    (ho : origin < vs.length) :
    Group.run (fun n r => BroadcastTrivial n r origin) vs
      = some ((List.range vs.length).map (fun _ => vs.getD origin default)) := by
  unfold Group.run
  apply Net.exec_of_reach vs.length (2 * vs.length * vs.length) _ _ _ (budget_rounds _)
  have h := BroadcastTrivial.reach_stages vs.length origin (vs.getD origin default) ho
    vs.length (Nat.le_refl _)
  have e1 : Net.init vs.length (fun i => BroadcastTrivial vs.length i origin (vs.getD i default))
      = Net.init vs.length (BroadcastTrivial.stage vs.length origin (vs.getD origin default) 0) := by
    apply Net.init_congr
    intro i _
    unfold BroadcastTrivial BroadcastTrivial.stage
    by_cases hio : i = origin
    · subst hio; simp
    · simp [hio]
  have e2 : Net.init vs.length
        (BroadcastTrivial.stage vs.length origin (vs.getD origin default) vs.length)
      = Net.init vs.length (fun _ => Prog.done (vs.getD origin default)) := by
    apply Net.init_congr
    intro i hi
    unfold BroadcastTrivial.stage
    by_cases hio : i = origin
    · simp [hio, BroadcastTrivial.sendLoop]
    · simp [hio, hi]
  rw [e1, ← e2]
  exact h

/-! ### BroadcastBinomialTree: helpers -/

theorem shr_one (d : Nat) : d >>> 1 = d / 2 := by
  rw [Nat.shiftRight_eq_div_pow, pow_one]

theorem BroadcastBinomialTree.sendLoop_fuel {α : Type} (n origin s : Nat) (x : α)
    (f1 f2 d : Nat) (h1 : d ≤ f1) (h2 : d ≤ f2) :
    BroadcastBinomialTree.sendLoop n origin s x f1 d
      = BroadcastBinomialTree.sendLoop n origin s x f2 d := by
  induction f1 generalizing f2 d with
  | zero =>
    have hd : d = 0 := by omega
    subst hd
    cases f2 <;> simp [BroadcastBinomialTree.sendLoop]
  | succ f1 ih =>
    cases f2 with
    | zero =>
      have hd : d = 0 := by omega
      subst hd
      simp [BroadcastBinomialTree.sendLoop]
    | succ f2 =>
      simp only [BroadcastBinomialTree.sendLoop]
      split_ifs with hd
      · rw [ih f2 (d >>> 1) (by rw [shr_one]; omega) (by rw [shr_one]; omega)]
      · rfl

theorem BroadcastBinomialTree.sendLoop_unfold {α : Type} (n origin s : Nat) (x : α)
    (fuel d : Nat) (hd : 0 < d) (hf : d ≤ fuel) :
    BroadcastBinomialTree.sendLoop n origin s x fuel d
      = Prog.sendIf (decide (s + d < n)) ((s + d + origin) % n) x
          (BroadcastBinomialTree.sendLoop n origin s x (d >>> 1) (d >>> 1)) := by
  cases fuel with
  | zero => omega
  | succ fuel =>
    simp only [BroadcastBinomialTree.sendLoop, hd, gt_iff_lt, if_true]
    rw [BroadcastBinomialTree.sendLoop_fuel n origin s x fuel (d >>> 1) (d >>> 1)
      (by rw [shr_one]; omega) (Nat.le_refl _)]

theorem mod_two_mul_eq (s d : Nat) (hp : 0 < d) (h : s % (2 * d) = d) :
    s % d = 0 ∧ s / d % 2 = 1 := by
  have hm : s % (d * 2) = s % d + d * (s / d % 2) := Nat.mod_mul
  rw [Nat.mul_comm, h] at hm
  have hlt := Nat.mod_lt s hp
  have hb : s / d % 2 = 0 ∨ s / d % 2 = 1 := by omega
  rcases hb with hb | hb
  · rw [hb] at hm; omega
  · rw [hb] at hm; exact ⟨by omega, hb⟩

theorem mod_two_mul_cases (s d : Nat) (h : s % d = 0) :
    s % (2 * d) = 0 ∨ s % (2 * d) = d := by
  have hm : s % (d * 2) = s % d + d * (s / d % 2) := Nat.mod_mul
  rw [Nat.mul_comm, h] at hm
  have hb : s / d % 2 = 0 ∨ s / d % 2 = 1 := by omega
  rcases hb with hb | hb
  · rw [hb] at hm; left; omega
  · rw [hb] at hm; right; omega

theorem ffs_go_eq (e : Nat) : ∀ s fuel, s % (2 * 2 ^ e) = 2 ^ e → e < fuel →
    ffs.go fuel s = e + 1 := by
  induction e with
  | zero =>
    intro s fuel h hf
    cases fuel with
    | zero => omega
    | succ fuel =>
      simp only [pow_zero, Nat.mul_one] at h
      simp [ffs.go, h]
  | succ e ih =>
    intro s fuel h hf
    cases fuel with
    | zero => omega
    | succ fuel =>
      have hp := two_pow_pos1 e
      have e2 : 2 ^ (e + 1) = 2 * 2 ^ e := by rw [pow_succ]; ring
      rw [e2] at h
      have hm : s % (2 * (2 * 2 ^ e)) = s % 2 + 2 * (s / 2 % (2 * 2 ^ e)) := Nat.mod_mul
      rw [h] at hm
      have h0 : ¬ s % 2 = 1 := by omega
      have h1 : s / 2 % (2 * 2 ^ e) = 2 ^ e := by omega
      simp only [ffs.go, h0, if_false]
      rw [ih (s / 2) fuel h1 (by omega)]
      omega

/-- The lowest set bit of `s`, as `BroadcastBinomialTree` computes it. -/
theorem ffs_low_bit (s e : Nat) (h : s % (2 * 2 ^ e) = 2 ^ e) : 1 <<< (ffs s - 1) = 2 ^ e := by
  have hp := two_pow_pos1 e
  have hle : s % (2 * 2 ^ e) ≤ s := Nat.mod_le _ _
  have hlt : e < 2 ^ e := Nat.lt_two_pow e
  have hs : s ≠ 0 := by omega
  unfold ffs
  rw [if_neg hs, ffs_go_eq e s s h (by omega), Nat.add_sub_cancel, Nat.shiftLeft_eq, Nat.one_mul]

theorem RoundUpToPowerOfTwo.go_spec (n : Nat) : ∀ fuel k, n ≤ 2 ^ k * 2 ^ fuel →
    (k = 0 ∨ 2 ^ (k - 1) < n) →
    ∃ m, RoundUpToPowerOfTwo.go n fuel (2 ^ k) = 2 ^ m ∧ n ≤ 2 ^ m ∧ (m = 0 ∨ 2 ^ (m - 1) < n) := by
  intro fuel
  induction fuel with
  | zero =>
    intro k h1 h2
    exact ⟨k, rfl, by simpa using h1, h2⟩
  | succ fuel ih =>
    intro k h1 h2
    simp only [RoundUpToPowerOfTwo.go]
    split_ifs with hle
    · exact ⟨k, rfl, hle, h2⟩
    · have e2 : 2 * 2 ^ k = 2 ^ (k + 1) := by rw [pow_succ]; ring
      rw [e2]
      apply ih (k + 1)
      · have : 2 ^ k * 2 ^ (fuel + 1) = 2 ^ (k + 1) * 2 ^ fuel := by
          rw [pow_succ, pow_succ]; ring
        rw [← this]; exact h1
      · right
        simp only [Nat.add_sub_cancel]
        omega

/-- `RoundUpToPowerOfTwo n` is the least power of two that is at least `n`. -/
theorem RoundUpToPowerOfTwo.spec (n : Nat) :
    ∃ m, RoundUpToPowerOfTwo n = 2 ^ m ∧ n ≤ 2 ^ m ∧ (m = 0 ∨ 2 ^ (m - 1) < n) := by
  have h := RoundUpToPowerOfTwo.go_spec n n 0 (by rw [pow_zero]; exact two_pow_ge n) (Or.inl rfl)
  rw [pow_zero] at h
  exact h

theorem two_pow_pred_shr (m : Nat) (n : Nat) (h : m = 0 ∨ 2 ^ (m - 1) < n) :
    2 ^ m >>> 1 ≤ n ∧ m ≤ n := by
  rcases h with h | h
  · subst h; simp [shr_one]
  · rcases Nat.eq_zero_or_pos m with h0 | h0
    · subst h0; simp [shr_one]
    · have e : 2 ^ m = 2 * 2 ^ (m - 1) := by
        conv_lhs => rw [show m = (m - 1) + 1 by omega]
        rw [pow_succ]; ring
      have hlt : m - 1 < 2 ^ (m - 1) := Nat.lt_two_pow _
      rw [shr_one, e]
      omega

/-! ### BroadcastBinomialTree: one tree level -/

theorem BroadcastBinomialTree.reach_level {α : Type} (n origin : Nat) (v : Nat → α) (e : Nat)
    (ho : origin < n) :
    Net.ReachLE n (2 * n) (Net.init n (BroadcastBinomialTree.level n origin v (e + 1)))
      (Net.init n (BroadcastBinomialTree.level n origin v e)) := by
  have hp := two_pow_pos1 e
  have e2 : 2 ^ (e + 1) = 2 * 2 ^ e := by rw [pow_succ]; ring
  have hshr : (2 * 2 ^ e) >>> 1 = 2 ^ e := by rw [shr_one]; omega
  apply Net.round_matched n _
    (fun i =>
      if (i + n - origin) % n % (2 * 2 ^ e) = 0 then
        BroadcastBinomialTree.sendLoop n origin ((i + n - origin) % n) (v origin)
          (2 ^ e >>> 1) (2 ^ e >>> 1)
      else BroadcastBinomialTree n i origin (v i))
    _
    (fun i => decide ((i + n - origin) % n % (2 * 2 ^ e) = 0 ∧ (i + n - origin) % n + 2 ^ e < n))
    (fun j => decide ((j + n - origin) % n % (2 * 2 ^ e) = 2 ^ e))
    (fun i => ((i + n - origin) % n + 2 ^ e + origin) % n)
    (fun j => ((j + n - origin) % n - 2 ^ e + origin) % n)
    (fun _ => v origin)
  · intro i _
    simp only [BroadcastBinomialTree.level, e2, hshr]
    by_cases hinf : (i + n - origin) % n % (2 * 2 ^ e) = 0
    · simp only [hinf, if_true, true_and]
      exact BroadcastBinomialTree.sendLoop_unfold n origin _ (v origin) (2 ^ e) (2 ^ e) hp
        (Nat.le_refl _)
    · simp only [hinf, if_false, false_and, decide_False, Prog.sendIf, Bool.false_eq_true]
  · intro j hj hR
    simp only [decide_eq_true_eq] at hR
    have hs := shifted_lt n origin j ho
    have hle : (j + n - origin) % n % (2 * 2 ^ e) ≤ (j + n - origin) % n := Nat.mod_le _ _
    obtain ⟨hd0, hb⟩ := mod_two_mul_eq _ (2 ^ e) hp hR
    obtain ⟨-, hxor, -, -, -, -, -⟩ := bit_set_facts _ e hb
    have hne : ¬ (j + n - origin) % n % (2 * 2 ^ e) = 0 := by omega
    have hpos : (j + n - origin) % n > 0 := by omega
    refine ⟨fun received => BroadcastBinomialTree.sendLoop n origin ((j + n - origin) % n)
      received n (2 ^ e >>> 1), ?_, ?_⟩
    · simp only [hne, if_false, BroadcastBinomialTree, hpos, if_true, ffs_low_bit _ e hR, hxor]
    · simp only [BroadcastBinomialTree.level, hd0, if_true]
      apply BroadcastBinomialTree.sendLoop_fuel
      · exact Nat.le_refl _
      · rw [shr_one]; omega
  · intro j _ hR
    simp only [decide_eq_false_iff_not] at hR
    simp only [BroadcastBinomialTree.level]
    by_cases hinf : (j + n - origin) % n % (2 * 2 ^ e) = 0
    · obtain ⟨hd0, -⟩ := mod_two_mul_zero _ (2 ^ e) hp hinf
      simp only [hinf, hd0, if_true]
    · have hd0 : ¬ (j + n - origin) % n % 2 ^ e = 0 := by
        intro h
        rcases mod_two_mul_cases _ (2 ^ e) h with h1 | h1
        · exact hinf h1
        · exact hR h1
      simp only [hinf, hd0, if_false]
  · intro i hi hS
    simp only [decide_eq_true_eq] at hS
    obtain ⟨hinf, hlt⟩ := hS
    obtain ⟨hd0, hb⟩ := mod_two_mul_zero _ (2 ^ e) hp hinf
    obtain ⟨-, -, -, h5⟩ := div_mod_clear _ (2 ^ e) hp hb
    have hsh := shifted_unshift n origin ((i + n - origin) % n + 2 ^ e) ho hlt
    refine ⟨Nat.mod_lt _ (by omega), ?_, ?_⟩
    · simp only [decide_eq_true_eq]
      rw [hsh, h5, hd0, Nat.zero_add]
    · show ((((i + n - origin) % n + 2 ^ e + origin) % n + n - origin) % n - 2 ^ e + origin) % n
        = i
      rw [hsh, Nat.add_sub_cancel]
      exact unshift_shifted n origin i ho hi
  · intro j hj hR
    simp only [decide_eq_true_eq] at hR
    have hs := shifted_lt n origin j ho
    obtain ⟨hd0, hb⟩ := mod_two_mul_eq _ (2 ^ e) hp hR
    obtain ⟨h1, -, -, -, h5⟩ := div_mod_set _ (2 ^ e) hp hb
    have hlt : (j + n - origin) % n - 2 ^ e < n := by omega
    have hsh := shifted_unshift n origin ((j + n - origin) % n - 2 ^ e) ho hlt
    refine ⟨Nat.mod_lt _ (by omega), ?_, ?_⟩
    · simp only [decide_eq_true_eq]
      rw [hsh, h5, Nat.sub_add_cancel h1]
      exact ⟨hd0, hs⟩
    · show ((((j + n - origin) % n - 2 ^ e + origin) % n + n - origin) % n + 2 ^ e + origin) % n
        = j
      rw [hsh, Nat.sub_add_cancel h1]
      exact unshift_shifted n origin j ho hj

theorem BroadcastBinomialTree.reach_levels {α : Type} (n origin : Nat) (v : Nat → α)
    (ho : origin < n) (e : Nat) :
    Net.ReachLE n (2 * n * e) (Net.init n (BroadcastBinomialTree.level n origin v e))
      (Net.init n (BroadcastBinomialTree.level n origin v 0)) := by
  induction e with
  | zero => exact Net.ReachLE.stay n _ _
  | succ e ih =>
    have := Net.ReachLE.trans (BroadcastBinomialTree.reach_level n origin v e ho) ih
    exact this.mono (by rw [Nat.mul_succ]; omega)

/-- Execution of `BroadcastBinomialTree` on a group whose worker `i` holds `v i`:
every worker returns with the origin's value. -/
theorem BroadcastBinomialTree.reach {α : Type} (n origin : Nat) (v : Nat → α) (ho : origin < n) :
    Net.ReachLE n (2 * n * n) (Net.init n (fun i => BroadcastBinomialTree n i origin (v i)))
      (Net.init n (fun _ => Prog.done (v origin))) := by
  obtain ⟨m, hm1, hm2, hm3⟩ := RoundUpToPowerOfTwo.spec n
  obtain ⟨hm4, hm5⟩ := two_pow_pred_shr m n hm3
  have e1 : Net.init n (fun i => BroadcastBinomialTree n i origin (v i))
      = Net.init n (BroadcastBinomialTree.level n origin v m) := by
    apply Net.init_congr
    intro i hi
    have hs := shifted_lt n origin i ho
    simp only [BroadcastBinomialTree.level]
    by_cases h0 : (i + n - origin) % n = 0
    · have hio : i = origin := by
        have := unshift_shifted n origin i ho hi
        rw [h0, Nat.zero_add, Nat.mod_eq_of_lt ho] at this
        exact this.symm
      subst hio
      simp only [BroadcastBinomialTree, h0, gt_iff_lt, lt_irrefl, if_false, Nat.zero_mod, if_true,
        hm1]
      apply BroadcastBinomialTree.sendLoop_fuel
      · exact hm4
      · exact Nat.le_refl _
    · have : ¬ (i + n - origin) % n % 2 ^ m = 0 := by
        rw [Nat.mod_eq_of_lt (by omega)]; exact h0
      simp only [this, if_false]
  have e2 : Net.init n (BroadcastBinomialTree.level n origin v 0)
      = Net.init n (fun _ => Prog.done (v origin)) := by
    apply Net.init_congr
    intro i _
    simp [BroadcastBinomialTree.level, Nat.mod_one, shr_one, BroadcastBinomialTree.sendLoop]
  rw [e1, ← e2]
  exact (BroadcastBinomialTree.reach_levels n origin v ho m).mono
    (Nat.mul_le_mul_left _ hm5)

/-- Outcome of `BroadcastBinomialTree` on a whole group. -/
theorem BroadcastBinomialTree.bbt_run_eq {α : Type} [Inhabited α] (vs : List α) (origin : Nat)
    (ho : origin < vs.length) :
    Group.run (fun n r => BroadcastBinomialTree n r origin) vs
      = some ((List.range vs.length).map (fun _ => vs.getD origin default)) := by
  unfold Group.run
  apply Net.exec_of_reach vs.length (2 * vs.length * vs.length) _ _ _ (budget_rounds _)
  exact BroadcastBinomialTree.reach vs.length origin (fun i => vs.getD i default) ho

/-! ### Whole-group outcomes -/

theorem map_range_const {α : Type} (n : Nat) (x : α) :
    (List.range n).map (fun _ => x) = List.replicate n x := by
  induction n with
  | zero => rfl
  | succ n ih =>
    rw [List.range_succ, List.map_append, ih, List.replicate_succ']
    rfl

/-- Outcome of `PrefixSum` with `inclusive = true`. -/
theorem PrefixSum.run_inclusive {α : Type} [Inhabited α] (op : α → α → α)
    (hassoc : ∀ a b c, op (op a b) c = op a (op b c)) (vs : List α) :
    Group.run (PrefixSum op true) vs
      = some ((List.range vs.length).map (fun k => foldLeft op (vs.take (k + 1)))) := by
  rw [PrefixSum.ps_run_eq]
  congr 1
  apply List.map_congr_left
  intro k hk
  have hk2 : k < vs.length := List.mem_range.mp hk
  simp only [Bool.not_true, Bool.false_and, Bool.false_eq_true, if_false]
  rw [foldLeft_take op vs k hk2]
  apply PrefixSum.rounds_inclusive op hassoc vs.length _ vs.length 1 _ (Nat.le_refl 1)
    (two_pow_ge _) _ _ k hk2
  · intro i; simp [foldRange]
  · intro i; simp [foldRange]

/-- Outcome of `PrefixSumHypercube` on a group of `2^m` workers. -/
theorem PrefixSumHypercube.psh_run_pow2 {α : Type} [Inhabited α] (op : α → α → α)
    (hassoc : ∀ a b c, op (op a b) c = op a (op b c)) (vs : List α) (m : Nat)
    (hm : vs.length = 2 ^ m) :
    Group.run (PrefixSumHypercube op) vs
      = some ((List.range vs.length).map (fun k => foldLeft op (vs.take (k + 1)))) := by
  rw [PrefixSumHypercube.psh_run_eq]
  congr 1
  apply List.map_congr_left
  intro k hk
  have hk2 : k < vs.length := List.mem_range.mp hk
  rw [foldLeft_take op vs k hk2]
  have h := PrefixSumHypercube.rounds_pow2 op hassoc m (fun i => vs.getD i default) vs.length 0
    (fun j => { value := vs.getD j default, total_sum := vs.getD j default })
    (Nat.zero_le m) (by rw [pow_zero, ← hm]; exact two_pow_ge _)
    (by intro i _; simp [Nat.mod_one, foldRange]) k (by rw [← hm]; exact hk2)
  rw [pow_zero, ← hm] at h
  exact h.2

/-- Outcome of `AllReduceHypercube` on a group of `2^m` workers. -/
theorem AllReduceHypercube.arh_run_pow2 {α : Type} [Inhabited α] (op : α → α → α)
    (hassoc : ∀ a b c, op (op a b) c = op a (op b c)) (vs : List α) (m : Nat)
    (hm : vs.length = 2 ^ m) :
    Group.run (AllReduceHypercube op) vs
      = some (List.replicate vs.length (foldLeft op vs)) := by
  rw [AllReduceHypercube.arh_run_eq, ← map_range_const]
  congr 1
  apply List.map_congr_left
  intro k hk
  have hk2 : k < vs.length := List.mem_range.mp hk
  have hlen : vs.length = (vs.length - 1) + 1 := by omega
  rw [foldLeft_all op vs (vs.length - 1) hlen]
  have h := PrefixSumHypercube.rounds_pow2 op hassoc m (fun i => vs.getD i default) vs.length 0
    (fun j => { value := vs.getD j default, total_sum := vs.getD j default })
    (Nat.zero_le m) (by rw [pow_zero, ← hm]; exact two_pow_ge _)
    (by intro i _; simp [Nat.mod_one, foldRange]) k (by rw [← hm]; exact hk2)
  rw [pow_zero, ← hm] at h
  rw [← h.1]
  exact AllReduceHypercube.rounds_eq_total op vs.length vs.length 1
    (fun j => { value := vs.getD j default, total_sum := vs.getD j default }) k

/-- Outcome of `Reduce` at the root. -/
theorem Reduce.run_root {α : Type} [Inhabited α] (op : α → α → α)
    (hassoc : ∀ a b c, op (op a b) c = op a (op b c)) (vs : List α) (root : Nat)
    (hr : root < vs.length) :
    ∃ out, Group.run (fun n r => Reduce op n r root) vs = some out ∧
      out.length = vs.length ∧ out[root]? = some (foldLeft op (vs.rotate root)) := by
  refine ⟨_, Reduce.red_run_eq op vs root hr, by simp, ?_⟩
  simp only [List.getElem?_map, List.getElem?_range hr, Option.map_some', Option.some.injEq]
  exact Reduce.rounds_root op hassoc vs root hr

/-- Outcome of `AllReduce`: `Reduce` to rank 0 followed by `Broadcast` from rank 0. -/
theorem AllReduce.ar_run_eq {α : Type} [Inhabited α] (op : α → α → α)
    (hassoc : ∀ a b c, op (op a b) c = op a (op b c)) (vs : List α) :
    Group.run (AllReduce op) vs = some (List.replicate vs.length (foldLeft op vs)) := by
  rcases Nat.eq_zero_or_pos vs.length with h0 | hpos
  · have : vs = [] := List.length_eq_zero.mp h0
    subst this
    rfl
  · unfold Group.run
    rw [← map_range_const]
    apply Net.exec_of_reach vs.length (2 * vs.length * vs.length + 2 * vs.length * vs.length)
      _ _ _ (by unfold Net.budget; nlinarith)
    have h1 := Reduce.red_reach_rounds op vs.length 0 hpos vs.length 0
      (fun k => { value := vs.getD k default, active := true })
      (by rw [pow_zero]; exact two_pow_ge _) (by intro i _; simp [Nat.mod_one])
    rw [pow_zero] at h1
    have h2 := Net.ReachLE.lifted_init (fun i reduced => Broadcast vs.length i 0 reduced) h1
    have h3 := BroadcastBinomialTree.reach vs.length 0
      (fun i => (Reduce.rounds op vs.length 0 vs.length 1
        (fun k => { value := vs.getD k default, active := true }) i).value) hpos
    have h4 := Net.ReachLE.trans h2 h3
    have hroot := Reduce.rounds_root op hassoc vs 0 hpos
    rw [List.rotate_zero] at hroot
    simp only [hroot] at h4
    exact h4

/-- Outcome of `Broadcast` (the binomial tree). -/
theorem Broadcast.bc_run_eq {α : Type} [Inhabited α] (vs : List α) (origin : Nat)
    (ho : origin < vs.length) :
    Group.run (fun n r => Broadcast n r origin) vs
      = some (List.replicate vs.length vs[origin]) := by
  have h := BroadcastBinomialTree.bbt_run_eq vs origin ho
  rw [map_range_const, List.getD_eq_getElem _ _ ho] at h
  exact h

/-! ## The claims -/

/-- C1: when all workers of a group run `PrefixSum` with `inclusive = true` and an
associative (not necessarily commutative) operator, the call returns everywhere
and worker `k` ends with the left-to-right fold of the inputs of ranks `0..k`. -/
theorem PrefixSum_inclusive_fold {α : Type} [Inhabited α] (op : α → α → α)
    (hassoc : ∀ a b c, op (op a b) c = op a (op b c)) (vs : List α) :
    Group.run (PrefixSum op true) vs
      = some ((List.range vs.length).map (fun k => foldLeft op (vs.take (k + 1)))) :=
  PrefixSum.run_inclusive op hassoc vs

/-- Witness for C1: the scenario of the spec, five workers holding 1..5 under addition. -/
theorem PrefixSum_inclusive_fold_witness :
    (∀ a b c : Nat, a + b + c = a + (b + c)) ∧
    Group.run (PrefixSum (fun a b : Nat => a + b) true) [1, 2, 3, 4, 5]
      = some [1, 3, 6, 10, 15] :=
  ⟨Nat.add_assoc,
   (PrefixSum_inclusive_fold (fun a b : Nat => a + b) Nat.add_assoc [1, 2, 3, 4, 5]).trans
     (by decide)⟩

/-- C2: when all workers run `PrefixSum` with `inclusive = false` and an
associative operator, the call returns everywhere and every worker `k > 0` ends
with the left-to-right fold of the inputs of ranks `0..k-1`; its own input is not
part of it. -/
theorem PrefixSum_exclusive_fold {α : Type} [Inhabited α] (op : α → α → α)
    (hassoc : ∀ a b c, op (op a b) c = op a (op b c)) (vs : List α) :
    ∃ out, Group.run (PrefixSum op false) vs = some out ∧ out.length = vs.length ∧
      ∀ k, 0 < k → k < vs.length → out[k]? = some (foldLeft op (vs.take k)) := by
  refine ⟨_, PrefixSum.ps_run_eq op false vs, by simp, ?_⟩
  intro k hk0 hk
  have hk1 : k ≠ 0 := by omega
  simp only [List.getElem?_map, List.getElem?_range hk, Option.map_some', Bool.not_false,
    Bool.true_and, beq_iff_eq, hk1, if_false, Option.some.injEq]
  have e : k = (k - 1) + 1 := by omega
  rw [e, foldLeft_take op vs (k - 1) (by omega), ← e]
  apply PrefixSum.rounds_exclusive op hassoc vs.length _ vs.length 1 _ (Nat.le_refl 1)
    (two_pow_ge _) _ _ _ k hk0 hk
  · intro i; simp [foldRange]
  · intro _ i; rfl
  · intro h; omega

/-- Witness for C2: three workers under list concatenation. -/
theorem PrefixSum_exclusive_fold_witness :
    (∀ a b c : List Nat, a ++ b ++ c = a ++ (b ++ c)) ∧
    ∃ out, Group.run (PrefixSum (fun a b : List Nat => a ++ b) false) [[1], [2], [3]] = some out ∧
      out.length = [[1], [2], [3]].length ∧
      ∀ k, 0 < k → k < [[1], [2], [3]].length →
        out[k]? = some (foldLeft (fun a b : List Nat => a ++ b) ([[1], [2], [3]].take k)) :=
  ⟨List.append_assoc,
   PrefixSum_exclusive_fold (fun a b : List Nat => a ++ b) List.append_assoc [[1], [2], [3]]⟩

/-- C3: after `PrefixSum` with `inclusive = false` on a group of at least one
worker the value of worker 0 is the default-constructed `T()`, for every operator
and whatever the inputs were (also for a group of one). -/
theorem PrefixSum_exclusive_rank0 {α : Type} [Inhabited α] (op : α → α → α) (vs : List α)
    (hn : 1 ≤ vs.length) :
    ∃ out, Group.run (PrefixSum op false) vs = some out ∧ out[0]? = some default := by
  refine ⟨_, PrefixSum.ps_run_eq op false vs, ?_⟩
  have h0 : 0 < vs.length := hn
  simp [List.getElem?_range h0]

/-- Witness for C3: a group of one worker. -/
theorem PrefixSum_exclusive_rank0_witness :
    1 ≤ [7].length ∧
    ∃ out, Group.run (PrefixSum (fun a b : Nat => a + b) false) [7] = some out ∧
      out[0]? = some default :=
  ⟨by decide, PrefixSum_exclusive_rank0 (fun a b : Nat => a + b) [7] (by decide)⟩

/-- C4: when all workers run `Reduce` with `root = 0` and an associative (not
necessarily commutative) operator, the call returns everywhere and rank 0 ends
with the sequential left-to-right fold of all inputs. -/
theorem Reduce_root0_fold {α : Type} [Inhabited α] (op : α → α → α)
    (hassoc : ∀ a b c, op (op a b) c = op a (op b c)) (vs : List α) (hn : 1 ≤ vs.length) :
    ∃ out, Group.run (fun n r => Reduce op n r 0) vs = some out ∧
      out[0]? = some (foldLeft op vs) := by
  obtain ⟨out, h1, -, h3⟩ := Reduce.run_root op hassoc vs 0 hn
  rw [List.rotate_zero] at h3
  exact ⟨out, h1, h3⟩

/-- Witness for C4: three workers under list concatenation. -/
theorem Reduce_root0_fold_witness :
    (∀ a b c : List Nat, a ++ b ++ c = a ++ (b ++ c)) ∧ 1 ≤ [[1], [2], [3]].length ∧
    ∃ out, Group.run (fun n r => Reduce (fun a b : List Nat => a ++ b) n r 0) [[1], [2], [3]]
        = some out ∧
      out[0]? = some (foldLeft (fun a b : List Nat => a ++ b) [[1], [2], [3]]) :=
  ⟨List.append_assoc, by decide,
   Reduce_root0_fold (fun a b : List Nat => a ++ b) List.append_assoc [[1], [2], [3]]
     (by decide)⟩

/-- C5, as stated, fails: with list concatenation on the inputs `[0]`, `[1]` and
`root = 1` the root ends with `[1, 0]`, while the ascending-rank fold is `[0, 1]`. -/
theorem Reduce_root_ascending_counterexample :
    (∀ a b c : List Nat, a ++ b ++ c = a ++ (b ++ c)) ∧
    Group.run (fun n r => Reduce (fun a b : List Nat => a ++ b) n r 1) [[0], [1]]
      = some [[0], [1, 0]] ∧
    foldLeft (fun a b : List Nat => a ++ b) [[0], [1]] = [0, 1] ∧
    ¬ ∃ out, Group.run (fun n r => Reduce (fun a b : List Nat => a ++ b) n r 1) [[0], [1]]
        = some out ∧
      out[1]? = some (foldLeft (fun a b : List Nat => a ++ b) [[0], [1]]) := by
  have hrun : Group.run (fun n r => Reduce (fun a b : List Nat => a ++ b) n r 1) [[0], [1]]
      = some [[0], [1, 0]] := by decide
  refine ⟨List.append_assoc, hrun, by decide, ?_⟩
  rintro ⟨out, h1, h2⟩
  rw [hrun] at h1
  cases h1
  revert h2
  decide

/-- C5, amended: when all workers run `Reduce` with a root in `0..n-1` and an
associative operator, the call returns everywhere and the root ends with the
fold of all inputs in cyclic rank order starting at the root,
`op(...op(v[root], v[root+1])..., v[root-1])`. -/
theorem Reduce_root_cyclic_fold {α : Type} [Inhabited α] (op : α → α → α)
    (hassoc : ∀ a b c, op (op a b) c = op a (op b c)) (vs : List α) (root : Nat)
    (hr : root < vs.length) :
    ∃ out, Group.run (fun n r => Reduce op n r root) vs = some out ∧
      out[root]? = some (foldLeft op (vs.rotate root)) := by
  obtain ⟨out, h1, -, h3⟩ := Reduce.run_root op hassoc vs root hr
  exact ⟨out, h1, h3⟩

/-- Witness for the amended C5: three workers under list concatenation, root 1. -/
theorem Reduce_root_cyclic_fold_witness :
    (∀ a b c : List Nat, a ++ b ++ c = a ++ (b ++ c)) ∧ 1 < [[0], [1], [2]].length ∧
    ∃ out, Group.run (fun n r => Reduce (fun a b : List Nat => a ++ b) n r 1) [[0], [1], [2]]
        = some out ∧
      out[1]? = some (foldLeft (fun a b : List Nat => a ++ b) ([[0], [1], [2]].rotate 1)) :=
  ⟨List.append_assoc, by decide,
   Reduce_root_cyclic_fold (fun a b : List Nat => a ++ b) List.append_assoc [[0], [1], [2]] 1
     (by decide)⟩

/-- C6: after `AllReduce` with an associative (not necessarily commutative)
operator on a group of any size, the call has returned everywhere and every
worker holds the left-to-right fold of all inputs. -/
theorem AllReduce_fold {α : Type} [Inhabited α] (op : α → α → α)
    (hassoc : ∀ a b c, op (op a b) c = op a (op b c)) (vs : List α) :
    Group.run (AllReduce op) vs = some (List.replicate vs.length (foldLeft op vs)) :=
  AllReduce.ar_run_eq op hassoc vs

/-- Witness for C6: three workers (not a power of two) under list concatenation. -/
theorem AllReduce_fold_witness :
    (∀ a b c : List Nat, a ++ b ++ c = a ++ (b ++ c)) ∧
    Group.run (AllReduce (fun a b : List Nat => a ++ b)) [[1], [2], [3]]
      = some [[1, 2, 3], [1, 2, 3], [1, 2, 3]] :=
  ⟨List.append_assoc,
   (AllReduce_fold (fun a b : List Nat => a ++ b) List.append_assoc [[1], [2], [3]]).trans
     (by decide)⟩

/-- C7: on a group whose size is a power of two, `AllReduceHypercube` with an
associative operator returns everywhere with the left-to-right fold of all
inputs at every worker, which is what `AllReduce` gives. -/
theorem AllReduceHypercube_fold {α : Type} [Inhabited α] (op : α → α → α)
    (hassoc : ∀ a b c, op (op a b) c = op a (op b c)) (vs : List α) (m : Nat)
    (hm : vs.length = 2 ^ m) :
    Group.run (AllReduceHypercube op) vs = some (List.replicate vs.length (foldLeft op vs)) ∧
    Group.run (AllReduceHypercube op) vs = Group.run (AllReduce op) vs := by
  have h := AllReduceHypercube.arh_run_pow2 op hassoc vs m hm
  exact ⟨h, h.trans (AllReduce.ar_run_eq op hassoc vs).symm⟩

/-- Witness for C7: four workers under list concatenation. -/
theorem AllReduceHypercube_fold_witness :
    (∀ a b c : List Nat, a ++ b ++ c = a ++ (b ++ c)) ∧ [[1], [2], [3], [4]].length = 2 ^ 2 ∧
    Group.run (AllReduceHypercube (fun a b : List Nat => a ++ b)) [[1], [2], [3], [4]]
      = some (List.replicate [[1], [2], [3], [4]].length
          (foldLeft (fun a b : List Nat => a ++ b) [[1], [2], [3], [4]])) ∧
    Group.run (AllReduceHypercube (fun a b : List Nat => a ++ b)) [[1], [2], [3], [4]]
      = Group.run (AllReduce (fun a b : List Nat => a ++ b)) [[1], [2], [3], [4]] :=
  ⟨List.append_assoc, by decide,
   AllReduceHypercube_fold (fun a b : List Nat => a ++ b) List.append_assoc
     [[1], [2], [3], [4]] 2 (by decide)⟩

/-- C8: on a group whose size is a power of two and with an associative
operator, `PrefixSumHypercube` and `PrefixSum` with `inclusive = true` both
return everywhere and leave the same vector of values. -/
theorem PrefixSumHypercube_agrees {α : Type} [Inhabited α] (op : α → α → α)
    (hassoc : ∀ a b c, op (op a b) c = op a (op b c)) (vs : List α) (m : Nat)
    (hm : vs.length = 2 ^ m) :
    ∃ out, Group.run (PrefixSumHypercube op) vs = some out ∧
      Group.run (PrefixSum op true) vs = some out :=
  ⟨_, PrefixSumHypercube.psh_run_pow2 op hassoc vs m hm, PrefixSum.run_inclusive op hassoc vs⟩

/-- Witness for C8: four workers under list concatenation. -/
theorem PrefixSumHypercube_agrees_witness :
    (∀ a b c : List Nat, a ++ b ++ c = a ++ (b ++ c)) ∧ [[1], [2], [3], [4]].length = 2 ^ 2 ∧
    ∃ out, Group.run (PrefixSumHypercube (fun a b : List Nat => a ++ b)) [[1], [2], [3], [4]]
        = some out ∧
      Group.run (PrefixSum (fun a b : List Nat => a ++ b) true) [[1], [2], [3], [4]] = some out :=
  ⟨List.append_assoc, by decide,
   PrefixSumHypercube_agrees (fun a b : List Nat => a ++ b) List.append_assoc
     [[1], [2], [3], [4]] 2 (by decide)⟩

/-- C9: after `Broadcast` from an origin in `0..n-1` the call has returned
everywhere and every worker, the origin included, holds the origin's original
value. -/
theorem Broadcast_origin_value {α : Type} [Inhabited α] (vs : List α) (origin : Nat)
    (ho : origin < vs.length) :
    Group.run (fun n r => Broadcast n r origin) vs
      = some (List.replicate vs.length vs[origin]) :=
  Broadcast.bc_run_eq vs origin ho

/-- Witness for C9: the scenario of the spec, origin 2 among five workers. -/
theorem Broadcast_origin_value_witness :
    2 < [1, 2, 3, 4, 5].length ∧
    Group.run (fun n r => Broadcast n r 2) [1, 2, 3, 4, 5] = some [3, 3, 3, 3, 3] :=
  ⟨by decide, Broadcast_origin_value [1, 2, 3, 4, 5] 2 (by decide)⟩

/-- C10: for an origin in `0..n-1`, `BroadcastTrivial` and
`BroadcastBinomialTree` both return everywhere and leave the same vector, every
entry being the origin's original value. -/
theorem BroadcastTrivial_agrees {α : Type} [Inhabited α] (vs : List α) (origin : Nat)
    (ho : origin < vs.length) :
    Group.run (fun n r => BroadcastTrivial n r origin) vs
      = some (List.replicate vs.length vs[origin]) ∧
    Group.run (fun n r => BroadcastBinomialTree n r origin) vs
      = some (List.replicate vs.length vs[origin]) := by
  have h1 := BroadcastTrivial.bt_run_eq vs origin ho
  have h2 := BroadcastBinomialTree.bbt_run_eq vs origin ho
  rw [map_range_const, List.getD_eq_getElem _ _ ho] at h1 h2
  exact ⟨h1, h2⟩

/-- Witness for C10: origin 2 among five workers. -/
theorem BroadcastTrivial_agrees_witness :
    2 < [1, 2, 3, 4, 5].length ∧
    Group.run (fun n r => BroadcastTrivial n r 2) [1, 2, 3, 4, 5] = some [3, 3, 3, 3, 3] ∧
    Group.run (fun n r => BroadcastBinomialTree n r 2) [1, 2, 3, 4, 5] = some [3, 3, 3, 3, 3] :=
  ⟨by decide, BroadcastTrivial_agrees [1, 2, 3, 4, 5] 2 (by decide)⟩

/-! ### Calls issued by the round loops -/

theorem trace_sendIf {α : Type} (feed : Nat → α) (c : Bool) (dst : Nat) (m : α) (p : Prog α)
    (k : Nat) :
    Prog.trace feed (Prog.sendIf c dst m p) k
      = (if c = true then [Act.send dst] else []) ++ Prog.trace feed p k := by
  cases c <;> simp [Prog.sendIf, Prog.trace]

theorem roundLoop_mem (n : Nat) (body : Nat → List Act) (fuel d : Nat) (x : Nat × Act) :
    x ∈ roundLoop n body fuel d ↔
      ∃ j, j < fuel ∧ x.1 = d * 2 ^ j ∧ x.1 < n ∧ x.2 ∈ body x.1 := by
  induction fuel generalizing d with
  | zero => simp [roundLoop]
  | succ fuel ih =>
    simp only [roundLoop]
    by_cases hd : d < n
    · simp only [hd, if_true, List.mem_append, List.mem_map, ih, shl_one]
      constructor
      · rintro (⟨a, ha, rfl⟩ | ⟨j, hj, h1, h2, h3⟩)
        · exact ⟨0, by omega, by simp, hd, ha⟩
        · refine ⟨j + 1, by omega, ?_, h2, h3⟩
          rw [h1, pow_succ]; ring
      · rintro ⟨j, hj, h1, h2, h3⟩
        cases j with
        | zero =>
          left
          simp only [pow_zero, Nat.mul_one] at h1
          exact ⟨x.2, h1 ▸ h3, by rw [← h1]⟩
        | succ j =>
          right
          refine ⟨j, by omega, ?_, h2, h3⟩
          rw [h1, pow_succ]; ring
    · simp only [hd, if_false, List.not_mem_nil, false_iff]
      rintro ⟨j, _, h1, h2, _⟩
      have : d ≤ d * 2 ^ j := Nat.le_mul_of_pos_right d (two_pow_pos1 j)
      omega

/-- Membership in a schedule that starts at round 1 with `num_hosts` rounds of fuel. -/
theorem roundLoop_mem_one (n : Nat) (body : Nat → List Act) (d : Nat) (a : Act) :
    (d, a) ∈ roundLoop n body n 1 ↔ (∃ j, d = 2 ^ j) ∧ d < n ∧ a ∈ body d := by
  rw [roundLoop_mem]
  constructor
  · rintro ⟨j, _, h1, h2, h3⟩
    exact ⟨⟨j, by simpa using h1⟩, h2, h3⟩
  · rintro ⟨⟨j, rfl⟩, h2, h3⟩
    have := Nat.lt_two_pow j
    exact ⟨j, by omega, by simp, h2, h3⟩

theorem clog_lt_of_pow_lt (n j : Nat) (h : 2 ^ j < n) : j < Nat.clog 2 n := by
  exact (Nat.pow_lt_iff_lt_clog (by decide : 1 < 2)).mp h

theorem roundLoop_countP (n : Nat) (body : Nat → List Act) (q : Act → Bool)
    (hq : ∀ d, (body d).countP q ≤ 1) (fuel j : Nat) :
    ((roundLoop n body fuel (2 ^ j)).map Prod.snd).countP q ≤ Nat.clog 2 n - j := by
  induction fuel generalizing j with
  | zero => simp [roundLoop]
  | succ fuel ih =>
    simp only [roundLoop]
    by_cases hd : 2 ^ j < n
    · have e : (2 ^ j) <<< 1 = 2 ^ (j + 1) := by rw [shl_one, pow_succ]; ring
      simp only [hd, if_true, List.map_append, List.map_map, List.countP_append, e]
      have h1 : (List.map (Prod.snd ∘ fun a => (2 ^ j, a)) (body (2 ^ j))) = body (2 ^ j) := by
        simp [Function.comp_def]
      rw [h1]
      have h2 := hq (2 ^ j)
      have h3 := ih (j + 1)
      have h4 := clog_lt_of_pow_lt n j hd
      omega
    · simp [hd]

theorem PrefixSum.ps_trace_loop {α : Type} [Inhabited α] (feed : Nat → α) (op : α → α → α)
    (inclusive : Bool) (n rank fuel d : Nat) (value tf : α) (first : Bool) (k : Nat) :
    Prog.trace feed (PrefixSum.loop op inclusive n rank fuel d value tf first) k
      = (roundLoop n (PrefixSum.calls n rank) fuel d).map Prod.snd := by
  induction fuel generalizing d value tf first k with
  | zero =>
    simp only [PrefixSum.loop, roundLoop, List.map_nil]
    split_ifs <;> rfl
  | succ fuel ih =>
    simp only [PrefixSum.loop, roundLoop]
    by_cases hd : d < n
    · simp only [hd, if_true, trace_sendIf, List.map_append, List.map_map, PrefixSum.calls,
        decide_eq_true_eq]
      have hcomp : ∀ l : List Act, List.map (Prod.snd ∘ fun a => (d, a)) l = l := by
        intro l; simp [Function.comp_def]
      rw [hcomp]
      by_cases hr : rank ≥ d
      · simp only [hr, if_true, Prog.trace]
        split_ifs <;> simp [ih]
      · simp only [hr, if_false, ih]
        split_ifs <;> simp
    · simp only [hd, if_false, Prog.trace, List.map_nil]

theorem PrefixSumHypercube.psh_trace_loop {α : Type} (feed : Nat → α) (op : α → α → α)
    (n rank fuel d : Nat) (value total : α) (k : Nat) :
    Prog.trace feed (PrefixSumHypercube.loop op n rank fuel d value total) k
      = (roundLoop n (PrefixSumHypercube.calls n rank) fuel d).map Prod.snd := by
  induction fuel generalizing d value total k with
  | zero =>
    simp only [PrefixSumHypercube.loop, roundLoop, List.map_nil]
    split_ifs <;> rfl
  | succ fuel ih =>
    simp only [PrefixSumHypercube.loop, roundLoop]
    by_cases hd : d < n
    · simp only [hd, if_true, trace_sendIf, List.map_append, List.map_map,
        PrefixSumHypercube.calls, decide_eq_true_eq]
      have hcomp : ∀ l : List Act, List.map (Prod.snd ∘ fun a => (d, a)) l = l := by
        intro l; simp [Function.comp_def]
      rw [hcomp]
      by_cases hr : (rank ^^^ d) < n
      · simp only [hr, if_true, Prog.trace, ih]
        simp
      · simp only [hr, if_false, ih]
        simp
    · simp only [hd, if_false, Prog.trace, List.map_nil]

theorem AllReduceHypercube.arh_trace_loop {α : Type} (feed : Nat → α) (op : α → α → α)
    (n rank fuel d : Nat) (value : α) (k : Nat) :
    Prog.trace feed (AllReduceHypercube.loop op n rank fuel d value) k
      = (roundLoop n (AllReduceHypercube.calls n rank) fuel d).map Prod.snd := by
  induction fuel generalizing d value k with
  | zero =>
    simp only [AllReduceHypercube.loop, roundLoop, List.map_nil]
    split_ifs <;> rfl
  | succ fuel ih =>
    simp only [AllReduceHypercube.loop, roundLoop]
    by_cases hd : d < n
    · simp only [hd, if_true, trace_sendIf, List.map_append, List.map_map,
        AllReduceHypercube.calls, decide_eq_true_eq]
      have hcomp : ∀ l : List Act, List.map (Prod.snd ∘ fun a => (d, a)) l = l := by
        intro l; simp [Function.comp_def]
      rw [hcomp]
      by_cases hr : (rank ^^^ d) < n
      · simp only [hr, if_true, Prog.trace, ih]
        simp
      · simp only [hr, if_false, ih]
        simp
    · simp only [hd, if_false, Prog.trace, List.map_nil]

theorem Reduce.red_trace_loop {α : Type} (feed : Nat → α) (op : α → α → α)
    (n my_rank shifted fuel d : Nat) (value : α) (k : Nat) :
    Prog.trace feed (Reduce.loop op n my_rank shifted fuel d value) k
      = (Reduce.scheduleLoop n my_rank shifted fuel d).map Prod.snd := by
  induction fuel generalizing d value k with
  | zero =>
    simp only [Reduce.loop, Reduce.scheduleLoop, List.map_nil]
    split_ifs <;> rfl
  | succ fuel ih =>
    simp only [Reduce.loop, Reduce.scheduleLoop]
    by_cases hd : d < n
    · simp only [hd, if_true]
      by_cases hb : shifted &&& d ≠ 0
      · simp only [hb, if_true, Prog.trace, List.map_cons, List.map_nil, ne_eq, not_false_eq_true]
      · simp only [hb, if_false]
        by_cases hlt : shifted + d < n
        · simp only [hlt, if_true, Prog.trace, ih, List.map_cons]
        · simp only [hlt, if_false, ih]
    · simp only [hd, if_false, Prog.trace, List.map_nil]

/-- The calls `PrefixSum` issues are those of its schedule, whatever it receives. -/
theorem PrefixSum.ps_trace_eq {α : Type} [Inhabited α] (feed : Nat → α) (op : α → α → α)
    (inclusive : Bool) (n rank : Nat) (value : α) (k : Nat) :
    Prog.trace feed (PrefixSum op inclusive n rank value) k
      = (PrefixSum.schedule n rank).map Prod.snd :=
  PrefixSum.ps_trace_loop feed op inclusive n rank n 1 value value true k

theorem PrefixSumHypercube.psh_trace_eq {α : Type} (feed : Nat → α) (op : α → α → α)
    (n rank : Nat) (value : α) (k : Nat) :
    Prog.trace feed (PrefixSumHypercube op n rank value) k
      = (PrefixSumHypercube.schedule n rank).map Prod.snd :=
  PrefixSumHypercube.psh_trace_loop feed op n rank n 1 value value k

theorem AllReduceHypercube.arh_trace_eq {α : Type} (feed : Nat → α) (op : α → α → α)
    (n rank : Nat) (value : α) (k : Nat) :
    Prog.trace feed (AllReduceHypercube op n rank value) k
      = (AllReduceHypercube.schedule n rank).map Prod.snd :=
  AllReduceHypercube.arh_trace_loop feed op n rank n 1 value k

theorem Reduce.red_trace_eq {α : Type} (feed : Nat → α) (op : α → α → α)
    (n rank root : Nat) (value : α) (k : Nat) :
    Prog.trace feed (Reduce op n rank root value) k
      = (Reduce.schedule n rank root).map Prod.snd :=
  Reduce.red_trace_loop feed op n (rank + n) ((rank + n - root) % n) n 1 value k

/-! ### The schedule of Reduce -/

theorem mod_pow_of_le (s e j : Nat) (hej : e ≤ j) (h : s % 2 ^ j = 0) : s % 2 ^ e = 0 := by
  have hd : 2 ^ e ∣ 2 ^ j := Nat.pow_dvd_pow 2 hej
  exact Nat.mod_eq_zero_of_dvd (Nat.dvd_trans hd (Nat.dvd_of_mod_eq_zero h))

theorem mod_two_mul_of_lt (s e j : Nat) (hej : e < j) (h : s % 2 ^ j = 0) :
    s % (2 * 2 ^ e) = 0 := by
  have e2 : 2 * 2 ^ e = 2 ^ (e + 1) := by rw [pow_succ]; ring
  rw [e2]
  exact mod_pow_of_le s (e + 1) j hej h

theorem mod_two_mul_of_clear (s d : Nat) (h0 : s % d = 0) (hb : ¬ s / d % 2 = 1) :
    s % (2 * d) = 0 := by
  have hm : s % (d * 2) = s % d + d * (s / d % 2) := Nat.mod_mul
  have h2 : s / d % 2 = 0 := by omega
  rw [h0, h2, Nat.mul_zero, Nat.add_zero, Nat.mul_comm] at hm
  exact hm

theorem Reduce.scheduleLoop_mem (n my s : Nat) (fuel e : Nat) (hs : s % 2 ^ e = 0)
    (x : Nat × Act) :
    x ∈ Reduce.scheduleLoop n my s fuel (2 ^ e) ↔
      ∃ j, e ≤ j ∧ j < e + fuel ∧ x.1 = 2 ^ j ∧ 2 ^ j < n ∧ s % 2 ^ j = 0 ∧
        ((s &&& 2 ^ j ≠ 0 ∧ x.2 = Act.send ((my - 2 ^ j) % n)) ∨
         (s &&& 2 ^ j = 0 ∧ s + 2 ^ j < n ∧ x.2 = Act.recv ((my + 2 ^ j) % n))) := by
  induction fuel generalizing e with
  | zero =>
    simp only [Reduce.scheduleLoop, List.not_mem_nil, false_iff]
    rintro ⟨j, h1, h2, _⟩
    omega
  | succ fuel ih =>
    have hp := two_pow_pos1 e
    have e1 : (2 ^ e) <<< 1 = 2 ^ (e + 1) := by rw [shl_one, pow_succ]; ring
    have e2 : 2 ^ (e + 1) = 2 * 2 ^ e := by rw [pow_succ]; ring
    simp only [Reduce.scheduleLoop]
    by_cases hd : 2 ^ e < n
    · simp only [hd, if_true]
      by_cases hb : s &&& 2 ^ e ≠ 0
      · simp only [hb, if_true, List.mem_singleton, ne_eq, not_false_eq_true]
        constructor
        · rintro rfl
          exact ⟨e, Nat.le_refl e, by omega, rfl, hd, hs, Or.inl ⟨hb, rfl⟩⟩
        · rintro ⟨j, h1, h2, h3, h4, h5, h6⟩
          rcases Nat.eq_or_lt_of_le h1 with h7 | h7
          · subst h7
            rcases h6 with ⟨_, h8⟩ | ⟨h8, _⟩
            · exact Prod.ext h3 h8
            · exact absurd h8 hb
          · have h9 := mod_two_mul_of_lt s e j h7 h5
            obtain ⟨-, h10⟩ := mod_two_mul_zero s (2 ^ e) hp h9
            exact absurd ((and_two_pow_ne_zero s e).mp hb) h10
      · have hb0 : s &&& 2 ^ e = 0 := by
          by_contra h; exact hb h
        have hbit : ¬ s / 2 ^ e % 2 = 1 := fun h => hb ((and_two_pow_ne_zero s e).mpr h)
        have hs2 : s % 2 ^ (e + 1) = 0 := by
          rw [e2]; exact mod_two_mul_of_clear s (2 ^ e) hs hbit
        simp only [hb, if_false, e1]
        have key : ∀ (rest : Prop),
            (rest ↔ ∃ j, e + 1 ≤ j ∧ j < e + 1 + fuel ∧ x.1 = 2 ^ j ∧ 2 ^ j < n ∧ s % 2 ^ j = 0 ∧
              ((s &&& 2 ^ j ≠ 0 ∧ x.2 = Act.send ((my - 2 ^ j) % n)) ∨
               (s &&& 2 ^ j = 0 ∧ s + 2 ^ j < n ∧ x.2 = Act.recv ((my + 2 ^ j) % n)))) →
            (((s + 2 ^ e < n ∧ x = (2 ^ e, Act.recv ((my + 2 ^ e) % n))) ∨ rest) ↔
              ∃ j, e ≤ j ∧ j < e + (fuel + 1) ∧ x.1 = 2 ^ j ∧ 2 ^ j < n ∧ s % 2 ^ j = 0 ∧
              ((s &&& 2 ^ j ≠ 0 ∧ x.2 = Act.send ((my - 2 ^ j) % n)) ∨
               (s &&& 2 ^ j = 0 ∧ s + 2 ^ j < n ∧ x.2 = Act.recv ((my + 2 ^ j) % n)))) := by
          intro rest hrest
          constructor
          · rintro (⟨h1, rfl⟩ | h)
            · exact ⟨e, Nat.le_refl e, by omega, rfl, hd, hs, Or.inr ⟨hb0, h1, rfl⟩⟩
            · obtain ⟨j, h1, h2, h3⟩ := hrest.mp h
              exact ⟨j, by omega, by omega, h3⟩
          · rintro ⟨j, h1, h2, h3, h4, h5, h6⟩
            rcases Nat.eq_or_lt_of_le h1 with h7 | h7
            · subst h7
              rcases h6 with ⟨h8, _⟩ | ⟨_, h8, h9⟩
              · exact absurd h8 hb
              · left; exact ⟨h8, Prod.ext h3 h9⟩
            · right
              exact hrest.mpr ⟨j, h7, by omega, h3, h4, h5, h6⟩
        by_cases hlt : s + 2 ^ e < n
        · simp only [hlt, if_true, List.mem_cons]
          have := key _ (ih (e + 1) hs2)
          simpa [hlt] using this
        · simp only [hlt, if_false]
          have := key _ (ih (e + 1) hs2)
          simpa [hlt] using this
    · simp only [hd, if_false, List.not_mem_nil, false_iff]
      rintro ⟨j, h1, _, _, h4, _⟩
      have : 2 ^ e ≤ 2 ^ j := Nat.pow_le_pow_right (by decide) h1
      omega

/-- Which calls `Reduce` issues in which round: a worker takes part in round
`2^j` while no lower bit of its shifted rank is set; it sends if bit `j` is set
and receives if bit `j` is clear and the partner exists. -/
theorem Reduce.schedule_mem (n i root : Nat) (x : Nat × Act) :
    x ∈ Reduce.schedule n i root ↔
      ∃ j, x.1 = 2 ^ j ∧ 2 ^ j < n ∧ (i + n - root) % n % 2 ^ j = 0 ∧
        (((i + n - root) % n &&& 2 ^ j ≠ 0 ∧ x.2 = Act.send ((i + n - 2 ^ j) % n)) ∨
         ((i + n - root) % n &&& 2 ^ j = 0 ∧ (i + n - root) % n + 2 ^ j < n ∧
           x.2 = Act.recv ((i + n + 2 ^ j) % n))) := by
  unfold Reduce.schedule
  have h := Reduce.scheduleLoop_mem n (i + n) ((i + n - root) % n) n 0 (Nat.mod_one _) x
  rw [pow_zero] at h
  rw [h]
  constructor
  · rintro ⟨j, _, _, h3, h4, h5, h6⟩
    exact ⟨j, h3, h4, h5, h6⟩
  · rintro ⟨j, h3, h4, h5, h6⟩
    have := Nat.lt_two_pow j
    exact ⟨j, Nat.zero_le j, by omega, h3, h4, h5, h6⟩

theorem Reduce.scheduleLoop_ge (n my s fuel d : Nat) (x : Nat × Act)
    (hx : x ∈ Reduce.scheduleLoop n my s fuel d) : d ≤ x.1 := by
  induction fuel generalizing d with
  | zero => simp [Reduce.scheduleLoop] at hx
  | succ fuel ih =>
    simp only [Reduce.scheduleLoop] at hx
    split_ifs at hx with h1 h2 h3
    · simp only [List.mem_singleton] at hx
      rw [hx]
    · simp only [List.mem_cons] at hx
      rcases hx with rfl | hx
      · exact Nat.le_refl d
      · have := ih (d <<< 1) hx
        rw [shl_one] at this; omega
    · have := ih (d <<< 1) hx
      rw [shl_one] at this; omega
    · simp at hx

/-- A `Reduce` worker issues at most one call per round. -/
theorem Reduce.scheduleLoop_round (n my s fuel d r : Nat) (hd : 1 ≤ d) :
    ((Reduce.scheduleLoop n my s fuel d).filter (fun x => decide (x.1 = r))).length ≤ 1 := by
  induction fuel generalizing d with
  | zero => simp [Reduce.scheduleLoop]
  | succ fuel ih =>
    have hrest : r ≤ d →
        (Reduce.scheduleLoop n my s fuel (d <<< 1)).filter (fun x => decide (x.1 = r)) = [] := by
      intro hr
      rw [List.filter_eq_nil_iff]
      intro x hx
      have := Reduce.scheduleLoop_ge n my s fuel (d <<< 1) x hx
      rw [shl_one] at this
      simp only [decide_eq_true_eq]
      omega
    have ih2 := ih (d <<< 1) (by rw [shl_one]; omega)
    simp only [Reduce.scheduleLoop]
    split_ifs with h1 h2 h3
    · simp only [List.filter_cons, List.filter_nil]
      split_ifs <;> simp
    · simp only [List.filter_cons]
      by_cases hr : d = r
      · subst hr
        simp only [decide_True, if_true, List.length_cons]
        rw [hrest (Nat.le_refl d)]
        simp
      · simp only [hr, decide_False, if_false, Bool.false_eq_true]
        exact ih2
    · exact ih2
    · simp

/-! ### Lowest set bit -/

theorem exists_low_bit (s : Nat) (hs : 0 < s) : ∃ e, s % (2 * 2 ^ e) = 2 ^ e := by
  induction s using Nat.strong_induction_on with
  | _ s ih =>
    by_cases h1 : s % 2 = 1
    · exact ⟨0, by simpa using h1⟩
    · obtain ⟨e, he⟩ := ih (s / 2) (by omega) (by omega)
      refine ⟨e + 1, ?_⟩
      have e2 : 2 ^ (e + 1) = 2 * 2 ^ e := by rw [pow_succ]; ring
      have hm : s % (2 * (2 * 2 ^ e)) = s % 2 + 2 * (s / 2 % (2 * 2 ^ e)) := Nat.mod_mul
      rw [e2, hm, he]
      omega

theorem lowBit_eq (s e : Nat) (h : s % (2 * 2 ^ e) = 2 ^ e) : lowBit s = 2 ^ e :=
  ffs_low_bit s e h

theorem low_bit_le (s e : Nat) (h : s % (2 * 2 ^ e) = 2 ^ e) : 2 ^ e ≤ s := by
  have := Nat.mod_le s (2 * 2 ^ e)
  omega

theorem low_bit_below (s e j : Nat) (h : s % (2 * 2 ^ e) = 2 ^ e) (hj : j < e) :
    s % (2 * 2 ^ j) = 0 := by
  obtain ⟨h0, -⟩ := mod_two_mul_eq s (2 ^ e) (two_pow_pos1 e) h
  exact mod_two_mul_of_lt s j e hj h0

theorem clog_le_self (n : Nat) : Nat.clog 2 n ≤ n :=
  (Nat.le_pow_iff_clog_le (by decide : 1 < 2)).mp (Nat.le_of_lt (Nat.lt_two_pow n))

theorem clog_le_of_not_lt (n j : Nat) (h : ¬ 2 ^ j < n) : Nat.clog 2 n ≤ j :=
  (Nat.le_pow_iff_clog_le (by decide : 1 < 2)).mp (by omega)

/-! ### Reduce: the calls of one worker -/

/-- A worker whose shifted rank has lowest set bit `2^e` only receives in the
rounds below `2^e` and then sends in round `2^e`. -/
theorem Reduce.scheduleLoop_low (n my s e : Nat) (hlow : s % (2 * 2 ^ e) = 2 ^ e)
    (hn : 2 ^ e < n) (fuel j : Nat) (hj : j ≤ e) (hf : e - j < fuel) :
    ∃ l, Reduce.scheduleLoop n my s fuel (2 ^ j) = l ++ [(2 ^ e, Act.send ((my - 2 ^ e) % n))] ∧
      (∀ x ∈ l, x.2.isSend = false ∧ x.2.isRecv = true ∧ x.1 < 2 ^ e) ∧ l.length ≤ e - j := by
  induction fuel generalizing j with
  | zero => omega
  | succ fuel ih =>
    have e1 : (2 ^ j) <<< 1 = 2 ^ (j + 1) := by rw [shl_one, pow_succ]; ring
    rcases Nat.eq_or_lt_of_le hj with h | h
    · subst h
      obtain ⟨-, hb⟩ := mod_two_mul_eq s (2 ^ j) (two_pow_pos1 j) hlow
      have hb2 := (and_two_pow_ne_zero s j).mpr hb
      refine ⟨[], ?_, by simp, by simp⟩
      simp only [Reduce.scheduleLoop, hn, if_true, hb2, ne_eq, not_false_eq_true, List.nil_append]
    · have h0 := low_bit_below s e j hlow h
      obtain ⟨-, hb⟩ := mod_two_mul_zero s (2 ^ j) (two_pow_pos1 j) h0
      have hb2 : ¬ s &&& 2 ^ j ≠ 0 := fun hne => hb ((and_two_pow_ne_zero s j).mp hne)
      have hlt : 2 ^ j < 2 ^ e := Nat.pow_lt_pow_right (by decide) h
      have hjn : 2 ^ j < n := by omega
      obtain ⟨l, hl1, hl2, hl3⟩ := ih (j + 1) h (by omega)
      simp only [Reduce.scheduleLoop, hjn, if_true, hb2, if_false, e1]
      by_cases hs : s + 2 ^ j < n
      · refine ⟨(2 ^ j, Act.recv ((my + 2 ^ j) % n)) :: l, ?_, ?_, ?_⟩
        · simp only [hs, if_true, hl1, List.cons_append]
        · intro x hx
          simp only [List.mem_cons] at hx
          rcases hx with rfl | hx
          · exact ⟨rfl, rfl, hlt⟩
          · exact hl2 x hx
        · simp only [List.length_cons]; omega
      · refine ⟨l, ?_, hl2, by omega⟩
        simp only [hs, if_false, hl1]

/-- The root receives once in each of the `⌈log2 n⌉` rounds and never sends. -/
theorem Reduce.scheduleLoop_root (n my : Nat) (fuel j : Nat) (hf : Nat.clog 2 n - j ≤ fuel) :
    Reduce.scheduleLoop n my 0 fuel (2 ^ j)
      = (List.range' j (Nat.clog 2 n - j)).map (fun t => (2 ^ t, Act.recv ((my + 2 ^ t) % n))) := by
  induction fuel generalizing j with
  | zero =>
    have : Nat.clog 2 n - j = 0 := by omega
    simp [Reduce.scheduleLoop, this]
  | succ fuel ih =>
    have e1 : (2 ^ j) <<< 1 = 2 ^ (j + 1) := by rw [shl_one, pow_succ]; ring
    simp only [Reduce.scheduleLoop]
    by_cases hd : 2 ^ j < n
    · have hc := clog_lt_of_pow_lt n j hd
      have e2 : Nat.clog 2 n - j = (Nat.clog 2 n - (j + 1)) + 1 := by omega
      simp only [hd, if_true, Nat.zero_and, ne_eq, not_true_eq_false, if_false, Nat.zero_add, e1]
      rw [ih (j + 1) (by omega), e2, List.range'_succ]
      simp
    · have hc := clog_le_of_not_lt n j hd
      have : Nat.clog 2 n - j = 0 := by omega
      simp [hd, this]

/-! ### BroadcastBinomialTree: the calls of one worker -/

theorem two_pow_succ_shr (e : Nat) : 2 ^ (e + 1) >>> 1 = 2 ^ e := by
  rw [shr_one, pow_succ]; omega

theorem BroadcastBinomialTree.bbt_trace_sendLoop {α : Type} (feed : Nat → α) (n origin s : Nat)
    (x : α) (e fuel k : Nat) (hf : 2 ^ e >>> 1 ≤ fuel) :
    Prog.trace feed (BroadcastBinomialTree.sendLoop n origin s x fuel (2 ^ e >>> 1)) k
      = BroadcastBinomialTree.sends n origin s e := by
  induction e generalizing fuel with
  | zero =>
    have h0 : 2 ^ 0 >>> 1 = 0 := by simp [shr_one]
    rw [h0]
    cases fuel <;> simp [BroadcastBinomialTree.sendLoop, Prog.trace, BroadcastBinomialTree.sends]
  | succ e ih =>
    rw [two_pow_succ_shr] at hf ⊢
    rw [BroadcastBinomialTree.sendLoop_unfold n origin s x fuel (2 ^ e) (two_pow_pos1 e) hf,
      trace_sendIf, ih (2 ^ e >>> 1) (Nat.le_refl _)]
    simp only [BroadcastBinomialTree.sends, List.range_succ, List.reverse_append,
      List.reverse_cons, List.reverse_nil, List.nil_append, List.singleton_append,
      List.filter_cons, decide_eq_true_eq]
    split_ifs <;> simp

theorem BroadcastBinomialTree.sends_mem (n origin s e : Nat) (a : Act) :
    a ∈ BroadcastBinomialTree.sends n origin s e ↔
      ∃ t, t < e ∧ s + 2 ^ t < n ∧ a = Act.send ((s + 2 ^ t + origin) % n) := by
  simp only [BroadcastBinomialTree.sends, List.mem_map, List.mem_filter, List.mem_reverse,
    List.mem_range, decide_eq_true_eq]
  constructor
  · rintro ⟨t, ⟨h1, h2⟩, rfl⟩
    exact ⟨t, h1, h2, rfl⟩
  · rintro ⟨t, h1, h2, rfl⟩
    exact ⟨t, ⟨h1, h2⟩, rfl⟩

theorem BroadcastBinomialTree.sends_count (n origin s e : Nat) :
    sendCount (BroadcastBinomialTree.sends n origin s e) ≤ e ∧
    recvCount (BroadcastBinomialTree.sends n origin s e) = 0 ∧
    (BroadcastBinomialTree.sends n origin s e).filter Act.isRecv = [] := by
  refine ⟨?_, ?_, ?_⟩
  · unfold sendCount
    calc List.countP Act.isSend (BroadcastBinomialTree.sends n origin s e)
        ≤ (BroadcastBinomialTree.sends n origin s e).length := List.countP_le_length _
      _ ≤ e := by
        simp only [BroadcastBinomialTree.sends, List.length_map]
        calc _ ≤ (List.range e).reverse.length := List.length_filter_le _ _
          _ = e := by simp
  · unfold recvCount
    rw [List.countP_eq_zero]
    intro a ha
    obtain ⟨t, _, _, rfl⟩ := (BroadcastBinomialTree.sends_mem n origin s e a).mp ha
    simp [Act.isRecv]
  · rw [List.filter_eq_nil_iff]
    intro a ha
    obtain ⟨t, _, _, rfl⟩ := (BroadcastBinomialTree.sends_mem n origin s e a).mp ha
    simp [Act.isRecv]

/-- `RoundUpToPowerOfTwo n` is `2 ^ ⌈log2 n⌉`. -/
theorem RoundUpToPowerOfTwo.eq_clog (n : Nat) : RoundUpToPowerOfTwo n = 2 ^ Nat.clog 2 n := by
  obtain ⟨m, h1, h2, h3⟩ := RoundUpToPowerOfTwo.spec n
  have hle : Nat.clog 2 n ≤ m := (Nat.le_pow_iff_clog_le (by decide : 1 < 2)).mp h2
  have hge : m ≤ Nat.clog 2 n := by
    rcases h3 with h3 | h3
    · omega
    · have := clog_lt_of_pow_lt n (m - 1) h3
      omega
  rw [h1, Nat.le_antisymm hge hle]

/-- The calls of the origin: only sends. -/
theorem BroadcastBinomialTree.bbt_trace_origin {α : Type} (feed : Nat → α) (n origin i : Nat)
    (v : α) (k : Nat) (hs : (i + n - origin) % n = 0) :
    Prog.trace feed (BroadcastBinomialTree n i origin v) k
      = BroadcastBinomialTree.sends n origin 0 (Nat.clog 2 n) := by
  have hm4 : 2 ^ Nat.clog 2 n >>> 1 ≤ n := by
    have h := two_pow_pred_shr (Nat.clog 2 n) n (by
      rcases Nat.eq_zero_or_pos (Nat.clog 2 n) with h0 | h0
      · left; exact h0
      · right
        exact (Nat.pow_lt_iff_lt_clog (by decide : 1 < 2)).mpr (by omega))
    exact h.1
  simp only [BroadcastBinomialTree, hs, gt_iff_lt, lt_irrefl, if_false,
    RoundUpToPowerOfTwo.eq_clog]
  exact BroadcastBinomialTree.bbt_trace_sendLoop feed n origin 0 v (Nat.clog 2 n) n k hm4

/-- The calls of a worker whose shifted rank has lowest set bit `2^e`: one
receive, then sends. -/
theorem BroadcastBinomialTree.bbt_trace_other {α : Type} (feed : Nat → α) (n origin i : Nat)
    (v : α) (k e : Nat) (hn : (i + n - origin) % n < n)
    (hlow : (i + n - origin) % n % (2 * 2 ^ e) = 2 ^ e) :
    Prog.trace feed (BroadcastBinomialTree n i origin v) k
      = Act.recv (((i + n - origin) % n - 2 ^ e + origin) % n) ::
          BroadcastBinomialTree.sends n origin ((i + n - origin) % n) e := by
  have hp := two_pow_pos1 e
  have hle := low_bit_le _ e hlow
  obtain ⟨-, hb⟩ := mod_two_mul_eq _ (2 ^ e) hp hlow
  obtain ⟨-, hxor, -, -, -, -, -⟩ := bit_set_facts _ e hb
  have hpos : (i + n - origin) % n > 0 := by omega
  simp only [BroadcastBinomialTree, hpos, if_true, ffs_low_bit _ e hlow, hxor, Prog.trace]
  rw [BroadcastBinomialTree.bbt_trace_sendLoop feed n origin _ _ e n (k + 1)
    (by rw [shr_one]; omega)]

/-! ### BroadcastTrivial: the calls of one worker -/

theorem BroadcastTrivial.bt_trace_sendLoop {α : Type} (feed : Nat → α) (n origin : Nat) (v : α)
    (fuel p k : Nat) (hf : n - p ≤ fuel) :
    Prog.trace feed (BroadcastTrivial.sendLoop n origin v fuel p) k
      = ((List.range' p (n - p)).filter (fun q => decide (q ≠ origin))).map Act.send := by
  induction fuel generalizing p with
  | zero =>
    have h0 : n - p = 0 := by omega
    have hp : ¬ p < n := by omega
    simp [BroadcastTrivial.sendLoop, hp, h0, Prog.trace]
  | succ fuel ih =>
    simp only [BroadcastTrivial.sendLoop]
    by_cases hp : p < n
    · have e : n - p = (n - (p + 1)) + 1 := by omega
      simp only [hp, if_true, trace_sendIf, ih (p + 1) (by omega)]
      rw [e, List.range'_succ, List.filter_cons]
      split_ifs <;> simp_all
    · have h0 : n - p = 0 := by omega
      simp [hp, h0, Prog.trace]

theorem filter_ne_length (n o : Nat) :
    ((List.range n).filter (fun q => decide (q ≠ o))).length = if o < n then n - 1 else n := by
  induction n with
  | zero => simp
  | succ n ih =>
    rw [List.range_succ, List.filter_append, List.length_append, ih]
    simp only [List.filter_cons, List.filter_nil]
    by_cases h1 : n = o
    · subst h1; simp
    · by_cases h2 : o < n
      · have h3 : o < n + 1 := by omega
        simp [h1, h2, h3]; omega
      · have h3 : ¬ o < n + 1 := by omega
        simp [h1, h2, h3]

/-- The origin of `BroadcastTrivial` sends to every other rank in ascending order. -/
theorem BroadcastTrivial.bt_trace_origin {α : Type} (feed : Nat → α) (n origin : Nat) (v : α)
    (k : Nat) :
    Prog.trace feed (BroadcastTrivial n origin origin v) k
      = ((List.range n).filter (fun q => decide (q ≠ origin))).map Act.send := by
  simp only [BroadcastTrivial, if_true]
  rw [BroadcastTrivial.bt_trace_sendLoop feed n origin v n 0 k (by omega), List.range_eq_range']
  simp

theorem BroadcastTrivial.bt_trace_other {α : Type} (feed : Nat → α) (n origin i : Nat) (v : α)
    (k : Nat) (hi : i ≠ origin) :
    Prog.trace feed (BroadcastTrivial n i origin v) k = [Act.recv origin] := by
  simp [BroadcastTrivial, hi, Prog.trace]

/-! ### Sequential composition -/

theorem trace_andThen {α : Type} (feed : Nat → α) (K : α → Prog α) (T : List Act)
    (hK : ∀ v k, Prog.trace feed (K v) k = T) (p : Prog α) (k : Nat) :
    ∃ X, (X = [] ∨ X = T) ∧
      Prog.trace feed (p.andThen K) k = Prog.trace feed p k ++ X := by
  induction p generalizing k with
  | done v => exact ⟨T, Or.inr rfl, by simp [Prog.andThen, Prog.trace, hK]⟩
  | send dst msg next ih =>
    obtain ⟨X, hX, h⟩ := ih k
    exact ⟨X, hX, by simp [Prog.andThen, Prog.trace, h]⟩
  | recv src next ih =>
    obtain ⟨X, hX, h⟩ := ih (feed k) (k + 1)
    exact ⟨X, hX, by simp [Prog.andThen, Prog.trace, h]⟩
  | spin => exact ⟨[], Or.inl rfl, by simp [Prog.andThen, Prog.trace]⟩

/-! ### Counting calls -/

theorem PrefixSum.ps_calls_count (n rank d : Nat) :
    (PrefixSum.calls n rank d).countP Act.isSend ≤ 1 ∧
    (PrefixSum.calls n rank d).countP Act.isRecv ≤ 1 := by
  unfold PrefixSum.calls
  constructor <;> split_ifs <;> simp [Act.isSend, Act.isRecv]

theorem PrefixSumHypercube.psh_calls_count (n rank d : Nat) :
    (PrefixSumHypercube.calls n rank d).countP Act.isSend ≤ 1 ∧
    (PrefixSumHypercube.calls n rank d).countP Act.isRecv ≤ 1 := by
  unfold PrefixSumHypercube.calls
  constructor <;> split_ifs <;> simp [Act.isSend, Act.isRecv]

theorem AllReduceHypercube.arh_calls_count (n rank d : Nat) :
    (AllReduceHypercube.calls n rank d).countP Act.isSend ≤ 1 ∧
    (AllReduceHypercube.calls n rank d).countP Act.isRecv ≤ 1 := by
  unfold AllReduceHypercube.calls
  constructor <;> split_ifs <;> simp [Act.isSend, Act.isRecv]

theorem roundLoop_counts (n : Nat) (body : Nat → List Act)
    (hq : ∀ d, (body d).countP Act.isSend ≤ 1 ∧ (body d).countP Act.isRecv ≤ 1) :
    sendCount ((roundLoop n body n 1).map Prod.snd) ≤ Nat.clog 2 n ∧
    recvCount ((roundLoop n body n 1).map Prod.snd) ≤ Nat.clog 2 n := by
  have h1 := roundLoop_countP n body Act.isSend (fun d => (hq d).1) n 0
  have h2 := roundLoop_countP n body Act.isRecv (fun d => (hq d).2) n 0
  rw [pow_zero] at h1 h2
  exact ⟨by unfold sendCount; omega, by unfold recvCount; omega⟩

theorem isSend_isRecv (a : Act) : a.isSend = !a.isRecv := by
  cases a <;> rfl

/-- Calls of the root of `Reduce`: no send, `⌈log2 n⌉` receives. -/
theorem Reduce.counts_root (n i root : Nat) (hs : (i + n - root) % n = 0) :
    sendCount ((Reduce.schedule n i root).map Prod.snd) = 0 ∧
    recvCount ((Reduce.schedule n i root).map Prod.snd) = Nat.clog 2 n := by
  unfold Reduce.schedule
  have h := Reduce.scheduleLoop_root n (i + n) n 0 (by have := clog_le_self n; omega)
  rw [pow_zero] at h
  rw [hs, h]
  simp only [List.map_map, sendCount, recvCount]
  constructor
  · rw [List.countP_eq_zero]
    intro a ha
    simp only [List.mem_map, Function.comp_apply] at ha
    obtain ⟨t, _, rfl⟩ := ha
    simp [Act.isSend]
  · rw [List.countP_eq_length.mpr]
    · simp
    · intro a ha
      simp only [List.mem_map, Function.comp_apply] at ha
      obtain ⟨t, _, rfl⟩ := ha
      simp [Act.isRecv]

/-- Calls of a non-root worker of `Reduce` whose shifted rank has lowest set
bit `2^e`: one send, at most `e` receives. -/
theorem Reduce.counts_other (n i root e : Nat) (hn : (i + n - root) % n < n)
    (hlow : (i + n - root) % n % (2 * 2 ^ e) = 2 ^ e) :
    sendCount ((Reduce.schedule n i root).map Prod.snd) = 1 ∧
    recvCount ((Reduce.schedule n i root).map Prod.snd) ≤ e := by
  have hle := low_bit_le _ e hlow
  have hlt := Nat.lt_two_pow e
  obtain ⟨l, h1, h2, h3⟩ := Reduce.scheduleLoop_low n (i + n) _ e hlow (by omega) n 0
    (Nat.zero_le e) (by omega)
  rw [pow_zero] at h1
  unfold Reduce.schedule
  rw [h1]
  simp only [List.map_append, List.map_cons, List.map_nil, sendCount, recvCount,
    List.countP_append, List.countP_cons, List.countP_nil, Act.isSend, Act.isRecv]
  constructor
  · have : List.countP Act.isSend (List.map Prod.snd l) = 0 := by
      rw [List.countP_eq_zero]
      intro a ha
      simp only [List.mem_map] at ha
      obtain ⟨x, hx, rfl⟩ := ha
      simp [(h2 x hx).1]
    simp [this]
  · have : List.countP Act.isRecv (List.map Prod.snd l) ≤ l.length := by
      calc _ ≤ (List.map Prod.snd l).length := List.countP_le_length _
        _ = l.length := by simp
    simp only [Bool.false_eq_true, if_false, Nat.add_zero]
    omega

/-! ### Matching of sends and receives -/

theorem PrefixSum.ps_schedule_matched (n i j d : Nat) (hj : j < n) :
    (d, Act.send j) ∈ PrefixSum.schedule n i ↔ (d, Act.recv i) ∈ PrefixSum.schedule n j := by
  unfold PrefixSum.schedule
  rw [roundLoop_mem_one, roundLoop_mem_one]
  simp only [PrefixSum.calls, List.mem_append, List.mem_ite_nil_right, List.mem_singleton,
    Act.send.injEq, Act.recv.injEq, reduceCtorEq, and_false, or_false, false_or]
  constructor
  · rintro ⟨h1, h2, h3, rfl⟩
    exact ⟨h1, h2, by omega, by omega⟩
  · rintro ⟨h1, h2, h3, rfl⟩
    exact ⟨h1, h2, by omega, by omega⟩

theorem PrefixSumHypercube.psh_schedule_matched (n i j d : Nat) (hi : i < n) (hj : j < n) :
    (d, Act.send j) ∈ PrefixSumHypercube.schedule n i
      ↔ (d, Act.recv i) ∈ PrefixSumHypercube.schedule n j := by
  unfold PrefixSumHypercube.schedule
  rw [roundLoop_mem_one, roundLoop_mem_one]
  simp only [PrefixSumHypercube.calls, List.mem_append, List.mem_ite_nil_right,
    List.mem_singleton, Act.send.injEq, Act.recv.injEq, reduceCtorEq, and_false, or_false,
    false_or]
  constructor
  · rintro ⟨h1, h2, h3, rfl⟩
    exact ⟨h1, h2, by rw [xor_xor_self]; exact hi, (xor_xor_self i d).symm⟩
  · rintro ⟨h1, h2, h3, rfl⟩
    exact ⟨h1, h2, by rw [xor_xor_self]; exact hj, (xor_xor_self j d).symm⟩

theorem AllReduceHypercube.arh_schedule_matched (n i j d : Nat) (hi : i < n) (hj : j < n) :
    (d, Act.send j) ∈ AllReduceHypercube.schedule n i
      ↔ (d, Act.recv i) ∈ AllReduceHypercube.schedule n j := by
  unfold AllReduceHypercube.schedule
  rw [roundLoop_mem_one, roundLoop_mem_one]
  simp only [AllReduceHypercube.calls, List.mem_append, List.mem_ite_nil_right,
    List.mem_singleton, Act.send.injEq, Act.recv.injEq, reduceCtorEq, and_false, or_false,
    false_or]
  constructor
  · rintro ⟨h1, h2, h3, rfl⟩
    exact ⟨h1, h2, by rw [xor_xor_self]; exact hi, (xor_xor_self i d).symm⟩
  · rintro ⟨h1, h2, h3, rfl⟩
    exact ⟨h1, h2, by rw [xor_xor_self]; exact hj, (xor_xor_self j d).symm⟩

theorem Reduce.red_schedule_matched (n root a b d : Nat) (hr : root < n) (ha : a < n) (hb : b < n) :
    (d, Act.send b) ∈ Reduce.schedule n a root ↔ (d, Act.recv a) ∈ Reduce.schedule n b root := by
  rw [Reduce.schedule_mem, Reduce.schedule_mem]
  constructor
  · rintro ⟨j, h1, h2, h3, h4⟩
    simp only at h1 h4
    rcases h4 with ⟨h5, h6⟩ | ⟨_, _, h6⟩
    · simp only [Act.send.injEq] at h6
      obtain ⟨m1, m2, m3, m4, m5⟩ := Reduce.send_match n root a j hr ha h3 h5
      subst h6
      exact ⟨j, h1, h2, m2, Or.inr ⟨m3, m4, by simp only [Act.recv.injEq]; exact m5.symm⟩⟩
    · cases h6
  · rintro ⟨j, h1, h2, h3, h4⟩
    simp only at h1 h4
    rcases h4 with ⟨_, h6⟩ | ⟨h5, h7, h6⟩
    · cases h6
    · simp only [Act.recv.injEq] at h6
      obtain ⟨m1, m2, m3, m4, m5⟩ := Reduce.recv_match n root b j hr hb h3 h5 h7
      subst h6
      exact ⟨j, h1, h2, m3, Or.inl ⟨m4, by simp only [Act.send.injEq]; exact m5.symm⟩⟩

/-- A `Reduce` worker that receives in round `d` sends, if at all, in a later round. -/
theorem Reduce.recv_before_send (n root b d d2 : Nat) (x y : Nat)
    (h1 : (d, Act.recv x) ∈ Reduce.schedule n b root)
    (h2 : (d2, Act.send y) ∈ Reduce.schedule n b root) : d < d2 := by
  rw [Reduce.schedule_mem] at h1 h2
  obtain ⟨j, a1, a2, a3, a4⟩ := h1
  obtain ⟨j2, b1, b2, b3, b4⟩ := h2
  simp only at a1 a4 b1 b4
  rcases a4 with ⟨_, a5⟩ | ⟨a5, _, _⟩
  · cases a5
  rcases b4 with ⟨b5, _⟩ | ⟨_, _, b6⟩
  · by_contra hle
    have hjj : j2 ≤ j := by
      by_contra hlt
      have : 2 ^ j < 2 ^ j2 := Nat.pow_lt_pow_right (by decide) (by omega)
      omega
    have hbit : ¬ (b + n - root) % n / 2 ^ j % 2 = 1 :=
      fun h => ((and_two_pow_ne_zero _ j).mpr h) a5
    have h0 := mod_two_mul_of_clear _ (2 ^ j) a3 hbit
    have e2 : 2 * 2 ^ j = 2 ^ (j + 1) := by rw [pow_succ]; ring
    rw [e2] at h0
    have h3 := mod_two_mul_of_lt _ j2 (j + 1) (by omega) h0
    obtain ⟨-, h4⟩ := mod_two_mul_zero _ (2 ^ j2) (two_pow_pos1 j2) h3
    exact h4 ((and_two_pow_ne_zero _ j2).mp b5)
  · cases b6

/-! ### BroadcastBinomialTree: the tree of calls -/

theorem shifted_zero_iff (n origin i : Nat) (ho : origin < n) (hi : i < n) :
    (i + n - origin) % n = 0 ↔ i = origin := by
  constructor
  · intro h0
    have := unshift_shifted n origin i ho hi
    rw [h0, Nat.zero_add, Nat.mod_eq_of_lt ho] at this
    exact this.symm
  · rintro rfl
    rw [Nat.add_sub_cancel_left, Nat.mod_self]

/-- The calls of a worker do not depend on the payload. -/
theorem BroadcastBinomialTree.trace_callsOf {α : Type} (feed : Nat → α) (n origin i : Nat)
    (ho : origin < n) (v : α) (k : Nat) :
    Prog.trace feed (BroadcastBinomialTree n i origin v) k
      = callsOf (BroadcastBinomialTree n i origin) := by
  unfold callsOf
  have hs := shifted_lt n origin i ho
  by_cases h0 : (i + n - origin) % n = 0
  · rw [BroadcastBinomialTree.bbt_trace_origin feed n origin i v k h0,
      BroadcastBinomialTree.bbt_trace_origin (fun _ => ()) n origin i () 0 h0]
  · obtain ⟨e, he⟩ := exists_low_bit _ (Nat.pos_of_ne_zero h0)
    rw [BroadcastBinomialTree.bbt_trace_other feed n origin i v k e hs he,
      BroadcastBinomialTree.bbt_trace_other (fun _ => ()) n origin i () 0 e hs he]

theorem BroadcastBinomialTree.calls_origin (n origin i : Nat)
    (hs : (i + n - origin) % n = 0) :
    callsOf (BroadcastBinomialTree n i origin)
      = BroadcastBinomialTree.sends n origin 0 (Nat.clog 2 n) :=
  BroadcastBinomialTree.bbt_trace_origin (fun _ => ()) n origin i () 0 hs

theorem BroadcastBinomialTree.calls_other (n origin i e : Nat) (ho : origin < n)
    (hlow : (i + n - origin) % n % (2 * 2 ^ e) = 2 ^ e) :
    callsOf (BroadcastBinomialTree n i origin)
      = Act.recv (((i + n - origin) % n - 2 ^ e + origin) % n) ::
          BroadcastBinomialTree.sends n origin ((i + n - origin) % n) e :=
  BroadcastBinomialTree.bbt_trace_other (fun _ => ()) n origin i () 0 e (shifted_lt n origin i ho)
    hlow

/-- Every send goes to a worker of higher shifted rank whose lowest set bit is
the step of the send, and whose only receive is from the sender. -/
theorem BroadcastBinomialTree.send_target (n origin a b : Nat) (ho : origin < n) (ha : a < n)
    (h : Act.send b ∈ callsOf (BroadcastBinomialTree n a origin)) :
    (a + n - origin) % n < (b + n - origin) % n ∧ b < n ∧
      (callsOf (BroadcastBinomialTree n b origin)).filter Act.isRecv = [Act.recv a] := by
  have hsa := shifted_lt n origin a ho
  have key : ∀ t, (a + n - origin) % n % (2 * 2 ^ t) = 0 → (a + n - origin) % n + 2 ^ t < n →
      b = ((a + n - origin) % n + 2 ^ t + origin) % n →
      (a + n - origin) % n < (b + n - origin) % n ∧ b < n ∧
      (callsOf (BroadcastBinomialTree n b origin)).filter Act.isRecv = [Act.recv a] := by
    intro t h0 hlt hb
    have hp := two_pow_pos1 t
    have hsb : (b + n - origin) % n = (a + n - origin) % n + 2 ^ t := by
      rw [hb]; exact shifted_unshift n origin _ ho hlt
    obtain ⟨hd0, hbit⟩ := mod_two_mul_zero _ (2 ^ t) hp h0
    obtain ⟨-, -, -, h5⟩ := div_mod_clear _ (2 ^ t) hp hbit
    have hlow : (b + n - origin) % n % (2 * 2 ^ t) = 2 ^ t := by
      rw [hsb, h5, hd0, Nat.zero_add]
    refine ⟨by omega, by rw [hb]; exact Nat.mod_lt _ (by omega), ?_⟩
    rw [BroadcastBinomialTree.calls_other n origin b t ho hlow, List.filter_cons,
      (BroadcastBinomialTree.sends_count n origin _ t).2.2]
    simp only [Act.isRecv, if_true]
    rw [hsb, Nat.add_sub_cancel, unshift_shifted n origin a ho ha]
  by_cases h0 : (a + n - origin) % n = 0
  · rw [BroadcastBinomialTree.calls_origin n origin a h0] at h
    obtain ⟨t, _, h2, h3⟩ := (BroadcastBinomialTree.sends_mem n origin 0 _ _).mp h
    simp only [Act.send.injEq] at h3
    rw [← h0] at h2 h3
    exact key t (by rw [h0]; exact Nat.zero_mod _) h2 h3
  · obtain ⟨e, he⟩ := exists_low_bit _ (Nat.pos_of_ne_zero h0)
    rw [BroadcastBinomialTree.calls_other n origin a e ho he] at h
    simp only [List.mem_cons, reduceCtorEq, false_or] at h
    obtain ⟨t, h1, h2, h3⟩ := (BroadcastBinomialTree.sends_mem n origin _ _ _).mp h
    simp only [Act.send.injEq] at h3
    exact key t (low_bit_below _ e t he h1) h2 h3

/-- A worker other than the origin receives once, from the worker whose shifted
rank is its own with the lowest set bit cleared, and that worker sends to it. -/
theorem BroadcastBinomialTree.recv_source (n origin i : Nat) (ho : origin < n) (hi : i < n)
    (hne : i ≠ origin) :
    (callsOf (BroadcastBinomialTree n i origin)).filter Act.isRecv
      = [Act.recv (((i + n - origin) % n - lowBit ((i + n - origin) % n) + origin) % n)] ∧
    ((((i + n - origin) % n - lowBit ((i + n - origin) % n) + origin) % n + n - origin) % n
      = (i + n - origin) % n - lowBit ((i + n - origin) % n)) ∧
    Act.send i ∈ callsOf (BroadcastBinomialTree n
      (((i + n - origin) % n - lowBit ((i + n - origin) % n) + origin) % n) origin) := by
  have hs := shifted_lt n origin i ho
  have h0 : (i + n - origin) % n ≠ 0 := fun h => hne ((shifted_zero_iff n origin i ho hi).mp h)
  obtain ⟨e, he⟩ := exists_low_bit _ (Nat.pos_of_ne_zero h0)
  have hp := two_pow_pos1 e
  have hle := low_bit_le _ e he
  rw [lowBit_eq _ e he]
  have hsp := shifted_unshift n origin ((i + n - origin) % n - 2 ^ e) ho (by omega)
  refine ⟨?_, hsp, ?_⟩
  · rw [BroadcastBinomialTree.calls_other n origin i e ho he, List.filter_cons,
      (BroadcastBinomialTree.sends_count n origin _ e).2.2]
    simp [Act.isRecv]
  · obtain ⟨hd0, hb⟩ := mod_two_mul_eq _ (2 ^ e) hp he
    obtain ⟨-, -, -, -, h5⟩ := div_mod_set _ (2 ^ e) hp hb
    rw [hd0] at h5
    have hback : ((i + n - origin) % n - 2 ^ e + 2 ^ e + origin) % n = i := by
      rw [Nat.sub_add_cancel hle]; exact unshift_shifted n origin i ho hi
    by_cases hz : (i + n - origin) % n - 2 ^ e = 0
    · rw [BroadcastBinomialTree.calls_origin n origin _ (by rw [hsp]; exact hz),
        BroadcastBinomialTree.sends_mem]
      have hlt : 2 ^ e < n := by omega
      refine ⟨e, clog_lt_of_pow_lt n e hlt, by omega, ?_⟩
      rw [← hz, hback]
    · obtain ⟨e2, he2⟩ := exists_low_bit _ (Nat.pos_of_ne_zero hz)
      have hlt : e < e2 := by
        by_contra hge
        have e3 : 2 * 2 ^ e = 2 ^ (e + 1) := by rw [pow_succ]; ring
        rw [e3] at h5
        have h6 := mod_pow_of_le _ (e2 + 1) (e + 1) (by omega) h5
        have e4 : 2 ^ (e2 + 1) = 2 * 2 ^ e2 := by rw [pow_succ]; ring
        rw [e4, he2] at h6
        have := two_pow_pos1 e2
        omega
      rw [BroadcastBinomialTree.calls_other n origin _ e2 ho (by rw [hsp]; exact he2), hsp]
      simp only [List.mem_cons, reduceCtorEq, false_or]
      rw [BroadcastBinomialTree.sends_mem]
      refine ⟨e, hlt, by omega, ?_⟩
      rw [hback]

/-! ### Bounds on the number of calls -/

theorem sendCount_append (a b : List Act) : sendCount (a ++ b) = sendCount a + sendCount b := by
  simp [sendCount]

theorem recvCount_append (a b : List Act) : recvCount (a ++ b) = recvCount a + recvCount b := by
  simp [recvCount]

theorem low_bit_lt_clog (n s e : Nat) (hs : s < n) (hlow : s % (2 * 2 ^ e) = 2 ^ e) :
    e < Nat.clog 2 n :=
  clog_lt_of_pow_lt n e (by have := low_bit_le s e hlow; omega)

theorem Reduce.red_counts (n i root : Nat) (hr : root < n) :
    sendCount ((Reduce.schedule n i root).map Prod.snd) ≤ Nat.clog 2 n ∧
    recvCount ((Reduce.schedule n i root).map Prod.snd) ≤ Nat.clog 2 n := by
  have hs := shifted_lt n root i hr
  by_cases h0 : (i + n - root) % n = 0
  · obtain ⟨h1, h2⟩ := Reduce.counts_root n i root h0
    omega
  · obtain ⟨e, he⟩ := exists_low_bit _ (Nat.pos_of_ne_zero h0)
    obtain ⟨h1, h2⟩ := Reduce.counts_other n i root e hs he
    have := low_bit_lt_clog n _ e hs he
    omega

/-- Calls of `BroadcastBinomialTree`: the origin only sends, at most `⌈log2 n⌉`
times; a worker with lowest set bit `2^e` receives once and sends at most `e`
times. -/
theorem BroadcastBinomialTree.counts_cases (n origin i : Nat) (ho : origin < n) :
    ((i + n - origin) % n = 0 →
      sendCount (callsOf (BroadcastBinomialTree n i origin)) ≤ Nat.clog 2 n ∧
      recvCount (callsOf (BroadcastBinomialTree n i origin)) = 0) ∧
    (∀ e, (i + n - origin) % n % (2 * 2 ^ e) = 2 ^ e →
      sendCount (callsOf (BroadcastBinomialTree n i origin)) ≤ e ∧
      recvCount (callsOf (BroadcastBinomialTree n i origin)) = 1) := by
  constructor
  · intro h0
    rw [BroadcastBinomialTree.calls_origin n origin i h0]
    exact ⟨(BroadcastBinomialTree.sends_count n origin 0 _).1,
      (BroadcastBinomialTree.sends_count n origin 0 _).2.1⟩
  · intro e he
    rw [BroadcastBinomialTree.calls_other n origin i e ho he]
    have h1 := (BroadcastBinomialTree.sends_count n origin ((i + n - origin) % n) e).1
    have h2 := (BroadcastBinomialTree.sends_count n origin ((i + n - origin) % n) e).2.1
    unfold sendCount recvCount at *
    simp only [List.countP_cons, Act.isSend, Act.isRecv, Bool.false_eq_true, if_false,
      if_true, Nat.add_zero]
    omega

theorem BroadcastBinomialTree.bbt_counts (n origin i : Nat) (ho : origin < n) :
    sendCount (callsOf (BroadcastBinomialTree n i origin)) ≤ Nat.clog 2 n ∧
    recvCount (callsOf (BroadcastBinomialTree n i origin)) ≤ Nat.clog 2 n := by
  have hs := shifted_lt n origin i ho
  obtain ⟨c1, c2⟩ := BroadcastBinomialTree.counts_cases n origin i ho
  by_cases h0 : (i + n - origin) % n = 0
  · obtain ⟨h1, h2⟩ := c1 h0
    omega
  · obtain ⟨e, he⟩ := exists_low_bit _ (Nat.pos_of_ne_zero h0)
    obtain ⟨h1, h2⟩ := c2 e he
    have := low_bit_lt_clog n _ e hs he
    omega

theorem AllReduce.ar_counts {α : Type} (feed : Nat → α) (op : α → α → α) (n i : Nat) (hn : 0 < n)
    (v : α) (k : Nat) :
    sendCount (Prog.trace feed (AllReduce op n i v) k) ≤ Nat.clog 2 n ∧
    recvCount (Prog.trace feed (AllReduce op n i v) k) ≤ Nat.clog 2 n := by
  have hs := shifted_lt n 0 i hn
  obtain ⟨X, hX, hT⟩ := trace_andThen feed (fun reduced => Broadcast n i 0 reduced)
    (callsOf (BroadcastBinomialTree n i 0))
    (fun w k2 => BroadcastBinomialTree.trace_callsOf feed n 0 i hn w k2)
    (Reduce op n i 0 v) k
  unfold AllReduce
  rw [hT, Reduce.red_trace_eq, sendCount_append, recvCount_append]
  obtain ⟨c1, c2⟩ := BroadcastBinomialTree.counts_cases n 0 i hn
  have hXs : sendCount X ≤ sendCount (callsOf (BroadcastBinomialTree n i 0)) := by
    rcases hX with rfl | rfl
    · simp [sendCount]
    · exact Nat.le_refl _
  have hXr : recvCount X ≤ recvCount (callsOf (BroadcastBinomialTree n i 0)) := by
    rcases hX with rfl | rfl
    · simp [recvCount]
    · exact Nat.le_refl _
  by_cases h0 : (i + n - 0) % n = 0
  · obtain ⟨h1, h2⟩ := Reduce.counts_root n i 0 h0
    obtain ⟨h3, h4⟩ := c1 h0
    omega
  · obtain ⟨e, he⟩ := exists_low_bit _ (Nat.pos_of_ne_zero h0)
    obtain ⟨h1, h2⟩ := Reduce.counts_other n i 0 e hs he
    obtain ⟨h3, h4⟩ := c2 e he
    have := low_bit_lt_clog n _ e hs he
    omega

/-- C11, as stated, fails: 3 is not a power of two, yet on a group of three
workers rank 0 of `PrefixSumHypercube` and of `AllReduceHypercube` sends and
receives, and both calls return values on every worker without any report. -/
theorem Hypercube_precondition_counterexample :
    (¬ ∃ j, 3 = 2 ^ j) ∧
    Prog.trace (fun _ => 0) (PrefixSumHypercube (fun a b : Nat => a + b) 3 0 1) 0
      = [Act.send 1, Act.recv 1, Act.send 2, Act.recv 2] ∧
    Prog.trace (fun _ => 0) (AllReduceHypercube (fun a b : Nat => a + b) 3 0 1) 0
      = [Act.send 1, Act.recv 1, Act.send 2, Act.recv 2] ∧
    Group.run (PrefixSumHypercube (fun a b : Nat => a + b)) [1, 2, 3] = some [1, 3, 6] ∧
    Group.run (AllReduceHypercube (fun a b : Nat => a + b)) [1, 2, 3] = some [6, 3, 6] := by
  refine ⟨?_, by decide, by decide, by decide, by decide⟩
  rintro ⟨j, hj⟩
  cases j with
  | zero => simp at hj
  | succ j => rw [pow_succ] at hj; omega

/-- C11, amended: `PrefixSumHypercube` and `AllReduceHypercube` check nothing
and report nothing; on a group of any size, a power of two or not, the call
returns on every worker, and a worker issues exactly the calls of the rounds
`d = 1, 2, 4, ... < n` in which its peer `rank XOR d` is below `n`: one send to
that peer and one receive from it. -/
theorem Hypercube_runs_unchecked {α : Type} [Inhabited α] (op : α → α → α) (vs : List α)
    (feed : Nat → α) (rank : Nat) (v : α) (k : Nat) :
    (∃ out, Group.run (PrefixSumHypercube op) vs = some out ∧ out.length = vs.length) ∧
    (∃ out, Group.run (AllReduceHypercube op) vs = some out ∧ out.length = vs.length) ∧
    Prog.trace feed (PrefixSumHypercube op vs.length rank v) k
      = (PrefixSumHypercube.schedule vs.length rank).map Prod.snd ∧
    Prog.trace feed (AllReduceHypercube op vs.length rank v) k
      = (AllReduceHypercube.schedule vs.length rank).map Prod.snd ∧
    (∀ d a, (d, a) ∈ PrefixSumHypercube.schedule vs.length rank ↔
      (∃ j, d = 2 ^ j) ∧ d < vs.length ∧ (rank ^^^ d) < vs.length ∧
        (a = Act.send (rank ^^^ d) ∨ a = Act.recv (rank ^^^ d))) ∧
    (∀ d a, (d, a) ∈ AllReduceHypercube.schedule vs.length rank ↔
      (∃ j, d = 2 ^ j) ∧ d < vs.length ∧ (rank ^^^ d) < vs.length ∧
        (a = Act.send (rank ^^^ d) ∨ a = Act.recv (rank ^^^ d))) := by
  refine ⟨⟨_, PrefixSumHypercube.psh_run_eq op vs, by simp⟩,
    ⟨_, AllReduceHypercube.arh_run_eq op vs, by simp⟩,
    PrefixSumHypercube.psh_trace_eq feed op _ rank v k,
    AllReduceHypercube.arh_trace_eq feed op _ rank v k, ?_, ?_⟩
  · intro d a
    unfold PrefixSumHypercube.schedule
    rw [roundLoop_mem_one]
    simp only [PrefixSumHypercube.calls, List.mem_append, List.mem_ite_nil_right,
      List.mem_singleton]
    tauto
  · intro d a
    unfold AllReduceHypercube.schedule
    rw [roundLoop_mem_one]
    simp only [AllReduceHypercube.calls, List.mem_append, List.mem_ite_nil_right,
      List.mem_singleton]
    tauto

/-- C12: in `PrefixSum`, `PrefixSumHypercube` and `AllReduceHypercube` on `n`
workers, worker `i` sends to worker `j` in round `d` exactly when worker `j`
receives from worker `i` in round `d`.  The rounds are those of the schedules,
which list the calls the programs issue whatever they receive; and the group has
an execution after which every worker has returned and every queue is empty. -/
theorem Rounds_send_recv_matched {α : Type} [Inhabited α] (n i j d : Nat) (hi : i < n)
    (hj : j < n) (op : α → α → α) (inclusive : Bool) (v : Nat → α) (feed : Nat → α) (k : Nat) :
    (((d, Act.send j) ∈ PrefixSum.schedule n i ↔ (d, Act.recv i) ∈ PrefixSum.schedule n j) ∧
      Prog.trace feed (PrefixSum op inclusive n i (v i)) k
        = (PrefixSum.schedule n i).map Prod.snd ∧
      ∃ out : Nat → α, Net.ReachLE n (2 * n * n)
        (Net.init n (fun r => PrefixSum op inclusive n r (v r)))
        (Net.init n (fun r => Prog.done (out r)))) ∧
    (((d, Act.send j) ∈ PrefixSumHypercube.schedule n i
        ↔ (d, Act.recv i) ∈ PrefixSumHypercube.schedule n j) ∧
      Prog.trace feed (PrefixSumHypercube op n i (v i)) k
        = (PrefixSumHypercube.schedule n i).map Prod.snd ∧
      ∃ out : Nat → α, Net.ReachLE n (2 * n * n)
        (Net.init n (fun r => PrefixSumHypercube op n r (v r)))
        (Net.init n (fun r => Prog.done (out r)))) ∧
    (((d, Act.send j) ∈ AllReduceHypercube.schedule n i
        ↔ (d, Act.recv i) ∈ AllReduceHypercube.schedule n j) ∧
      Prog.trace feed (AllReduceHypercube op n i (v i)) k
        = (AllReduceHypercube.schedule n i).map Prod.snd ∧
      ∃ out : Nat → α, Net.ReachLE n (2 * n * n)
        (Net.init n (fun r => AllReduceHypercube op n r (v r)))
        (Net.init n (fun r => Prog.done (out r)))) := by
  refine ⟨⟨PrefixSum.ps_schedule_matched n i j d hj, PrefixSum.ps_trace_eq feed op inclusive n i _ k,
      _, PrefixSum.ps_reach_rounds op inclusive n n 1
        (fun r => { value := v r, to_forward := v r, first := true }) (two_pow_ge n)⟩,
    ⟨PrefixSumHypercube.psh_schedule_matched n i j d hi hj,
      PrefixSumHypercube.psh_trace_eq feed op n i _ k,
      _, PrefixSumHypercube.psh_reach_rounds op n n 1
        (fun r => { value := v r, total_sum := v r }) (two_pow_ge n)⟩,
    ⟨AllReduceHypercube.arh_schedule_matched n i j d hi hj,
      AllReduceHypercube.arh_trace_eq feed op n i _ k,
      _, AllReduceHypercube.arh_reach_rounds op n n 1 v (two_pow_ge n)⟩⟩

/-- Witness for C12: five workers, round 2, worker 1 sends to worker 3 in
`PrefixSum`. -/
theorem Rounds_send_recv_matched_witness :
    1 < 5 ∧ 3 < 5 ∧
    ((2, Act.send 3) ∈ PrefixSum.schedule 5 1 ↔ (2, Act.recv 1) ∈ PrefixSum.schedule 5 3) :=
  ⟨by decide, by decide,
   (Rounds_send_recv_matched 5 1 3 2 (by decide) (by decide) (fun a b : Nat => a + b) true
     (fun r => r) (fun _ => 0) 0).1.1⟩

/-- C13: in `Reduce` on `n` workers with a root in `0..n-1`, worker `a` sends to
worker `b` in round `d` exactly when worker `b` receives from worker `a` in round
`d`; a worker that receives in a round has not sent before (its send, if any,
comes in a later round); no worker issues more than one call in a round, so a
send has exactly one receive and a receive exactly one send.  The rounds are
those of the schedule, which lists the calls the program issues; and the group
has an execution after which everyone has returned and every queue is empty. -/
theorem Reduce_send_recv_matched {α : Type} (n root a b d : Nat) (hr : root < n) (ha : a < n)
    (hb : b < n) (op : α → α → α) (v : Nat → α) (feed : Nat → α) (k : Nat) :
    ((d, Act.send b) ∈ Reduce.schedule n a root ↔ (d, Act.recv a) ∈ Reduce.schedule n b root) ∧
    (∀ x d2 y, (d, Act.recv x) ∈ Reduce.schedule n b root →
      (d2, Act.send y) ∈ Reduce.schedule n b root → d < d2) ∧
    (∀ w r, ((Reduce.schedule n w root).filter (fun x => decide (x.1 = r))).length ≤ 1) ∧
    Prog.trace feed (Reduce op n a root (v a)) k = (Reduce.schedule n a root).map Prod.snd ∧
    ∃ out : Nat → α, Net.ReachLE n (2 * n * n)
      (Net.init n (fun r => Reduce op n r root (v r)))
      (Net.init n (fun r => Prog.done (out r))) := by
  refine ⟨Reduce.red_schedule_matched n root a b d hr ha hb,
    fun x d2 y h1 h2 => Reduce.recv_before_send n root b d d2 x y h1 h2,
    fun w r => Reduce.scheduleLoop_round n _ _ n 1 r (Nat.le_refl 1),
    Reduce.red_trace_eq feed op n a root _ k, ?_⟩
  have h := Reduce.red_reach_rounds op n root hr n 0
    (fun r => { value := v r, active := true })
    (by rw [pow_zero]; exact two_pow_ge _) (by intro i _; simp [Nat.mod_one])
  rw [pow_zero] at h
  exact ⟨_, h⟩

/-- Witness for C13: seven workers, root 3; worker 5 (shifted rank 2) sends to
worker 3 in round 2. -/
theorem Reduce_send_recv_matched_witness :
    3 < 7 ∧ 5 < 7 ∧
    ((2, Act.send 3) ∈ Reduce.schedule 7 5 3 ↔ (2, Act.recv 5) ∈ Reduce.schedule 7 3 3) :=
  ⟨by decide, by decide,
   (Reduce_send_recv_matched 7 3 5 3 2 (by decide) (by decide) (by decide)
     (fun a b : Nat => a + b) (fun r => r) (fun _ => 0) 0).1⟩

/-- C14: in `Reduce` with a root in `0..n-1`, a worker whose shifted rank `s` is
not zero issues exactly one send, in the round `lowBit s` (the lowest set bit of
`s`), to the worker of shifted rank `s - lowBit s`, and no call in a later round;
the root (shifted rank 0) issues no send and exactly one receive in each of the
rounds `1, 2, ..., 2^(⌈log2 n⌉ - 1)`. -/
theorem Reduce_calls_per_worker {α : Type} (n root i : Nat) (hr : root < n) (hi : i < n)
    (op : α → α → α) (v : α) (feed : Nat → α) (k : Nat) :
    Prog.trace feed (Reduce op n i root v) k = (Reduce.schedule n i root).map Prod.snd ∧
    ((i + n - root) % n ≠ 0 →
      (i + n - root) % n % (2 * lowBit ((i + n - root) % n)) = lowBit ((i + n - root) % n) ∧
      (Reduce.schedule n i root).filter (fun x => x.2.isSend)
        = [(lowBit ((i + n - root) % n),
            Act.send ((i + n - lowBit ((i + n - root) % n)) % n))] ∧
      ((i + n - lowBit ((i + n - root) % n)) % n + n - root) % n
        = (i + n - root) % n - lowBit ((i + n - root) % n) ∧
      ∀ x ∈ Reduce.schedule n i root, x.1 ≤ lowBit ((i + n - root) % n)) ∧
    ((i + n - root) % n = 0 →
      Reduce.schedule n i root
        = (List.range (Nat.clog 2 n)).map (fun t => (2 ^ t, Act.recv ((i + n + 2 ^ t) % n)))) := by
  have hs := shifted_lt n root i hr
  refine ⟨Reduce.red_trace_eq feed op n i root v k, ?_, ?_⟩
  · intro h0
    obtain ⟨e, he⟩ := exists_low_bit _ (Nat.pos_of_ne_zero h0)
    have hle := low_bit_le _ e he
    have hlt := Nat.lt_two_pow e
    rw [lowBit_eq _ e he]
    obtain ⟨l, h1, h2, h3⟩ := Reduce.scheduleLoop_low n (i + n) _ e he (by omega) n 0
      (Nat.zero_le e) (by omega)
    rw [pow_zero] at h1
    refine ⟨he, ?_, ?_, ?_⟩
    · unfold Reduce.schedule
      rw [h1, List.filter_append]
      have : l.filter (fun x => x.2.isSend) = [] := by
        rw [List.filter_eq_nil_iff]
        intro x hx
        simp [(h2 x hx).1]
      rw [this]
      simp [Act.isSend]
    · rw [reduce_dst n root i (2 ^ e) hr hi hle]
      exact shifted_unshift n root _ hr (by omega)
    · intro x hx
      unfold Reduce.schedule at hx
      rw [h1, List.mem_append] at hx
      rcases hx with hx | hx
      · exact Nat.le_of_lt (h2 x hx).2.2
      · simp only [List.mem_singleton] at hx
        rw [hx]
  · intro h0
    unfold Reduce.schedule
    have h := Reduce.scheduleLoop_root n (i + n) n 0 (by have := clog_le_self n; omega)
    rw [pow_zero] at h
    rw [h0, h, List.range_eq_range']
    simp

/-- Witness for C14: seven workers, root 3, worker 0 (shifted rank 4). -/
theorem Reduce_calls_per_worker_witness :
    3 < 7 ∧ 0 < 7 ∧
    Prog.trace (fun _ => 0) (Reduce (fun a b : Nat => a + b) 7 0 3 1) 0
      = (Reduce.schedule 7 0 3).map Prod.snd :=
  ⟨by decide, by decide,
   (Reduce_calls_per_worker 7 3 0 (by decide) (by decide) (fun a b : Nat => a + b) 1
     (fun _ => 0) 0).1⟩

/-- The sends of the loop of `BroadcastBinomialTree` go to pairwise different
workers. -/
theorem BroadcastBinomialTree.sends_nodup (n origin s e : Nat) (ho : origin < n) :
    (BroadcastBinomialTree.sends n origin s e).Nodup := by
  unfold BroadcastBinomialTree.sends
  refine List.Nodup.map_on ?_ ((List.nodup_reverse.mpr (List.nodup_range e)).filter _)
  intro t1 h1 t2 h2 heq
  simp only [List.mem_filter, decide_eq_true_eq] at h1 h2
  have h := Act.send.inj heq
  have e1 := shifted_unshift n origin (s + 2 ^ t1) ho h1.2
  have e2 := shifted_unshift n origin (s + 2 ^ t2) ho h2.2
  rw [h] at e1
  have h3 : 2 ^ t1 = 2 ^ t2 := by omega
  exact Nat.pow_right_injective (Nat.le_refl 2) h3

/-- No call is issued twice by a worker of `BroadcastBinomialTree`. -/
theorem BroadcastBinomialTree.calls_nodup (n origin i : Nat) (ho : origin < n) :
    (callsOf (BroadcastBinomialTree n i origin)).Nodup := by
  by_cases h0 : (i + n - origin) % n = 0
  · rw [BroadcastBinomialTree.calls_origin n origin i h0]
    exact BroadcastBinomialTree.sends_nodup n origin 0 _ ho
  · obtain ⟨e, he⟩ := exists_low_bit _ (Nat.pos_of_ne_zero h0)
    rw [BroadcastBinomialTree.calls_other n origin i e ho he]
    refine List.nodup_cons.mpr ⟨?_, BroadcastBinomialTree.sends_nodup n origin _ e ho⟩
    intro hmem
    obtain ⟨t, _, _, ht⟩ := (BroadcastBinomialTree.sends_mem n origin _ e _).mp hmem
    cases ht

/-- A group of one worker whose program has already returned yields that value. -/
theorem Group.run_single {α : Type} [Inhabited α] (collective : Nat → Nat → α → Prog α)
    (v w : α) (h : collective 1 0 v = Prog.done w) :
    Group.run collective [v] = some [w] := by
  simp [Group.run, Net.exec, Net.budget, Net.run, Net.init, Net.stepAt, Net.collect,
    Prog.result, List.range, List.range.loop, h]

/-- C15: in `BroadcastBinomialTree` with an origin in `0..n-1` the calls of a
worker do not depend on the payload; the origin issues no receive; every other
worker issues exactly one receive, from the worker whose shifted rank is its own
minus its lowest set bit, and that worker issues a send to it; and every send
goes to a worker of strictly higher shifted rank (a rank below `n`) whose one
receive is from the sender, and no worker issues the same call twice. -/
theorem BroadcastBinomialTree_calls (n origin : Nat) (ho : origin < n) :
    (∀ (α : Type) (feed : Nat → α) (i : Nat) (v : α) (k : Nat),
      Prog.trace feed (BroadcastBinomialTree n i origin v) k
        = callsOf (BroadcastBinomialTree n i origin)) ∧
    (∀ a ∈ callsOf (BroadcastBinomialTree n origin origin), a.isRecv = false) ∧
    (∀ i, i < n → i ≠ origin →
      (callsOf (BroadcastBinomialTree n i origin)).filter Act.isRecv
        = [Act.recv (((i + n - origin) % n - lowBit ((i + n - origin) % n) + origin) % n)] ∧
      ((((i + n - origin) % n - lowBit ((i + n - origin) % n) + origin) % n + n - origin) % n
        = (i + n - origin) % n - lowBit ((i + n - origin) % n)) ∧
      Act.send i ∈ callsOf (BroadcastBinomialTree n
        (((i + n - origin) % n - lowBit ((i + n - origin) % n) + origin) % n) origin)) ∧
    (∀ a b, a < n → Act.send b ∈ callsOf (BroadcastBinomialTree n a origin) →
      (a + n - origin) % n < (b + n - origin) % n ∧ b < n ∧
      (callsOf (BroadcastBinomialTree n b origin)).filter Act.isRecv = [Act.recv a]) ∧
    (∀ i, (callsOf (BroadcastBinomialTree n i origin)).Nodup) := by
  refine ⟨fun α feed i v k => BroadcastBinomialTree.trace_callsOf feed n origin i ho v k, ?_,
    fun i hi hne => BroadcastBinomialTree.recv_source n origin i ho hi hne,
    fun a b ha h => BroadcastBinomialTree.send_target n origin a b ho ha h,
    fun i => BroadcastBinomialTree.calls_nodup n origin i ho⟩
  intro a ha
  rw [BroadcastBinomialTree.calls_origin n origin origin
    ((shifted_zero_iff n origin origin ho ho).mpr rfl)] at ha
  obtain ⟨t, _, _, rfl⟩ := (BroadcastBinomialTree.sends_mem n origin 0 _ a).mp ha
  rfl

/-- Witness for C15: seven workers, origin 3; worker 2 (shifted rank 6) receives
once, from worker 0 (shifted rank 4). -/
theorem BroadcastBinomialTree_calls_witness :
    3 < 7 ∧
    (callsOf (BroadcastBinomialTree 7 2 3)).filter Act.isRecv
      = [Act.recv (((2 + 7 - 3) % 7 - lowBit ((2 + 7 - 3) % 7) + 3) % 7)] :=
  ⟨by decide, ((BroadcastBinomialTree_calls 7 3 (by decide)).2.2.1 2 (by decide) (by decide)).1⟩

/-- C16: with a root and an origin in `0..n-1`, a worker of any rank issues at
most `⌈log2 n⌉` sends and at most `⌈log2 n⌉` receives in one call of `PrefixSum`,
`PrefixSumHypercube`, `Broadcast`, `Reduce`, `AllReduce` or
`AllReduceHypercube`, whatever it receives. -/
theorem Calls_at_most_log {α : Type} [Inhabited α] (n rank root origin : Nat) (hr : root < n)
    (ho : origin < n) (op : α → α → α) (inclusive : Bool) (v : α) (feed : Nat → α) (k : Nat) :
    (sendCount (Prog.trace feed (PrefixSum op inclusive n rank v) k) ≤ Nat.clog 2 n ∧
      recvCount (Prog.trace feed (PrefixSum op inclusive n rank v) k) ≤ Nat.clog 2 n) ∧
    (sendCount (Prog.trace feed (PrefixSumHypercube op n rank v) k) ≤ Nat.clog 2 n ∧
      recvCount (Prog.trace feed (PrefixSumHypercube op n rank v) k) ≤ Nat.clog 2 n) ∧
    (sendCount (Prog.trace feed (Broadcast n rank origin v) k) ≤ Nat.clog 2 n ∧
      recvCount (Prog.trace feed (Broadcast n rank origin v) k) ≤ Nat.clog 2 n) ∧
    (sendCount (Prog.trace feed (Reduce op n rank root v) k) ≤ Nat.clog 2 n ∧
      recvCount (Prog.trace feed (Reduce op n rank root v) k) ≤ Nat.clog 2 n) ∧
    (sendCount (Prog.trace feed (AllReduce op n rank v) k) ≤ Nat.clog 2 n ∧
      recvCount (Prog.trace feed (AllReduce op n rank v) k) ≤ Nat.clog 2 n) ∧
    (sendCount (Prog.trace feed (AllReduceHypercube op n rank v) k) ≤ Nat.clog 2 n ∧
      recvCount (Prog.trace feed (AllReduceHypercube op n rank v) k) ≤ Nat.clog 2 n) := by
  refine ⟨?_, ?_, ?_, ?_, AllReduce.ar_counts feed op n rank (by omega) v k, ?_⟩
  · rw [PrefixSum.ps_trace_eq]
    exact roundLoop_counts n _ (PrefixSum.ps_calls_count n rank)
  · rw [PrefixSumHypercube.psh_trace_eq]
    exact roundLoop_counts n _ (PrefixSumHypercube.psh_calls_count n rank)
  · unfold Broadcast
    rw [BroadcastBinomialTree.trace_callsOf feed n origin rank ho v k]
    exact BroadcastBinomialTree.bbt_counts n origin rank ho
  · rw [Reduce.red_trace_eq]
    exact Reduce.red_counts n rank root hr
  · rw [AllReduceHypercube.arh_trace_eq]
    exact roundLoop_counts n _ (AllReduceHypercube.arh_calls_count n rank)

/-- Witness for C16: seven workers, rank 4, root 3, origin 3 (`⌈log2 7⌉ = 3`). -/
theorem Calls_at_most_log_witness :
    3 < 7 ∧
    sendCount (Prog.trace (fun _ => 0) (AllReduce (fun a b : Nat => a + b) 7 4 1) 0)
      ≤ Nat.clog 2 7 ∧
    recvCount (Prog.trace (fun _ => 0) (AllReduce (fun a b : Nat => a + b) 7 4 1) 0)
      ≤ Nat.clog 2 7 :=
  ⟨by decide,
   (Calls_at_most_log 7 4 3 3 (by decide) (by decide) (fun a b : Nat => a + b) true 1
     (fun _ => 0) 0).2.2.2.2.1⟩

/-- C17: in `BroadcastTrivial` with an origin in `0..n-1` the origin issues
exactly the sends to the ranks `0, 1, ..., n-1` other than itself, in ascending
order (`n - 1` of them), and no receive; every other worker issues exactly one
call, a receive from the origin. -/
theorem BroadcastTrivial_calls {α : Type} (n origin : Nat) (ho : origin < n) (v : α)
    (feed : Nat → α) (k : Nat) :
    Prog.trace feed (BroadcastTrivial n origin origin v) k
      = ((List.range n).filter (fun q => decide (q ≠ origin))).map Act.send ∧
    (Prog.trace feed (BroadcastTrivial n origin origin v) k).length = n - 1 ∧
    sendCount (Prog.trace feed (BroadcastTrivial n origin origin v) k) = n - 1 ∧
    recvCount (Prog.trace feed (BroadcastTrivial n origin origin v) k) = 0 ∧
    (∀ i, i < n → i ≠ origin →
      Prog.trace feed (BroadcastTrivial n i origin v) k = [Act.recv origin]) := by
  have h1 := BroadcastTrivial.bt_trace_origin feed n origin v k
  have hlen : (((List.range n).filter (fun q => decide (q ≠ origin))).map Act.send).length
      = n - 1 := by
    rw [List.length_map, filter_ne_length, if_pos ho]
  refine ⟨h1, by rw [h1]; exact hlen, ?_, ?_,
    fun i _ hne => BroadcastTrivial.bt_trace_other feed n origin i v k hne⟩
  · rw [h1]
    unfold sendCount
    rw [List.countP_eq_length.mpr, hlen]
    intro a ha
    simp only [List.mem_map] at ha
    obtain ⟨q, _, rfl⟩ := ha
    rfl
  · rw [h1]
    unfold recvCount
    rw [List.countP_eq_zero]
    intro a ha
    simp only [List.mem_map] at ha
    obtain ⟨q, _, rfl⟩ := ha
    simp [Act.isRecv]

/-- Witness for C17: five workers, origin 2. -/
theorem BroadcastTrivial_calls_witness :
    2 < 5 ∧
    Prog.trace (fun _ => 0) (BroadcastTrivial 5 2 2 7) 0
      = [Act.send 0, Act.send 1, Act.send 3, Act.send 4] :=
  ⟨by decide, (BroadcastTrivial_calls 5 2 (by decide) 7 (fun _ => 0) 0).1.trans (by decide)⟩

/-- C18: on a group of one worker, `PrefixSum` with `inclusive = true`,
`PrefixSumHypercube`, `Broadcast`, `BroadcastTrivial`, `Reduce`, `AllReduce` and
`AllReduceHypercube` issue no send and no receive and return with the worker's
value unchanged. -/
theorem Single_worker_unchanged {α : Type} [Inhabited α] (op : α → α → α) (v : α)
    (feed : Nat → α) (k : Nat) :
    (Prog.trace feed (PrefixSum op true 1 0 v) k = [] ∧
      Group.run (PrefixSum op true) [v] = some [v]) ∧
    (Prog.trace feed (PrefixSumHypercube op 1 0 v) k = [] ∧
      Group.run (PrefixSumHypercube op) [v] = some [v]) ∧
    (Prog.trace feed (Broadcast 1 0 0 v) k = [] ∧
      Group.run (fun n r => Broadcast n r 0) [v] = some [v]) ∧
    (Prog.trace feed (BroadcastTrivial 1 0 0 v) k = [] ∧
      Group.run (fun n r => BroadcastTrivial n r 0) [v] = some [v]) ∧
    (Prog.trace feed (Reduce op 1 0 0 v) k = [] ∧
      Group.run (fun n r => Reduce op n r 0) [v] = some [v]) ∧
    (Prog.trace feed (AllReduce op 1 0 v) k = [] ∧
      Group.run (AllReduce op) [v] = some [v]) ∧
    (Prog.trace feed (AllReduceHypercube op 1 0 v) k = [] ∧
      Group.run (AllReduceHypercube op) [v] = some [v]) := by
  exact ⟨⟨rfl, Group.run_single _ v v rfl⟩, ⟨rfl, Group.run_single _ v v rfl⟩,
    ⟨rfl, Group.run_single _ v v rfl⟩, ⟨rfl, Group.run_single _ v v rfl⟩,
    ⟨rfl, Group.run_single _ v v rfl⟩, ⟨rfl, Group.run_single _ v v rfl⟩,
    ⟨rfl, Group.run_single _ v v rfl⟩⟩

theorem Above.self (v : Nat) : Above v v := ⟨0, by simp⟩

/-- Going up from the upper node. -/
theorem Above.parent {v u : Nat} (h : Above v u) : Above (v / 2) u := by
  obtain ⟨t, ht⟩ := h
  refine ⟨t + 1, ?_⟩
  rw [pow_succ, ← Nat.div_div_eq_div_mul, ht]

/-- Going down to a child of the lower node. -/
theorem Above.child {v u : Nat} (h : Above v (u / 2)) : Above v u := by
  obtain ⟨t, ht⟩ := h
  refine ⟨t + 1, ?_⟩
  rw [pow_succ, Nat.mul_comm, ← Nat.div_div_eq_div_mul, ht]

theorem Above.up {v u : Nat} (h : Above v u) (hne : u ≠ v) : Above v (u / 2) := by
  obtain ⟨t, ht⟩ := h
  cases t with
  | zero => simp at ht; exact absurd ht hne
  | succ t =>
    refine ⟨t, ?_⟩
    rw [Nat.div_div_eq_div_mul, Nat.mul_comm, ← pow_succ, ht]

theorem Above.le {v u : Nat} (h : Above v u) : v ≤ u := by
  obtain ⟨t, ht⟩ := h
  rw [← ht]
  exact Nat.div_le_self _ _

theorem Above.of_zero {v : Nat} (h : Above v 0) : v = 0 := by
  have := h.le
  omega

theorem Above.chain {a b c : Nat} (h1 : Above a b) (h2 : Above b c) : Above a c := by
  obtain ⟨s, hs⟩ := h1
  obtain ⟨t, ht⟩ := h2
  refine ⟨t + s, ?_⟩
  rw [pow_add, ← Nat.div_div_eq_div_mul, ht, hs]

/-- The subtrees of the two children of a node share no node. -/
theorem Above.disjoint (v : Nat) (hv : 1 ≤ v) :
    ∀ u, Above (2 * v) u → Above (2 * v + 1) u → False := by
  intro u
  induction u using Nat.strong_induction_on with
  | _ u ih =>
    intro h1 h2
    by_cases e1 : u = 2 * v
    · subst e1
      have := h2.le
      omega
    · by_cases e2 : u = 2 * v + 1
      · subst e2
        have h3 := (h1.up e1).le
        omega
      · have hu : u / 2 < u := by
          have := h1.le
          omega
        exact ih (u / 2) hu (h1.up e1) (h2.up e2)

/-- A node properly below `v` lies in the subtree of one of the children of `v`. -/
theorem Above.split (v : Nat) : ∀ u, Above v u → u ≠ v → Above (2 * v) u ∨ Above (2 * v + 1) u := by
  intro u
  induction u using Nat.strong_induction_on with
  | _ u ih =>
    intro h hne
    have h1 := h.up hne
    by_cases e : u / 2 = v
    · have : u = 2 * v ∨ u = 2 * v + 1 := by omega
      rcases this with h2 | h2
      · left; rw [h2]; exact Above.self _
      · right; rw [h2]; exact Above.self _
    · have hu : u / 2 < u := by
        rcases Nat.eq_zero_or_pos u with h0 | h0
        · subst h0
          have := h.of_zero
          omega
        · omega
      rcases ih (u / 2) hu h1 e with h2 | h2
      · left; exact h2.child
      · right; exact h2.child

/-- Every node from 1 on lies below the root. -/
theorem Above.root : ∀ u, 1 ≤ u → Above 1 u := by
  intro u
  induction u using Nat.strong_induction_on with
  | _ u ih =>
    intro hu
    by_cases e : u = 1
    · subst e; exact Above.self 1
    · exact (ih (u / 2) (by omega) (by omega)).child

theorem Above.double {v u : Nat} (h : Above (2 * v) u) : Above v u := by
  have := h.parent
  rwa [Nat.mul_div_cancel_left v (by decide : 0 < 2)] at this

theorem Above.double_succ {v u : Nat} (h : Above (2 * v + 1) u) : Above v u := by
  have := h.parent
  have e : (2 * v + 1) / 2 = v := by omega
  rwa [e] at this

theorem StrictWeakOrder.asymm {α : Type} {cmp : α → α → Bool} (h : StrictWeakOrder cmp)
    (a b : α) (hab : cmp a b = true) : cmp b a = false := by
  cases hba : cmp b a with
  | false => rfl
  | true =>
    have := h.trans a b a hab hba
    rw [h.irrefl a] at this
    exact absurd this (by decide)

/-- Not-less is transitive for a strict weak order. -/
theorem StrictWeakOrder.not_lt_trans {α : Type} {cmp : α → α → Bool} (h : StrictWeakOrder cmp)
    (a b c : α) (hcb : cmp c b = false) (hba : cmp b a = false) : cmp c a = false := by
  cases hca : cmp c a with
  | false => rfl
  | true =>
    have hbc : cmp b c = false := by
      cases hbc : cmp b c with
      | false => rfl
      | true =>
        have := h.trans b c a hbc hca
        rw [hba] at this
        exact absurd this (by decide)
    have hab : cmp a b = false := by
      cases hab : cmp a b with
      | false => rfl
      | true =>
        have := h.trans c a b hca hab
        rw [hcb] at this
        exact absurd this (by decide)
    have := h.incomp c b a hcb hbc hba hab
    rw [hca] at this
    exact absurd this (by decide)

theorem Loser.le_self {α : Type} {cmp : α → α → Bool} (h : StrictWeakOrder cmp) (a : Loser α) :
    Loser.le cmp a a := by
  unfold Loser.le
  cases hs : a.sup with
  | true => left; rfl
  | false => right; exact ⟨rfl, h.irrefl _⟩

theorem Loser.le_chain {α : Type} {cmp : α → α → Bool} (h : StrictWeakOrder cmp)
    (a b c : Loser α) (h1 : Loser.le cmp a b) (h2 : Loser.le cmp b c) : Loser.le cmp a c := by
  unfold Loser.le at *
  rcases h2 with h2 | ⟨h2, h3⟩
  · left; exact h2
  · rcases h1 with h1 | ⟨h1, h4⟩
    · rw [h1] at h2; exact absurd h2 (by decide)
    · right
      exact ⟨h1, h.not_lt_trans _ _ _ h3 h4⟩

/-- A sentinel is only matched by sentinels. -/
theorem Loser.le_sup {α : Type} {cmp : α → α → Bool} (a b : Loser α) (h : Loser.le cmp a b)
    (ha : a.sup = true) : b.sup = true := by
  rcases h with h | ⟨h, _⟩
  · exact h
  · rw [ha] at h; exact absurd h (by decide)

/-- The test of `init_winner`: the left winner stays ahead exactly when it does
not lose against the right one. -/
theorem Loser.le_of_test {α : Type} {cmp : α → α → Bool} (left right : Loser α)
    (h : (right.sup || (!left.sup && !cmp right.key left.key)) = true) :
    Loser.le cmp left right := by
  unfold Loser.le
  cases hr : right.sup with
  | true => left; rfl
  | false =>
    right
    rw [hr] at h
    simp only [Bool.false_or, Bool.and_eq_true, Bool.not_eq_true'] at h
    exact h

theorem Loser.le_of_not_test {α : Type} {cmp : α → α → Bool} (hc : StrictWeakOrder cmp)
    (left right : Loser α)
    (h : ¬ (right.sup || (!left.sup && !cmp right.key left.key)) = true) :
    Loser.le cmp right left := by
  unfold Loser.le
  simp only [Bool.or_eq_true, Bool.and_eq_true, Bool.not_eq_true', not_or, not_and,
    Bool.not_eq_true, Bool.not_eq_false] at h
  obtain ⟨h1, h2⟩ := h
  cases hl : left.sup with
  | true => left; rfl
  | false =>
    right
    exact ⟨h1, hc.asymm _ _ (h2 hl)⟩

/-- The unstable test of `delete_min_insert`: a stored node that is promoted does
not lose against the travelling one. -/
theorem LoserTreeCopy.promote_le {α : Type} {cmp : α → α → Bool} (hc : StrictWeakOrder cmp)
    (stored travelling : Loser α)
    (h : LoserTreeCopy.promote false cmp stored travelling = true) :
    Loser.le cmp stored travelling := by
  unfold Loser.le
  simp only [LoserTreeCopy.promote, Bool.false_eq_true, if_false, Bool.or_eq_true,
    Bool.and_eq_true, Bool.not_eq_true'] at h
  rcases h with h | ⟨h1, h2⟩
  · left; exact h
  · cases ht : travelling.sup with
    | true => left; rfl
    | false => right; exact ⟨h1, hc.asymm _ _ h2⟩

theorem LoserTreeCopy.not_promote_le {α : Type} {cmp : α → α → Bool}
    (stored travelling : Loser α)
    (h : ¬ LoserTreeCopy.promote false cmp stored travelling = true) :
    Loser.le cmp travelling stored := by
  unfold Loser.le
  simp only [LoserTreeCopy.promote, Bool.false_eq_true, if_false, Bool.or_eq_true,
    Bool.and_eq_true, Bool.not_eq_true', not_or, not_and, Bool.not_eq_true] at h
  obtain ⟨h1, h2⟩ := h
  cases hs : stored.sup with
  | true => left; rfl
  | false => right; exact ⟨h1, h2 hs⟩

/-- The winner of a subtree is one of its leaves. -/
theorem Tournament.winner_leaf {α : Type} {le : Loser α → Loser α → Prop} {k_ : Nat}
    {losers cur : Nat → Loser α} {W : Nat → Nat} (g : Tournament le k_ losers cur W) :
    ∀ m v, 2 * k_ - v = m → 1 ≤ v → v < 2 * k_ →
      Above v (W v) ∧ k_ ≤ W v ∧ W v < 2 * k_ := by
  intro m
  induction m using Nat.strong_induction_on with
  | _ m ih =>
    intro v hm hv hlt
    by_cases hk : k_ ≤ v
    · rw [g.leaf v hk]
      exact ⟨Above.self v, hk, hlt⟩
    · have hvk : v < k_ := by omega
      rcases g.node v hv hvk with ⟨h1, -, -⟩ | ⟨h1, -, -⟩
      · obtain ⟨a, b, c⟩ := ih (2 * k_ - 2 * v) (by omega) (2 * v) rfl (by omega) (by omega)
        rw [h1]
        exact ⟨a.double, b, c⟩
      · obtain ⟨a, b, c⟩ := ih (2 * k_ - (2 * v + 1)) (by omega) (2 * v + 1) rfl (by omega)
          (by omega)
        rw [h1]
        exact ⟨a.double_succ, b, c⟩

/-- The winner of a subtree does not lose against any leaf of the subtree. -/
theorem Tournament.winner_best {α : Type} {le : Loser α → Loser α → Prop} {k_ : Nat}
    {losers cur : Nat → Loser α} {W : Nat → Nat} (g : Tournament le k_ losers cur W)
    (hrefl : ∀ a, le a a) (htrans : ∀ a b c, le a b → le b c → le a c) :
    ∀ m v, 2 * k_ - v = m → 1 ≤ v → v < 2 * k_ →
      ∀ u, k_ ≤ u → u < 2 * k_ → Above v u → le (cur (W v)) (cur u) := by
  intro m
  induction m using Nat.strong_induction_on with
  | _ m ih =>
    intro v hm hv hlt u hu1 hu2 hvu
    by_cases hk : k_ ≤ v
    · rw [g.leaf v hk]
      by_cases e : u = v
      · rw [e]; exact hrefl _
      · rcases Above.split v u hvu e with h | h
        · have := h.le; omega
        · have := h.le; omega
    · have hvk : v < k_ := by omega
      have hne : u ≠ v := by omega
      have ihl := ih (2 * k_ - 2 * v) (by omega) (2 * v) rfl (by omega) (by omega) u hu1 hu2
      have ihr := ih (2 * k_ - (2 * v + 1)) (by omega) (2 * v + 1) rfl (by omega) (by omega)
        u hu1 hu2
      rcases g.node v hv hvk with ⟨h1, -, h3⟩ | ⟨h1, -, h3⟩
      · rw [h1]
        rcases Above.split v u hvu hne with h | h
        · exact ihl h
        · exact htrans _ _ _ h3 (ihr h)
      · rw [h1]
        rcases Above.split v u hvu hne with h | h
        · exact htrans _ _ _ h3 (ihl h)
        · exact ihr h

/-- The overall winner does not lose against any leaf. -/
theorem Tournament.top_best {α : Type} {le : Loser α → Loser α → Prop} {k_ : Nat}
    {losers cur : Nat → Loser α} {W : Nat → Nat} (g : Tournament le k_ losers cur W)
    (hk : 1 ≤ k_) (hrefl : ∀ a, le a a) (htrans : ∀ a b c, le a b → le b c → le a c)
    (u : Nat) (hu1 : k_ ≤ u) (hu2 : u < 2 * k_) : le (losers 0) (cur u) := by
  rw [g.top]
  exact g.winner_best hrefl htrans _ 1 rfl (Nat.le_refl 1) (by omega) u hu1 hu2
    (Above.root u (by omega))

/-- Every node on the way from the root to the overall winner has that winner. -/
theorem Tournament.winner_path {α : Type} {le : Loser α → Loser α → Prop} {k_ : Nat}
    {losers cur : Nat → Loser α} {W : Nat → Nat} (g : Tournament le k_ losers cur W)
    (hk : 1 ≤ k_) : ∀ x, 1 ≤ x → Above x (W 1) → W x = W 1 := by
  intro x
  induction x using Nat.strong_induction_on with
  | _ x ih =>
    intro hx hxw
    by_cases e : x = 1
    · rw [e]
    · have hw := g.winner_leaf _ 1 rfl (Nat.le_refl 1) (by omega)
      have hxle := hxw.le
      have hv : W (x / 2) = W 1 := ih (x / 2) (by omega) (by omega) hxw.parent
      have hvk : x / 2 < k_ := by omega
      have hx2 : x = 2 * (x / 2) ∨ x = 2 * (x / 2) + 1 := by omega
      have hl := g.winner_leaf _ (2 * (x / 2)) rfl (by omega) (by omega)
      have hr := g.winner_leaf _ (2 * (x / 2) + 1) rfl (by omega) (by omega)
      rcases g.node (x / 2) (by omega) hvk with ⟨h1, -, -⟩ | ⟨h1, -, -⟩
      · rcases hx2 with h | h
        · rw [h, ← h1, hv]
        · exfalso
          have a1 : Above (2 * (x / 2)) (W 1) := by rw [← hv, h1]; exact hl.1
          have a2 : Above (2 * (x / 2) + 1) (W 1) := by rw [← h]; exact hxw
          exact Above.disjoint (x / 2) (by omega) _ a1 a2
      · rcases hx2 with h | h
        · exfalso
          have a1 : Above (2 * (x / 2) + 1) (W 1) := by rw [← hv, h1]; exact hr.1
          have a2 : Above (2 * (x / 2)) (W 1) := by rw [← h]; exact hxw
          exact Above.disjoint (x / 2) (by omega) _ a2 a1
        · rw [h, ← h1, hv]

theorem Played.congr {α : Type} {le : Loser α → Loser α → Prop} {l l2 cur cur2 : Nat → Loser α}
    {W W2 : Nat → Nat} {v : Nat} (h : Played le l cur W v) (hl : l2 v = l v)
    (hv : W2 v = W v) (h0 : W2 (2 * v) = W (2 * v)) (h1 : W2 (2 * v + 1) = W (2 * v + 1))
    (c0 : cur2 (W (2 * v)) = cur (W (2 * v)))
    (c1 : cur2 (W (2 * v + 1)) = cur (W (2 * v + 1))) : Played le l2 cur2 W2 v := by
  unfold Played at *
  rw [hl, hv, h0, h1, c0, c1]
  exact h

theorem Above.left {v u : Nat} (h : Above v u) : Above v (2 * u) := by
  apply Above.child
  rwa [Nat.mul_div_cancel_left u (by decide : 0 < 2)]

theorem Above.right {v u : Nat} (h : Above v u) : Above v (2 * u + 1) := by
  apply Above.child
  have e : (2 * u + 1) / 2 = u := by omega
  rwa [e]

theorem LoserTreeCopyBase.store_same {α : Type} (l : Nat → Loser α) (i : Nat) (x : Loser α) :
    LoserTreeCopyBase.store l i x i = x := by
  simp [LoserTreeCopyBase.store]

theorem LoserTreeCopyBase.store_other {α : Type} (l : Nat → Loser α) (i j : Nat) (x : Loser α)
    (h : j ≠ i) : LoserTreeCopyBase.store l i x j = l j := by
  simp [LoserTreeCopyBase.store, h]

/-- The recursion `init_winner` returns when given enough depth, leaves the
leaves and the nodes outside the subtree alone, and plays every game of the
subtree on the leaf elements `L`. -/
theorem LoserTreeCopyBase.init_winner_played {α : Type} {cmp : α → α → Bool}
    (hc : StrictWeakOrder cmp) (k_ : Nat) (L : Nat → Loser α) :
    ∀ fuel root losers, 1 ≤ root → k_ ≤ root * 2 ^ fuel → (∀ u, k_ ≤ u → losers u = L u) →
      ∃ w losers2 W,
        LoserTreeCopyBase.init_winner cmp k_ fuel root losers = some (w, losers2) ∧
        W root = w ∧ k_ ≤ w ∧ (∀ u, k_ ≤ u → W u = u) ∧
        (∀ u, ¬ (Above root u ∧ u < k_) → losers2 u = losers u) ∧
        (∀ u, 1 ≤ u → u < k_ → Above root u → Played (Loser.le cmp) losers2 L W u) := by
  intro fuel
  induction fuel with
  | zero =>
    intro root losers hr hk hL
    rw [pow_zero, Nat.mul_one] at hk
    refine ⟨root, losers, fun u => u, ?_, rfl, hk, fun _ _ => rfl, fun _ _ => rfl, ?_⟩
    · simp [LoserTreeCopyBase.init_winner, hk]
    · intro u _ hu ha
      have := ha.le
      omega
  | succ fuel ih =>
    intro root losers hr hk hL
    by_cases hge : k_ ≤ root
    · refine ⟨root, losers, fun u => u, ?_, rfl, hge, fun _ _ => rfl, fun _ _ => rfl, ?_⟩
      · simp [LoserTreeCopyBase.init_winner, hge]
      · intro u _ hu ha
        have := ha.le
        omega
    · have hk2 : k_ ≤ 2 * root * 2 ^ fuel := by
        rw [pow_succ] at hk
        calc k_ ≤ root * (2 ^ fuel * 2) := hk
          _ = 2 * root * 2 ^ fuel := by ring
      have hk3 : k_ ≤ (2 * root + 1) * 2 ^ fuel :=
        Nat.le_trans hk2 (Nat.mul_le_mul_right _ (by omega))
      obtain ⟨w1, l1, W1, e1, hw1, hk1, hleaf1, hframe1, hplay1⟩ :=
        ih (2 * root) losers (by omega) hk2 hL
      have hL1 : ∀ u, k_ ≤ u → l1 u = L u := by
        intro u hu
        rw [hframe1 u (by omega), hL u hu]
      obtain ⟨w2, l2, W2, e2, hw2, hkw2, hleaf2, hframe2, hplay2⟩ :=
        ih (2 * root + 1) l1 (by omega) hk3 hL1
      have hL2 : ∀ u, k_ ≤ u → l2 u = L u := by
        intro u hu
        rw [hframe2 u (by omega), hL1 u hu]
      have hdis : ∀ u, Above (2 * root) u → Above (2 * root + 1) u → False :=
        Above.disjoint root hr
      classical
      -- the winner function of the subtree at `root`, for a given winner `w`
      have build : ∀ (w : Nat) (x : Loser α),
          (w = w1 ∧ x = L w2 ∧ Loser.le cmp (L w1) (L w2)) ∨
          (w = w2 ∧ x = L w1 ∧ Loser.le cmp (L w2) (L w1)) → k_ ≤ w →
          ∃ W, W root = w ∧ (∀ u, k_ ≤ u → W u = u) ∧
            (∀ u, ¬ (Above root u ∧ u < k_) →
              LoserTreeCopyBase.store l2 root x u = losers u) ∧
            (∀ u, 1 ≤ u → u < k_ → Above root u →
              Played (Loser.le cmp) (LoserTreeCopyBase.store l2 root x) L W u) := by
        intro w x hwx hkw
        have hWl : ∀ u, u ≠ root → Above (2 * root) u →
            (fun u => if u = root then w else if Above (2 * root) u then W1 u else W2 u) u
              = W1 u := by
          intro u h1 h2
          simp only [h1, if_false, h2, if_true]
        have hWr : ∀ u, u ≠ root → Above (2 * root + 1) u →
            (fun u => if u = root then w else if Above (2 * root) u then W1 u else W2 u) u
              = W2 u := by
          intro u h1 h2
          have h3 : ¬ Above (2 * root) u := fun h => hdis u h h2
          simp only [h1, if_false, h3]
        refine ⟨fun u => if u = root then w else if Above (2 * root) u then W1 u else W2 u,
          by simp, ?_, ?_, ?_⟩
        · intro u hu
          have hne : u ≠ root := by omega
          simp only [hne, if_false]
          split_ifs
          · exact hleaf1 u hu
          · exact hleaf2 u hu
        · intro u hu
          have hne : u ≠ root := by
            rintro rfl
            exact hu ⟨Above.self _, by omega⟩
          rw [LoserTreeCopyBase.store_other _ _ _ _ hne,
            hframe2 u (fun h => hu ⟨h.1.double_succ, h.2⟩),
            hframe1 u (fun h => hu ⟨h.1.double, h.2⟩)]
        · intro u hu1 hu2 ha
          by_cases hne : u = root
          · subst hne
            have a0 := hWl (2 * u) (by omega) (Above.self _)
            have a1 := hWr (2 * u + 1) (by omega) (Above.self _)
            have av : (fun v => if v = u then w else if Above (2 * u) v then W1 v else W2 v) u
                = w := by simp
            unfold Played
            rw [a0, a1, av, hw1, hw2, LoserTreeCopyBase.store_same]
            rcases hwx with ⟨h1, h2, h3⟩ | ⟨h1, h2, h3⟩
            · left; exact ⟨h1, h2, h3⟩
            · right; exact ⟨h1, h2, h3⟩
          · have hu0 : 2 * u ≠ root := by have := ha.le; omega
            have hu3 : 2 * u + 1 ≠ root := by have := ha.le; omega
            rcases Above.split root u ha hne with h | h
            · refine (hplay1 u hu1 hu2 h).congr ?_ (hWl u hne h) (hWl _ hu0 h.left)
                (hWl _ hu3 h.right) rfl rfl
              rw [LoserTreeCopyBase.store_other _ _ _ _ hne,
                hframe2 u (fun h2 => hdis u h h2.1)]
            · refine (hplay2 u hu1 hu2 h).congr ?_ (hWr u hne h) (hWr _ hu0 h.left)
                (hWr _ hu3 h.right) rfl rfl
              rw [LoserTreeCopyBase.store_other _ _ _ _ hne]
      have hs : LoserTreeCopyBase.init_winner cmp k_ (fuel + 1) root losers
          = if (l2 w2).sup || (!(l2 w1).sup && !cmp (l2 w2).key (l2 w1).key) then
              some (w1, LoserTreeCopyBase.store l2 root (l2 w2))
            else some (w2, LoserTreeCopyBase.store l2 root (l2 w1)) := by
        rw [LoserTreeCopyBase.init_winner, if_neg hge, e1]
        simp only [e2]
      rw [hs]
      by_cases htest : ((l2 w2).sup || (!(l2 w1).sup && !cmp (l2 w2).key (l2 w1).key)) = true
      · rw [if_pos htest]
        have hle := Loser.le_of_test (l2 w1) (l2 w2) htest
        rw [hL2 w1 hk1, hL2 w2 hkw2] at hle
        obtain ⟨W, a, b, c, d⟩ := build w1 (l2 w2) (Or.inl ⟨rfl, hL2 w2 hkw2, hle⟩) hk1
        exact ⟨w1, _, W, rfl, a, hk1, b, c, d⟩
      · rw [if_neg htest]
        have hle := Loser.le_of_not_test hc (l2 w1) (l2 w2) htest
        rw [hL2 w1 hk1, hL2 w2 hkw2] at hle
        obtain ⟨W, a, b, c, d⟩ := build w2 (l2 w1) (Or.inr ⟨rfl, hL2 w1 hk1, hle⟩) hkw2
        exact ⟨w2, _, W, rfl, a, hkw2, b, c, d⟩

/-- The method `init` returns and leaves a loser tree over the leaves of the
array it was given. -/
theorem LoserTreeCopyBase.init_tournament {α : Type} {cmp : α → α → Bool}
    (hc : StrictWeakOrder cmp) (t : LoserTreeCopyBase α) :
    ∃ t2 W, LoserTreeCopyBase.init cmp t = some t2 ∧ t2.k_ = t.k_ ∧ t2.ik_ = t.ik_ ∧
      Tournament (Loser.le cmp) t.k_ t2.losers_ t.losers_ W := by
  obtain ⟨w, l2, W, e, hw, hkw, hleaf, hframe, hplay⟩ :=
    LoserTreeCopyBase.init_winner_played hc t.k_ t.losers_ t.k_ 1 t.losers_ (Nat.le_refl 1)
      (by rw [Nat.one_mul]; exact Nat.le_of_lt (Nat.lt_two_pow _)) (fun _ _ => rfl)
  refine ⟨{ ik_ := t.ik_, k_ := t.k_, losers_ := LoserTreeCopyBase.store l2 0 (l2 w),
            first_insert_ := t.first_insert_ }, W, by rw [LoserTreeCopyBase.init, e], rfl, rfl, ?_⟩
  refine ⟨hleaf, ?_, ?_⟩
  · intro v hv hvk
    refine (hplay v hv hvk (Above.root v hv)).congr ?_ rfl rfl rfl rfl rfl
    exact LoserTreeCopyBase.store_other _ _ _ _ (by omega)
  · show LoserTreeCopyBase.store l2 0 (l2 w) 0 = t.losers_ (W 1)
    rw [LoserTreeCopyBase.store_same, hw, hframe w (by omega)]

theorem foldl_keeps {β γ : Type} (f : β → γ → β) (Q : β → Prop)
    (h : ∀ b c, Q b → Q (f b c)) : ∀ (l : List γ) (b : β), Q b → Q (List.foldl f b l) := by
  intro l
  induction l with
  | nil => intro b hb; exact hb
  | cons a rest ih => intro b hb; exact ih _ (h b a hb)

theorem foldl_reaches {β γ : Type} (f : β → γ → β) (Q : β → Prop) (i : γ)
    (hset : ∀ b, Q (f b i)) (hkeep : ∀ b c, Q b → Q (f b c)) :
    ∀ (l : List γ) (b : β), i ∈ l → Q (List.foldl f b l) := by
  intro l
  induction l with
  | nil => intro b hi; cases hi
  | cons a rest ih =>
    intro b hi
    rcases List.mem_cons.mp hi with h | h
    · subst h
      exact foldl_keeps f Q hkeep rest _ (hset b)
    · exact ih _ h

theorem RoundUpToPowerOfTwo.ge (k : Nat) : k ≤ RoundUpToPowerOfTwo k := by
  obtain ⟨m, h1, h2, -⟩ := RoundUpToPowerOfTwo.spec k
  rw [h1]; exact h2

/-- The constructor marks the leaves from the last player on as sentinels of
source -1. -/
theorem LoserTreeCopyBase.construct_marks {α : Type} (k : Nat) (junk : Nat → Loser α)
    (hk : 1 ≤ k) :
    (LoserTreeCopyBase.construct k junk).k_ = RoundUpToPowerOfTwo k ∧
    (LoserTreeCopyBase.construct k junk).ik_ = k ∧
    (LoserTreeCopyBase.construct k junk).first_insert_ = true ∧
    ∀ q, k ≤ q → q < RoundUpToPowerOfTwo k →
      ((LoserTreeCopyBase.construct k junk).losers_ (RoundUpToPowerOfTwo k + q)).sup = true ∧
      ((LoserTreeCopyBase.construct k junk).losers_ (RoundUpToPowerOfTwo k + q)).source = -1 := by
  refine ⟨rfl, rfl, rfl, ?_⟩
  intro q hq1 hq2
  have hk0 : k ≠ 0 := by omega
  simp only [LoserTreeCopyBase.construct, hk0, if_false]
  refine foldl_reaches _
    (fun l : Nat → Loser α => (l (RoundUpToPowerOfTwo k + q)).sup = true ∧
      (l (RoundUpToPowerOfTwo k + q)).source = -1) q ?_ ?_ _ junk ?_
  · intro b
    rw [Nat.add_comm q, LoserTreeCopyBase.store_same]
    exact ⟨rfl, rfl⟩
  · intro b c hb
    by_cases e : RoundUpToPowerOfTwo k + q = c + RoundUpToPowerOfTwo k
    · rw [e, LoserTreeCopyBase.store_same]
      exact ⟨rfl, rfl⟩
    · rw [LoserTreeCopyBase.store_other _ _ _ _ e]
      exact hb
  · rw [List.mem_range']
    refine ⟨q - (k - 1), by omega, by omega⟩

theorem toNat_add_cast (a p : Nat) : ((a : Int) + (p : Int)).toNat = a + p := by
  omega

/-- One call of `insert_start` for player `p`: the leaf of `p` gets the flag, the
source and the key; the flags and sources of all other nodes stay, and after the
first call the other nodes stay altogether. -/
theorem LoserTreeCopyBase.insert_start_leaf {α : Type} [Inhabited α] (t : LoserTreeCopyBase α)
    (keyp : Option α) (p : Nat) (sup : Bool) (hp : p < t.k_) :
    (LoserTreeCopyBase.insert_start t keyp (p : Int) sup).k_ = t.k_ ∧
    (LoserTreeCopyBase.insert_start t keyp (p : Int) sup).ik_ = t.ik_ ∧
    (LoserTreeCopyBase.insert_start t keyp (p : Int) sup).first_insert_ = false ∧
    ((LoserTreeCopyBase.insert_start t keyp (p : Int) sup).losers_ (t.k_ + p)).sup = sup ∧
    ((LoserTreeCopyBase.insert_start t keyp (p : Int) sup).losers_ (t.k_ + p)).source = (p : Int) ∧
    (∀ x, keyp = some x →
      ((LoserTreeCopyBase.insert_start t keyp (p : Int) sup).losers_ (t.k_ + p)).key = x) ∧
    (∀ u, u ≠ t.k_ + p →
      ((LoserTreeCopyBase.insert_start t keyp (p : Int) sup).losers_ u).sup = (t.losers_ u).sup ∧
      ((LoserTreeCopyBase.insert_start t keyp (p : Int) sup).losers_ u).source
        = (t.losers_ u).source) ∧
    (t.first_insert_ = false → ∀ u, u ≠ t.k_ + p →
      (LoserTreeCopyBase.insert_start t keyp (p : Int) sup).losers_ u = t.losers_ u) := by
  cases hf : t.first_insert_ with
  | false =>
    simp only [LoserTreeCopyBase.insert_start, hf, Bool.false_eq_true, if_false, toNat_add_cast,
      LoserTreeCopyBase.store_same, true_and]
    refine ⟨?_, ?_, ?_⟩
    · intro x hx; rw [hx]; rfl
    · intro u hu; rw [LoserTreeCopyBase.store_other _ _ _ _ hu]; exact ⟨rfl, rfl⟩
    · intro _ u hu; rw [LoserTreeCopyBase.store_other _ _ _ _ hu]
  | true =>
    cases keyp with
    | some key =>
      simp only [LoserTreeCopyBase.insert_start, hf, if_true, toNat_add_cast, true_and]
      have flags : ∀ (s : Bool) (z : Int) (u : Nat) (l0 : Nat → Loser α),
          (l0 u).sup = s ∧ (l0 u).source = z →
          (List.foldl (fun losers i => LoserTreeCopyBase.store losers i
                { sup := (losers i).sup, source := (losers i).source, key := key })
              l0 (List.range (2 * t.k_)) u).sup = s ∧
          (List.foldl (fun losers i => LoserTreeCopyBase.store losers i
                { sup := (losers i).sup, source := (losers i).source, key := key })
              l0 (List.range (2 * t.k_)) u).source = z := by
        intro s z u l0 h0
        refine foldl_keeps _ (fun l : Nat → Loser α => (l u).sup = s ∧ (l u).source = z) ?_ _ l0
          h0
        intro b c hb
        by_cases e : u = c
        · subst e; rw [LoserTreeCopyBase.store_same]; exact hb
        · rw [LoserTreeCopyBase.store_other _ _ _ _ e]; exact hb
      refine ⟨(flags sup p _ _ ?_).1, (flags sup p _ _ ?_).2, ?_, ?_⟩
      · rw [LoserTreeCopyBase.store_same]; exact ⟨rfl, rfl⟩
      · rw [LoserTreeCopyBase.store_same]; exact ⟨rfl, rfl⟩
      · intro x hx
        cases hx
        refine foldl_reaches _ (fun l : Nat → Loser α => (l (t.k_ + p)).key = key) (t.k_ + p)
          ?_ ?_ _ _ ?_
        · intro b
          show (LoserTreeCopyBase.store b (t.k_ + p) _ (t.k_ + p)).key = key
          rw [LoserTreeCopyBase.store_same]
        · intro b c hb
          show (LoserTreeCopyBase.store b c _ (t.k_ + p)).key = key
          by_cases e : t.k_ + p = c
          · rw [e, LoserTreeCopyBase.store_same]
          · rw [LoserTreeCopyBase.store_other _ _ _ _ e]; exact hb
        · rw [List.mem_range]; omega
      · refine ⟨?_, fun h => absurd h (by decide)⟩
        intro u hu
        refine flags _ _ u _ ?_
        rw [LoserTreeCopyBase.store_other _ _ _ _ hu]
        exact ⟨rfl, rfl⟩
    | none =>
      simp only [LoserTreeCopyBase.insert_start, hf, if_true, toNat_add_cast, true_and]
      have flags : ∀ (s : Bool) (z : Int) (u : Nat) (l0 : Nat → Loser α),
          (l0 u).sup = s ∧ (l0 u).source = z →
          (List.foldl (fun losers (_ : Nat) => LoserTreeCopyBase.store losers (t.k_ + p)
                { sup := (losers (t.k_ + p)).sup, source := (losers (t.k_ + p)).source,
                  key := default })
              l0 (List.range (2 * t.k_)) u).sup = s ∧
          (List.foldl (fun losers (_ : Nat) => LoserTreeCopyBase.store losers (t.k_ + p)
                { sup := (losers (t.k_ + p)).sup, source := (losers (t.k_ + p)).source,
                  key := default })
              l0 (List.range (2 * t.k_)) u).source = z := by
        intro s z u l0 h0
        refine foldl_keeps _ (fun l : Nat → Loser α => (l u).sup = s ∧ (l u).source = z) ?_ _ l0
          h0
        intro b c hb
        by_cases e : u = t.k_ + p
        · subst e; rw [LoserTreeCopyBase.store_same]; exact hb
        · rw [LoserTreeCopyBase.store_other _ _ _ _ e]; exact hb
      refine ⟨(flags sup p _ _ ?_).1, (flags sup p _ _ ?_).2, ?_, ?_⟩
      · rw [LoserTreeCopyBase.store_same]; exact ⟨rfl, rfl⟩
      · rw [LoserTreeCopyBase.store_same]; exact ⟨rfl, rfl⟩
      · intro x hx
        cases hx
      · refine ⟨?_, fun h => absurd h (by decide)⟩
        intro u hu
        refine flags _ _ u _ ?_
        rw [LoserTreeCopyBase.store_other _ _ _ _ hu]
        exact ⟨rfl, rfl⟩

/-- After `insert_start` has been called for the players of `order` on a freshly
constructed tree, the leaves of these players carry their elements and the
leaves beyond the last player are sentinels. -/
theorem LoserTreeCopyBase.insert_all {α : Type} [Inhabited α] (k : Nat)
    (players : Nat → Option α) (hR : k ≤ RoundUpToPowerOfTwo k) :
    ∀ (order done : List Nat) (t : LoserTreeCopyBase α),
      (∀ p ∈ order, p < k) →
      t.k_ = RoundUpToPowerOfTwo k →
      (t.first_insert_ = true → done = []) →
      (∀ p ∈ done, (t.losers_ (RoundUpToPowerOfTwo k + p)).sup = (players p).isNone ∧
        (t.losers_ (RoundUpToPowerOfTwo k + p)).source = (p : Int) ∧
        ∀ x, players p = some x → (t.losers_ (RoundUpToPowerOfTwo k + p)).key = x) →
      (∀ q, k ≤ q → q < RoundUpToPowerOfTwo k →
        (t.losers_ (RoundUpToPowerOfTwo k + q)).sup = true ∧
        (t.losers_ (RoundUpToPowerOfTwo k + q)).source = -1) →
      (List.foldl (fun t p =>
          LoserTreeCopyBase.insert_start t (players p) (p : Int) (players p).isNone) t order).k_
        = RoundUpToPowerOfTwo k ∧
      (∀ p ∈ done ++ order,
        ((List.foldl (fun t p =>
            LoserTreeCopyBase.insert_start t (players p) (p : Int) (players p).isNone) t
            order).losers_ (RoundUpToPowerOfTwo k + p)).sup = (players p).isNone ∧
        ((List.foldl (fun t p =>
            LoserTreeCopyBase.insert_start t (players p) (p : Int) (players p).isNone) t
            order).losers_ (RoundUpToPowerOfTwo k + p)).source = (p : Int) ∧
        ∀ x, players p = some x →
          ((List.foldl (fun t p =>
              LoserTreeCopyBase.insert_start t (players p) (p : Int) (players p).isNone) t
              order).losers_ (RoundUpToPowerOfTwo k + p)).key = x) ∧
      (∀ q, k ≤ q → q < RoundUpToPowerOfTwo k →
        ((List.foldl (fun t p =>
            LoserTreeCopyBase.insert_start t (players p) (p : Int) (players p).isNone) t
            order).losers_ (RoundUpToPowerOfTwo k + q)).sup = true ∧
        ((List.foldl (fun t p =>
            LoserTreeCopyBase.insert_start t (players p) (p : Int) (players p).isNone) t
            order).losers_ (RoundUpToPowerOfTwo k + q)).source = -1) := by
  intro order
  induction order with
  | nil =>
    intro done t _ hk _ hdone hpad
    simp only [List.foldl_nil, List.append_nil]
    exact ⟨hk, hdone, hpad⟩
  | cons a rest ih =>
    intro done t hord hk hfirst hdone hpad
    have ha : a < k := hord a (List.mem_cons_self _ _)
    have hak : a < t.k_ := by rw [hk]; omega
    obtain ⟨s1, -, s3, s4, s5, s6, s7, s8⟩ :=
      LoserTreeCopyBase.insert_start_leaf t (players a) a (players a).isNone hak
    rw [hk] at s4 s5 s6 s7 s8
    rw [hk] at s1
    have step := ih (done ++ [a])
      (LoserTreeCopyBase.insert_start t (players a) (a : Int) (players a).isNone)
      (fun p hp => hord p (List.mem_cons_of_mem _ hp)) s1
      (fun h => by rw [s3] at h; exact absurd h (by decide))
      (by
        intro p hp
        by_cases e : p = a
        · subst e
          exact ⟨s4, s5, s6⟩
        · have hpd : p ∈ done := by
            rcases List.mem_append.mp hp with h | h
            · exact h
            · simp at h; exact absurd h e
          have hf : t.first_insert_ = false := by
            cases hft : t.first_insert_ with
            | false => rfl
            | true =>
              have := hfirst hft
              rw [this] at hpd
              cases hpd
          rw [s8 hf _ (by omega)]
          exact hdone p hpd)
      (by
        intro q hq1 hq2
        obtain ⟨b1, b2⟩ := s7 (RoundUpToPowerOfTwo k + q) (by omega)
        rw [b1, b2]
        exact hpad q hq1 hq2)
    simp only [List.foldl_cons]
    rw [List.append_assoc, List.singleton_append] at step
    exact step

/-- The state after construction and the calls of `insert_start`: the leaves are
seated with the players. -/
theorem LoserTreeCopyBase.inserted_seated {α : Type} [Inhabited α] (k : Nat)
    (junk : Nat → Loser α) (players : Nat → Option α) (order : List Nat) (hk : 1 ≤ k)
    (h1 : ∀ p ∈ order, p < k) (h2 : ∀ p, p < k → p ∈ order) :
    (List.foldl (fun t p =>
        LoserTreeCopyBase.insert_start t (players p) (p : Int) (players p).isNone)
        (LoserTreeCopyBase.construct k junk) order).k_ = RoundUpToPowerOfTwo k ∧
    Seated k (RoundUpToPowerOfTwo k)
      (List.foldl (fun t p =>
        LoserTreeCopyBase.insert_start t (players p) (p : Int) (players p).isNone)
        (LoserTreeCopyBase.construct k junk) order).losers_ players := by
  obtain ⟨c1, -, -, c4⟩ := LoserTreeCopyBase.construct_marks k junk hk
  obtain ⟨a, b, c⟩ := LoserTreeCopyBase.insert_all k players (RoundUpToPowerOfTwo.ge k) order []
    (LoserTreeCopyBase.construct k junk) h1 c1 (fun _ => rfl)
    (fun p hp => by cases hp) c4
  refine ⟨a, ?_, c⟩
  intro p hp
  exact b p (by rw [List.nil_append]; exact h2 p hp)

/-- The set-up returns a loser tree over leaves seated with the players. -/
theorem LoserTreeCopyBase.start_tournament {α : Type} [Inhabited α] {cmp : α → α → Bool}
    (hc : StrictWeakOrder cmp) (k : Nat) (junk : Nat → Loser α) (players : Nat → Option α)
    (order : List Nat) (hk : 1 ≤ k) (h1 : ∀ p ∈ order, p < k) (h2 : ∀ p, p < k → p ∈ order) :
    ∃ t cur W, LoserTreeCopyBase.start cmp k junk players order = some t ∧
      t.k_ = RoundUpToPowerOfTwo k ∧
      Tournament (Loser.le cmp) (RoundUpToPowerOfTwo k) t.losers_ cur W ∧
      Seated k (RoundUpToPowerOfTwo k) cur players := by
  obtain ⟨a, b⟩ := LoserTreeCopyBase.inserted_seated k junk players order hk h1 h2
  obtain ⟨t2, W, e, e1, -, g⟩ := LoserTreeCopyBase.init_tournament hc
    (List.foldl (fun t p =>
        LoserTreeCopyBase.insert_start t (players p) (p : Int) (players p).isNone)
        (LoserTreeCopyBase.construct k junk) order)
  rw [a] at g e1
  exact ⟨t2, _, W, e, e1, g, b⟩

/-- In a loser tree over seated leaves with a player that is not exhausted, node
0 carries a player that is not exhausted and whose key no player's key is less
than. -/
theorem Tournament.seated_winner {α : Type} {cmp : α → α → Bool} (hc : StrictWeakOrder cmp)
    {k k_ : Nat} {losers cur : Nat → Loser α} {W : Nat → Nat} {players : Nat → Option α}
    (g : Tournament (Loser.le cmp) k_ losers cur W) (hs : Seated k k_ cur players)
    (hkk : k ≤ k_) (p0 : Nat) (x0 : α) (hp0 : p0 < k) (hx0 : players p0 = some x0) :
    ∃ q y, q < k ∧ W 1 = k_ + q ∧ (losers 0).source = (q : Int) ∧ players q = some y ∧
      (losers 0).sup = false ∧ (losers 0).key = y ∧
      ∀ r z, r < k → players r = some z → cmp z y = false := by
  have hbest := fun u h1 h2 => g.top_best (by omega) (Loser.le_self hc) (Loser.le_chain hc) u h1 h2
  obtain ⟨-, hw1, hw2⟩ := g.winner_leaf _ 1 rfl (Nat.le_refl 1) (by omega)
  -- the winner is not a sentinel
  have hnot : (losers 0).sup = false := by
    have h := hbest (k_ + p0) (by omega) (by omega)
    have hs0 := (hs.1 p0 hp0).1
    rw [hx0] at hs0
    rcases h with h | ⟨h, -⟩
    · rw [hs0] at h; simp at h
    · exact h
  have hq : W 1 - k_ < k := by
    by_contra hge
    have := (hs.2 (W 1 - k_) (by omega) (by omega)).1
    rw [show k_ + (W 1 - k_) = W 1 by omega, ← g.top, hnot] at this
    exact absurd this (by decide)
  obtain ⟨s1, s2, s3⟩ := hs.1 (W 1 - k_) hq
  rw [show k_ + (W 1 - k_) = W 1 by omega, ← g.top] at s1 s2 s3
  cases hy : players (W 1 - k_) with
  | none =>
    rw [hy, hnot] at s1
    simp at s1
  | some y =>
    refine ⟨W 1 - k_, y, hq, by omega, s2, hy, hnot, s3 y hy, ?_⟩
    intro r z hr hz
    have h := hbest (k_ + r) (by omega) (by omega)
    obtain ⟨r1, -, r3⟩ := hs.1 r hr
    rw [hz] at r1
    rcases h with h | ⟨-, h⟩
    · rw [r1] at h; simp at h
    · rw [r3 z hz, s3 y hy] at h
      exact h

theorem Played.of_children {α : Type} {le : Loser α → Loser α → Prop} {l cur : Nat → Loser α}
    {W : Nat → Nat} {v x y : Nat} (hxy : (x = 2 * v ∧ y = 2 * v + 1) ∨ (x = 2 * v + 1 ∧ y = 2 * v))
    (hw : W v = W x) (hl : l v = cur (W y)) (hle : le (cur (W x)) (cur (W y))) :
    Played le l cur W v := by
  rcases hxy with ⟨rfl, rfl⟩ | ⟨rfl, rfl⟩
  · left; exact ⟨hw, hl, hle⟩
  · right; exact ⟨hw, hl, hle⟩

/-- On the way from the root to the overall winner, the node above `x` stores the
winner of the sibling subtree of `x`, and that winner is another leaf. -/
theorem Tournament.path_loser {α : Type} {le : Loser α → Loser α → Prop} {k_ : Nat}
    {losers cur : Nat → Loser α} {W : Nat → Nat} (g : Tournament le k_ losers cur W)
    (hk : 1 ≤ k_) (x y : Nat) (hx : 1 ≤ x / 2) (hxw : Above x (W 1))
    (hxy : (x = 2 * (x / 2) ∧ y = 2 * (x / 2) + 1) ∨ (x = 2 * (x / 2) + 1 ∧ y = 2 * (x / 2))) :
    losers (x / 2) = cur (W y) ∧ W y ≠ W 1 ∧ ¬ Above y (W 1) := by
  have hw := g.winner_leaf _ 1 rfl (Nat.le_refl 1) (by omega)
  have hxle := hxw.le
  have hvk : x / 2 < k_ := by omega
  have hWx : W x = W 1 := g.winner_path hk x (by omega) hxw
  have hWv : W (x / 2) = W 1 := g.winner_path hk (x / 2) hx hxw.parent
  have hy := g.winner_leaf _ y rfl (by omega) (by omega)
  have hnot : ¬ Above y (W 1) := by
    intro h
    rcases hxy with ⟨h1, h2⟩ | ⟨h1, h2⟩
    · rw [h2] at h; rw [h1] at hxw
      exact Above.disjoint (x / 2) hx _ (by rw [← h1] at hxw ⊢; exact hxw) h
    · rw [h2] at h
      exact Above.disjoint (x / 2) hx _ h (by rw [← h1]; exact hxw)
  have hne : W y ≠ W 1 := by
    intro h
    rw [← h] at hnot
    exact hnot hy.1
  refine ⟨?_, hne, hnot⟩
  rcases g.node (x / 2) hx hvk with ⟨h1, h2, -⟩ | ⟨h1, h2, -⟩
  · rcases hxy with ⟨e1, e2⟩ | ⟨e1, e2⟩
    · rw [h2, e2]
    · exfalso
      apply hne
      rw [e2, ← h1, hWv]
  · rcases hxy with ⟨e1, e2⟩ | ⟨e1, e2⟩
    · exfalso
      apply hne
      rw [e2, ← h1, hWv]
    · rw [h2, e2]

/-- The loop of the unstable `delete_min_insert`, started below the node `x` of
the way from the replaced leaf `W 1` to the root with the winner of the subtree
at `x` travelling, returns and leaves a loser tree over the leaves `cur2`, which
are the leaves `cur` with the new element at the leaf `W 1`. -/
theorem LoserTreeCopy.replay_path {α : Type} {cmp : α → α → Bool} (hc : StrictWeakOrder cmp)
    {k_ : Nat} (hk : 1 ≤ k_) {l0 cur : Nat → Loser α} {W : Nat → Nat}
    (g : Tournament (Loser.le cmp) k_ l0 cur W) (cur2 : Nat → Loser α)
    (hcur : ∀ u, u ≠ W 1 → cur2 u = cur u) :
    ∀ fuel x c l W2, x / 2 ≤ fuel → 1 ≤ x → Above x (W 1) → c = cur2 (W2 x) →
      (∀ u, k_ ≤ u → W2 u = u) →
      (∀ u, 1 ≤ u → u < k_ → ¬ Above u (x / 2) → Played (Loser.le cmp) l cur2 W2 u) →
      (∀ u, 1 ≤ u → Above u (x / 2) → l u = l0 u) →
      (∀ u, ¬ Above u (W 1) → W2 u = W u) →
      ∃ c2 l2 W3, LoserTreeCopy.replay false cmp fuel (x / 2) c l = some (c2, l2) ∧
        Tournament (Loser.le cmp) k_ (LoserTreeCopyBase.store l2 0 c2) cur2 W3 := by
  have finish : ∀ x c l W2, x / 2 = 0 → 1 ≤ x → c = cur2 (W2 x) →
      (∀ u, k_ ≤ u → W2 u = u) →
      (∀ u, 1 ≤ u → u < k_ → ¬ Above u (x / 2) → Played (Loser.le cmp) l cur2 W2 u) →
      Tournament (Loser.le cmp) k_ (LoserTreeCopyBase.store l 0 c) cur2 W2 := by
    intro x c l W2 hx0 hx hcx hleaf hplay
    have hx1 : x = 1 := by omega
    refine ⟨hleaf, ?_, ?_⟩
    · intro v hv hvk
      refine (hplay v hv hvk ?_).congr (LoserTreeCopyBase.store_other _ _ _ _ (by omega))
        rfl rfl rfl rfl rfl
      intro h
      rw [hx0] at h
      have := h.of_zero
      omega
    · rw [LoserTreeCopyBase.store_same, hcx, hx1]
  have hw := g.winner_leaf _ 1 rfl (Nat.le_refl 1) (by omega)
  intro fuel
  induction fuel with
  | zero =>
    intro x c l W2 hf hx _ hcx hleaf hplay _ _
    have hx0 : x / 2 = 0 := by omega
    refine ⟨c, l, W2, ?_, finish x c l W2 hx0 hx hcx hleaf hplay⟩
    rw [hx0]
    simp [LoserTreeCopy.replay]
  | succ fuel ih =>
    intro x c l W2 hf hx hxw hcx hleaf hplay hkeep hoff
    by_cases hx0 : x / 2 = 0
    · refine ⟨c, l, W2, ?_, finish x c l W2 hx0 hx hcx hleaf hplay⟩
      rw [hx0]
      simp [LoserTreeCopy.replay]
    · have hv : 1 ≤ x / 2 := by omega
      have hxle := hxw.le
      have hvk : x / 2 < k_ := by omega
      have hvw : Above (x / 2) (W 1) := hxw.parent
      obtain ⟨y, hxy⟩ : ∃ y, (x = 2 * (x / 2) ∧ y = 2 * (x / 2) + 1) ∨
          (x = 2 * (x / 2) + 1 ∧ y = 2 * (x / 2)) := by
        rcases Nat.mod_two_eq_zero_or_one x with h | h
        · exact ⟨2 * (x / 2) + 1, Or.inl ⟨by omega, rfl⟩⟩
        · exact ⟨2 * (x / 2), Or.inr ⟨by omega, rfl⟩⟩
      have hyx : (y = 2 * (x / 2) ∧ x = 2 * (x / 2) + 1) ∨
          (y = 2 * (x / 2) + 1 ∧ x = 2 * (x / 2)) := by
        rcases hxy with ⟨a, b⟩ | ⟨a, b⟩
        · exact Or.inr ⟨b, a⟩
        · exact Or.inl ⟨b, a⟩
      obtain ⟨hst, hne, hoffy⟩ := g.path_loser hk x y hv hxw hxy
      have hxv : x ≠ x / 2 := by omega
      have hyv : y ≠ x / 2 := by omega
      -- what is stored above `x` is the winner of the sibling subtree
      have hstored : l (x / 2) = cur2 (W2 y) := by
        rw [hkeep (x / 2) hv (Above.self _), hst, hoff y hoffy, hcur _ hne]
      -- the state after one iteration, for either outcome of the test
      have next : ∀ (c3 : Loser α) (l3 : Nat → Loser α) (wv : Nat),
          (∀ u, u ≠ x / 2 → l3 u = l u) →
          c3 = cur2 wv →
          Played (Loser.le cmp) l3 cur2 (Function.update W2 (x / 2) wv) (x / 2) →
          ∃ c2 l2 W3, LoserTreeCopy.replay false cmp fuel (x / 2 / 2) c3 l3 = some (c2, l2) ∧
            Tournament (Loser.le cmp) k_ (LoserTreeCopyBase.store l2 0 c2) cur2 W3 := by
        intro c3 l3 wv hl3 hc3 hpl
        refine ih (x / 2) c3 l3 (Function.update W2 (x / 2) wv) (by omega) hv hvw ?_ ?_ ?_ ?_ ?_
        · rw [Function.update_same]; exact hc3
        · intro u hu
          rw [Function.update_noteq (by omega)]
          exact hleaf u hu
        · intro u hu1 hu2 hnab
          by_cases e : u = x / 2
          · rw [e]; exact hpl
          · have hnot : ¬ Above u (x / 2) := fun h => hnab (h.up (Ne.symm e))
            have h2u : 2 * u ≠ x / 2 := by
              intro h
              apply hnab
              rw [← h, Nat.mul_div_cancel_left u (by decide : 0 < 2)]
              exact Above.self u
            have h2u1 : 2 * u + 1 ≠ x / 2 := by
              intro h
              apply hnab
              rw [← h, show (2 * u + 1) / 2 = u by omega]
              exact Above.self u
            exact (hplay u hu1 hu2 hnot).congr (hl3 u e) (Function.update_noteq e _ _)
              (Function.update_noteq h2u _ _) (Function.update_noteq h2u1 _ _) rfl rfl
        · intro u hu1 hab
          have hle := hab.le
          rw [hl3 u (by omega)]
          exact hkeep u hu1 hab.child
        · intro u hnab
          have e : u ≠ x / 2 := by
            rintro rfl
            exact hnab hvw
          rw [Function.update_noteq e]
          exact hoff u hnab
      by_cases htest : LoserTreeCopy.promote false cmp (l (x / 2)) c = true
      · have hs : LoserTreeCopy.replay false cmp (fuel + 1) (x / 2) c l
            = LoserTreeCopy.replay false cmp fuel (x / 2 / 2) (l (x / 2))
                (LoserTreeCopyBase.store l (x / 2) c) := by
          rw [LoserTreeCopy.replay, if_pos (by omega), if_pos htest]
        rw [hs]
        refine next (l (x / 2)) _ (W2 y) (fun u hu => LoserTreeCopyBase.store_other _ _ _ _ hu)
          hstored ?_
        refine Played.of_children hyx ?_ ?_ ?_
        · rw [Function.update_same, Function.update_noteq hyv]
        · rw [LoserTreeCopyBase.store_same, Function.update_noteq hxv]; exact hcx
        · rw [Function.update_noteq hyv, Function.update_noteq hxv, ← hstored, ← hcx]
          exact LoserTreeCopy.promote_le hc _ _ htest
      · have hs : LoserTreeCopy.replay false cmp (fuel + 1) (x / 2) c l
            = LoserTreeCopy.replay false cmp fuel (x / 2 / 2) c l := by
          rw [LoserTreeCopy.replay, if_pos (by omega), if_neg htest]
        rw [hs]
        refine next c l (W2 x) (fun _ _ => rfl) hcx ?_
        refine Played.of_children hxy ?_ ?_ ?_
        · rw [Function.update_same, Function.update_noteq hxv]
        · rw [Function.update_noteq hyv]; exact hstored
        · rw [Function.update_noteq hyv, Function.update_noteq hxv, ← hstored, ← hcx]
          exact LoserTreeCopy.not_promote_le _ _ htest

/-- A loser tree over seated leaves whose overall winner is not the leaf of a
player consists of sentinels only. -/
theorem Tournament.seated_drained {α : Type} {cmp : α → α → Bool} (hc : StrictWeakOrder cmp)
    {k k_ : Nat} {losers cur : Nat → Loser α} {W : Nat → Nat} {players : Nat → Option α}
    (g : Tournament (Loser.le cmp) k_ losers cur W) (hs : Seated k k_ cur players)
    (hk : 1 ≤ k) (hkk : k ≤ k_) (hw : ¬ W 1 < k_ + k) : Drained k k_ losers players := by
  obtain ⟨-, hw1, hw2⟩ := g.winner_leaf _ 1 rfl (Nat.le_refl 1) (by omega)
  have htop : (losers 0).sup = true := by
    have := (hs.2 (W 1 - k_) (by omega) (by omega)).1
    rwa [show k_ + (W 1 - k_) = W 1 by omega, ← g.top] at this
  have hall : ∀ u, k_ ≤ u → u < 2 * k_ → (cur u).sup = true := fun u h1 h2 =>
    Loser.le_sup _ _ (g.top_best (by omega) (Loser.le_self hc) (Loser.le_chain hc) u h1 h2) htop
  have hleafs : ∀ u, k_ ≤ u → u < 2 * k_ →
      (cur u).sup = true ∧ -1 ≤ (cur u).source ∧ (cur u).source < (k : Int) := by
    intro u h1 h2
    refine ⟨hall u h1 h2, ?_⟩
    by_cases hp : u - k_ < k
    · have := (hs.1 (u - k_) hp).2.1
      rw [show k_ + (u - k_) = u by omega] at this
      rw [this]
      omega
    · have := (hs.2 (u - k_) (by omega) (by omega)).2
      rw [show k_ + (u - k_) = u by omega] at this
      rw [this]
      omega
  refine ⟨?_, ?_, ?_⟩
  · intro v hv hvk
    obtain ⟨-, a1, a2⟩ := g.winner_leaf _ (2 * v) rfl (by omega) (by omega)
    obtain ⟨-, b1, b2⟩ := g.winner_leaf _ (2 * v + 1) rfl (by omega) (by omega)
    rcases g.node v hv hvk with ⟨-, h, -⟩ | ⟨-, h, -⟩
    · rw [h]; exact hleafs _ b1 b2
    · rw [h]; exact hleafs _ a1 a2
  · rw [g.top]
    exact (hleafs _ hw1 hw2).2
  · intro p x hp hx
    have h1 := (hs.1 p hp).1
    rw [hx, hall (k_ + p) (by omega) (by omega)] at h1
    simp at h1

/-- The tree returned by the set-up satisfies the invariant. -/
theorem LoserTreeCopyBase.start_invariant {α : Type} [Inhabited α] {cmp : α → α → Bool}
    (hc : StrictWeakOrder cmp) (k : Nat) (junk : Nat → Loser α) (players : Nat → Option α)
    (order : List Nat) (hk : 1 ≤ k) (h1 : ∀ p ∈ order, p < k) (h2 : ∀ p, p < k → p ∈ order) :
    ∃ t, LoserTreeCopyBase.start cmp k junk players order = some t ∧
      LoserTreeCopy.Invariant cmp k t players := by
  obtain ⟨t, cur, W, e, ek, g, hs⟩ :=
    LoserTreeCopyBase.start_tournament hc k junk players order hk h1 h2
  have hkk : k ≤ t.k_ := by rw [ek]; exact RoundUpToPowerOfTwo.ge k
  refine ⟨t, e, hk, hkk, ?_⟩
  rw [ek]
  by_cases hw : W 1 < RoundUpToPowerOfTwo k + k
  · exact Or.inl ⟨cur, W, g, hs, hw⟩
  · exact Or.inr (g.seated_drained hc hs hk (by rw [← ek]; exact hkk) hw)

/-- Under the invariant, if some player is not exhausted then `min_source` names
a player that is not exhausted and whose key no player's key is less than. -/
theorem LoserTreeCopy.invariant_winner {α : Type} {cmp : α → α → Bool}
    (hc : StrictWeakOrder cmp) {k : Nat} {t : LoserTreeCopyBase α} {players : Nat → Option α}
    (h : LoserTreeCopy.Invariant cmp k t players) (p0 : Nat) (x0 : α) (hp0 : p0 < k)
    (hx0 : players p0 = some x0) :
    ∃ q y, q < k ∧ LoserTreeCopyBase.min_source t = (q : Int) ∧ players q = some y ∧
      ∀ r z, r < k → players r = some z → cmp z y = false := by
  obtain ⟨-, hkk, h | h⟩ := h
  · obtain ⟨cur, W, g, hs, -⟩ := h
    obtain ⟨q, y, a, -, b, c, -, -, d⟩ := g.seated_winner hc hs hkk p0 x0 hp0 hx0
    exact ⟨q, y, a, b, c, d⟩
  · obtain ⟨-, -, h3⟩ := h
    obtain ⟨-, a2, a3⟩ := h3 p0 x0 hp0 hx0
    refine ⟨p0, x0, hp0, a2, hx0, ?_⟩
    intro r z hr hz
    obtain ⟨-, -, b3⟩ := h3 r z hr hz
    rw [← a3, ← b3]
    exact hc.irrefl _

/-- A travelling node that is not a sentinel passes sentinels unchanged. -/
theorem LoserTreeCopy.replay_idle {α : Type} (cmp : α → α → Bool) (k_ : Nat)
    (c : Loser α) (l : Nat → Loser α) (hcs : c.sup = false)
    (hl : ∀ v, 1 ≤ v → v < k_ → (l v).sup = true) :
    ∀ fuel pos, pos ≤ fuel → pos < k_ →
      LoserTreeCopy.replay false cmp fuel pos c l = some (c, l) := by
  intro fuel
  induction fuel with
  | zero =>
    intro pos h1 _
    have : pos = 0 := by omega
    subst this
    simp [LoserTreeCopy.replay]
  | succ fuel ih =>
    intro pos h1 h2
    by_cases h0 : pos = 0
    · subst h0
      simp [LoserTreeCopy.replay]
    · have hp : LoserTreeCopy.promote false cmp (l pos) c = false := by
        simp [LoserTreeCopy.promote, hcs, hl pos (by omega) h2]
      rw [LoserTreeCopy.replay, if_pos (by omega), hp]
      simp only [Bool.false_eq_true, if_false]
      exact ih (pos / 2) (by omega) (by omega)

/-- A property shared by the travelling node and all inner nodes survives the
loop, which returns. -/
theorem LoserTreeCopy.replay_all {α : Type} (Stable : Bool) (cmp : α → α → Bool) (k_ : Nat)
    (Q : Loser α → Prop) :
    ∀ fuel pos c l, pos ≤ fuel → pos < k_ → Q c → (∀ v, 1 ≤ v → v < k_ → Q (l v)) →
      ∃ c2 l2, LoserTreeCopy.replay Stable cmp fuel pos c l = some (c2, l2) ∧ Q c2 ∧
        ∀ v, 1 ≤ v → v < k_ → Q (l2 v) := by
  intro fuel
  induction fuel with
  | zero =>
    intro pos c l h1 _ hc hl
    have : pos = 0 := by omega
    subst this
    exact ⟨c, l, by simp [LoserTreeCopy.replay], hc, hl⟩
  | succ fuel ih =>
    intro pos c l h1 h2 hc hl
    by_cases h0 : pos = 0
    · subst h0
      exact ⟨c, l, by simp [LoserTreeCopy.replay], hc, hl⟩
    · rw [LoserTreeCopy.replay, if_pos (by omega)]
      by_cases hp : LoserTreeCopy.promote Stable cmp (l pos) c = true
      · rw [if_pos hp]
        refine ih (pos / 2) _ _ (by omega) (by omega) (hl pos (by omega) h2) ?_
        intro v hv1 hv2
        by_cases e : v = pos
        · rw [e, LoserTreeCopyBase.store_same]; exact hc
        · rw [LoserTreeCopyBase.store_other _ _ _ _ e]; exact hl v hv1 hv2
      · rw [if_neg hp]
        exact ih (pos / 2) _ _ (by omega) (by omega) hc hl

theorem toNat_add_half (a k : Nat) (s : Int) (hk : k ≤ a) (h2 : s < (k : Int))
    (ha : 1 ≤ a) : ((a : Int) + s).toNat / 2 < a := by
  omega

/-- One call of the unstable `delete_min_insert` returns and keeps the invariant,
for the players with the element of the player `min_source` replaced. -/
theorem LoserTreeCopy.delete_min_insert_invariant {α : Type} [Inhabited α]
    {cmp : α → α → Bool} (hc : StrictWeakOrder cmp) {k : Nat} {t : LoserTreeCopyBase α}
    {players : Nat → Option α} (h : LoserTreeCopy.Invariant cmp k t players)
    (keyp : Option α) :
    ∃ t2, LoserTreeCopy.delete_min_insert false cmp t keyp keyp.isNone = some t2 ∧
      LoserTreeCopy.Invariant cmp k t2
        (LoserTreeCopy.replaced players (LoserTreeCopyBase.min_source t) keyp) := by
  obtain ⟨hk, hkk, h | h⟩ := h
  · -- a loser tree whose winner is the leaf of a player
    obtain ⟨cur, W, g, hs, hw⟩ := h
    obtain ⟨-, hw1, hw2⟩ := g.winner_leaf _ 1 rfl (Nat.le_refl 1) (by omega)
    have hq : W 1 - t.k_ < k := by omega
    have hW : t.k_ + (W 1 - t.k_) = W 1 := by omega
    have hsrc : (t.losers_ 0).source = ((W 1 - t.k_ : Nat) : Int) := by
      have := (hs.1 _ hq).2.1
      rwa [hW, ← g.top] at this
    have hpos : ((t.k_ : Int) + (t.losers_ 0).source).toNat / 2 = W 1 / 2 := by
      rw [hsrc, toNat_add_cast, hW]
    obtain ⟨c2, l2, W3, e, g2⟩ := LoserTreeCopy.replay_path hc (by omega) g
      (LoserTreeCopyBase.store cur (W 1)
        { sup := keyp.isNone, source := (t.losers_ 0).source, key := keyp.getD default })
      (fun u hu => LoserTreeCopyBase.store_other _ _ _ _ hu)
      (t.k_ + 1) (W 1)
      { sup := keyp.isNone, source := (t.losers_ 0).source, key := keyp.getD default }
      t.losers_ W (by omega) (by omega) (Above.self _)
      (by rw [g.leaf _ hw1, LoserTreeCopyBase.store_same]) g.leaf
      (by
        intro u hu1 hu2 hnab
        have hoff : ¬ Above u (W 1) := fun hab => hnab (hab.up (by omega))
        obtain ⟨a1, -, -⟩ := g.winner_leaf _ (2 * u) rfl (by omega) (by omega)
        obtain ⟨b1, -, -⟩ := g.winner_leaf _ (2 * u + 1) rfl (by omega) (by omega)
        refine (g.node u hu1 hu2).congr rfl rfl rfl rfl ?_ ?_
        · apply LoserTreeCopyBase.store_other
          intro h
          rw [h] at a1
          exact hoff a1.double
        · apply LoserTreeCopyBase.store_other
          intro h
          rw [h] at b1
          exact hoff b1.double_succ)
      (fun _ _ _ => rfl) (fun _ _ => rfl)
    rw [← hpos] at e
    refine ⟨{ ik_ := t.ik_, k_ := t.k_, losers_ := LoserTreeCopyBase.store l2 0 c2,
              first_insert_ := t.first_insert_ }, ?_, hk, hkk, ?_⟩
    · simp only [LoserTreeCopy.delete_min_insert]
      rw [e]
    · have hs2 : Seated k t.k_
          (LoserTreeCopyBase.store cur (W 1)
            { sup := keyp.isNone, source := (t.losers_ 0).source, key := keyp.getD default })
          (LoserTreeCopy.replaced players (LoserTreeCopyBase.min_source t) keyp) := by
        refine ⟨?_, ?_⟩
        · intro p hp
          by_cases e : p = W 1 - t.k_
          · have e1 : t.k_ + p = W 1 := by omega
            have e2 : LoserTreeCopy.replaced players (LoserTreeCopyBase.min_source t) keyp p
                = keyp := by
              simp [LoserTreeCopy.replaced, LoserTreeCopyBase.min_source, hsrc, e]
            rw [e1, LoserTreeCopyBase.store_same, e2]
            refine ⟨rfl, ?_, ?_⟩
            · show (t.losers_ 0).source = (p : Int)
              rw [hsrc, e]
            · intro x hx
              rw [hx]
              rfl
          · have e1 : t.k_ + p ≠ W 1 := by omega
            have e2 : LoserTreeCopy.replaced players (LoserTreeCopyBase.min_source t) keyp p
                = players p := by
              have : ¬ (p : Int) = ((W 1 - t.k_ : Nat) : Int) := by omega
              simp [LoserTreeCopy.replaced, LoserTreeCopyBase.min_source, hsrc, this]
            rw [LoserTreeCopyBase.store_other _ _ _ _ e1, e2]
            exact hs.1 p hp
        · intro q hq1 hq2
          rw [LoserTreeCopyBase.store_other _ _ _ _ (by omega)]
          exact hs.2 q hq1 hq2
      by_cases hw3 : W3 1 < t.k_ + k
      · exact Or.inl ⟨_, W3, g2, hs2, hw3⟩
      · exact Or.inr (g2.seated_drained hc hs2 hk hkk hw3)
  · -- only sentinels inside
    obtain ⟨h1, ⟨h2a, h2b⟩, h3⟩ := h
    have hpos := toNat_add_half t.k_ k (t.losers_ 0).source hkk h2b (by omega)
    cases keyp with
    | some x =>
      have e := LoserTreeCopy.replay_idle cmp t.k_
        { sup := false, source := (t.losers_ 0).source, key := x } t.losers_ rfl
        (fun v a b => (h1 v a b).1) (t.k_ + 1) _ (by omega) hpos
      refine ⟨{ ik_ := t.ik_, k_ := t.k_,
                losers_ := LoserTreeCopyBase.store t.losers_ 0
                  { sup := false, source := (t.losers_ 0).source, key := x },
                first_insert_ := t.first_insert_ }, ?_, hk, hkk, Or.inr ⟨?_, ?_, ?_⟩⟩
      · simp only [LoserTreeCopy.delete_min_insert, Option.isNone_some, Option.getD_some]
        rw [e]
      · intro v hv1 hv2
        dsimp only
        rw [LoserTreeCopyBase.store_other _ _ _ _ (by omega)]
        exact h1 v hv1 hv2
      · dsimp only
        rw [LoserTreeCopyBase.store_same]
        exact ⟨h2a, h2b⟩
      · intro p y hp hy
        dsimp only
        rw [LoserTreeCopyBase.store_same]
        by_cases e : (p : Int) = (t.losers_ 0).source
        · have : y = x := by
            simp [LoserTreeCopy.replaced, LoserTreeCopyBase.min_source, e] at hy
            exact hy.symm
          exact ⟨rfl, e.symm, this.symm⟩
        · exfalso
          have : players p = some y := by
            simpa [LoserTreeCopy.replaced, LoserTreeCopyBase.min_source, e] using hy
          exact e (h3 p y hp this).2.1.symm
    | none =>
      obtain ⟨c2, l2, e, hc2, hl2⟩ := LoserTreeCopy.replay_all false cmp t.k_
        (fun x : Loser α => x.sup = true ∧ -1 ≤ x.source ∧ x.source < (k : Int))
        (t.k_ + 1) (((t.k_ : Int) + (t.losers_ 0).source).toNat / 2)
        { sup := true, source := (t.losers_ 0).source, key := default } t.losers_
        (by omega) hpos ⟨rfl, h2a, h2b⟩ h1
      refine ⟨{ ik_ := t.ik_, k_ := t.k_, losers_ := LoserTreeCopyBase.store l2 0 c2,
                first_insert_ := t.first_insert_ }, ?_, hk, hkk, Or.inr ⟨?_, ?_, ?_⟩⟩
      · simp only [LoserTreeCopy.delete_min_insert, Option.isNone_none, Option.getD_none]
        rw [e]
      · intro v hv1 hv2
        dsimp only
        rw [LoserTreeCopyBase.store_other _ _ _ _ (by omega)]
        exact hl2 v hv1 hv2
      · dsimp only
        rw [LoserTreeCopyBase.store_same]
        exact hc2.2
      · intro p y hp hy
        exfalso
        by_cases e : (p : Int) = (t.losers_ 0).source
        · simp [LoserTreeCopy.replaced, LoserTreeCopyBase.min_source, e] at hy
        · have : players p = some y := by
            simpa [LoserTreeCopy.replaced, LoserTreeCopyBase.min_source, e] using hy
          exact e (h3 p y hp this).2.1.symm

/-- Every sequence of calls of the unstable `delete_min_insert` returns and keeps
the invariant. -/
theorem LoserTreeCopy.play_invariant {α : Type} [Inhabited α] {cmp : α → α → Bool}
    (hc : StrictWeakOrder cmp) {k : Nat} :
    ∀ (calls : List (Option α)) (t : LoserTreeCopyBase α) (players : Nat → Option α),
      LoserTreeCopy.Invariant cmp k t players →
      ∃ t2 players2, LoserTreeCopy.play false cmp calls t players = some (t2, players2) ∧
        LoserTreeCopy.Invariant cmp k t2 players2 := by
  intro calls
  induction calls with
  | nil =>
    intro t players h
    exact ⟨t, players, rfl, h⟩
  | cons keyp rest ih =>
    intro t players h
    obtain ⟨t1, e, h1⟩ := LoserTreeCopy.delete_min_insert_invariant hc h keyp
    obtain ⟨t2, players2, e2, h2⟩ := ih t1 _ h1
    refine ⟨t2, players2, ?_, h2⟩
    rw [LoserTreeCopy.play, e]
    exact e2

/-- The comparison `<` of natural numbers is a strict weak order. -/
theorem StrictWeakOrder.nat_lt : StrictWeakOrder (fun a b : Nat => decide (a < b)) := by
  refine ⟨?_, ?_, ?_⟩
  · intro a; simp
  · intro a b c h1 h2
    simp only [decide_eq_true_eq] at *
    omega
  · intro a b c h1 h2 h3 h4
    simp only [decide_eq_false_iff_not] at *
    omega

/-- C19: for `k ≥ 1` players, a comparator that is a strict weak order and an
assignment of a key or `sup` to every player with at least one key: after
construction, `insert_start` for every player (in any order) and `init`,
whatever the memory held before, `min_source` is the index of a player that
holds a key, and no player holds a key that compares less.  The set-up is that
of `LoserTreeCopyBase`, shared by the stable and the unstable tree. -/
theorem LoserTreeCopy_init_min_source {α : Type} [Inhabited α] (cmp : α → α → Bool)
    (hc : StrictWeakOrder cmp) (k : Nat) (junk : Nat → Loser α) (players : Nat → Option α)
    (order : List Nat) (h1 : ∀ p ∈ order, p < k) (h2 : ∀ p, p < k → p ∈ order)
    (p0 : Nat) (x0 : α) (hp0 : p0 < k) (hx0 : players p0 = some x0) :
    ∃ t q y, LoserTreeCopyBase.start cmp k junk players order = some t ∧ q < k ∧
      LoserTreeCopyBase.min_source t = (q : Int) ∧ players q = some y ∧
      ∀ r z, r < k → players r = some z → cmp z y = false := by
  obtain ⟨t, e, hinv⟩ :=
    LoserTreeCopyBase.start_invariant hc k junk players order (by omega) h1 h2
  obtain ⟨q, y, a, b, c, d⟩ := LoserTreeCopy.invariant_winner hc hinv p0 x0 hp0 hx0
  exact ⟨t, q, y, e, a, b, c, d⟩

/-- Witness for C19: three players holding 5, `sup`, 3, inserted in the order
2, 0, 1 into memory that held other nodes; `min_source` is 2. -/
theorem LoserTreeCopy_init_min_source_witness :
    (LoserTreeCopyBase.start (fun a b : Nat => decide (a < b)) 3
        (fun _ => { sup := false, source := 7, key := 0 })
        (fun p => [some 5, none, some 3].getD p none) [2, 0, 1]).map
      LoserTreeCopyBase.min_source = some 2 ∧
    ∃ (t : LoserTreeCopyBase Nat) (q y : Nat),
      LoserTreeCopyBase.start (fun a b : Nat => decide (a < b)) 3
        (fun _ => { sup := false, source := 7, key := 0 })
        (fun p => [some 5, none, some 3].getD p none) [2, 0, 1] = some t ∧ q < 3 ∧
      LoserTreeCopyBase.min_source t = (q : Int) ∧
      (fun p => [some 5, none, some 3].getD p none) q = some y ∧
      ∀ r z, r < 3 → (fun p => [some 5, none, some 3].getD p none) r = some z →
        (fun a b : Nat => decide (a < b)) z y = false :=
  ⟨by decide,
   LoserTreeCopy_init_min_source (fun a b : Nat => decide (a < b)) StrictWeakOrder.nat_lt 3
     (fun _ => { sup := false, source := 7, key := 0 })
     (fun p => [some 5, none, some 3].getD p none) [2, 0, 1] (by decide) (by decide)
     0 5 (by decide) rfl⟩

/-- C20: for the unstable `LoserTreeCopy<false>` set up for `k ≥ 1` players with a
strict weak order: after `init` and after every sequence of `delete_min_insert`
calls, each replacing the element of the player `min_source` names by a key or
by `sup`, all calls return; if some player holds a key then `min_source` is the
index of a player that holds a key and no player holds a key that compares less;
so `min_source` names a player without a key only when no player holds one. -/
theorem LoserTreeCopy_delete_min_insert_min_source {α : Type} [Inhabited α]
    (cmp : α → α → Bool) (hc : StrictWeakOrder cmp) (k : Nat) (junk : Nat → Loser α)
    (players : Nat → Option α) (order : List Nat) (hk : 1 ≤ k) (h1 : ∀ p ∈ order, p < k)
    (h2 : ∀ p, p < k → p ∈ order) (calls : List (Option α)) :
    ∃ t t2 players2, LoserTreeCopyBase.start cmp k junk players order = some t ∧
      LoserTreeCopy.play false cmp calls t players = some (t2, players2) ∧
      (∀ p x, p < k → players2 p = some x →
        ∃ q y, q < k ∧ LoserTreeCopyBase.min_source t2 = (q : Int) ∧ players2 q = some y ∧
          ∀ r z, r < k → players2 r = some z → cmp z y = false) ∧
      (∀ q, q < k → LoserTreeCopyBase.min_source t2 = (q : Int) → players2 q = none →
        ∀ p, p < k → players2 p = none) := by
  obtain ⟨t, e, hinv⟩ := LoserTreeCopyBase.start_invariant hc k junk players order hk h1 h2
  obtain ⟨t2, players2, e2, hinv2⟩ := LoserTreeCopy.play_invariant hc calls t players hinv
  refine ⟨t, t2, players2, e, e2, ?_, ?_⟩
  · intro p x hp hx
    exact LoserTreeCopy.invariant_winner hc hinv2 p x hp hx
  · intro q _ hq hnone p hp
    cases hx : players2 p with
    | none => rfl
    | some x =>
      exfalso
      obtain ⟨q2, y, _, b, c, -⟩ := LoserTreeCopy.invariant_winner hc hinv2 p x hp hx
      rw [hq] at b
      have : q = q2 := by omega
      rw [this, c] at hnone
      cases hnone

/-- Witness for C20: three players holding 5, `sup`, 3; the winner (player 2) is
replaced by 9, then the next winner (player 0) by `sup`; `min_source` is 2. -/
theorem LoserTreeCopy_delete_min_insert_min_source_witness :
    ((LoserTreeCopyBase.start (fun a b : Nat => decide (a < b)) 3
        (fun _ => { sup := false, source := 7, key := 0 })
        (fun p => [some 5, none, some 3].getD p none) [0, 1, 2]).bind
      (fun t => LoserTreeCopy.play false (fun a b : Nat => decide (a < b)) [some 9, none] t
        (fun p => [some 5, none, some 3].getD p none))).map
      (fun r => (LoserTreeCopyBase.min_source r.1, r.2 0, r.2 1, r.2 2))
      = some (2, none, none, some 9) ∧
    ∃ t t2 players2, LoserTreeCopyBase.start (fun a b : Nat => decide (a < b)) 3
        (fun _ => { sup := false, source := 7, key := 0 })
        (fun p => [some 5, none, some 3].getD p none) [0, 1, 2] = some t ∧
      LoserTreeCopy.play false (fun a b : Nat => decide (a < b)) [some 9, none] t
        (fun p => [some 5, none, some 3].getD p none) = some (t2, players2) ∧
      (∀ p x, p < 3 → players2 p = some x →
        ∃ q : Nat, ∃ y, q < 3 ∧ LoserTreeCopyBase.min_source t2 = (q : Int) ∧
          players2 q = some y ∧ ∀ r z, r < 3 → players2 r = some z → (fun a b : Nat => decide (a < b)) z y = false) ∧
      (∀ q : Nat, q < 3 → LoserTreeCopyBase.min_source t2 = (q : Int) → players2 q = none →
        ∀ p, p < 3 → players2 p = none) :=
  ⟨by decide,
   LoserTreeCopy_delete_min_insert_min_source (fun a b : Nat => decide (a < b))
     StrictWeakOrder.nat_lt 3 (fun _ => { sup := false, source := 7, key := 0 })
     (fun p => [some 5, none, some 3].getD p none) [0, 1, 2] (by decide) (by decide)
     (by decide) [some 9, none]⟩

/-! ### More on the folds -/

theorem foldl_assoc {α : Type} (op : α → α → α)
    (hassoc : ∀ a b c, op (op a b) c = op a (op b c)) (x : α) :
    ∀ (l : List α) (b : α), op x (l.foldl op b) = l.foldl op (op x b) := by
  intro l
  induction l with
  | nil => intro b; rfl
  | cons c l ih =>
    intro b
    simp only [List.foldl_cons]
    rw [ih, hassoc]

/-- The fold of a concatenation of two non-empty lists. -/
theorem foldLeft_append {α : Type} [Inhabited α] (op : α → α → α)
    (hassoc : ∀ a b c, op (op a b) c = op a (op b c)) (l1 l2 : List α) (h1 : l1 ≠ [])
    (h2 : l2 ≠ []) : foldLeft op (l1 ++ l2) = op (foldLeft op l1) (foldLeft op l2) := by
  cases l1 with
  | nil => exact absurd rfl h1
  | cons a l1 =>
    cases l2 with
    | nil => exact absurd rfl h2
    | cons b l2 =>
      simp only [List.cons_append, foldLeft, List.foldl_append, List.foldl_cons]
      rw [foldl_assoc op hassoc]

/-- For a commutative and associative operator the fold does not change under
rotation. -/
theorem foldLeft_rotate {α : Type} [Inhabited α] (op : α → α → α)
    (hassoc : ∀ a b c, op (op a b) c = op a (op b c)) (hcomm : ∀ a b, op a b = op b a)
    (l : List α) (r : Nat) (hr : r < l.length) : foldLeft op (l.rotate r) = foldLeft op l := by
  rcases Nat.eq_zero_or_pos r with h0 | hpos
  · subst h0; rw [List.rotate_zero]
  · rw [List.rotate_eq_drop_append_take (Nat.le_of_lt hr)]
    have hd : l.drop r ≠ [] := by
      intro h
      have := congrArg List.length h
      simp at this
      omega
    have ht : l.take r ≠ [] := by
      intro h
      have := congrArg List.length h
      rw [List.length_take, List.length_nil] at this
      omega
    rw [foldLeft_append op hassoc _ _ hd ht, hcomm, ← foldLeft_append op hassoc _ _ ht hd,
      List.take_append_drop]

/-! ### `PrefixSumHypercube` on a group of any size, and round by round -/

/-- One round of `PrefixSumHypercube` realised by the scheduler. -/
theorem PrefixSumHypercube.psh_reach_round {α : Type} (sum_op : α → α → α)
    (n : Nat) (fuel d : Nat) (st : Nat → PrefixSumHypercube.Locals α) (hd : d < n) :
    Net.ReachLE n (2 * n)
      (Net.init n (fun i => PrefixSumHypercube.loop sum_op n i (fuel + 1) d
        (st i).value (st i).total_sum))
      (Net.init n (fun i => PrefixSumHypercube.loop sum_op n i fuel (d <<< 1)
        (PrefixSumHypercube.round sum_op n d st i).value
        (PrefixSumHypercube.round sum_op n d st i).total_sum)) := by
  apply Net.round_matched n _
    (fun i => if (i ^^^ d) < n then
        Prog.recv (i ^^^ d) (fun recv_data =>
          PrefixSumHypercube.loop sum_op n i fuel (d <<< 1)
            (if i &&& d ≠ 0 then sum_op recv_data (st i).value else (st i).value)
            (if i &&& d ≠ 0 then sum_op recv_data (st i).total_sum
             else sum_op (st i).total_sum recv_data))
      else
        PrefixSumHypercube.loop sum_op n i fuel (d <<< 1) (st i).value (st i).total_sum)
    _ (fun i => decide ((i ^^^ d) < n)) (fun j => decide ((j ^^^ d) < n))
    (fun i => i ^^^ d) (fun j => j ^^^ d) (fun i => (st i).total_sum)
  · intro i _
    simp only [PrefixSumHypercube.loop, hd, if_true]
  · intro j _ hR
    have hjd : (j ^^^ d) < n := by simpa using hR
    refine ⟨_, by simp only [hjd, if_true]; rfl, ?_⟩
    simp only [PrefixSumHypercube.round, hjd, if_true]
  · intro j _ hR
    have hjd : ¬ (j ^^^ d) < n := by simpa using hR
    simp only [PrefixSumHypercube.round, hjd, if_false]
  · intro i hi hS
    have : (i ^^^ d) < n := by simpa using hS
    refine ⟨this, ?_, xor_xor_self i d⟩
    simp only [xor_xor_self, decide_eq_true_eq]; exact hi
  · intro j hj hR
    have hjd : (j ^^^ d) < n := by simpa using hR
    refine ⟨hjd, ?_, xor_xor_self j d⟩
    simp only [xor_xor_self, decide_eq_true_eq]; exact hj

/-- The first `r` rounds realised by the scheduler: every worker stands at the
head of its loop with the locals of the round view. -/
theorem PrefixSumHypercube.psh_reach_upto {α : Type} (sum_op : α → α → α) (n fuel : Nat) :
    ∀ (r d : Nat) (st : Nat → PrefixSumHypercube.Locals α), d * 2 ^ r < 2 * n →
      Net.ReachLE n (2 * n * r)
        (Net.init n (fun i => PrefixSumHypercube.loop sum_op n i (fuel + r) d
          (st i).value (st i).total_sum))
        (Net.init n (fun i => PrefixSumHypercube.loop sum_op n i fuel (d * 2 ^ r)
          (PrefixSumHypercube.rounds sum_op n r d st i).value
          (PrefixSumHypercube.rounds sum_op n r d st i).total_sum)) := by
  intro r
  induction r with
  | zero =>
    intro d st _
    simp only [PrefixSumHypercube.rounds, pow_zero, Nat.mul_one, Nat.add_zero]
    exact Net.ReachLE.stay n _ _
  | succ r ih =>
    intro d st h
    have hp := two_pow_pos1 r
    have h2 : d * 2 ^ (r + 1) = 2 * (d * 2 ^ r) := by rw [pow_succ]; ring
    have hd : d < n := by
      have : d * 1 ≤ d * 2 ^ r := Nat.mul_le_mul_left d hp
      omega
    have hround := PrefixSumHypercube.psh_reach_round sum_op n (fuel + r) d st hd
    have hrest := ih (d <<< 1) (PrefixSumHypercube.round sum_op n d st)
      (by rw [shl_one]; rw [h2] at h; rw [Nat.mul_assoc]; exact h)
    have e : d <<< 1 * 2 ^ r = d * 2 ^ (r + 1) := by rw [shl_one, h2, Nat.mul_assoc]
    rw [e] at hrest
    have := Net.ReachLE.trans hround hrest
    simp only [PrefixSumHypercube.rounds, hd, if_true]
    exact this.mono (by rw [Nat.mul_succ]; omega)

/-- On a group of `2^m` workers, `fuel` rounds started at step `2^j` take the
block invariant from blocks of `2^j` to blocks of `2^(j + fuel)` ranks. -/
theorem PrefixSumHypercube.rounds_block {α : Type} (op : α → α → α)
    (hassoc : ∀ a b c, op (op a b) c = op a (op b c)) (m : Nat) (v : Nat → α) :
    ∀ (fuel j : Nat) (st : Nat → PrefixSumHypercube.Locals α), j + fuel ≤ m →
      (∀ i, i < 2 ^ m →
        (st i).total_sum = foldRange op v (i - i % 2 ^ j) (2 ^ j - 1) ∧
        (st i).value = foldRange op v (i - i % 2 ^ j) (i % 2 ^ j)) →
      ∀ i, i < 2 ^ m →
        (PrefixSumHypercube.rounds op (2 ^ m) fuel (2 ^ j) st i).total_sum
          = foldRange op v (i - i % 2 ^ (j + fuel)) (2 ^ (j + fuel) - 1) ∧
        (PrefixSumHypercube.rounds op (2 ^ m) fuel (2 ^ j) st i).value
          = foldRange op v (i - i % 2 ^ (j + fuel)) (i % 2 ^ (j + fuel)) := by
  intro fuel
  induction fuel with
  | zero =>
    intro j st _ hinv i hi
    simp only [PrefixSumHypercube.rounds, Nat.add_zero]
    exact hinv i hi
  | succ fuel ih =>
    intro j st hj hinv i hi
    have hd : 2 ^ j < 2 ^ m := Nat.pow_lt_pow_right (by decide) (by omega)
    simp only [PrefixSumHypercube.rounds, hd, if_true]
    have e : (2 ^ j) <<< 1 = 2 ^ (j + 1) := by rw [shl_one, pow_succ]; ring
    have e2 : 2 * 2 ^ j = 2 ^ (j + 1) := by rw [pow_succ]; ring
    have hinv2 := PrefixSumHypercube.round_inv op hassoc (2 ^ m) j v st
      (two_pow_dvd_of_lt j m hd) hinv
    rw [e2] at hinv2
    rw [e, show j + (fuel + 1) = j + 1 + fuel by omega]
    exact ih (j + 1) _ (by omega) hinv2 i hi

/-- One round on a group of any size: `value` is the fold of the aligned block
of size `d` up to the worker, and `total_sum` is the fold of the whole block when
the block lies below `n`. -/
theorem PrefixSumHypercube.round_inv_any {α : Type} (op : α → α → α)
    (hassoc : ∀ a b c, op (op a b) c = op a (op b c)) (n j : Nat) (v : Nat → α)
    (st : Nat → PrefixSumHypercube.Locals α)
    (hinv : ∀ i, i < n →
      (st i).value = foldRange op v (i - i % 2 ^ j) (i % 2 ^ j) ∧
      (i - i % 2 ^ j + 2 ^ j ≤ n →
        (st i).total_sum = foldRange op v (i - i % 2 ^ j) (2 ^ j - 1)))
    (i : Nat) (hi : i < n) :
    (PrefixSumHypercube.round op n (2 ^ j) st i).value
        = foldRange op v (i - i % (2 * 2 ^ j)) (i % (2 * 2 ^ j)) ∧
    (i - i % (2 * 2 ^ j) + 2 * 2 ^ j ≤ n →
      (PrefixSumHypercube.round op n (2 ^ j) st i).total_sum
        = foldRange op v (i - i % (2 * 2 ^ j)) (2 * 2 ^ j - 1)) := by
  have hp := two_pow_pos1 j
  have hmod := Nat.mod_lt i hp
  have hmle := Nat.mod_le i (2 ^ j)
  have hmle2 := Nat.mod_le i (2 * 2 ^ j)
  unfold PrefixSumHypercube.round
  by_cases hb : i / 2 ^ j % 2 = 1
  · obtain ⟨f1, f2, f3, f4, f5, -, -⟩ := bit_set_facts i j hb
    have hpeer : i - 2 ^ j < n := by omega
    obtain ⟨q1, q2⟩ := hinv (i - 2 ^ j) hpeer
    obtain ⟨p1, p2⟩ := hinv i hi
    rw [f5] at q1 q2
    have q3 := q2 (by omega)
    simp only [f2, hpeer, if_true, f1, ne_eq, not_false_eq_true]
    rw [q3, p1, f4]
    constructor
    · generalize 2 ^ j = d at *
      have e1 : i - i % d = (i - d - i % d) + (d - 1) + 1 := by omega
      rw [e1, foldRange_append op hassoc]
      have e2 : i - d - i % d = i - (i % d + d) := by omega
      have e4 : d - 1 + i % d + 1 = i % d + d := by omega
      rw [e2, e4]
    · intro hblk
      rw [p2 (by omega)]
      generalize 2 ^ j = d at *
      have e1 : i - i % d = (i - d - i % d) + (d - 1) + 1 := by omega
      rw [e1, foldRange_append op hassoc]
      have e2 : i - d - i % d = i - (i % d + d) := by omega
      have e3 : d - 1 + (d - 1) + 1 = 2 * d - 1 := by omega
      rw [e2, e3]
  · obtain ⟨f1, f2, f4, f5, -, -⟩ := bit_clear_facts i j hb
    obtain ⟨p1, p2⟩ := hinv i hi
    by_cases hpeer : i + 2 ^ j < n
    · obtain ⟨q1, q2⟩ := hinv (i + 2 ^ j) hpeer
      rw [f5] at q1 q2
      simp only [f2, hpeer, if_true, f1, ne_eq, not_true_eq_false, if_false]
      rw [f4]
      refine ⟨p1, ?_⟩
      intro hblk
      rw [p2 (by omega), q2 (by omega)]
      generalize 2 ^ j = d at *
      have e1 : i + d - i % d = (i - i % d) + (d - 1) + 1 := by omega
      rw [e1, foldRange_append op hassoc]
      have e3 : d - 1 + (d - 1) + 1 = 2 * d - 1 := by omega
      rw [e3]
    · simp only [f2, hpeer, if_false]
      rw [f4]
      refine ⟨p1, ?_⟩
      intro hblk
      omega

/-- On a group of any size the rounds leave at every worker the fold of the
values of the ranks up to its own. -/
theorem PrefixSumHypercube.rounds_any {α : Type} (op : α → α → α)
    (hassoc : ∀ a b c, op (op a b) c = op a (op b c)) (n : Nat) (v : Nat → α) :
    ∀ (fuel j : Nat) (st : Nat → PrefixSumHypercube.Locals α), n ≤ 2 ^ j * 2 ^ fuel →
      (∀ i, i < n →
        (st i).value = foldRange op v (i - i % 2 ^ j) (i % 2 ^ j) ∧
        (i - i % 2 ^ j + 2 ^ j ≤ n →
          (st i).total_sum = foldRange op v (i - i % 2 ^ j) (2 ^ j - 1))) →
      ∀ i, i < n →
        (PrefixSumHypercube.rounds op n fuel (2 ^ j) st i).value = foldRange op v 0 i := by
  have hfinal : ∀ (j : Nat) (st : Nat → PrefixSumHypercube.Locals α), ¬ 2 ^ j < n →
      (∀ i, i < n →
        (st i).value = foldRange op v (i - i % 2 ^ j) (i % 2 ^ j) ∧
        (i - i % 2 ^ j + 2 ^ j ≤ n →
          (st i).total_sum = foldRange op v (i - i % 2 ^ j) (2 ^ j - 1))) →
      ∀ i, i < n → (st i).value = foldRange op v 0 i := by
    intro j st hnot hinv i hi
    obtain ⟨p1, -⟩ := hinv i hi
    rw [Nat.mod_eq_of_lt (by omega), Nat.sub_self] at p1
    exact p1
  intro fuel
  induction fuel with
  | zero =>
    intro j st hf hinv i hi
    simp only [PrefixSumHypercube.rounds]
    simp only [pow_zero, Nat.mul_one] at hf
    exact hfinal j st (by omega) hinv i hi
  | succ fuel ih =>
    intro j st hf hinv i hi
    by_cases hd : 2 ^ j < n
    · simp only [PrefixSumHypercube.rounds, hd, if_true]
      have e : (2 ^ j) <<< 1 = 2 ^ (j + 1) := by rw [shl_one, pow_succ]; ring
      have e2 : 2 * 2 ^ j = 2 ^ (j + 1) := by rw [pow_succ]; ring
      rw [e]
      have hinv2 := PrefixSumHypercube.round_inv_any op hassoc n j v st hinv
      rw [e2] at hinv2
      refine ih (j + 1) _ ?_ hinv2 i hi
      have := fuel_step n (2 ^ j) fuel hf
      rwa [e] at this
    · simp only [PrefixSumHypercube.rounds, hd, if_false]
      exact hfinal j st hd hinv i hi

/-- Outcome of `PrefixSumHypercube` on a group of any size. -/
theorem PrefixSumHypercube.psh_run_any {α : Type} [Inhabited α] (op : α → α → α)
    (hassoc : ∀ a b c, op (op a b) c = op a (op b c)) (vs : List α) :
    Group.run (PrefixSumHypercube op) vs
      = some ((List.range vs.length).map (fun k => foldLeft op (vs.take (k + 1)))) := by
  rw [PrefixSumHypercube.psh_run_eq]
  congr 1
  apply List.map_congr_left
  intro k hk
  have hk2 : k < vs.length := List.mem_range.mp hk
  rw [foldLeft_take op vs k hk2]
  exact PrefixSumHypercube.rounds_any op hassoc vs.length (fun i => vs.getD i default)
    vs.length 0 (fun j => { value := vs.getD j default, total_sum := vs.getD j default })
    (by rw [pow_zero, Nat.one_mul]; exact Nat.le_of_lt (Nat.lt_two_pow _))
    (by intro i _; simp [Nat.mod_one, foldRange]) k hk2

/-- C27: when all workers run `Reduce` with a root in `0..n-1` and an associative
operator, the call returns everywhere and the root holds the left-to-right fold
of the values in cyclic rank order from the root (entry `i` of the rotated vector
is the value of rank `(i + root) mod n`); this is the fold in ascending rank order
when the root is 0 and when the operator is commutative as well. -/
theorem Reduce_root_cyclic_order {α : Type} [Inhabited α] (op : α → α → α)
    (hassoc : ∀ a b c, op (op a b) c = op a (op b c)) (vs : List α) (root : Nat)
    (hr : root < vs.length) :
    ∃ out, Group.run (fun n r => Reduce op n r root) vs = some out ∧
      out[root]? = some (foldLeft op (vs.rotate root)) ∧
      (∀ i, i < vs.length → (vs.rotate root)[i]? = vs[(i + root) % vs.length]?) ∧
      (root = 0 → out[root]? = some (foldLeft op vs)) ∧
      ((∀ a b, op a b = op b a) → out[root]? = some (foldLeft op vs)) := by
  obtain ⟨out, h1, -, h3⟩ := Reduce.run_root op hassoc vs root hr
  refine ⟨out, h1, h3, ?_, ?_, ?_⟩
  · intro i hi
    rw [List.getElem?_rotate hi]
  · intro h0
    rw [h3, h0, List.rotate_zero]
  · intro hcomm
    rw [h3, foldLeft_rotate op hassoc hcomm vs root hr]

/-- Witness for C27: three workers under list concatenation, root 2. -/
theorem Reduce_root_cyclic_order_witness :
    (∀ a b c : List Nat, a ++ b ++ c = a ++ (b ++ c)) ∧ 2 < [[0], [1], [2]].length ∧
    foldLeft (fun a b : List Nat => a ++ b) ([[0], [1], [2]].rotate 2) = [2, 0, 1] ∧
    ∃ out, Group.run (fun n r => Reduce (fun a b : List Nat => a ++ b) n r 2) [[0], [1], [2]]
        = some out ∧
      out[2]? = some (foldLeft (fun a b : List Nat => a ++ b) ([[0], [1], [2]].rotate 2)) :=
  ⟨List.append_assoc, by decide, by decide,
   (Reduce_root_cyclic_order (fun a b : List Nat => a ++ b) List.append_assoc [[0], [1], [2]] 2
     (by decide)).imp (fun _ h => ⟨h.1, h.2.1⟩)⟩

/-- C28: on a group of any size, a power of two or not, `PrefixSumHypercube` with
an associative operator returns everywhere and worker `k` holds the
left-to-right fold of the values of the ranks `0..k`. -/
theorem PrefixSumHypercube_any_size {α : Type} [Inhabited α] (op : α → α → α)
    (hassoc : ∀ a b c, op (op a b) c = op a (op b c)) (vs : List α) :
    Group.run (PrefixSumHypercube op) vs
      = some ((List.range vs.length).map (fun k => foldLeft op (vs.take (k + 1)))) :=
  PrefixSumHypercube.psh_run_any op hassoc vs

/-- Witness for C28: five workers under list concatenation. -/
theorem PrefixSumHypercube_any_size_witness :
    (∀ a b c : List Nat, a ++ b ++ c = a ++ (b ++ c)) ∧
    Group.run (PrefixSumHypercube (fun a b : List Nat => a ++ b)) [[0], [1], [2], [3], [4]]
      = some [[0], [0, 1], [0, 1, 2], [0, 1, 2, 3], [0, 1, 2, 3, 4]] :=
  ⟨List.append_assoc,
   (PrefixSumHypercube_any_size (fun a b : List Nat => a ++ b) List.append_assoc
     [[0], [1], [2], [3], [4]]).trans (by decide)⟩

/-- C29: three is not a power of two, addition of natural numbers is
associative, and on the values 1, 2, 3 `AllReduceHypercube` returns everywhere,
every send of a round has its receive in the same round and every receive its
send, yet worker 1 ends with 3 while the fold of all values is 6. -/
theorem AllReduceHypercube_three_workers :
    (¬ ∃ j, 3 = 2 ^ j) ∧
    (∀ a b c : Nat, a + b + c = a + (b + c)) ∧
    Group.run (AllReduceHypercube (fun a b : Nat => a + b)) [1, 2, 3] = some [6, 3, 6] ∧
    (∀ i j d, i < 3 → j < 3 →
      ((d, Act.send j) ∈ AllReduceHypercube.schedule 3 i
        ↔ (d, Act.recv i) ∈ AllReduceHypercube.schedule 3 j)) ∧
    (∀ i v k, Prog.trace (fun _ => 0) (AllReduceHypercube (fun a b : Nat => a + b) 3 i v) k
        = (AllReduceHypercube.schedule 3 i).map Prod.snd) ∧
    [6, 3, 6][1]? = some 3 ∧
    foldLeft (fun a b : Nat => a + b) [1, 2, 3] = 6 := by
  refine ⟨?_, Nat.add_assoc, by decide,
    fun i j d hi hj => AllReduceHypercube.arh_schedule_matched 3 i j d hi hj,
    fun i v k => AllReduceHypercube.arh_trace_eq (fun _ => 0) _ 3 i v k, by decide, by decide⟩
  rintro ⟨j, hj⟩
  cases j with
  | zero => simp at hj
  | succ j => rw [pow_succ] at hj; omega

/-- C30: in `PrefixSumHypercube` on `2^m` workers with an associative operator,
after the round with step `d = 2^j` (the rounds `1, 2, ..., 2^j` done, every
worker at the head of its loop) `total_sum` of worker `i` is the left-to-right
fold of the values of the `2d` ranks from `⌊i / 2d⌋ * 2d` on; after the last
round it is the fold of all values. -/
theorem PrefixSumHypercube_block_total {α : Type} [Inhabited α] (op : α → α → α)
    (hassoc : ∀ a b c, op (op a b) c = op a (op b c)) (vs : List α) (m j : Nat)
    (hm : vs.length = 2 ^ m) (hj : j < m) :
    Net.ReachLE vs.length (2 * vs.length * (j + 1))
      (Net.init vs.length (fun i => PrefixSumHypercube op vs.length i (vs.getD i default)))
      (Net.init vs.length (fun i =>
        PrefixSumHypercube.loop op vs.length i (vs.length - (j + 1)) (2 ^ (j + 1))
          (PrefixSumHypercube.rounds op vs.length (j + 1) 1
            (fun r => { value := vs.getD r default, total_sum := vs.getD r default }) i).value
          (PrefixSumHypercube.rounds op vs.length (j + 1) 1
            (fun r => { value := vs.getD r default, total_sum := vs.getD r default })
            i).total_sum)) ∧
    (∀ i, i < vs.length →
      (PrefixSumHypercube.rounds op vs.length (j + 1) 1
          (fun r => { value := vs.getD r default, total_sum := vs.getD r default }) i).total_sum
        = foldRange op (fun r => vs.getD r default) (i / (2 * 2 ^ j) * (2 * 2 ^ j))
            (2 * 2 ^ j - 1)) ∧
    (∀ i, i < vs.length →
      (PrefixSumHypercube.rounds op vs.length m 1
          (fun r => { value := vs.getD r default, total_sum := vs.getD r default }) i).total_sum
        = foldLeft op vs) := by
  have hjm : j + 1 ≤ vs.length := by
    rw [hm]
    have := Nat.lt_two_pow m
    omega
  have e2 : 2 * 2 ^ j = 2 ^ (j + 1) := by rw [pow_succ]; ring
  have hinv0 : ∀ i, i < 2 ^ m →
      ((fun r => ({ value := vs.getD r default, total_sum := vs.getD r default } :
          PrefixSumHypercube.Locals α)) i).total_sum
        = foldRange op (fun r => vs.getD r default) (i - i % 2 ^ 0) (2 ^ 0 - 1) ∧
      ((fun r => ({ value := vs.getD r default, total_sum := vs.getD r default } :
          PrefixSumHypercube.Locals α)) i).value
        = foldRange op (fun r => vs.getD r default) (i - i % 2 ^ 0) (i % 2 ^ 0) := by
    intro i _
    simp [Nat.mod_one, foldRange]
  refine ⟨?_, ?_, ?_⟩
  · have h := PrefixSumHypercube.psh_reach_upto op vs.length (vs.length - (j + 1)) (j + 1) 1
      (fun r => { value := vs.getD r default, total_sum := vs.getD r default })
      (by
        rw [Nat.one_mul, hm, ← e2]
        have : 2 ^ j < 2 ^ m := Nat.pow_lt_pow_right (by decide) hj
        omega)
    rw [Nat.sub_add_cancel hjm, Nat.one_mul] at h
    exact h
  · intro i hi
    have h := PrefixSumHypercube.rounds_block op hassoc m (fun r => vs.getD r default)
      (j + 1) 0 _ (by omega) hinv0 i (by rw [← hm]; exact hi)
    rw [pow_zero, Nat.zero_add, ← hm] at h
    rw [h.1, e2]
    congr 1
    have := Nat.div_add_mod i (2 ^ (j + 1))
    rw [Nat.mul_comm] at this
    omega
  · intro i hi
    have h := PrefixSumHypercube.rounds_block op hassoc m (fun r => vs.getD r default)
      m 0 _ (by omega) hinv0 i (by rw [← hm]; exact hi)
    rw [pow_zero, Nat.zero_add, ← hm] at h
    rw [h.1, Nat.mod_eq_of_lt hi, Nat.sub_self]
    have hpos : 0 < vs.length := by rw [hm]; exact two_pow_pos1 m
    rw [foldLeft_all op vs (vs.length - 1) (by omega)]

/-- Witness for C30: four workers under list concatenation, the round with step
1: worker 2 holds the fold of the ranks 2 and 3. -/
theorem PrefixSumHypercube_block_total_witness :
    (∀ a b c : List Nat, a ++ b ++ c = a ++ (b ++ c)) ∧ [[0], [1], [2], [3]].length = 2 ^ 2 ∧
    0 < 2 ∧
    (PrefixSumHypercube.rounds (fun a b : List Nat => a ++ b) [[0], [1], [2], [3]].length (0 + 1)
        1 (fun r => { value := [[0], [1], [2], [3]].getD r default,
                      total_sum := [[0], [1], [2], [3]].getD r default }) 2).total_sum
      = [2, 3] :=
  ⟨List.append_assoc, by decide, by decide,
   ((PrefixSumHypercube_block_total (fun a b : List Nat => a ++ b) List.append_assoc
     [[0], [1], [2], [3]] 2 0 (by decide) (by decide)).2.1 2 (by decide)).trans (by decide)⟩

/-! ### Disk configuration -/

theorem keep_ite {β : Type} {cond : Prop} [Decidable cond] {X Y : Except Thrown β} {r : β}
    {P : Prop} (hx : X = Except.ok r → P) (hy : Y = Except.ok r → P) :
    (if cond then X else Y) = Except.ok r → P := by
  split_ifs
  · exact hx
  · exact hy

/-- No option changes the fields `flash` and `io_impl`. -/
theorem DiskConfig.parse_option_keeps (ext : Externals) (c c2 : DiskConfig) (p : String)
    (h : DiskConfig.parse_option ext c p = Except.ok c2) :
    c2.flash = c.flash ∧ c2.io_impl = c.io_impl := by
  revert h
  unfold DiskConfig.parse_option
  repeat' first
    | (intro h; cases h; exact ⟨rfl, rfl⟩)
    | (intro h; cases h)
    | apply keep_ite

theorem DiskConfig.parse_options_keeps (ext : Externals) :
    ∀ (ps : List String) (c c2 : DiskConfig),
      DiskConfig.parse_options ext ps c = Except.ok c2 →
      c2.flash = c.flash ∧ c2.io_impl = c.io_impl := by
  intro ps
  induction ps with
  | nil =>
    intro c c2 h
    simp only [DiskConfig.parse_options] at h
    cases h
    exact ⟨rfl, rfl⟩
  | cons p rest ih =>
    intro c c2 h
    simp only [DiskConfig.parse_options] at h
    cases h1 : DiskConfig.parse_option ext c p with
    | error e => rw [h1] at h; cases h
    | ok c1 =>
      rw [h1] at h
      obtain ⟨a, b⟩ := DiskConfig.parse_option_keeps ext c c1 p h1
      obtain ⟨a2, b2⟩ := ih c1 c2 h
      exact ⟨a2.trans a, b2.trans b⟩

/-- The method `parse_fileio` does not change the field `flash`. -/
theorem DiskConfig.parse_fileio_flash (ext : Externals) (c c2 : DiskConfig)
    (h : DiskConfig.parse_fileio ext c = Except.ok c2) : c2.flash = c.flash := by
  unfold DiskConfig.parse_fileio at h
  split at h
  · cases h
  · split_ifs at h
    · cases h; rfl
    · split at h
      · exact (DiskConfig.parse_options_keeps ext _ _ c2 h).1
      · cases h
      · cases h

/-- A line whose first field is neither `disk` nor `flash` is refused. -/
theorem DiskConfig.parse_line_unknown (ext : Externals) (c : DiskConfig) (line : String)
    (h1 : (ext.Split line "=" (some 2) (some 2)).getD 0 "" ≠ "disk")
    (h2 : (ext.Split line "=" (some 2) (some 2)).getD 0 "" ≠ "flash") :
    DiskConfig.parse_line ext c line
      = Except.error (Thrown.runtime_error
          ("Unknown configuration token " ++ (ext.Split line "=" (some 2) (some 2)).getD 0 "")) := by
  unfold DiskConfig.parse_line
  rw [if_neg (fun h => h.elim h1 h2)]

/-- An accepted line starts with `disk` or `flash`, and the entry is a flash
entry exactly in the second case. -/
theorem DiskConfig.parse_line_flash (ext : Externals) (c c2 : DiskConfig) (line : String)
    (h : DiskConfig.parse_line ext c line = Except.ok c2) :
    ((ext.Split line "=" (some 2) (some 2)).getD 0 "" = "disk" ∧ c2.flash = false) ∨
    ((ext.Split line "=" (some 2) (some 2)).getD 0 "" = "flash" ∧ c2.flash = true) := by
  unfold DiskConfig.parse_line at h
  by_cases htok : (ext.Split line "=" (some 2) (some 2)).getD 0 "" = "disk" ∨
      (ext.Split line "=" (some 2) (some 2)).getD 0 "" = "flash"
  · rw [if_pos htok] at h
    cases hsz : ext.ParseSiIecUnits
        (c_str ((ext.Split ((ext.Split line "=" (some 2) (some 2)).getD 1 "") ","
          (some 3) (some 3)).getD 1 "")) 'M' with
    | none => rw [hsz] at h; cases h
    | some size =>
      rw [hsz] at h
      have hf := DiskConfig.parse_fileio_flash ext _ c2 h
      by_cases hd : (ext.Split line "=" (some 2) (some 2)).getD 0 "" = "disk"
      · left
        rw [if_pos hd] at hf
        exact ⟨hd, hf⟩
      · right
        rw [if_neg hd] at hf
        rcases htok with h3 | h3
        · exact absurd h3 hd
        · exact ⟨h3, hf⟩
  · rw [if_neg htok] at h
    cases h

theorem takeWhile_append_stop {β : Type} (p : β → Bool) (y : β) (r : List β) (hy : p y = false) :
    ∀ l : List β, (∀ x ∈ l, p x = true) → (l ++ y :: r).takeWhile p = l := by
  intro l
  induction l with
  | nil =>
    intro _
    simp [List.takeWhile, hy]
  | cons a l ih =>
    intro h
    have ha : p a = true := h a (List.mem_cons_self _ _)
    simp only [List.cons_append, List.takeWhile_cons, ha, if_true]
    rw [ih (fun x hx => h x (List.mem_cons_of_mem _ hx))]

/-- When the text of `io_impl` is a name without blanks followed by a blank and
the options, `parse_fileio` keeps the name and runs the loop over the options. -/
theorem DiskConfig.parse_fileio_split (ext : Externals) (c : DiskConfig)
    (impl params : List Char) (hio : c.io_impl.data = impl ++ ' ' :: params)
    (hne : impl ≠ []) (hsp : ∀ x ∈ impl, x ≠ ' ') (hlen : c.io_impl.data.length < npos) :
    DiskConfig.parse_fileio ext c
      = DiskConfig.parse_options ext (ext.Split (String.mk params) " " none none)
          { c with io_impl := String.mk impl } := by
  cases impl with
  | nil => exact absurd rfl hne
  | cons a t =>
    have ha : a ≠ ' ' := hsp a (List.mem_cons_self _ _)
    have h0 : find_first_not_of c.io_impl.data ' ' = 0 := by
      unfold find_first_not_of
      rw [hio]
      simp [List.takeWhile_cons, ha]
    have htw : (c.io_impl.data).takeWhile (fun x => x != ' ') = a :: t := by
      rw [hio]
      exact takeWhile_append_stop _ ' ' params (by simp) (a :: t)
        (fun x hx => by simpa using hsp x hx)
    have hl : c.io_impl.data.length = (a :: t).length + 1 + params.length := by
      rw [hio]; simp; omega
    have hf : find c.io_impl.data ' ' = (a :: t).length := by
      unfold find
      rw [htw, if_pos (by omega)]
    have hnp : ¬ (a :: t).length = npos := by omega
    have hs1 : substr c.io_impl.data ((a :: t).length + 1) npos = Except.ok params := by
      unfold substr
      rw [if_neg (by omega)]
      congr 1
      rw [hio, List.drop_append_eq_append_drop]
      have e1 : (a :: t).length + 1 - (a :: t).length = 1 := by omega
      rw [List.drop_of_length_le (by omega), e1]
      simp only [List.nil_append, List.drop_succ_cons, List.drop_zero]
      exact List.take_of_length_le (by omega)
    have hs2 : substr c.io_impl.data 0 (a :: t).length = Except.ok (a :: t) := by
      unfold substr
      rw [if_neg (by omega)]
      congr 1
      rw [hio, List.drop_zero, List.take_left']
      rfl
    unfold DiskConfig.parse_fileio
    simp only [h0, Nat.lt_irrefl, gt_iff_lt, if_false, hf, hnp, hs1, hs2]

/-- The loop of `load_config_file` returns exactly when every line that is not
skipped parses; the entries go to the two lists in the order of the lines. -/
theorem Config.load_lines_ok (ext : Externals) :
    ∀ (lines : List String) (entries : List DiskConfig),
      List.Forall₂
        (fun l e => DiskConfig.parse_line ext (DiskConfig.construct ext) l = Except.ok e)
        (lines.filter Config.is_entry_line) entries →
      ∀ disks flash, Config.load_lines ext lines disks flash
        = Except.ok (disks ++ entries.filter (fun e => !e.flash),
                     flash ++ entries.filter (fun e => e.flash)) := by
  intro lines
  induction lines with
  | nil =>
    intro entries h disks flash
    simp only [List.filter_nil] at h
    cases h
    simp [Config.load_lines]
  | cons l rest ih =>
    intro entries h disks flash
    by_cases hskip : l.length = 0 ∨ l.data.head? = some '#'
    · have hk : ¬ Config.is_entry_line l = true := fun h => (of_decide_eq_true h) hskip
      rw [List.filter_cons_of_neg hk] at h
      rw [Config.load_lines, if_pos hskip]
      exact ih entries h disks flash
    · have hk : Config.is_entry_line l = true := decide_eq_true hskip
      rw [List.filter_cons_of_pos hk] at h
      cases h with
      | cons h1 h2 =>
        rename_i e es
        rw [Config.load_lines, if_neg hskip]
        simp only [h1]
        by_cases hfl : e.flash = true
        · rw [if_neg (by simpa using hfl), ih es h2]
          simp [List.filter_cons, hfl]
        · rw [if_pos hfl, ih es h2]
          simp [List.filter_cons, hfl]

theorem Config.load_lines_entries (ext : Externals) :
    ∀ (lines : List String) (disks flash d f : List DiskConfig),
      Config.load_lines ext lines disks flash = Except.ok (d, f) →
      ∃ entries, List.Forall₂
        (fun l e => DiskConfig.parse_line ext (DiskConfig.construct ext) l = Except.ok e)
        (lines.filter Config.is_entry_line) entries := by
  intro lines
  induction lines with
  | nil =>
    intro disks flash d f _
    exact ⟨[], by simp⟩
  | cons l rest ih =>
    intro disks flash d f h
    by_cases hskip : l.length = 0 ∨ l.data.head? = some '#'
    · rw [Config.load_lines, if_pos hskip] at h
      obtain ⟨entries, he⟩ := ih _ _ _ _ h
      refine ⟨entries, ?_⟩
      have hk : ¬ Config.is_entry_line l = true := fun h => (of_decide_eq_true h) hskip
      rw [List.filter_cons_of_neg hk]
      exact he
    · rw [Config.load_lines, if_neg hskip] at h
      cases hp : DiskConfig.parse_line ext (DiskConfig.construct ext) l with
      | error e => simp only [hp] at h; cases h
      | ok e =>
        simp only [hp] at h
        have : ∃ entries, List.Forall₂
            (fun l e => DiskConfig.parse_line ext (DiskConfig.construct ext) l = Except.ok e)
            (rest.filter Config.is_entry_line)
            entries := by
          by_cases hfl : e.flash = true
          · rw [if_neg (by simpa using hfl)] at h
            exact ih _ _ _ _ h
          · rw [if_pos hfl] at h
            exact ih _ _ _ _ h
        obtain ⟨entries, he⟩ := this
        refine ⟨e :: entries, ?_⟩
        have hk : Config.is_entry_line l = true := decide_eq_true hskip
        rw [List.filter_cons_of_pos hk]
        exact List.Forall₂.cons hp he

/-- C24: `DiskConfig::parse_line` looks at the first field that
`common::Split(line, "=", 2, 2)` returns (the text before the first `=`).  If the
field is neither `disk` nor `flash` the call throws the `runtime_error` "Unknown
configuration token" followed by the field, whatever the remainder of the line
and the other helpers are; a line that is accepted has the field `disk` and
gives `flash = false`, or has the field `flash` and gives `flash = true`. -/
theorem DiskConfig_parse_line_token (ext : Externals) (c : DiskConfig) (line : String) :
    ((ext.Split line "=" (some 2) (some 2)).getD 0 "" ≠ "disk" →
      (ext.Split line "=" (some 2) (some 2)).getD 0 "" ≠ "flash" →
      DiskConfig.parse_line ext c line
        = Except.error (Thrown.runtime_error
            ("Unknown configuration token " ++
              (ext.Split line "=" (some 2) (some 2)).getD 0 ""))) ∧
    (∀ c2, DiskConfig.parse_line ext c line = Except.ok c2 →
      ((ext.Split line "=" (some 2) (some 2)).getD 0 "" = "disk" ∧ c2.flash = false) ∨
      ((ext.Split line "=" (some 2) (some 2)).getD 0 "" = "flash" ∧ c2.flash = true)) :=
  ⟨DiskConfig.parse_line_unknown ext c line,
   fun c2 h => DiskConfig.parse_line_flash ext c c2 line h⟩

/-- Witness for C24: with the sample helpers the line `ssd=/tmp/x,100,syscall`
is refused with its token, and `flash=/tmp/x,100,syscall` gives a flash entry. -/
theorem DiskConfig_parse_line_token_witness :
    DiskConfig.parse_line Externals.sample (DiskConfig.construct Externals.sample)
        "ssd=/tmp/x,100,syscall"
      = Except.error (Thrown.runtime_error "Unknown configuration token ssd") ∧
    ((DiskConfig.parse_line Externals.sample (DiskConfig.construct Externals.sample)
        "flash=/tmp/x,100,syscall").toOption.map (fun e => (e.flash, e.path, e.io_impl)))
      = some (true, "/tmp/x", "syscall") :=
  ⟨((DiskConfig_parse_line_token Externals.sample (DiskConfig.construct Externals.sample)
      "ssd=/tmp/x,100,syscall").1 (by decide) (by decide)).trans rfl, by decide⟩

/-- C25: the loop body of `DiskConfig::parse_fileio` for an option `p` that is not
blank and not one of the `autogrow`, `delete` and `direct` options, with `eq[0]`
the first field of `common::Split(p, "=", 2, 2)`.  An option `queue=N` throws
when `io_impl` is `linuxaio` and is accepted otherwise (for a number `N` that
`strtoul` reads to its end); `queue_length=N` throws when `io_impl` is not
`linuxaio` and is accepted otherwise; `raw_device` throws when `io_impl` is not
`syscall` and is accepted otherwise; `unlink` and `unlink_on_open` throw when
`io_impl` is none of `syscall`, `linuxaio`, `mmap`, `wbtl` and are accepted
otherwise; every other option throws "Invalid optional parameter".  What the
body throws is what the loop and `parse_fileio` throw. -/
theorem DiskConfig_parse_fileio_options (ext : Externals) (c : DiskConfig) (p : String)
    (hp : p ≠ "")
    (hauto : ¬ (p = "autogrow" ∨ p = "noautogrow" ∨
      (ext.Split p "=" (some 2) (some 2)).getD 0 "" = "autogrow"))
    (hdel : ¬ (p = "delete" ∨ p = "delete_on_exit"))
    (hdir : ¬ (p = "direct" ∨ p = "nodirect" ∨
      (ext.Split p "=" (some 2) (some 2)).getD 0 "" = "direct")) :
    ((ext.Split p "=" (some 2) (some 2)).getD 0 "" = "queue" →
      (c.io_impl = "linuxaio" →
        DiskConfig.parse_option ext c p = Except.error (Thrown.runtime_error
          ("Parameter '" ++ p ++ "' invalid for fileio '" ++ c.io_impl ++
            "' in disk configuration file."))) ∧
      (c.io_impl ≠ "linuxaio" →
        (ext.strtoul (c_str ((ext.Split p "=" (some 2) (some 2)).getD 1 ""))).2 = "" →
        DiskConfig.parse_option ext c p = Except.ok { c with queue :=
          (toInt32 (ext.strtoul (c_str ((ext.Split p "=" (some 2) (some 2)).getD 1 ""))).1) })) ∧
    ((ext.Split p "=" (some 2) (some 2)).getD 0 "" = "queue_length" →
      (c.io_impl ≠ "linuxaio" →
        DiskConfig.parse_option ext c p = Except.error (Thrown.runtime_error
          ("Parameter '" ++ p ++ "' is only valid for fileio linuxaio " ++
            "in disk configuration file."))) ∧
      (c.io_impl = "linuxaio" →
        (ext.strtoul (c_str ((ext.Split p "=" (some 2) (some 2)).getD 1 ""))).2 = "" →
        DiskConfig.parse_option ext c p = Except.ok { c with queue_length :=
          (toInt32 (ext.strtoul (c_str ((ext.Split p "=" (some 2) (some 2)).getD 1 ""))).1) })) ∧
    (¬ ((ext.Split p "=" (some 2) (some 2)).getD 0 "" = "queue" ∨
        (ext.Split p "=" (some 2) (some 2)).getD 0 "" = "queue_length" ∨
        (ext.Split p "=" (some 2) (some 2)).getD 0 "" = "device_id" ∨
        (ext.Split p "=" (some 2) (some 2)).getD 0 "" = "devid") →
      (p = "raw_device" →
        (c.io_impl ≠ "syscall" →
          DiskConfig.parse_option ext c p = Except.error (Thrown.runtime_error
            ("Parameter '" ++ p ++ "' invalid for fileio '" ++ c.io_impl ++
              "' in disk configuration file."))) ∧
        (c.io_impl = "syscall" →
          DiskConfig.parse_option ext c p = Except.ok { c with raw_device := true })) ∧
      (p = "unlink" ∨ p = "unlink_on_open" →
        (¬ (c.io_impl = "syscall" ∨ c.io_impl = "linuxaio" ∨ c.io_impl = "mmap" ∨
            c.io_impl = "wbtl") →
          DiskConfig.parse_option ext c p = Except.error (Thrown.runtime_error
            ("Parameter '" ++ p ++ "' invalid for fileio '" ++ c.io_impl ++
              "' in disk configuration file."))) ∧
        (c.io_impl = "syscall" ∨ c.io_impl = "linuxaio" ∨ c.io_impl = "mmap" ∨
            c.io_impl = "wbtl" →
          DiskConfig.parse_option ext c p = Except.ok { c with unlink_on_open := true })) ∧
      (p ≠ "raw_device" → p ≠ "unlink" → p ≠ "unlink_on_open" →
        DiskConfig.parse_option ext c p = Except.error (Thrown.runtime_error
          ("Invalid optional parameter '" ++ p ++ "' in disk configuration file.")))) ∧
    (∀ e rest, DiskConfig.parse_option ext c p = Except.error e →
      DiskConfig.parse_options ext (p :: rest) c = Except.error e) ∧
    (∀ (c0 : DiskConfig) (impl params : List Char) e rest,
      c0.io_impl.data = impl ++ ' ' :: params → impl ≠ [] → (∀ x ∈ impl, x ≠ ' ') →
      c0.io_impl.data.length < npos →
      ext.Split (String.mk params) " " none none = p :: rest →
      c = { c0 with io_impl := String.mk impl } →
      DiskConfig.parse_option ext c p = Except.error e →
      DiskConfig.parse_fileio ext c0 = Except.error e) := by
  have hprop : ∀ e rest, DiskConfig.parse_option ext c p = Except.error e →
      DiskConfig.parse_options ext (p :: rest) c = Except.error e := by
    intro e rest h
    simp only [DiskConfig.parse_options, h]
  refine ⟨?_, ?_, ?_, hprop, ?_⟩
  · intro hq
    constructor
    · intro hio
      unfold DiskConfig.parse_option
      rw [if_neg hp, if_neg hauto, if_neg hdel, if_neg hdir, if_pos hq, if_pos hio]
    · intro hio hend
      unfold DiskConfig.parse_option
      rw [if_neg hp, if_neg hauto, if_neg hdel, if_neg hdir, if_pos hq, if_neg hio,
        if_neg (not_not.mpr hend)]
  · intro hq
    have hnq : ¬ (ext.Split p "=" (some 2) (some 2)).getD 0 "" = "queue" := by
      rw [hq]; decide
    constructor
    · intro hio
      unfold DiskConfig.parse_option
      rw [if_neg hp, if_neg hauto, if_neg hdel, if_neg hdir, if_neg hnq, if_pos hq, if_pos hio]
    · intro hio hend
      unfold DiskConfig.parse_option
      rw [if_neg hp, if_neg hauto, if_neg hdel, if_neg hdir, if_neg hnq, if_pos hq,
        if_neg (not_not.mpr hio), if_neg (not_not.mpr hend)]
  · intro hno
    have h1 : ¬ (ext.Split p "=" (some 2) (some 2)).getD 0 "" = "queue" :=
      fun h => hno (Or.inl h)
    have h2 : ¬ (ext.Split p "=" (some 2) (some 2)).getD 0 "" = "queue_length" :=
      fun h => hno (Or.inr (Or.inl h))
    have h3 : ¬ ((ext.Split p "=" (some 2) (some 2)).getD 0 "" = "device_id" ∨
        (ext.Split p "=" (some 2) (some 2)).getD 0 "" = "devid") :=
      fun h => hno (Or.inr (Or.inr h))
    refine ⟨?_, ?_, ?_⟩
    · intro hraw
      constructor
      · intro hio
        unfold DiskConfig.parse_option
        rw [if_neg hp, if_neg hauto, if_neg hdel, if_neg hdir, if_neg h1, if_neg h2, if_neg h3,
          if_pos hraw, if_pos hio]
      · intro hio
        unfold DiskConfig.parse_option
        rw [if_neg hp, if_neg hauto, if_neg hdel, if_neg hdir, if_neg h1, if_neg h2, if_neg h3,
          if_pos hraw, if_neg (not_not.mpr hio)]
    · intro hun
      have hraw : ¬ p = "raw_device" := by
        rcases hun with h | h <;> rw [h] <;> decide
      constructor
      · intro hio
        unfold DiskConfig.parse_option
        rw [if_neg hp, if_neg hauto, if_neg hdel, if_neg hdir, if_neg h1, if_neg h2, if_neg h3,
          if_neg hraw, if_pos hun, if_pos hio]
      · intro hio
        unfold DiskConfig.parse_option
        rw [if_neg hp, if_neg hauto, if_neg hdel, if_neg hdir, if_neg h1, if_neg h2, if_neg h3,
          if_neg hraw, if_pos hun, if_neg (not_not.mpr hio)]
    · intro hraw hu1 hu2
      unfold DiskConfig.parse_option
      rw [if_neg hp, if_neg hauto, if_neg hdel, if_neg hdir, if_neg h1, if_neg h2, if_neg h3,
        if_neg hraw, if_neg (fun h => h.elim hu1 hu2)]
  · intro c0 impl params e rest hio hne hsp hlen hsplit hc herr
    rw [DiskConfig.parse_fileio_split ext c0 impl params hio hne hsp hlen, hsplit, ← hc]
    exact hprop e rest herr

/-- Witness for C25: with the sample helpers, the option `queue=5` on a file of
type `linuxaio`. -/
theorem DiskConfig_parse_fileio_options_witness :
    DiskConfig.parse_option Externals.sample
        { DiskConfig.construct Externals.sample with io_impl := "linuxaio" } "queue=5"
      = Except.error (Thrown.runtime_error
          "Parameter 'queue=5' invalid for fileio 'linuxaio' in disk configuration file.") ∧
    DiskConfig.parse_fileio Externals.sample
        { DiskConfig.construct Externals.sample with io_impl := "linuxaio queue=5" }
      = Except.error (Thrown.runtime_error
          "Parameter 'queue=5' invalid for fileio 'linuxaio' in disk configuration file.") :=
  ⟨(((DiskConfig_parse_fileio_options Externals.sample
        { DiskConfig.construct Externals.sample with io_impl := "linuxaio" } "queue=5"
        (by decide) (by decide) (by decide) (by decide)).1 (by decide)).1 rfl).trans rfl,
   rfl⟩

/-- C26: `Config::load_config_file` on an empty disk list and a file that can be
opened returns exactly when every line that is neither empty nor starts with `#`
is accepted by `parse_line` and there is at least one such line; then
`disks_list` holds the entries of the `disk` lines in file order followed by the
entries of the `flash` lines in file order, and `first_flash` is the number of
`disk` entries (as an `unsigned int`), so that, for fewer than `2^32` of them, an
entry of `disks_list` is a flash entry exactly when its index is at least
`first_flash`. -/
theorem Config_load_config_file_order (ext : Externals) (config_path : String)
    (lines : List String) (first_flash : Nat) (cfg : Config) :
    (Config.load_config_file ext { disks_list := [], first_flash := first_flash } config_path
        (some lines) = Except.ok cfg ↔
      ∃ entries,
        List.Forall₂
          (fun l e => DiskConfig.parse_line ext (DiskConfig.construct ext) l = Except.ok e)
          (lines.filter Config.is_entry_line) entries ∧
        entries ≠ [] ∧
        cfg.disks_list = entries.filter (fun e => !e.flash) ++ entries.filter (fun e => e.flash) ∧
        cfg.first_flash = (entries.filter (fun e => !e.flash)).length % 2 ^ 32) ∧
    (∀ l e, DiskConfig.parse_line ext (DiskConfig.construct ext) l = Except.ok e →
      ((ext.Split l "=" (some 2) (some 2)).getD 0 "" = "disk" ∧ e.flash = false) ∨
      ((ext.Split l "=" (some 2) (some 2)).getD 0 "" = "flash" ∧ e.flash = true)) ∧
    (∀ entries : List DiskConfig, (entries.filter (fun e => !e.flash)).length < 2 ^ 32 →
      ∀ i e,
        (entries.filter (fun e => !e.flash) ++ entries.filter (fun e => e.flash))[i]? = some e →
        (e.flash = true ↔ (entries.filter (fun e => !e.flash)).length % 2 ^ 32 ≤ i)) := by
  refine ⟨?_, fun l e h => DiskConfig.parse_line_flash ext _ e l h, ?_⟩
  · constructor
    · intro h
      simp only [Config.load_config_file] at h
      cases hl : Config.load_lines ext lines [] [] with
      | error e => rw [hl] at h; cases h
      | ok r =>
        obtain ⟨d, f⟩ := r
        rw [hl] at h
        obtain ⟨entries, he⟩ := Config.load_lines_entries ext lines [] [] d f hl
        have h2 := Config.load_lines_ok ext lines entries he [] []
        rw [hl] at h2
        simp only [List.nil_append, Except.ok.injEq, Prod.mk.injEq] at h2
        obtain ⟨hd, hf⟩ := h2
        simp only at h
        split_ifs at h with hemp
        cases h
        refine ⟨entries, he, ?_, by rw [hd, hf], by rw [hd]⟩
        rintro rfl
        apply hemp
        rw [hd, hf]
        rfl
    · rintro ⟨entries, he, hne, hd, hf⟩
      simp only [Config.load_config_file]
      rw [Config.load_lines_ok ext lines entries he [] []]
      simp only [List.nil_append]
      have hemp : ¬ (entries.filter (fun e => !e.flash) ++ entries.filter (fun e => e.flash)).isEmpty
          = true := by
        intro h
        rw [List.isEmpty_iff] at h
        have h1 := List.append_eq_nil.mp h
        cases entries with
        | nil => exact hne rfl
        | cons a t =>
          by_cases ha : a.flash = true
          · have := h1.2
            simp [List.filter_cons, ha] at this
          · have := h1.1
            simp [List.filter_cons, ha] at this
      rw [if_neg hemp]
      cases cfg
      simp only at hd hf
      rw [hd, hf]
  · intro entries hlt i e hi
    rw [Nat.mod_eq_of_lt hlt]
    by_cases hlt2 : i < (entries.filter (fun e => !e.flash)).length
    · rw [List.getElem?_append_left hlt2] at hi
      have hmem := List.mem_iff_getElem?.mpr ⟨_, hi⟩
      have := (List.mem_filter.mp hmem).2
      constructor
      · intro h; rw [h] at this; simp at this
      · intro h; omega
    · rw [List.getElem?_append_right (by omega)] at hi
      have hmem := List.mem_iff_getElem?.mpr ⟨_, hi⟩
      have := (List.mem_filter.mp hmem).2
      constructor
      · intro _; omega
      · intro _; exact this

/-- Witness for C26: with the sample helpers, a file with a comment, an empty
line, a `flash` line and a `disk` line. -/
theorem Config_load_config_file_order_witness :
    (Config.load_config_file Externals.sample { disks_list := [], first_flash := 7 } "cfg"
        (some ["# disks", "", "flash=/tmp/f,0,syscall", "disk=/tmp/d,100,syscall unlink"])
      ).toOption.map (fun cfg => (cfg.disks_list.map (fun e => (e.path, e.flash)), cfg.first_flash))
      = some ([("/tmp/d", false), ("/tmp/f", true)], 1) ∧
    ∀ i e,
      (([] : List DiskConfig).filter (fun e => !e.flash)
        ++ ([] : List DiskConfig).filter (fun e => e.flash))[i]? = some e →
      (e.flash = true ↔ (([] : List DiskConfig).filter (fun e => !e.flash)).length % 2 ^ 32 ≤ i) :=
  ⟨by decide,
   (Config_load_config_file_order Externals.sample "cfg" []
     7 { disks_list := [], first_flash := 0 }).2.2 [] (by decide)⟩

/-- C22: the stable `LoserTreeCopyUnguarded<true>` set up for the two players
with keys 1 and 2 and the sentinel 100 under `<`: after `init`, `min_source` is
0; after `delete_min_insert(10)` (10 is less than the sentinel) the players hold
10 and 2, and `min_source` is still 0, although player 1 holds the smaller key.
The test of line 684 does not promote the stored node (source 1, key 2) past the
travelling node (source 0, key 10); the test of the sibling
`LoserTreePointerUnguarded<true>` (lines 858-859) promotes it, and so does the
test of the unstable `LoserTreeCopyUnguarded<false>` (line 652). -/
theorem LoserTreeCopyUnguarded_stable_keeps_larger_key :
    ((LoserTreeCopyUnguardedBase.start (fun a b : Nat => decide (a < b)) 100
        (fun _ => { source := 7, key := 0 }) [1, 2]).bind
      LoserTreeCopyUnguardedBase.min_source) = some 0 ∧
    (((LoserTreeCopyUnguardedBase.start (fun a b : Nat => decide (a < b)) 100
        (fun _ => { source := 7, key := 0 }) [1, 2]).bind
      (fun t => LoserTreeCopyUnguarded.play true (fun a b : Nat => decide (a < b)) [10] t
        [1, 2])).map
      (fun r => (LoserTreeCopyUnguardedBase.min_source r.1, (r.1.losers_ 0).key, r.2)))
      = some (some 0, 10, [10, 2]) ∧
    (fun a b : Nat => decide (a < b)) 2 10 = true ∧
    (fun a b : Nat => decide (a < b)) 10 100 = true ∧
    LoserTreeCopyUnguarded.promote true (fun a b : Nat => decide (a < b))
      { source := 1, key := 2 } { source := 0, key := 10 } = false ∧
    LoserTreePointerUnguarded.promote true (fun a b : Nat => decide (a < b))
      { source := 1, key := 2 } { source := 0, key := 10 } = true ∧
    LoserTreeCopyUnguarded.promote false (fun a b : Nat => decide (a < b))
      { source := 1, key := 2 } { source := 0, key := 10 } = true ∧
    (((LoserTreeCopyUnguardedBase.start (fun a b : Nat => decide (a < b)) 100
        (fun _ => { source := 7, key := 0 }) [1, 2]).bind
      (fun t => LoserTreeCopyUnguarded.play false (fun a b : Nat => decide (a < b)) [10] t
        [1, 2])).map
      (fun r => (LoserTreeCopyUnguardedBase.min_source r.1, (r.1.losers_ 0).key, r.2)))
      = some (some 1, 2, [10, 2]) := by
  refine ⟨by decide, by decide, by decide, by decide, by decide, by decide, by decide, by decide⟩

/-! ### `PrefixSum` round by round -/

/-- One round of `PrefixSum` realised by the scheduler. -/
theorem PrefixSum.ps_reach_round {α : Type} [Inhabited α] (sum_op : α → α → α)
    (inclusive : Bool) (n : Nat) (fuel d : Nat) (st : Nat → PrefixSum.Locals α) (hd : d < n) :
    Net.ReachLE n (2 * n)
      (Net.init n (fun i => PrefixSum.loop sum_op inclusive n i (fuel + 1) d
        (st i).value (st i).to_forward (st i).first))
      (Net.init n (fun i => PrefixSum.loop sum_op inclusive n i fuel (d <<< 1)
        (PrefixSum.round sum_op inclusive d st i).value
        (PrefixSum.round sum_op inclusive d st i).to_forward
        (PrefixSum.round sum_op inclusive d st i).first)) := by
  apply Net.round_matched n _
    (fun i => if i ≥ d then
        Prog.recv (i - d) (fun recv_value =>
          if !(st i).first || inclusive then
            PrefixSum.loop sum_op inclusive n i fuel (d <<< 1)
              (sum_op recv_value (st i).value) (sum_op recv_value (st i).to_forward)
              (st i).first
          else
            PrefixSum.loop sum_op inclusive n i fuel (d <<< 1)
              recv_value (sum_op recv_value (st i).to_forward) false)
      else
        PrefixSum.loop sum_op inclusive n i fuel (d <<< 1)
          (st i).value (st i).to_forward (st i).first)
    _ (fun i => decide (i + d < n)) (fun j => decide (j ≥ d)) (fun i => i + d)
    (fun j => j - d) (fun i => (st i).to_forward)
  · intro i _
    simp only [PrefixSum.loop, hd, if_true]
  · intro j _ hR
    have hjd : j ≥ d := by simpa using hR
    refine ⟨_, by simp only [hjd, if_true]; rfl, ?_⟩
    simp only [PrefixSum.round, hjd, if_true]
    split_ifs <;> rfl
  · intro j _ hR
    have hjd : ¬ j ≥ d := by simpa using hR
    simp only [PrefixSum.round, hjd, if_false]
  · intro i _ hS
    have : i + d < n := by simpa using hS
    refine ⟨this, by simp, by simp⟩
  · intro j hj hR
    have hjd : j ≥ d := by simpa using hR
    refine ⟨by omega, ?_, by omega⟩
    simp only [decide_eq_true_eq]
    omega

/-- The first `r` rounds of `PrefixSum` realised by the scheduler: every worker
stands at the head of its loop with the locals of the round view. -/
theorem PrefixSum.ps_reach_upto {α : Type} [Inhabited α] (sum_op : α → α → α)
    (inclusive : Bool) (n fuel : Nat) :
    ∀ (r d : Nat) (st : Nat → PrefixSum.Locals α), d * 2 ^ r < 2 * n →
      Net.ReachLE n (2 * n * r)
        (Net.init n (fun i => PrefixSum.loop sum_op inclusive n i (fuel + r) d
          (st i).value (st i).to_forward (st i).first))
        (Net.init n (fun i => PrefixSum.loop sum_op inclusive n i fuel (d * 2 ^ r)
          (PrefixSum.rounds sum_op inclusive n r d st i).value
          (PrefixSum.rounds sum_op inclusive n r d st i).to_forward
          (PrefixSum.rounds sum_op inclusive n r d st i).first)) := by
  intro r
  induction r with
  | zero =>
    intro d st _
    simp only [PrefixSum.rounds, pow_zero, Nat.mul_one, Nat.add_zero]
    exact Net.ReachLE.stay n _ _
  | succ r ih =>
    intro d st h
    have hp := two_pow_pos1 r
    have h2 : d * 2 ^ (r + 1) = 2 * (d * 2 ^ r) := by rw [pow_succ]; ring
    have hd : d < n := by
      have : d * 1 ≤ d * 2 ^ r := Nat.mul_le_mul_left d hp
      omega
    have hround := PrefixSum.ps_reach_round sum_op inclusive n (fuel + r) d st hd
    have hrest := ih (d <<< 1) (PrefixSum.round sum_op inclusive d st)
      (by rw [shl_one]; rw [h2] at h; rw [Nat.mul_assoc]; exact h)
    have e : d <<< 1 * 2 ^ r = d * 2 ^ (r + 1) := by rw [shl_one, h2, Nat.mul_assoc]
    rw [e] at hrest
    have := Net.ReachLE.trans hround hrest
    simp only [PrefixSum.rounds, hd, if_true]
    exact this.mono (by rw [Nat.mul_succ]; omega)

/-- The window invariant of `to_forward`: `r` rounds started at step `d` widen
the window from `d` to `d * 2^r` ranks. -/
theorem PrefixSum.rounds_forward {α : Type} (op : α → α → α)
    (hassoc : ∀ a b c, op (op a b) c = op a (op b c)) (inclusive : Bool) (n : Nat)
    (v : Nat → α) :
    ∀ (r d : Nat) (st : Nat → PrefixSum.Locals α), 1 ≤ d →
      (∀ i, (st i).to_forward = foldRange op v (i - min i (d - 1)) (min i (d - 1))) →
      ∀ i, i < n →
        (PrefixSum.rounds op inclusive n r d st i).to_forward
          = foldRange op v (i - min i (d * 2 ^ r - 1)) (min i (d * 2 ^ r - 1)) := by
  intro r
  induction r with
  | zero =>
    intro d st _ hfw i _
    simp only [PrefixSum.rounds, pow_zero, Nat.mul_one]
    exact hfw i
  | succ r ih =>
    intro d st hd hfw i hi
    have hp := two_pow_pos1 r
    have h2 : d * 2 ^ (r + 1) = 2 * d * 2 ^ r := by rw [pow_succ]; ring
    by_cases hdn : d < n
    · simp only [PrefixSum.rounds, hdn, if_true]
      rw [h2, shl_one]
      exact ih (2 * d) _ (by omega)
        (fun j => PrefixSum.round_forward op hassoc inclusive v d st hd hfw j) i hi
    · simp only [PrefixSum.rounds, hdn, if_false]
      rw [hfw i]
      have h3 : d * 1 ≤ d * 2 ^ (r + 1) := Nat.mul_le_mul_left d (two_pow_pos1 (r + 1))
      have e : min i (d - 1) = min i (d * 2 ^ (r + 1) - 1) := by omega
      rw [e]

/-- C31: `PrefixSum` (inclusive or exclusive) on any group with an associative
operator, for a round with step `d = 2^j < n`.  The scheduler brings every
worker to the head of its loop after `r` rounds, for every `r ≤ j + 1`, with the
locals of the round view; there `to_forward` of worker `i` is the left-to-right
fold of the original values of the `2^r` ranks up to `i` (from rank 0 on if
there are fewer), so after the round with step `d` it is the fold of the ranks
`max(0, i - 2d + 1) .. i`; and at the head of the round with step `d` the
program of worker `i` first sends its current `to_forward` to `i + d` (if that
rank exists) and only then receives. -/
theorem PrefixSum_to_forward_window {α : Type} [Inhabited α] (op : α → α → α)
    (hassoc : ∀ a b c, op (op a b) c = op a (op b c)) (inclusive : Bool) (vs : List α)
    (j : Nat) (hj : 2 ^ j < vs.length) :
    (∀ r, r ≤ j + 1 →
      Net.ReachLE vs.length (2 * vs.length * r)
        (Net.init vs.length (fun i => PrefixSum op inclusive vs.length i (vs.getD i default)))
        (Net.init vs.length (fun i =>
          PrefixSum.loop op inclusive vs.length i (vs.length - r) (2 ^ r)
            (PrefixSum.rounds op inclusive vs.length r 1
              (fun q => { value := vs.getD q default, to_forward := vs.getD q default,
                          first := true }) i).value
            (PrefixSum.rounds op inclusive vs.length r 1
              (fun q => { value := vs.getD q default, to_forward := vs.getD q default,
                          first := true }) i).to_forward
            (PrefixSum.rounds op inclusive vs.length r 1
              (fun q => { value := vs.getD q default, to_forward := vs.getD q default,
                          first := true }) i).first))) ∧
    (∀ r i, i < vs.length →
      (PrefixSum.rounds op inclusive vs.length r 1
          (fun q => { value := vs.getD q default, to_forward := vs.getD q default,
                      first := true }) i).to_forward
        = foldRange op (fun q => vs.getD q default) (i - min i (2 ^ r - 1))
            (min i (2 ^ r - 1))) ∧
    (∀ i, i < vs.length →
      (PrefixSum.rounds op inclusive vs.length (j + 1) 1
          (fun q => { value := vs.getD q default, to_forward := vs.getD q default,
                      first := true }) i).to_forward
        = foldRange op (fun q => vs.getD q default) (i - min i (2 * 2 ^ j - 1))
            (min i (2 * 2 ^ j - 1))) ∧
    (∀ i (value to_forward : α) (first : Bool), ∃ K other,
      PrefixSum.loop op inclusive vs.length i (vs.length - j) (2 ^ j) value to_forward first
        = Prog.sendIf (decide (i + 2 ^ j < vs.length)) (i + 2 ^ j) to_forward
            (if i ≥ 2 ^ j then Prog.recv (i - 2 ^ j) K else other)) := by
  have hjn : j < vs.length := Nat.lt_trans (Nat.lt_two_pow j) hj
  have hwin : ∀ r i, i < vs.length →
      (PrefixSum.rounds op inclusive vs.length r 1
          (fun q => { value := vs.getD q default, to_forward := vs.getD q default,
                      first := true }) i).to_forward
        = foldRange op (fun q => vs.getD q default) (i - min i (2 ^ r - 1))
            (min i (2 ^ r - 1)) := by
    intro r i hi
    have h := PrefixSum.rounds_forward op hassoc inclusive vs.length (fun q => vs.getD q default)
      r 1 (fun q => { value := vs.getD q default, to_forward := vs.getD q default,
                      first := true }) (Nat.le_refl 1)
      (by intro q; simp [foldRange]) i hi
    rw [Nat.one_mul] at h
    exact h
  refine ⟨?_, hwin, ?_, ?_⟩
  · intro r hr
    have hpow : 2 ^ r ≤ 2 ^ (j + 1) := Nat.pow_le_pow_right (by decide) hr
    have e2 : 2 ^ (j + 1) = 2 * 2 ^ j := by rw [pow_succ]; ring
    have h := PrefixSum.ps_reach_upto op inclusive vs.length (vs.length - r) r 1
      (fun q => { value := vs.getD q default, to_forward := vs.getD q default, first := true })
      (by rw [Nat.one_mul]; omega)
    rw [Nat.one_mul, Nat.sub_add_cancel (by omega)] at h
    exact h
  · intro i hi
    have h := hwin (j + 1) i hi
    have e2 : 2 ^ (j + 1) = 2 * 2 ^ j := by rw [pow_succ]; ring
    rw [e2] at h
    exact h
  · intro i value to_forward first
    obtain ⟨f, hf⟩ : ∃ f, vs.length - j = f + 1 := ⟨vs.length - j - 1, by omega⟩
    rw [hf]
    refine ⟨fun recv_value =>
        if !first || inclusive then
          PrefixSum.loop op inclusive vs.length i f (2 ^ j <<< 1)
            (op recv_value value) (op recv_value to_forward) first
        else
          PrefixSum.loop op inclusive vs.length i f (2 ^ j <<< 1)
            recv_value (op recv_value to_forward) false,
      PrefixSum.loop op inclusive vs.length i f (2 ^ j <<< 1) value to_forward first, ?_⟩
    simp only [PrefixSum.loop, hj, if_true]

/-- Witness for C31: five workers under list concatenation, the round with step
2: afterwards `to_forward` of worker 4 is the fold of the ranks 1 to 4. -/
theorem PrefixSum_to_forward_window_witness :
    (∀ a b c : List Nat, a ++ b ++ c = a ++ (b ++ c)) ∧
    2 ^ 1 < [[0], [1], [2], [3], [4]].length ∧
    (PrefixSum.rounds (fun a b : List Nat => a ++ b) false [[0], [1], [2], [3], [4]].length
        (1 + 1) 1
        (fun q => { value := [[0], [1], [2], [3], [4]].getD q default,
                    to_forward := [[0], [1], [2], [3], [4]].getD q default,
                    first := true }) 4).to_forward
      = [1, 2, 3, 4] :=
  ⟨List.append_assoc, by decide,
   ((PrefixSum_to_forward_window (fun a b : List Nat => a ++ b) List.append_assoc false
     [[0], [1], [2], [3], [4]] 1 (by decide)).2.2.1 4 (by decide)).trans (by decide)⟩

/-! ### `Reduce`: what the other workers end with -/

/-- A worker that has left the loop keeps its locals. -/
theorem Reduce.rounds_frozen {α : Type} (op : α → α → α) (n root : Nat) :
    ∀ (fuel d : Nat) (st : Nat → Reduce.Locals α) (i : Nat), (st i).active = false →
      Reduce.rounds op n root fuel d st i = st i := by
  intro fuel
  induction fuel with
  | zero => intro d st i _; rfl
  | succ fuel ih =>
    intro d st i h
    simp only [Reduce.rounds]
    split_ifs with hd
    · have hr : Reduce.round op n root d st i = st i := by
        simp [Reduce.round, h]
      rw [ih (d <<< 1) _ i (by rw [hr]; exact h), hr]
    · rfl

/-- A worker whose shifted rank `s` has the lowest set bit `2^e` ends with the
fold of the shifted ranks from `s` up to the end of its block of `2^e` ranks
(cut at `n`). -/
theorem Reduce.rounds_other {α : Type} (op : α → α → α)
    (hassoc : ∀ a b c, op (op a b) c = op a (op b c)) (n root : Nat) (hr : root < n)
    (v : Nat → α) (i e : Nat) (hi : i < n)
    (hlow : (i + n - root) % n % (2 * 2 ^ e) = 2 ^ e) :
    ∀ (fuel j : Nat) (st : Nat → Reduce.Locals α), j ≤ e → n ≤ 2 ^ j * 2 ^ fuel →
      (∀ i, i < n → ((st i).active = true ↔ (i + n - root) % n % 2 ^ j = 0)) →
      (∀ i, i < n → (i + n - root) % n % 2 ^ j = 0 →
        (st i).value = foldRange op (fun s => v ((s + root) % n)) ((i + n - root) % n)
          (min (2 ^ j) (n - (i + n - root) % n) - 1)) →
      (Reduce.rounds op n root fuel (2 ^ j) st i).value
        = foldRange op (fun s => v ((s + root) % n)) ((i + n - root) % n)
          (min (2 ^ e) (n - (i + n - root) % n) - 1) := by
  have hs := shifted_lt n root i hr
  have hle := low_bit_le _ e hlow
  obtain ⟨he0, hebit⟩ := mod_two_mul_eq _ (2 ^ e) (two_pow_pos1 e) hlow
  intro fuel
  induction fuel with
  | zero =>
    intro j st hj hf _ _
    exfalso
    have : 2 ^ j ≤ 2 ^ e := Nat.pow_le_pow_right (by decide) hj
    simp only [pow_zero, Nat.mul_one] at hf
    omega
  | succ fuel ih =>
    intro j st hj hf hact hval
    have hje : 2 ^ j ≤ 2 ^ e := Nat.pow_le_pow_right (by decide) hj
    have hd : 2 ^ j < n := by omega
    have e1 : (2 ^ j) <<< 1 = 2 ^ (j + 1) := by rw [shl_one, pow_succ]; ring
    simp only [Reduce.rounds, hd, if_true, e1]
    by_cases hlt : j < e
    · have hf2 := fuel_step n (2 ^ j) fuel hf
      rw [e1] at hf2
      exact ih (j + 1) _ hlt hf2 (Reduce.round_active op n root j st hact)
        (Reduce.round_value op hassoc n root j hr v st hact hval)
    · have hje2 : j = e := by omega
      subst hje2
      have hA := (hact i hi).mpr he0
      have hbit : (i + n - root) % n &&& 2 ^ j ≠ 0 := (and_two_pow_ne_zero _ j).mpr hebit
      have hround : Reduce.round op n root (2 ^ j) st i
          = { value := (st i).value, active := false } := by
        simp only [Reduce.round, hA, if_true, hbit, ne_eq, not_false_eq_true]
      rw [Reduce.rounds_frozen op n root fuel _ _ i (by rw [hround]), hround]
      exact hval i hi he0

/-- C32: `Reduce` with root 0 on any group with an associative operator returns
everywhere, and every worker `s ≠ 0` ends with the left-to-right fold of the
values of the ranks `s .. min(s + lowBit s, n) - 1`, where `lowBit s` is the
lowest set bit of `s`; a worker of odd rank ends with its own value. -/
theorem Reduce_other_workers_fold {α : Type} [Inhabited α] (op : α → α → α)
    (hassoc : ∀ a b c, op (op a b) c = op a (op b c)) (vs : List α) (s : Nat)
    (hs0 : 0 < s) (hs : s < vs.length) :
    ∃ out, Group.run (fun n r => Reduce op n r 0) vs = some out ∧
      out.length = vs.length ∧
      out[s]? = some (foldRange op (fun r => vs.getD r default) s
        (min (s + lowBit s) vs.length - 1 - s)) ∧
      s + (min (s + lowBit s) vs.length - 1 - s) = min (s + lowBit s) vs.length - 1 ∧
      (s % 2 = 1 → out[s]? = some (vs.getD s default)) := by
  have hn : 0 < vs.length := by omega
  obtain ⟨e, he⟩ := exists_low_bit s hs0
  have hlb : lowBit s = 2 ^ e := lowBit_eq s e he
  have hp := two_pow_pos1 e
  have hsh : (s + vs.length - 0) % vs.length = s := by
    rw [Nat.sub_zero, Nat.add_mod_right, Nat.mod_eq_of_lt hs]
  have hval : (Reduce.rounds op vs.length 0 vs.length 1
        (fun k => { value := vs.getD k default, active := true }) s).value
      = foldRange op (fun r => vs.getD r default) s (min (s + lowBit s) vs.length - 1 - s) := by
    have h := Reduce.rounds_other op hassoc vs.length 0 hn (fun k => vs.getD k default) s e hs
      (by rw [hsh]; exact he) vs.length 0
      (fun k => { value := vs.getD k default, active := true }) (Nat.zero_le e)
      (by rw [pow_zero]; exact two_pow_ge _) (by intro i _; simp [Nat.mod_one])
      (by
        intro i hi _
        simp only [pow_zero]
        have hsi := shifted_lt vs.length 0 i hn
        have e0 : min 1 (vs.length - (i + vs.length - 0) % vs.length) - 1 = 0 := by omega
        rw [e0]
        simp only [foldRange]
        rw [unshift_shifted vs.length 0 i hn hi])
    rw [pow_zero, hsh] at h
    rw [h, hlb]
    have e1 : min (2 ^ e) (vs.length - s) - 1 = min (s + 2 ^ e) vs.length - 1 - s := by omega
    rw [e1]
    apply foldRange_congr
    intro r _ hr2
    have hr3 : r < vs.length := by omega
    show vs.getD ((r + 0) % vs.length) default = vs.getD r default
    rw [Nat.add_zero, Nat.mod_eq_of_lt hr3]
  have hget : ((List.range vs.length).map (fun i =>
      (Reduce.rounds op vs.length 0 vs.length 1
        (fun k => { value := vs.getD k default, active := true }) i).value))[s]?
      = some (foldRange op (fun r => vs.getD r default) s
          (min (s + lowBit s) vs.length - 1 - s)) := by
    simp only [List.getElem?_map, List.getElem?_range hs, Option.map_some', Option.some.injEq]
    exact hval
  refine ⟨_, Reduce.red_run_eq op vs 0 hn, by simp, hget, ?_, ?_⟩
  · rw [hlb]; omega
  · intro hodd
    rw [hget]
    have h1 : s % (2 * 2 ^ 0) = 2 ^ 0 := by simpa using hodd
    have hlb1 : lowBit s = 2 ^ 0 := lowBit_eq s 0 h1
    rw [hlb1]
    have e0 : min (s + 2 ^ 0) vs.length - 1 - s = 0 := by
      rw [pow_zero]; omega
    rw [e0]
    rfl

/-- Witness for C32: six workers under list concatenation; worker 4 ends with
the fold of the ranks 4 and 5, worker 3 with its own value. -/
theorem Reduce_other_workers_fold_witness :
    (∀ a b c : List Nat, a ++ b ++ c = a ++ (b ++ c)) ∧ 0 < 4 ∧
    4 < [[0], [1], [2], [3], [4], [5]].length ∧
    (Group.run (fun n r => Reduce (fun a b : List Nat => a ++ b) n r 0)
      [[0], [1], [2], [3], [4], [5]]).map (fun out => (out[4]?, out[3]?, out[2]?))
      = some (some [4, 5], some [3], some [2, 3]) ∧
    ∃ out, Group.run (fun n r => Reduce (fun a b : List Nat => a ++ b) n r 0)
        [[0], [1], [2], [3], [4], [5]] = some out ∧
      out.length = [[0], [1], [2], [3], [4], [5]].length ∧
      out[4]? = some (foldRange (fun a b : List Nat => a ++ b)
        (fun r => [[0], [1], [2], [3], [4], [5]].getD r default) 4
        (min (4 + lowBit 4) [[0], [1], [2], [3], [4], [5]].length - 1 - 4)) ∧
      4 + (min (4 + lowBit 4) [[0], [1], [2], [3], [4], [5]].length - 1 - 4)
        = min (4 + lowBit 4) [[0], [1], [2], [3], [4], [5]].length - 1 ∧
      (4 % 2 = 1 → out[4]? = some ([[0], [1], [2], [3], [4], [5]].getD 4 default)) :=
  ⟨List.append_assoc, by decide, by decide, by decide,
   Reduce_other_workers_fold (fun a b : List Nat => a ++ b) List.append_assoc
     [[0], [1], [2], [3], [4], [5]] 4 (by decide) (by decide)⟩

/-! ### The predecessor relation of the binomial tree -/

theorem digits_sum_double (x : Nat) : (Nat.digits 2 (2 * x)).sum = (Nat.digits 2 x).sum := by
  rcases Nat.eq_zero_or_pos x with h | h
  · subst h; rfl
  · rw [Nat.digits_def' (by decide) (by omega)]
    have h1 : 2 * x % 2 = 0 := by omega
    have h2 : 2 * x / 2 = x := by omega
    rw [h1, h2, List.sum_cons, Nat.zero_add]

theorem digits_sum_double_succ (x : Nat) :
    (Nat.digits 2 (2 * x + 1)).sum = (Nat.digits 2 x).sum + 1 := by
  rw [Nat.digits_def' (by decide) (by omega)]
  have h1 : (2 * x + 1) % 2 = 1 := by omega
  have h2 : (2 * x + 1) / 2 = x := by omega
  rw [h1, h2, List.sum_cons, Nat.add_comm]

/-- Clearing the lowest set bit removes one binary digit 1. -/
theorem digits_sum_clear_low : ∀ (e s : Nat), s % (2 * 2 ^ e) = 2 ^ e →
    (Nat.digits 2 (s - 2 ^ e)).sum + 1 = (Nat.digits 2 s).sum := by
  intro e
  induction e with
  | zero =>
    intro s h
    simp only [pow_zero, Nat.mul_one] at h
    have e1 : s = 2 * (s / 2) + 1 := by omega
    have e2 : s - 2 ^ 0 = 2 * (s / 2) := by rw [pow_zero]; omega
    rw [e2, digits_sum_double]
    conv_rhs => rw [e1, digits_sum_double_succ]
  | succ e ih =>
    intro s h
    have hp := two_pow_pos1 e
    have e3 : 2 ^ (e + 1) = 2 * 2 ^ e := by rw [pow_succ]; ring
    rw [e3] at h ⊢
    have hm : s % (2 * (2 * 2 ^ e)) = s % 2 + 2 * (s / 2 % (2 * 2 ^ e)) := Nat.mod_mul
    rw [h] at hm
    have hs2 : s % 2 = 0 := by omega
    have hhalf : s / 2 % (2 * 2 ^ e) = 2 ^ e := by omega
    have hle := low_bit_le _ e hhalf
    have e1 : s = 2 * (s / 2) := by omega
    have e2 : s - 2 * 2 ^ e = 2 * (s / 2 - 2 ^ e) := by omega
    rw [e2, digits_sum_double]
    conv_rhs => rw [e1, digits_sum_double]
    exact ih (s / 2) hhalf

/-- A number below `2^m` has at most `m` binary digits 1. -/
theorem digits_sum_le : ∀ (m s : Nat), s < 2 ^ m → (Nat.digits 2 s).sum ≤ m := by
  intro m
  induction m with
  | zero =>
    intro s h
    have : s = 0 := by simpa using h
    subst this
    simp
  | succ m ih =>
    intro s h
    rcases Nat.eq_zero_or_pos s with h0 | h0
    · subst h0; simp
    · rw [Nat.digits_def' (by decide) h0, List.sum_cons]
      have h1 : s / 2 < 2 ^ m := by
        rw [pow_succ] at h
        omega
      have := ih (s / 2) h1
      have h2 : s % 2 < 2 := Nat.mod_lt _ (by decide)
      omega

/-- The predecessor in terms of the shifted rank. -/
theorem BroadcastBinomialTree.predecessor_eq (n origin i e : Nat) (ho : origin < n)
    (hlow : (i + n - origin) % n % (2 * 2 ^ e) = 2 ^ e) :
    BroadcastBinomialTree.predecessor n i origin
      = ((i + n - origin) % n - 2 ^ e + origin) % n ∧
    BroadcastBinomialTree.predecessor n i origin < n ∧
    (BroadcastBinomialTree.predecessor n i origin + n - origin) % n
      = (i + n - origin) % n - 2 ^ e := by
  have hs := shifted_lt n origin i ho
  have hp := two_pow_pos1 e
  obtain ⟨-, hb⟩ := mod_two_mul_eq _ (2 ^ e) hp hlow
  obtain ⟨-, hxor, -, -, -, -, -⟩ := bit_set_facts _ e hb
  have h1 : BroadcastBinomialTree.predecessor n i origin
      = ((i + n - origin) % n - 2 ^ e + origin) % n := by
    simp only [BroadcastBinomialTree.predecessor, ffs_low_bit _ e hlow, hxor]
  rw [h1]
  exact ⟨rfl, Nat.mod_lt _ (by omega),
    shifted_unshift n origin ((i + n - origin) % n - 2 ^ e) ho (by omega)⟩

/-- Following the predecessors reaches the origin after as many hops as the
shifted rank has binary digits 1. -/
theorem BroadcastBinomialTree.hops_eq (n origin : Nat) (ho : origin < n) :
    ∀ (fuel i : Nat), (Nat.digits 2 ((i + n - origin) % n)).sum ≤ fuel →
      BroadcastBinomialTree.hops n origin fuel i
        = some (Nat.digits 2 ((i + n - origin) % n)).sum := by
  intro fuel
  induction fuel with
  | zero =>
    intro i h
    by_cases h0 : (i + n - origin) % n > 0
    · exfalso
      obtain ⟨e, he⟩ := exists_low_bit _ h0
      have := digits_sum_clear_low e _ he
      omega
    · have hz : (i + n - origin) % n = 0 := by omega
      simp [BroadcastBinomialTree.hops, hz]
  | succ fuel ih =>
    intro i h
    by_cases h0 : (i + n - origin) % n > 0
    · obtain ⟨e, he⟩ := exists_low_bit _ h0
      have hsum := digits_sum_clear_low e _ he
      obtain ⟨-, -, hsh⟩ := BroadcastBinomialTree.predecessor_eq n origin i e ho he
      have hrec := ih (BroadcastBinomialTree.predecessor n i origin) (by rw [hsh]; omega)
      simp only [BroadcastBinomialTree.hops, h0, if_true, hrec, Option.map_some', hsh, hsum]
    · have hz : (i + n - origin) % n = 0 := by omega
      simp [BroadcastBinomialTree.hops, hz]

/-- C33: `BroadcastBinomialTree` on a group of `n ≥ 1` workers, any origin, any
worker `i`, with `s = (i + n - origin) mod n` its shifted rank.  If `i` is not
the origin, its only receive is from `predecessor`, whose shifted rank is `s`
with the lowest set bit cleared, `s - lowBit s`, strictly below `s`.  Following
the predecessors from `i` reaches the origin after exactly as many hops as the
binary expansion of `s` has digits 1, for every bound on the number of hops
that is at least that number, in particular for `⌈log2 n⌉`; that number is at
most `⌈log2 n⌉`; and the call returns with the origin's value at worker `i`. -/
theorem BroadcastBinomialTree_predecessor_hops {α : Type} [Inhabited α] (vs : List α)
    (origin i : Nat) (ho : origin < vs.length) (hi : i < vs.length) :
    (i ≠ origin →
      (callsOf (BroadcastBinomialTree vs.length i origin)).filter Act.isRecv
        = [Act.recv (BroadcastBinomialTree.predecessor vs.length i origin)] ∧
      BroadcastBinomialTree.predecessor vs.length i origin < vs.length ∧
      (BroadcastBinomialTree.predecessor vs.length i origin + vs.length - origin) % vs.length
        = (i + vs.length - origin) % vs.length - lowBit ((i + vs.length - origin) % vs.length) ∧
      (BroadcastBinomialTree.predecessor vs.length i origin + vs.length - origin) % vs.length
        < (i + vs.length - origin) % vs.length) ∧
    (∀ fuel, (Nat.digits 2 ((i + vs.length - origin) % vs.length)).sum ≤ fuel →
      BroadcastBinomialTree.hops vs.length origin fuel i
        = some (Nat.digits 2 ((i + vs.length - origin) % vs.length)).sum) ∧
    BroadcastBinomialTree.hops vs.length origin (Nat.clog 2 vs.length) i
      = some (Nat.digits 2 ((i + vs.length - origin) % vs.length)).sum ∧
    (Nat.digits 2 ((i + vs.length - origin) % vs.length)).sum ≤ Nat.clog 2 vs.length ∧
    ∃ out, Group.run (fun n r => BroadcastBinomialTree n r origin) vs = some out ∧
      out[i]? = some (vs.getD origin default) := by
  have hs := shifted_lt vs.length origin i ho
  have hle : (Nat.digits 2 ((i + vs.length - origin) % vs.length)).sum
      ≤ Nat.clog 2 vs.length :=
    digits_sum_le _ _ (Nat.lt_of_lt_of_le hs (Nat.le_pow_clog (by decide) _))
  refine ⟨?_, fun fuel h => BroadcastBinomialTree.hops_eq vs.length origin ho fuel i h,
    BroadcastBinomialTree.hops_eq vs.length origin ho _ i hle, hle,
    _, BroadcastBinomialTree.bbt_run_eq vs origin ho, ?_⟩
  · intro hne
    have h0 : (i + vs.length - origin) % vs.length ≠ 0 :=
      fun h => hne ((shifted_zero_iff vs.length origin i ho hi).mp h)
    obtain ⟨e, he⟩ := exists_low_bit _ (Nat.pos_of_ne_zero h0)
    have hp := two_pow_pos1 e
    have hlow := low_bit_le _ e he
    obtain ⟨h1, h2, h3⟩ := BroadcastBinomialTree.predecessor_eq vs.length origin i e ho he
    obtain ⟨r1, -, -⟩ := BroadcastBinomialTree.recv_source vs.length origin i ho hi hne
    rw [lowBit_eq _ e he] at r1 ⊢
    refine ⟨by rw [r1, h1], h2, h3, ?_⟩
    rw [h3]
    omega
  · simp only [List.getElem?_map, List.getElem?_range hi, Option.map_some']

/-- Witness for C33: six workers, origin 4; worker 3 has the shifted rank 5 and
is reached over worker 2 (shifted rank 4) in two hops. -/
theorem BroadcastBinomialTree_predecessor_hops_witness :
    4 < [10, 11, 12, 13, 14, 15].length ∧ 3 < [10, 11, 12, 13, 14, 15].length ∧
    BroadcastBinomialTree.predecessor 6 3 4 = 2 ∧
    BroadcastBinomialTree.predecessor 6 2 4 = 4 ∧
    BroadcastBinomialTree.hops 6 4 (Nat.clog 2 [10, 11, 12, 13, 14, 15].length) 3
      = some (Nat.digits 2 ((3 + [10, 11, 12, 13, 14, 15].length - 4)
          % [10, 11, 12, 13, 14, 15].length)).sum :=
  ⟨by decide, by decide, by decide, by decide,
   (BroadcastBinomialTree_predecessor_hops [10, 11, 12, 13, 14, 15] 4 3 (by decide)
     (by decide)).2.2.1⟩

/-! ### The stable order -/

theorem StrictWeakOrder.lt_of_lt_of_not_lt {α : Type} {cmp : α → α → Bool}
    (h : StrictWeakOrder cmp) (a b c : α) (hab : cmp a b = true) (hcb : cmp c b = false) :
    cmp a c = true := by
  cases hac : cmp a c with
  | true => rfl
  | false =>
    have := h.not_lt_trans b c a hac hcb
    rw [hab] at this
    exact absurd this (by decide)

theorem StrictWeakOrder.lt_of_not_lt_of_lt {α : Type} {cmp : α → α → Bool}
    (h : StrictWeakOrder cmp) (a b c : α) (hba : cmp b a = false) (hbc : cmp b c = true) :
    cmp a c = true := by
  cases hac : cmp a c with
  | true => rfl
  | false =>
    have := h.not_lt_trans c a b hba hac
    rw [hbc] at this
    exact absurd this (by decide)

theorem Loser.leStable_self {α : Type} {cmp : α → α → Bool} (h : StrictWeakOrder cmp)
    (a : Loser α) : Loser.leStable cmp a a := by
  unfold Loser.leStable
  cases hs : a.sup with
  | true => left; rfl
  | false => right; exact ⟨rfl, h.irrefl _, Or.inr (Int.le_refl _)⟩

theorem Loser.leStable_chain {α : Type} {cmp : α → α → Bool} (h : StrictWeakOrder cmp)
    (a b c : Loser α) (h1 : Loser.leStable cmp a b) (h2 : Loser.leStable cmp b c) :
    Loser.leStable cmp a c := by
  unfold Loser.leStable at *
  rcases h2 with h2 | ⟨hb, hcb, hor2⟩
  · left; exact h2
  · rcases h1 with h1 | ⟨ha, hba, hor1⟩
    · rw [h1] at hb; exact absurd hb (by decide)
    · right
      refine ⟨ha, h.not_lt_trans _ _ _ hcb hba, ?_⟩
      rcases hor1 with hab | hs1
      · exact Or.inl (h.lt_of_lt_of_not_lt _ _ _ hab hcb)
      · rcases hor2 with hbc | hs2
        · exact Or.inl (h.lt_of_not_lt_of_lt _ _ _ hba hbc)
        · exact Or.inr (Int.le_trans hs1 hs2)

/-- A sentinel is only matched by sentinels, in the stable order too. -/
theorem Loser.leStable_sup {α : Type} {cmp : α → α → Bool} (a b : Loser α)
    (h : Loser.leStable cmp a b) (ha : a.sup = true) : b.sup = true := by
  rcases h with h | ⟨h, _⟩
  · exact h
  · rw [ha] at h; exact absurd h (by decide)

/-- The stable test of `delete_min_insert`: a stored node that is promoted does
not lose against the travelling one in the stable order. -/
theorem LoserTreeCopy.promote_leStable {α : Type} {cmp : α → α → Bool}
    (hc : StrictWeakOrder cmp) (stored travelling : Loser α)
    (h : LoserTreeCopy.promote true cmp stored travelling = true) :
    Loser.leStable cmp stored travelling := by
  unfold Loser.leStable
  simp only [LoserTreeCopy.promote, if_true, Bool.or_eq_true, Bool.and_eq_true,
    Bool.not_eq_true', decide_eq_true_eq] at h
  rcases h with ⟨h1, -⟩ | ⟨⟨h1, h2⟩, h3⟩
  · left; exact h1
  · right
    rcases h3 with h3 | ⟨h3, h4⟩
    · exact ⟨h2, hc.asymm _ _ h3, Or.inl h3⟩
    · exact ⟨h2, h3, Or.inr (Int.le_of_lt h4)⟩

theorem LoserTreeCopy.not_promote_leStable {α : Type} {cmp : α → α → Bool}
    (stored travelling : Loser α)
    (h : ¬ LoserTreeCopy.promote true cmp stored travelling = true) :
    Loser.leStable cmp travelling stored := by
  unfold Loser.leStable
  simp only [LoserTreeCopy.promote, if_true, Bool.or_eq_true, Bool.and_eq_true,
    Bool.not_eq_true', decide_eq_true_eq, not_or, not_and, Bool.not_eq_true,
    Bool.not_eq_false, not_lt] at h
  obtain ⟨h1, h2⟩ := h
  cases hs : stored.sup with
  | true => left; rfl
  | false =>
    right
    cases ht : travelling.sup with
    | true =>
      exfalso
      have := h1 ht
      rw [hs] at this
      simp at this
    | false =>
      obtain ⟨h3, h4⟩ := h2 ⟨ht, hs⟩
      refine ⟨rfl, h3, ?_⟩
      cases hlt : cmp travelling.key stored.key with
      | true => exact Or.inl rfl
      | false => exact Or.inr (h4 hlt)

/-! ### Leaves of a complete tree are ordered from left to right -/

theorem log_div_two_pow (u : Nat) : ∀ t, Nat.log 2 (u / 2 ^ t) = Nat.log 2 u - t := by
  intro t
  induction t with
  | zero => simp
  | succ t ih =>
    rw [pow_succ, ← Nat.div_div_eq_div_mul, Nat.log_div_base, ih]
    omega

/-- In a tree with `2^m` leaves, the leaves below a left child come before the
leaves below its right sibling. -/
theorem Above.leaf_order (m v u u2 : Nat) (hv : 1 ≤ v) (h1 : Above (2 * v) u)
    (h2 : Above (2 * v + 1) u2) (hu : 2 ^ m ≤ u) (hu1 : u < 2 * 2 ^ m) (hw : 2 ^ m ≤ u2)
    (hw1 : u2 < 2 * 2 ^ m) : u < u2 := by
  obtain ⟨t, ht⟩ := h1
  obtain ⟨t2, ht2⟩ := h2
  have e2 : 2 * 2 ^ m = 2 ^ (m + 1) := by rw [pow_succ]; ring
  have lu : Nat.log 2 u = m := Nat.log_eq_of_pow_le_of_lt_pow hu (by rw [← e2]; exact hu1)
  have lw : Nat.log 2 u2 = m := Nat.log_eq_of_pow_le_of_lt_pow hw (by rw [← e2]; exact hw1)
  have a1 := log_div_two_pow u t
  have a2 := log_div_two_pow u2 t2
  rw [ht, lu] at a1
  rw [ht2, lw] at a2
  have b1 : Nat.log 2 (2 * v / 2) = Nat.log 2 (2 * v) - 1 := Nat.log_div_base 2 (2 * v)
  have b2 : Nat.log 2 ((2 * v + 1) / 2) = Nat.log 2 (2 * v + 1) - 1 :=
    Nat.log_div_base 2 (2 * v + 1)
  have c1 : 2 * v / 2 = v := by omega
  have c2 : (2 * v + 1) / 2 = v := by omega
  rw [c1] at b1
  rw [c2] at b2
  have p1 : 0 < Nat.log 2 (2 * v) := Nat.log_pos (by decide) (by omega)
  have p2 : 0 < Nat.log 2 (2 * v + 1) := Nat.log_pos (by decide) (by omega)
  have htt : t = t2 := by omega
  subst htt
  by_contra hge
  have : u2 / 2 ^ t ≤ u / 2 ^ t := Nat.div_le_div_right (Nat.le_of_not_lt hge)
  omega

/-- The recursion `init_winner` on a tree with `2^m` leaves, for any order `le`
that the test respects on leaves taken from left to right: it returns when
given enough depth, leaves the leaves and the nodes outside the subtree alone,
returns a leaf of the subtree, and plays every game of the subtree on the leaf
elements `L`. -/
theorem LoserTreeCopyBase.init_winner_ordered {α : Type} {cmp : α → α → Bool}
    (le : Loser α → Loser α → Prop) (k_ m : Nat) (hkm : k_ = 2 ^ m) (L : Nat → Loser α)
    (hT : ∀ u u2, k_ ≤ u → u < u2 → u2 < 2 * k_ →
      ((L u2).sup || (!(L u).sup && !cmp (L u2).key (L u).key)) = true → le (L u) (L u2))
    (hF : ∀ u u2, k_ ≤ u → u < u2 → u2 < 2 * k_ →
      ¬ ((L u2).sup || (!(L u).sup && !cmp (L u2).key (L u).key)) = true → le (L u2) (L u)) :
    ∀ fuel root losers, 1 ≤ root → root < 2 * k_ → k_ ≤ root * 2 ^ fuel →
      (∀ u, k_ ≤ u → losers u = L u) →
      ∃ w losers2 W,
        LoserTreeCopyBase.init_winner cmp k_ fuel root losers = some (w, losers2) ∧
        W root = w ∧ k_ ≤ w ∧ w < 2 * k_ ∧ Above root w ∧ (∀ u, k_ ≤ u → W u = u) ∧
        (∀ u, ¬ (Above root u ∧ u < k_) → losers2 u = losers u) ∧
        (∀ u, 1 ≤ u → u < k_ → Above root u → Played le losers2 L W u) := by
  intro fuel
  induction fuel with
  | zero =>
    intro root losers hr hr2 hk hL
    rw [pow_zero, Nat.mul_one] at hk
    refine ⟨root, losers, fun u => u, ?_, rfl, hk, hr2, Above.self _, fun _ _ => rfl,
      fun _ _ => rfl, ?_⟩
    · simp [LoserTreeCopyBase.init_winner, hk]
    · intro u _ hu ha
      have := ha.le
      omega
  | succ fuel ih =>
    intro root losers hr hr2 hk hL
    by_cases hge : k_ ≤ root
    · refine ⟨root, losers, fun u => u, ?_, rfl, hge, hr2, Above.self _, fun _ _ => rfl,
        fun _ _ => rfl, ?_⟩
      · simp [LoserTreeCopyBase.init_winner, hge]
      · intro u _ hu ha
        have := ha.le
        omega
    · have hk2 : k_ ≤ 2 * root * 2 ^ fuel := by
        rw [pow_succ] at hk
        calc k_ ≤ root * (2 ^ fuel * 2) := hk
          _ = 2 * root * 2 ^ fuel := by ring
      have hk3 : k_ ≤ (2 * root + 1) * 2 ^ fuel :=
        Nat.le_trans hk2 (Nat.mul_le_mul_right _ (by omega))
      obtain ⟨w1, l1, W1, e1, hw1, hk1, hlt1, hab1, hleaf1, hframe1, hplay1⟩ :=
        ih (2 * root) losers (by omega) (by omega) hk2 hL
      have hL1 : ∀ u, k_ ≤ u → l1 u = L u := by
        intro u hu
        rw [hframe1 u (by omega), hL u hu]
      obtain ⟨w2, l2, W2, e2, hw2, hkw2, hlt2, hab2, hleaf2, hframe2, hplay2⟩ :=
        ih (2 * root + 1) l1 (by omega) (by omega) hk3 hL1
      have hL2 : ∀ u, k_ ≤ u → l2 u = L u := by
        intro u hu
        rw [hframe2 u (by omega), hL1 u hu]
      have hord : w1 < w2 := by
        rw [hkm] at hk1 hlt1 hkw2 hlt2
        exact Above.leaf_order m root w1 w2 hr hab1 hab2 hk1 hlt1 hkw2 hlt2
      have hdis : ∀ u, Above (2 * root) u → Above (2 * root + 1) u → False :=
        Above.disjoint root hr
      classical
      have build : ∀ (w : Nat) (x : Loser α),
          (w = w1 ∧ x = L w2 ∧ le (L w1) (L w2)) ∨
          (w = w2 ∧ x = L w1 ∧ le (L w2) (L w1)) → k_ ≤ w →
          ∃ W, W root = w ∧ (∀ u, k_ ≤ u → W u = u) ∧
            (∀ u, ¬ (Above root u ∧ u < k_) →
              LoserTreeCopyBase.store l2 root x u = losers u) ∧
            (∀ u, 1 ≤ u → u < k_ → Above root u →
              Played le (LoserTreeCopyBase.store l2 root x) L W u) := by
        intro w x hwx hkw
        have hWl : ∀ u, u ≠ root → Above (2 * root) u →
            (fun u => if u = root then w else if Above (2 * root) u then W1 u else W2 u) u
              = W1 u := by
          intro u h1 h2
          simp only [h1, if_false, h2, if_true]
        have hWr : ∀ u, u ≠ root → Above (2 * root + 1) u →
            (fun u => if u = root then w else if Above (2 * root) u then W1 u else W2 u) u
              = W2 u := by
          intro u h1 h2
          have h3 : ¬ Above (2 * root) u := fun h => hdis u h h2
          simp only [h1, if_false, h3]
        refine ⟨fun u => if u = root then w else if Above (2 * root) u then W1 u else W2 u,
          by simp, ?_, ?_, ?_⟩
        · intro u hu
          have hne : u ≠ root := by omega
          simp only [hne, if_false]
          split_ifs
          · exact hleaf1 u hu
          · exact hleaf2 u hu
        · intro u hu
          have hne : u ≠ root := by
            rintro rfl
            exact hu ⟨Above.self _, by omega⟩
          rw [LoserTreeCopyBase.store_other _ _ _ _ hne,
            hframe2 u (fun h => hu ⟨h.1.double_succ, h.2⟩),
            hframe1 u (fun h => hu ⟨h.1.double, h.2⟩)]
        · intro u hu1 hu2 ha
          by_cases hne : u = root
          · subst hne
            have a0 := hWl (2 * u) (by omega) (Above.self _)
            have a1 := hWr (2 * u + 1) (by omega) (Above.self _)
            have av : (fun v => if v = u then w else if Above (2 * u) v then W1 v else W2 v) u
                = w := by simp
            unfold Played
            rw [a0, a1, av, hw1, hw2, LoserTreeCopyBase.store_same]
            rcases hwx with ⟨h1, h2, h3⟩ | ⟨h1, h2, h3⟩
            · left; exact ⟨h1, h2, h3⟩
            · right; exact ⟨h1, h2, h3⟩
          · have hu0 : 2 * u ≠ root := by have := ha.le; omega
            have hu3 : 2 * u + 1 ≠ root := by have := ha.le; omega
            rcases Above.split root u ha hne with h | h
            · refine (hplay1 u hu1 hu2 h).congr ?_ (hWl u hne h) (hWl _ hu0 h.left)
                (hWl _ hu3 h.right) rfl rfl
              rw [LoserTreeCopyBase.store_other _ _ _ _ hne,
                hframe2 u (fun h2 => hdis u h h2.1)]
            · refine (hplay2 u hu1 hu2 h).congr ?_ (hWr u hne h) (hWr _ hu0 h.left)
                (hWr _ hu3 h.right) rfl rfl
              rw [LoserTreeCopyBase.store_other _ _ _ _ hne]
      have hs : LoserTreeCopyBase.init_winner cmp k_ (fuel + 1) root losers
          = if (l2 w2).sup || (!(l2 w1).sup && !cmp (l2 w2).key (l2 w1).key) then
              some (w1, LoserTreeCopyBase.store l2 root (l2 w2))
            else some (w2, LoserTreeCopyBase.store l2 root (l2 w1)) := by
        rw [LoserTreeCopyBase.init_winner, if_neg hge, e1]
        simp only [e2]
      rw [hs]
      by_cases htest : ((l2 w2).sup || (!(l2 w1).sup && !cmp (l2 w2).key (l2 w1).key)) = true
      · rw [if_pos htest]
        have ht2 := htest
        rw [hL2 w1 hk1, hL2 w2 hkw2] at ht2
        have hle := hT w1 w2 hk1 hord hlt2 ht2
        obtain ⟨W, a, b, c, d⟩ := build w1 (l2 w2) (Or.inl ⟨rfl, hL2 w2 hkw2, hle⟩) hk1
        exact ⟨w1, _, W, rfl, a, hk1, hlt1, hab1.double, b, c, d⟩
      · rw [if_neg htest]
        have ht2 := htest
        rw [hL2 w1 hk1, hL2 w2 hkw2] at ht2
        have hle := hF w1 w2 hk1 hord hlt2 ht2
        obtain ⟨W, a, b, c, d⟩ := build w2 (l2 w1) (Or.inr ⟨rfl, hL2 w1 hk1, hle⟩) hkw2
        exact ⟨w2, _, W, rfl, a, hkw2, hlt2, hab2.double_succ, b, c, d⟩

/-- The method `init` on leaves seated with the players returns and leaves a
loser tree in the stable order: among equivalent keys the left leaf, which has
the lower source, wins. -/
theorem LoserTreeCopyBase.init_stable_tournament {α : Type} {cmp : α → α → Bool}
    (hc : StrictWeakOrder cmp) (t : LoserTreeCopyBase α) (k m : Nat)
    (players : Nat → Option α) (hkm : t.k_ = 2 ^ m)
    (hs : Seated k t.k_ t.losers_ players) :
    ∃ t2 W, LoserTreeCopyBase.init cmp t = some t2 ∧ t2.k_ = t.k_ ∧ t2.ik_ = t.ik_ ∧
      Tournament (Loser.leStable cmp) t.k_ t2.losers_ t.losers_ W := by
  have hsrc : ∀ u, t.k_ ≤ u → u < 2 * t.k_ → (t.losers_ u).sup = false →
      (t.losers_ u).source = ((u - t.k_ : Nat) : Int) := by
    intro u h1 h2 h3
    by_cases hp : u - t.k_ < k
    · have := (hs.1 (u - t.k_) hp).2.1
      rwa [show t.k_ + (u - t.k_) = u by omega] at this
    · have := (hs.2 (u - t.k_) (by omega) (by omega)).1
      rw [show t.k_ + (u - t.k_) = u by omega, h3] at this
      exact absurd this (by decide)
  have hpos : 1 ≤ t.k_ := by rw [hkm]; exact two_pow_pos1 m
  obtain ⟨w, l2, W, e, hw, hkw, -, -, hleaf, hframe, hplay⟩ :=
    LoserTreeCopyBase.init_winner_ordered (Loser.leStable cmp) t.k_ m hkm t.losers_
      (by
        intro u u2 h1 h2 h3 htest
        unfold Loser.leStable
        cases hr : (t.losers_ u2).sup with
        | true => left; rfl
        | false =>
          right
          rw [hr] at htest
          simp only [Bool.false_or, Bool.and_eq_true, Bool.not_eq_true'] at htest
          refine ⟨htest.1, htest.2, Or.inr ?_⟩
          rw [hsrc u h1 (by omega) htest.1, hsrc u2 (by omega) h3 hr]
          omega)
      (by
        intro u u2 h1 h2 h3 htest
        unfold Loser.leStable
        simp only [Bool.or_eq_true, Bool.and_eq_true, Bool.not_eq_true', not_or, not_and,
          Bool.not_eq_true, Bool.not_eq_false] at htest
        obtain ⟨a, b⟩ := htest
        cases hl : (t.losers_ u).sup with
        | true => left; rfl
        | false => right; exact ⟨a, hc.asymm _ _ (b hl), Or.inl (b hl)⟩)
      t.k_ 1 t.losers_ (Nat.le_refl 1) (by omega)
      (by rw [Nat.one_mul]; exact Nat.le_of_lt (Nat.lt_two_pow _)) (fun _ _ => rfl)
  refine ⟨{ ik_ := t.ik_, k_ := t.k_, losers_ := LoserTreeCopyBase.store l2 0 (l2 w),
            first_insert_ := t.first_insert_ }, W, by rw [LoserTreeCopyBase.init, e], rfl, rfl, ?_⟩
  refine ⟨hleaf, ?_, ?_⟩
  · intro v hv hvk
    refine (hplay v hv hvk (Above.root v hv)).congr ?_ rfl rfl rfl rfl rfl
    exact LoserTreeCopyBase.store_other _ _ _ _ (by omega)
  · show LoserTreeCopyBase.store l2 0 (l2 w) 0 = t.losers_ (W 1)
    rw [LoserTreeCopyBase.store_same, hw, hframe w (by omega)]

/-- The set-up returns a loser tree in the stable order over leaves seated with
the players. -/
theorem LoserTreeCopyBase.start_stable_tournament {α : Type} [Inhabited α]
    {cmp : α → α → Bool} (hc : StrictWeakOrder cmp) (k : Nat) (junk : Nat → Loser α)
    (players : Nat → Option α) (order : List Nat) (hk : 1 ≤ k) (h1 : ∀ p ∈ order, p < k)
    (h2 : ∀ p, p < k → p ∈ order) :
    ∃ t cur W, LoserTreeCopyBase.start cmp k junk players order = some t ∧
      t.k_ = RoundUpToPowerOfTwo k ∧
      Tournament (Loser.leStable cmp) (RoundUpToPowerOfTwo k) t.losers_ cur W ∧
      Seated k (RoundUpToPowerOfTwo k) cur players := by
  obtain ⟨a, b⟩ := LoserTreeCopyBase.inserted_seated k junk players order hk h1 h2
  obtain ⟨m, hm, -, -⟩ := RoundUpToPowerOfTwo.spec k
  obtain ⟨t2, W, e, e1, -, g⟩ := LoserTreeCopyBase.init_stable_tournament hc
    (List.foldl (fun t p =>
        LoserTreeCopyBase.insert_start t (players p) (p : Int) (players p).isNone)
        (LoserTreeCopyBase.construct k junk) order) k m players
    (by rw [a]; exact hm) (by rw [a]; exact b)
  rw [a] at g e1
  exact ⟨t2, _, W, e, e1, g, b⟩

/-- The loop of `delete_min_insert` of either tree, for an order `le` that the
test of the loop decides, started below the node `x` of
the way from the replaced leaf `W 1` to the root with the winner of the subtree
at `x` travelling, returns and leaves a loser tree over the leaves `cur2`, which
are the leaves `cur` with the new element at the leaf `W 1`. -/
theorem LoserTreeCopy.replay_path_ordered {α : Type} {cmp : α → α → Bool} (Stable : Bool)
    (le : Loser α → Loser α → Prop)
    (hp : ∀ s t, LoserTreeCopy.promote Stable cmp s t = true → le s t)
    (hn : ∀ s t, ¬ LoserTreeCopy.promote Stable cmp s t = true → le t s)
    {k_ : Nat} (hk : 1 ≤ k_) {l0 cur : Nat → Loser α} {W : Nat → Nat}
    (g : Tournament le k_ l0 cur W) (cur2 : Nat → Loser α)
    (hcur : ∀ u, u ≠ W 1 → cur2 u = cur u) :
    ∀ fuel x c l W2, x / 2 ≤ fuel → 1 ≤ x → Above x (W 1) → c = cur2 (W2 x) →
      (∀ u, k_ ≤ u → W2 u = u) →
      (∀ u, 1 ≤ u → u < k_ → ¬ Above u (x / 2) → Played le l cur2 W2 u) →
      (∀ u, 1 ≤ u → Above u (x / 2) → l u = l0 u) →
      (∀ u, ¬ Above u (W 1) → W2 u = W u) →
      ∃ c2 l2 W3, LoserTreeCopy.replay Stable cmp fuel (x / 2) c l = some (c2, l2) ∧
        Tournament le k_ (LoserTreeCopyBase.store l2 0 c2) cur2 W3 := by
  have finish : ∀ x c l W2, x / 2 = 0 → 1 ≤ x → c = cur2 (W2 x) →
      (∀ u, k_ ≤ u → W2 u = u) →
      (∀ u, 1 ≤ u → u < k_ → ¬ Above u (x / 2) → Played le l cur2 W2 u) →
      Tournament le k_ (LoserTreeCopyBase.store l 0 c) cur2 W2 := by
    intro x c l W2 hx0 hx hcx hleaf hplay
    have hx1 : x = 1 := by omega
    refine ⟨hleaf, ?_, ?_⟩
    · intro v hv hvk
      refine (hplay v hv hvk ?_).congr (LoserTreeCopyBase.store_other _ _ _ _ (by omega))
        rfl rfl rfl rfl rfl
      intro h
      rw [hx0] at h
      have := h.of_zero
      omega
    · rw [LoserTreeCopyBase.store_same, hcx, hx1]
  have hw := g.winner_leaf _ 1 rfl (Nat.le_refl 1) (by omega)
  intro fuel
  induction fuel with
  | zero =>
    intro x c l W2 hf hx _ hcx hleaf hplay _ _
    have hx0 : x / 2 = 0 := by omega
    refine ⟨c, l, W2, ?_, finish x c l W2 hx0 hx hcx hleaf hplay⟩
    rw [hx0]
    simp [LoserTreeCopy.replay]
  | succ fuel ih =>
    intro x c l W2 hf hx hxw hcx hleaf hplay hkeep hoff
    by_cases hx0 : x / 2 = 0
    · refine ⟨c, l, W2, ?_, finish x c l W2 hx0 hx hcx hleaf hplay⟩
      rw [hx0]
      simp [LoserTreeCopy.replay]
    · have hv : 1 ≤ x / 2 := by omega
      have hxle := hxw.le
      have hvk : x / 2 < k_ := by omega
      have hvw : Above (x / 2) (W 1) := hxw.parent
      obtain ⟨y, hxy⟩ : ∃ y, (x = 2 * (x / 2) ∧ y = 2 * (x / 2) + 1) ∨
          (x = 2 * (x / 2) + 1 ∧ y = 2 * (x / 2)) := by
        rcases Nat.mod_two_eq_zero_or_one x with h | h
        · exact ⟨2 * (x / 2) + 1, Or.inl ⟨by omega, rfl⟩⟩
        · exact ⟨2 * (x / 2), Or.inr ⟨by omega, rfl⟩⟩
      have hyx : (y = 2 * (x / 2) ∧ x = 2 * (x / 2) + 1) ∨
          (y = 2 * (x / 2) + 1 ∧ x = 2 * (x / 2)) := by
        rcases hxy with ⟨a, b⟩ | ⟨a, b⟩
        · exact Or.inr ⟨b, a⟩
        · exact Or.inl ⟨b, a⟩
      obtain ⟨hst, hne, hoffy⟩ := g.path_loser hk x y hv hxw hxy
      have hxv : x ≠ x / 2 := by omega
      have hyv : y ≠ x / 2 := by omega
      -- what is stored above `x` is the winner of the sibling subtree
      have hstored : l (x / 2) = cur2 (W2 y) := by
        rw [hkeep (x / 2) hv (Above.self _), hst, hoff y hoffy, hcur _ hne]
      -- the state after one iteration, for either outcome of the test
      have next : ∀ (c3 : Loser α) (l3 : Nat → Loser α) (wv : Nat),
          (∀ u, u ≠ x / 2 → l3 u = l u) →
          c3 = cur2 wv →
          Played le l3 cur2 (Function.update W2 (x / 2) wv) (x / 2) →
          ∃ c2 l2 W3, LoserTreeCopy.replay Stable cmp fuel (x / 2 / 2) c3 l3 = some (c2, l2) ∧
            Tournament le k_ (LoserTreeCopyBase.store l2 0 c2) cur2 W3 := by
        intro c3 l3 wv hl3 hc3 hpl
        refine ih (x / 2) c3 l3 (Function.update W2 (x / 2) wv) (by omega) hv hvw ?_ ?_ ?_ ?_ ?_
        · rw [Function.update_same]; exact hc3
        · intro u hu
          rw [Function.update_noteq (by omega)]
          exact hleaf u hu
        · intro u hu1 hu2 hnab
          by_cases e : u = x / 2
          · rw [e]; exact hpl
          · have hnot : ¬ Above u (x / 2) := fun h => hnab (h.up (Ne.symm e))
            have h2u : 2 * u ≠ x / 2 := by
              intro h
              apply hnab
              rw [← h, Nat.mul_div_cancel_left u (by decide : 0 < 2)]
              exact Above.self u
            have h2u1 : 2 * u + 1 ≠ x / 2 := by
              intro h
              apply hnab
              rw [← h, show (2 * u + 1) / 2 = u by omega]
              exact Above.self u
            exact (hplay u hu1 hu2 hnot).congr (hl3 u e) (Function.update_noteq e _ _)
              (Function.update_noteq h2u _ _) (Function.update_noteq h2u1 _ _) rfl rfl
        · intro u hu1 hab
          have hle := hab.le
          rw [hl3 u (by omega)]
          exact hkeep u hu1 hab.child
        · intro u hnab
          have e : u ≠ x / 2 := by
            rintro rfl
            exact hnab hvw
          rw [Function.update_noteq e]
          exact hoff u hnab
      by_cases htest : LoserTreeCopy.promote Stable cmp (l (x / 2)) c = true
      · have hs : LoserTreeCopy.replay Stable cmp (fuel + 1) (x / 2) c l
            = LoserTreeCopy.replay Stable cmp fuel (x / 2 / 2) (l (x / 2))
                (LoserTreeCopyBase.store l (x / 2) c) := by
          rw [LoserTreeCopy.replay, if_pos (by omega), if_pos htest]
        rw [hs]
        refine next (l (x / 2)) _ (W2 y) (fun u hu => LoserTreeCopyBase.store_other _ _ _ _ hu)
          hstored ?_
        refine Played.of_children hyx ?_ ?_ ?_
        · rw [Function.update_same, Function.update_noteq hyv]
        · rw [LoserTreeCopyBase.store_same, Function.update_noteq hxv]; exact hcx
        · rw [Function.update_noteq hyv, Function.update_noteq hxv, ← hstored, ← hcx]
          exact hp _ _ htest
      · have hs : LoserTreeCopy.replay Stable cmp (fuel + 1) (x / 2) c l
            = LoserTreeCopy.replay Stable cmp fuel (x / 2 / 2) c l := by
          rw [LoserTreeCopy.replay, if_pos (by omega), if_neg htest]
        rw [hs]
        refine next c l (W2 x) (fun _ _ => rfl) hcx ?_
        refine Played.of_children hxy ?_ ?_ ?_
        · rw [Function.update_same, Function.update_noteq hxv]
        · rw [Function.update_noteq hyv]; exact hstored
        · rw [Function.update_noteq hyv, Function.update_noteq hxv, ← hstored, ← hcx]
          exact hn _ _ htest

/-! ### The invariant of the stable tree -/

/-- In a loser tree in the stable order over seated leaves with a player that is
not exhausted, node 0 carries a player that is not exhausted, whose key no
player's key is less than, and which has the lowest index among the players
with an equivalent key. -/
theorem Tournament.seated_stable_winner {α : Type} {cmp : α → α → Bool}
    (hc : StrictWeakOrder cmp) {k k_ : Nat} {losers cur : Nat → Loser α} {W : Nat → Nat}
    {players : Nat → Option α} (g : Tournament (Loser.leStable cmp) k_ losers cur W)
    (hs : Seated k k_ cur players) (hkk : k ≤ k_) (p0 : Nat) (x0 : α) (hp0 : p0 < k)
    (hx0 : players p0 = some x0) :
    ∃ q y, q < k ∧ W 1 = k_ + q ∧ (losers 0).source = (q : Int) ∧ players q = some y ∧
      (losers 0).sup = false ∧ (losers 0).key = y ∧
      ∀ r z, r < k → players r = some z →
        cmp z y = false ∧ (cmp y z = true ∨ q ≤ r) := by
  have hbest := fun u h1 h2 =>
    g.top_best (by omega) (Loser.leStable_self hc) (Loser.leStable_chain hc) u h1 h2
  obtain ⟨-, hw1, hw2⟩ := g.winner_leaf _ 1 rfl (Nat.le_refl 1) (by omega)
  have hnot : (losers 0).sup = false := by
    have h := hbest (k_ + p0) (by omega) (by omega)
    have hs0 := (hs.1 p0 hp0).1
    rw [hx0] at hs0
    rcases h with h | ⟨h, -⟩
    · rw [hs0] at h; simp at h
    · exact h
  have hq : W 1 - k_ < k := by
    by_contra hge
    have := (hs.2 (W 1 - k_) (by omega) (by omega)).1
    rw [show k_ + (W 1 - k_) = W 1 by omega, ← g.top, hnot] at this
    exact absurd this (by decide)
  obtain ⟨s1, s2, s3⟩ := hs.1 (W 1 - k_) hq
  rw [show k_ + (W 1 - k_) = W 1 by omega, ← g.top] at s1 s2 s3
  cases hy : players (W 1 - k_) with
  | none =>
    rw [hy, hnot] at s1
    simp at s1
  | some y =>
    refine ⟨W 1 - k_, y, hq, by omega, s2, hy, hnot, s3 y hy, ?_⟩
    intro r z hr hz
    have h := hbest (k_ + r) (by omega) (by omega)
    obtain ⟨r1, r2, r3⟩ := hs.1 r hr
    rw [hz] at r1
    rcases h with h | ⟨-, h, h4⟩
    · rw [r1] at h; simp at h
    · rw [r3 z hz, s3 y hy] at h h4
      refine ⟨h, ?_⟩
      rcases h4 with h4 | h4
      · exact Or.inl h4
      · right
        rw [s2, r2] at h4
        omega

/-- A loser tree in the stable order over seated leaves whose overall winner is not the leaf of a
player consists of sentinels only. -/
theorem Tournament.seated_stable_drained {α : Type} {cmp : α → α → Bool} (hc : StrictWeakOrder cmp)
    {k k_ : Nat} {losers cur : Nat → Loser α} {W : Nat → Nat} {players : Nat → Option α}
    (g : Tournament (Loser.leStable cmp) k_ losers cur W) (hs : Seated k k_ cur players)
    (hk : 1 ≤ k) (hkk : k ≤ k_) (hw : ¬ W 1 < k_ + k) : Drained k k_ losers players := by
  obtain ⟨-, hw1, hw2⟩ := g.winner_leaf _ 1 rfl (Nat.le_refl 1) (by omega)
  have htop : (losers 0).sup = true := by
    have := (hs.2 (W 1 - k_) (by omega) (by omega)).1
    rwa [show k_ + (W 1 - k_) = W 1 by omega, ← g.top] at this
  have hall : ∀ u, k_ ≤ u → u < 2 * k_ → (cur u).sup = true := fun u h1 h2 =>
    Loser.leStable_sup _ _ (g.top_best (by omega) (Loser.leStable_self hc) (Loser.leStable_chain hc) u h1 h2) htop
  have hleafs : ∀ u, k_ ≤ u → u < 2 * k_ →
      (cur u).sup = true ∧ -1 ≤ (cur u).source ∧ (cur u).source < (k : Int) := by
    intro u h1 h2
    refine ⟨hall u h1 h2, ?_⟩
    by_cases hp : u - k_ < k
    · have := (hs.1 (u - k_) hp).2.1
      rw [show k_ + (u - k_) = u by omega] at this
      rw [this]
      omega
    · have := (hs.2 (u - k_) (by omega) (by omega)).2
      rw [show k_ + (u - k_) = u by omega] at this
      rw [this]
      omega
  refine ⟨?_, ?_, ?_⟩
  · intro v hv hvk
    obtain ⟨-, a1, a2⟩ := g.winner_leaf _ (2 * v) rfl (by omega) (by omega)
    obtain ⟨-, b1, b2⟩ := g.winner_leaf _ (2 * v + 1) rfl (by omega) (by omega)
    rcases g.node v hv hvk with ⟨-, h, -⟩ | ⟨-, h, -⟩
    · rw [h]; exact hleafs _ b1 b2
    · rw [h]; exact hleafs _ a1 a2
  · rw [g.top]
    exact (hleafs _ hw1 hw2).2
  · intro p x hp hx
    have h1 := (hs.1 p hp).1
    rw [hx, hall (k_ + p) (by omega) (by omega)] at h1
    simp at h1

/-- The tree returned by the set-up satisfies the invariant of the stable tree. -/
theorem LoserTreeCopyBase.start_stable_invariant {α : Type} [Inhabited α] {cmp : α → α → Bool}
    (hc : StrictWeakOrder cmp) (k : Nat) (junk : Nat → Loser α) (players : Nat → Option α)
    (order : List Nat) (hk : 1 ≤ k) (h1 : ∀ p ∈ order, p < k) (h2 : ∀ p, p < k → p ∈ order) :
    ∃ t, LoserTreeCopyBase.start cmp k junk players order = some t ∧
      LoserTreeCopy.StableInvariant cmp k t players := by
  obtain ⟨t, cur, W, e, ek, g, hs⟩ :=
    LoserTreeCopyBase.start_stable_tournament hc k junk players order hk h1 h2
  have hkk : k ≤ t.k_ := by rw [ek]; exact RoundUpToPowerOfTwo.ge k
  refine ⟨t, e, hk, hkk, ?_⟩
  rw [ek]
  by_cases hw : W 1 < RoundUpToPowerOfTwo k + k
  · exact Or.inl ⟨cur, W, g, hs, hw⟩
  · exact Or.inr (g.seated_stable_drained hc hs hk (by rw [← ek]; exact hkk) hw)

/-- Under the invariant of the stable tree, if some player is not exhausted then
`min_source` names a player that is not exhausted, whose key no player's key is
less than, and which has the lowest index among the players with an equivalent
key. -/
theorem LoserTreeCopy.stable_invariant_winner {α : Type} {cmp : α → α → Bool}
    (hc : StrictWeakOrder cmp) {k : Nat} {t : LoserTreeCopyBase α} {players : Nat → Option α}
    (h : LoserTreeCopy.StableInvariant cmp k t players) (p0 : Nat) (x0 : α) (hp0 : p0 < k)
    (hx0 : players p0 = some x0) :
    ∃ q y, q < k ∧ LoserTreeCopyBase.min_source t = (q : Int) ∧ players q = some y ∧
      ∀ r z, r < k → players r = some z →
        cmp z y = false ∧ (cmp y z = true ∨ q ≤ r) := by
  obtain ⟨-, hkk, h | h⟩ := h
  · obtain ⟨cur, W, g, hs, -⟩ := h
    obtain ⟨q, y, a, -, b, c, -, -, d⟩ := g.seated_stable_winner hc hs hkk p0 x0 hp0 hx0
    exact ⟨q, y, a, b, c, d⟩
  · obtain ⟨-, -, h3⟩ := h
    obtain ⟨-, a2, a3⟩ := h3 p0 x0 hp0 hx0
    refine ⟨p0, x0, hp0, a2, hx0, ?_⟩
    intro r z hr hz
    obtain ⟨-, b2, b3⟩ := h3 r z hr hz
    refine ⟨?_, Or.inr ?_⟩
    · rw [← a3, ← b3]
      exact hc.irrefl _
    · rw [a2] at b2
      omega

/-- In the stable tree too, a travelling node that is not a sentinel passes
sentinels unchanged. -/
theorem LoserTreeCopy.replay_stable_idle {α : Type} (cmp : α → α → Bool) (k_ : Nat)
    (c : Loser α) (l : Nat → Loser α) (hcs : c.sup = false)
    (hl : ∀ v, 1 ≤ v → v < k_ → (l v).sup = true) :
    ∀ fuel pos, pos ≤ fuel → pos < k_ →
      LoserTreeCopy.replay true cmp fuel pos c l = some (c, l) := by
  intro fuel
  induction fuel with
  | zero =>
    intro pos h1 _
    have : pos = 0 := by omega
    subst this
    simp [LoserTreeCopy.replay]
  | succ fuel ih =>
    intro pos h1 h2
    by_cases h0 : pos = 0
    · subst h0
      simp [LoserTreeCopy.replay]
    · have hp : LoserTreeCopy.promote true cmp (l pos) c = false := by
        simp [LoserTreeCopy.promote, hcs, hl pos (by omega) h2]
      rw [LoserTreeCopy.replay, if_pos (by omega), hp]
      simp only [Bool.false_eq_true, if_false]
      exact ih (pos / 2) (by omega) (by omega)

/-- One call of the stable `delete_min_insert` returns and keeps the invariant,
for the players with the element of the player `min_source` replaced. -/
theorem LoserTreeCopy.delete_min_insert_stable_invariant {α : Type} [Inhabited α]
    {cmp : α → α → Bool} (hc : StrictWeakOrder cmp) {k : Nat} {t : LoserTreeCopyBase α}
    {players : Nat → Option α} (h : LoserTreeCopy.StableInvariant cmp k t players)
    (keyp : Option α) :
    ∃ t2, LoserTreeCopy.delete_min_insert true cmp t keyp keyp.isNone = some t2 ∧
      LoserTreeCopy.StableInvariant cmp k t2
        (LoserTreeCopy.replaced players (LoserTreeCopyBase.min_source t) keyp) := by
  obtain ⟨hk, hkk, h | h⟩ := h
  · -- a loser tree whose winner is the leaf of a player
    obtain ⟨cur, W, g, hs, hw⟩ := h
    obtain ⟨-, hw1, hw2⟩ := g.winner_leaf _ 1 rfl (Nat.le_refl 1) (by omega)
    have hq : W 1 - t.k_ < k := by omega
    have hW : t.k_ + (W 1 - t.k_) = W 1 := by omega
    have hsrc : (t.losers_ 0).source = ((W 1 - t.k_ : Nat) : Int) := by
      have := (hs.1 _ hq).2.1
      rwa [hW, ← g.top] at this
    have hpos : ((t.k_ : Int) + (t.losers_ 0).source).toNat / 2 = W 1 / 2 := by
      rw [hsrc, toNat_add_cast, hW]
    obtain ⟨c2, l2, W3, e, g2⟩ := LoserTreeCopy.replay_path_ordered true (Loser.leStable cmp)
      (LoserTreeCopy.promote_leStable hc) LoserTreeCopy.not_promote_leStable (by omega) g
      (LoserTreeCopyBase.store cur (W 1)
        { sup := keyp.isNone, source := (t.losers_ 0).source, key := keyp.getD default })
      (fun u hu => LoserTreeCopyBase.store_other _ _ _ _ hu)
      (t.k_ + 1) (W 1)
      { sup := keyp.isNone, source := (t.losers_ 0).source, key := keyp.getD default }
      t.losers_ W (by omega) (by omega) (Above.self _)
      (by rw [g.leaf _ hw1, LoserTreeCopyBase.store_same]) g.leaf
      (by
        intro u hu1 hu2 hnab
        have hoff : ¬ Above u (W 1) := fun hab => hnab (hab.up (by omega))
        obtain ⟨a1, -, -⟩ := g.winner_leaf _ (2 * u) rfl (by omega) (by omega)
        obtain ⟨b1, -, -⟩ := g.winner_leaf _ (2 * u + 1) rfl (by omega) (by omega)
        refine (g.node u hu1 hu2).congr rfl rfl rfl rfl ?_ ?_
        · apply LoserTreeCopyBase.store_other
          intro h
          rw [h] at a1
          exact hoff a1.double
        · apply LoserTreeCopyBase.store_other
          intro h
          rw [h] at b1
          exact hoff b1.double_succ)
      (fun _ _ _ => rfl) (fun _ _ => rfl)
    rw [← hpos] at e
    refine ⟨{ ik_ := t.ik_, k_ := t.k_, losers_ := LoserTreeCopyBase.store l2 0 c2,
              first_insert_ := t.first_insert_ }, ?_, hk, hkk, ?_⟩
    · simp only [LoserTreeCopy.delete_min_insert]
      rw [e]
    · have hs2 : Seated k t.k_
          (LoserTreeCopyBase.store cur (W 1)
            { sup := keyp.isNone, source := (t.losers_ 0).source, key := keyp.getD default })
          (LoserTreeCopy.replaced players (LoserTreeCopyBase.min_source t) keyp) := by
        refine ⟨?_, ?_⟩
        · intro p hp
          by_cases e : p = W 1 - t.k_
          · have e1 : t.k_ + p = W 1 := by omega
            have e2 : LoserTreeCopy.replaced players (LoserTreeCopyBase.min_source t) keyp p
                = keyp := by
              simp [LoserTreeCopy.replaced, LoserTreeCopyBase.min_source, hsrc, e]
            rw [e1, LoserTreeCopyBase.store_same, e2]
            refine ⟨rfl, ?_, ?_⟩
            · show (t.losers_ 0).source = (p : Int)
              rw [hsrc, e]
            · intro x hx
              rw [hx]
              rfl
          · have e1 : t.k_ + p ≠ W 1 := by omega
            have e2 : LoserTreeCopy.replaced players (LoserTreeCopyBase.min_source t) keyp p
                = players p := by
              have : ¬ (p : Int) = ((W 1 - t.k_ : Nat) : Int) := by omega
              simp [LoserTreeCopy.replaced, LoserTreeCopyBase.min_source, hsrc, this]
            rw [LoserTreeCopyBase.store_other _ _ _ _ e1, e2]
            exact hs.1 p hp
        · intro q hq1 hq2
          rw [LoserTreeCopyBase.store_other _ _ _ _ (by omega)]
          exact hs.2 q hq1 hq2
      by_cases hw3 : W3 1 < t.k_ + k
      · exact Or.inl ⟨_, W3, g2, hs2, hw3⟩
      · exact Or.inr (g2.seated_stable_drained hc hs2 hk hkk hw3)
  · -- only sentinels inside
    obtain ⟨h1, ⟨h2a, h2b⟩, h3⟩ := h
    have hpos := toNat_add_half t.k_ k (t.losers_ 0).source hkk h2b (by omega)
    cases keyp with
    | some x =>
      have e := LoserTreeCopy.replay_stable_idle cmp t.k_
        { sup := false, source := (t.losers_ 0).source, key := x } t.losers_ rfl
        (fun v a b => (h1 v a b).1) (t.k_ + 1) _ (by omega) hpos
      refine ⟨{ ik_ := t.ik_, k_ := t.k_,
                losers_ := LoserTreeCopyBase.store t.losers_ 0
                  { sup := false, source := (t.losers_ 0).source, key := x },
                first_insert_ := t.first_insert_ }, ?_, hk, hkk, Or.inr ⟨?_, ?_, ?_⟩⟩
      · simp only [LoserTreeCopy.delete_min_insert, Option.isNone_some, Option.getD_some]
        rw [e]
      · intro v hv1 hv2
        dsimp only
        rw [LoserTreeCopyBase.store_other _ _ _ _ (by omega)]
        exact h1 v hv1 hv2
      · dsimp only
        rw [LoserTreeCopyBase.store_same]
        exact ⟨h2a, h2b⟩
      · intro p y hp hy
        dsimp only
        rw [LoserTreeCopyBase.store_same]
        by_cases e : (p : Int) = (t.losers_ 0).source
        · have : y = x := by
            simp [LoserTreeCopy.replaced, LoserTreeCopyBase.min_source, e] at hy
            exact hy.symm
          exact ⟨rfl, e.symm, this.symm⟩
        · exfalso
          have : players p = some y := by
            simpa [LoserTreeCopy.replaced, LoserTreeCopyBase.min_source, e] using hy
          exact e (h3 p y hp this).2.1.symm
    | none =>
      obtain ⟨c2, l2, e, hc2, hl2⟩ := LoserTreeCopy.replay_all true cmp t.k_
        (fun x : Loser α => x.sup = true ∧ -1 ≤ x.source ∧ x.source < (k : Int))
        (t.k_ + 1) (((t.k_ : Int) + (t.losers_ 0).source).toNat / 2)
        { sup := true, source := (t.losers_ 0).source, key := default } t.losers_
        (by omega) hpos ⟨rfl, h2a, h2b⟩ h1
      refine ⟨{ ik_ := t.ik_, k_ := t.k_, losers_ := LoserTreeCopyBase.store l2 0 c2,
                first_insert_ := t.first_insert_ }, ?_, hk, hkk, Or.inr ⟨?_, ?_, ?_⟩⟩
      · simp only [LoserTreeCopy.delete_min_insert, Option.isNone_none, Option.getD_none]
        rw [e]
      · intro v hv1 hv2
        dsimp only
        rw [LoserTreeCopyBase.store_other _ _ _ _ (by omega)]
        exact hl2 v hv1 hv2
      · dsimp only
        rw [LoserTreeCopyBase.store_same]
        exact hc2.2
      · intro p y hp hy
        exfalso
        by_cases e : (p : Int) = (t.losers_ 0).source
        · simp [LoserTreeCopy.replaced, LoserTreeCopyBase.min_source, e] at hy
        · have : players p = some y := by
            simpa [LoserTreeCopy.replaced, LoserTreeCopyBase.min_source, e] using hy
          exact e (h3 p y hp this).2.1.symm

/-- Every sequence of calls of the stable `delete_min_insert` returns and keeps
the invariant. -/
theorem LoserTreeCopy.play_stable_invariant {α : Type} [Inhabited α] {cmp : α → α → Bool}
    (hc : StrictWeakOrder cmp) {k : Nat} :
    ∀ (calls : List (Option α)) (t : LoserTreeCopyBase α) (players : Nat → Option α),
      LoserTreeCopy.StableInvariant cmp k t players →
      ∃ t2 players2, LoserTreeCopy.play true cmp calls t players = some (t2, players2) ∧
        LoserTreeCopy.StableInvariant cmp k t2 players2 := by
  intro calls
  induction calls with
  | nil =>
    intro t players h
    exact ⟨t, players, rfl, h⟩
  | cons keyp rest ih =>
    intro t players h
    obtain ⟨t1, e, h1⟩ := LoserTreeCopy.delete_min_insert_stable_invariant hc h keyp
    obtain ⟨t2, players2, e2, h2⟩ := ih t1 _ h1
    refine ⟨t2, players2, ?_, h2⟩
    rw [LoserTreeCopy.play, e]
    exact e2

/-- C21: for the stable `LoserTreeCopy<true>` set up for `k ≥ 1` players with a
strict weak order: after `init` and after every sequence of `delete_min_insert`
calls, each replacing the element of the player `min_source` names by a key or
by `sup`, all calls return; if some player holds a key then `min_source` is the
index `q` of a player that holds a key `y`, no player holds a key that compares
less than `y`, and every player that holds a key equivalent to `y` has an index
of at least `q`. -/
theorem LoserTreeCopy_stable_min_source {α : Type} [Inhabited α]
    (cmp : α → α → Bool) (hc : StrictWeakOrder cmp) (k : Nat) (junk : Nat → Loser α)
    (players : Nat → Option α) (order : List Nat) (hk : 1 ≤ k) (h1 : ∀ p ∈ order, p < k)
    (h2 : ∀ p, p < k → p ∈ order) (calls : List (Option α)) :
    ∃ t t2 players2, LoserTreeCopyBase.start cmp k junk players order = some t ∧
      LoserTreeCopy.play true cmp calls t players = some (t2, players2) ∧
      (∀ p x, p < k → players2 p = some x →
        ∃ q y, q < k ∧ LoserTreeCopyBase.min_source t2 = (q : Int) ∧ players2 q = some y ∧
          ∀ r z, r < k → players2 r = some z →
            cmp z y = false ∧ (cmp y z = false → q ≤ r)) := by
  obtain ⟨t, e, hinv⟩ :=
    LoserTreeCopyBase.start_stable_invariant hc k junk players order hk h1 h2
  obtain ⟨t2, players2, e2, hinv2⟩ := LoserTreeCopy.play_stable_invariant hc calls t players hinv
  refine ⟨t, t2, players2, e, e2, ?_⟩
  intro p x hp hx
  obtain ⟨q, y, a, b, c, d⟩ := LoserTreeCopy.stable_invariant_winner hc hinv2 p x hp hx
  refine ⟨q, y, a, b, c, ?_⟩
  intro r z hr hz
  obtain ⟨d1, d2⟩ := d r z hr hz
  refine ⟨d1, fun hyz => ?_⟩
  rcases d2 with d2 | d2
  · rw [hyz] at d2; exact absurd d2 (by decide)
  · exact d2

/-- Witness for C21: three players holding 3, `sup`, 3, inserted in the order
2, 0, 1; after `init` the winner is player 0, and after replacing its element
by another 3 it is player 0 again. -/
theorem LoserTreeCopy_stable_min_source_witness :
    (LoserTreeCopyBase.start (fun a b : Nat => decide (a < b)) 3
        (fun _ => { sup := false, source := 7, key := 0 })
        (fun p => [some 3, none, some 3].getD p none) [2, 0, 1]).map
      LoserTreeCopyBase.min_source = some 0 ∧
    ((LoserTreeCopyBase.start (fun a b : Nat => decide (a < b)) 3
        (fun _ => { sup := false, source := 7, key := 0 })
        (fun p => [some 3, none, some 3].getD p none) [2, 0, 1]).bind
      (fun t => LoserTreeCopy.play true (fun a b : Nat => decide (a < b)) [some 3] t
        (fun p => [some 3, none, some 3].getD p none))).map
      (fun r => (LoserTreeCopyBase.min_source r.1, r.2 0, r.2 1, r.2 2))
      = some (0, some 3, none, some 3) ∧
    ∃ t t2 players2, LoserTreeCopyBase.start (fun a b : Nat => decide (a < b)) 3
        (fun _ => { sup := false, source := 7, key := 0 })
        (fun p => [some 3, none, some 3].getD p none) [2, 0, 1] = some t ∧
      LoserTreeCopy.play true (fun a b : Nat => decide (a < b)) [some 3] t
        (fun p => [some 3, none, some 3].getD p none) = some (t2, players2) ∧
      (∀ p x, p < 3 → players2 p = some x →
        ∃ q : Nat, ∃ y, q < 3 ∧ LoserTreeCopyBase.min_source t2 = (q : Int) ∧
          players2 q = some y ∧
          ∀ r z, r < 3 → players2 r = some z →
            (fun a b : Nat => decide (a < b)) z y = false ∧
              ((fun a b : Nat => decide (a < b)) y z = false → q ≤ r)) :=
  ⟨by decide, by decide,
   LoserTreeCopy_stable_min_source (fun a b : Nat => decide (a < b))
     StrictWeakOrder.nat_lt 3 (fun _ => { sup := false, source := 7, key := 0 })
     (fun p => [some 3, none, some 3].getD p none) [2, 0, 1] (by decide) (by decide)
     (by decide) [some 3]⟩

/-! ### The elements still to be merged -/

theorem pairwise_getElem? {α : Type} {R : α → α → Prop} {l : List α} (h : l.Pairwise R)
    {i j : Nat} {a b : α} (hij : i < j) (ha : l[i]? = some a) (hb : l[j]? = some b) :
    R a b := by
  obtain ⟨hi, rfl⟩ := List.getElem?_eq_some.mp ha
  obtain ⟨hj, rfl⟩ := List.getElem?_eq_some.mp hb
  exact List.pairwise_iff_getElem.mp h i j hi hj hij

theorem LoserTreeCopy.mem_tagFrom {α : Type} (p s i : Nat) (z : α) :
    ∀ (l : List α) (a : Nat),
      (s, i, z) ∈ LoserTreeCopy.tagFrom p a l ↔ s = p ∧ a ≤ i ∧ l[i - a]? = some z := by
  intro l
  induction l with
  | nil =>
    intro a
    simp [LoserTreeCopy.tagFrom]
  | cons x xs ih =>
    intro a
    simp only [LoserTreeCopy.tagFrom, List.mem_cons, Prod.mk.injEq, ih (a + 1)]
    constructor
    · rintro (⟨h1, h2, h3⟩ | ⟨h1, h2, h3⟩)
      · subst h2
        refine ⟨h1, Nat.le_refl _, ?_⟩
        rw [Nat.sub_self, h3, List.getElem?_cons_zero]
      · refine ⟨h1, by omega, ?_⟩
        have e : i - a = (i - (a + 1)) + 1 := by omega
        rw [e, List.getElem?_cons_succ]
        exact h3
    · rintro ⟨h1, h2, h3⟩
      by_cases e : i = a
      · left
        subst e
        rw [Nat.sub_self] at h3
        simp only [List.getElem?_cons_zero, Option.some.injEq] at h3
        exact ⟨h1, rfl, h3.symm⟩
      · right
        have e2 : i - a = (i - (a + 1)) + 1 := by omega
        rw [e2, List.getElem?_cons_succ] at h3
        exact ⟨h1, by omega, h3⟩

theorem LoserTreeCopy.tagFrom_length {α : Type} (p : Nat) :
    ∀ (l : List α) (a : Nat), (LoserTreeCopy.tagFrom p a l).length = l.length := by
  intro l
  induction l with
  | nil => intro a; rfl
  | cons x xs ih =>
    intro a
    simp only [LoserTreeCopy.tagFrom, List.length_cons, ih (a + 1)]

theorem LoserTreeCopy.tagFrom_values {α : Type} (p : Nat) :
    ∀ (l : List α) (a : Nat),
      (LoserTreeCopy.tagFrom p a l).map (fun e => e.2.2) = l := by
  intro l
  induction l with
  | nil => intro a; rfl
  | cons x xs ih =>
    intro a
    simp only [LoserTreeCopy.tagFrom, List.map_cons, ih (a + 1)]

/-- What is still to be emitted: the elements of every sequence from the first
element not yet consumed on. -/
theorem LoserTreeCopy.mem_remaining {α : Type} (seqs : List (List α)) (consumed : Nat → Nat)
    (s i : Nat) (z : α) :
    (s, i, z) ∈ LoserTreeCopy.remaining seqs consumed
      ↔ s < seqs.length ∧ consumed s ≤ i ∧ (seqs.getD s [])[i]? = some z := by
  simp only [LoserTreeCopy.remaining, List.mem_flatMap, List.mem_range,
    LoserTreeCopy.mem_tagFrom, List.getElem?_drop]
  constructor
  · rintro ⟨p, hp, rfl, h2, h3⟩
    refine ⟨hp, h2, ?_⟩
    rw [← h3]
    congr 1
    omega
  · rintro ⟨h1, h2, h3⟩
    refine ⟨s, h1, rfl, h2, ?_⟩
    rw [← h3]
    congr 1
    omega

theorem flatMap_cons_at {β : Type} (q : Nat) (e : β) (f g : Nat → List β)
    (hq : f q = e :: g q) (hne : ∀ p, p ≠ q → f p = g p) :
    ∀ l : List Nat, l.Nodup → q ∈ l → (l.flatMap f).Perm (e :: l.flatMap g) := by
  intro l
  induction l with
  | nil => intro _ h; cases h
  | cons a l ih =>
    intro hnd hmem
    rw [List.flatMap_cons, List.flatMap_cons]
    have hnd2 := List.nodup_cons.mp hnd
    by_cases ha : a = q
    · subst ha
      have hsame : l.flatMap f = l.flatMap g := by
        apply List.flatMap_congr
        intro p hp
        apply hne
        rintro rfl
        exact hnd2.1 hp
      rw [hq, hsame]
      exact List.Perm.refl _
    · have hq2 : q ∈ l := by
        rcases List.mem_cons.mp hmem with h | h
        · exact absurd h.symm ha
        · exact h
      rw [hne a ha]
      exact (List.Perm.append_left (g a) (ih hnd2.2 hq2)).trans List.perm_middle

/-- Emitting the current element of the sequence `q` removes it from what is
still to be emitted. -/
theorem LoserTreeCopy.remaining_step {α : Type} (seqs : List (List α)) (consumed : Nat → Nat)
    (q : Nat) (y : α) (hq : q < seqs.length)
    (hy : LoserTreeCopy.current seqs consumed q = some y) :
    (LoserTreeCopy.remaining seqs consumed).Perm
      ((q, consumed q, y) ::
        LoserTreeCopy.remaining seqs (fun p => if p = q then consumed p + 1 else consumed p)) := by
  unfold LoserTreeCopy.remaining
  apply flatMap_cons_at q _ _ _ _ _ _ (List.nodup_range _) (List.mem_range.mpr hq)
  · obtain ⟨hlt, rfl⟩ := List.getElem?_eq_some.mp hy
    simp only [if_true]
    rw [List.drop_eq_getElem_cons hlt]
    rfl
  · intro p hp
    simp only [hp, if_false]

theorem LoserTreeCopy.remaining_values {α : Type} (seqs : List (List α)) :
    (LoserTreeCopy.remaining seqs (fun _ => 0)).map (fun e => e.2.2) = seqs.flatten := by
  unfold LoserTreeCopy.remaining
  rw [List.map_flatMap]
  simp only [List.drop_zero, LoserTreeCopy.tagFrom_values]
  have h : (List.range seqs.length).map (fun p => seqs.getD p []) = seqs := by
    apply List.ext_getElem
    · simp
    · intro i h1 h2
      simp only [List.getElem_map, List.getElem_range]
      exact List.getD_eq_getElem _ _ h2
  rw [List.flatMap_def, h]

theorem LoserTreeCopy.remaining_length {α : Type} (seqs : List (List α)) :
    (LoserTreeCopy.remaining seqs (fun _ => 0)).length = (seqs.map List.length).sum := by
  have h := congrArg List.length (LoserTreeCopy.remaining_values seqs)
  rw [List.length_map, List.length_flatten] at h
  exact h

/-! ### The merge loop -/

/-- The players after a call of `delete_min_insert` in the merge loop are the
current elements of the sequences with one more element of `q` consumed. -/
theorem LoserTreeCopy.replaced_current {α : Type} (seqs : List (List α)) (consumed : Nat → Nat)
    (q : Nat) :
    LoserTreeCopy.replaced (LoserTreeCopy.current seqs consumed) (q : Int)
        ((seqs.getD q [])[consumed q + 1]?)
      = LoserTreeCopy.current seqs (fun p => if p = q then consumed p + 1 else consumed p) := by
  funext p
  unfold LoserTreeCopy.replaced LoserTreeCopy.current
  by_cases h : p = q
  · subst h
    simp
  · have h2 : ¬ (p : Int) = (q : Int) := by omega
    simp only [h, h2, if_false]

/-- The merge loop driven by the stable tree returns, emits what was still to be
emitted, and emits it in the order of a stable merge. -/
theorem LoserTreeCopy.merge_loop_sorted {α : Type} [Inhabited α] {cmp : α → α → Bool}
    (hc : StrictWeakOrder cmp) (seqs : List (List α))
    (hsorted : ∀ p, (seqs.getD p []).Pairwise (fun a b => cmp b a = false)) :
    ∀ (n : Nat) (t : LoserTreeCopyBase α) (consumed : Nat → Nat),
      LoserTreeCopy.StableInvariant cmp seqs.length t (LoserTreeCopy.current seqs consumed) →
      (LoserTreeCopy.remaining seqs consumed).length = n →
      ∃ out, LoserTreeCopy.merge_loop true cmp seqs n t consumed = some out ∧
        out.Perm (LoserTreeCopy.remaining seqs consumed) ∧
        out.Pairwise (LoserTreeCopy.mergeOrder cmp) := by
  intro n
  induction n with
  | zero =>
    intro t consumed _ hlen
    refine ⟨[], rfl, ?_, List.Pairwise.nil⟩
    rw [List.length_eq_zero.mp hlen]
  | succ n ih =>
    intro t consumed hinv hlen
    -- some sequence has a current element
    obtain ⟨⟨p0, i0, z0⟩, hmem⟩ : ∃ e, e ∈ LoserTreeCopy.remaining seqs consumed := by
      cases hr : LoserTreeCopy.remaining seqs consumed with
      | nil => rw [hr] at hlen; cases hlen
      | cons e _ => exact ⟨e, List.mem_cons_self _ _⟩
    obtain ⟨hp0, hi0, hz0⟩ := (LoserTreeCopy.mem_remaining seqs consumed p0 i0 z0).mp hmem
    obtain ⟨hlt0, -⟩ := List.getElem?_eq_some.mp hz0
    have hcur0 : LoserTreeCopy.current seqs consumed p0
        = some ((seqs.getD p0 [])[consumed p0]) :=
      List.getElem?_eq_getElem (by omega)
    obtain ⟨q, y, hq, hmin, hcur, hbest⟩ :=
      LoserTreeCopy.stable_invariant_winner hc hinv p0 _ hp0 hcur0
    obtain ⟨t2, hdel, hinv2⟩ := LoserTreeCopy.delete_min_insert_stable_invariant hc hinv
      ((seqs.getD q [])[consumed q + 1]?)
    rw [hmin, LoserTreeCopy.replaced_current] at hinv2
    have hstep := LoserTreeCopy.remaining_step seqs consumed q y hq hcur
    have hlen2 : (LoserTreeCopy.remaining seqs
        (fun p => if p = q then consumed p + 1 else consumed p)).length = n := by
      have := hstep.length_eq
      rw [hlen, List.length_cons] at this
      omega
    obtain ⟨out, hout, hperm, hpair⟩ := ih t2 _ hinv2 hlen2
    have hneg : ¬ (q : Int) < 0 := by omega
    refine ⟨(q, consumed q, y) :: out, ?_, ?_, ?_⟩
    · rw [LoserTreeCopy.merge_loop, hmin]
      simp only [hneg, if_false, Int.toNat_ofNat, hcur, hdel, hout, Option.map_some']
    · exact (List.Perm.cons _ hperm).trans hstep.symm
    · refine List.Pairwise.cons ?_ hpair
      rintro ⟨r, i, z⟩ hmem2
      have hmem3 := (hperm.mem_iff).mp hmem2
      obtain ⟨hr, hi, hz⟩ := (LoserTreeCopy.mem_remaining seqs _ r i z).mp hmem3
      obtain ⟨hlt, -⟩ := List.getElem?_eq_some.mp hz
      have hci : consumed r ≤ i := by
        by_cases e : r = q
        · simp only [e, if_true] at hi
          rw [e]; omega
        · simp only [e, if_false] at hi
          exact hi
      obtain ⟨w, hcurr⟩ : ∃ w, (seqs.getD r [])[consumed r]? = some w :=
        ⟨_, List.getElem?_eq_getElem (by omega)⟩
      obtain ⟨b1, b2⟩ := hbest r w hr hcurr
      have hzz : cmp z w = false := by
        by_cases e : consumed r = i
        · rw [e, hz] at hcurr
          rw [← Option.some.inj hcurr]
          exact hc.irrefl _
        · exact pairwise_getElem? (hsorted r) (by omega) hcurr hz
      refine ⟨hc.not_lt_trans _ _ _ hzz b1, ?_⟩
      intro hyz
      show q < r ∨ (q = r ∧ consumed q < i)
      rcases b2 with b2 | b2
      · have := hc.lt_of_lt_of_not_lt _ _ _ b2 hzz
        rw [hyz] at this
        exact absurd this (by decide)
      · by_cases e : r = q
        · right
          simp only [e, if_true] at hi
          exact ⟨e.symm, by omega⟩
        · left; omega

/-- The merge driven by the stable tree returns, emits all elements, and emits
them in the order of a stable merge. -/
theorem LoserTreeCopy.merge_sorted {α : Type} [Inhabited α] {cmp : α → α → Bool}
    (hc : StrictWeakOrder cmp) (junk : Nat → Loser α) (seqs : List (List α))
    (hk : 1 ≤ seqs.length)
    (hsorted : ∀ s ∈ seqs, s.Pairwise (fun a b => cmp b a = false)) :
    ∃ out, LoserTreeCopy.merge true cmp junk seqs = some out ∧
      out.Perm (LoserTreeCopy.remaining seqs (fun _ => 0)) ∧
      out.Pairwise (LoserTreeCopy.mergeOrder cmp) := by
  have hs2 : ∀ p, (seqs.getD p []).Pairwise (fun a b => cmp b a = false) := by
    intro p
    by_cases hp : p < seqs.length
    · rw [List.getD_eq_getElem _ _ hp]
      exact hsorted _ (List.getElem_mem _)
    · rw [List.getD_eq_default _ _ (by omega)]
      exact List.Pairwise.nil
  obtain ⟨t, e, hinv⟩ := LoserTreeCopyBase.start_stable_invariant hc seqs.length junk
    (LoserTreeCopy.current seqs (fun _ => 0)) (List.range seqs.length) hk
    (fun p hp => List.mem_range.mp hp) (fun p hp => List.mem_range.mpr hp)
  obtain ⟨out, h1, h2, h3⟩ := LoserTreeCopy.merge_loop_sorted hc seqs hs2
    (seqs.map List.length).sum t (fun _ => 0) hinv (LoserTreeCopy.remaining_length seqs)
  refine ⟨out, ?_, h2, h3⟩
  rw [LoserTreeCopy.merge, e]
  exact h1

/-- C23: for `k ≥ 1` sequences, each sorted under a strict weak order (no element
is less than an earlier one), the merge driven by the stable `LoserTreeCopy<true>`
returns; the emitted elements are a permutation of all input elements; they are
sorted; of two emitted elements that are equivalent, the earlier one comes from
a sequence of lower index, or from the same sequence at a lower position; and
every emitted element is the element of its sequence at its position, each
position being emitted once. -/
theorem LoserTreeCopy_stable_merge_sorted {α : Type} [Inhabited α] (cmp : α → α → Bool)
    (hc : StrictWeakOrder cmp) (junk : Nat → Loser α) (seqs : List (List α))
    (hk : 1 ≤ seqs.length)
    (hsorted : ∀ s ∈ seqs, s.Pairwise (fun a b => cmp b a = false)) :
    ∃ out, LoserTreeCopy.merge true cmp junk seqs = some out ∧
      (out.map (fun e => e.2.2)).Perm seqs.flatten ∧
      (out.map (fun e => e.2.2)).Pairwise (fun a b => cmp b a = false) ∧
      out.Pairwise (fun a b => cmp a.2.2 b.2.2 = false →
        a.1 < b.1 ∨ (a.1 = b.1 ∧ a.2.1 < b.2.1)) ∧
      (∀ e ∈ out, e.1 < seqs.length ∧ (seqs.getD e.1 [])[e.2.1]? = some e.2.2) ∧
      out.Perm (LoserTreeCopy.remaining seqs (fun _ => 0)) := by
  obtain ⟨out, h1, h2, h3⟩ := LoserTreeCopy.merge_sorted hc junk seqs hk hsorted
  refine ⟨out, h1, ?_, ?_, ?_, ?_, h2⟩
  · have := h2.map (fun e => e.2.2)
    rw [LoserTreeCopy.remaining_values] at this
    exact this
  · rw [List.pairwise_map]
    exact h3.imp (fun h => h.1)
  · exact h3.imp (fun h => h.2)
  · rintro ⟨s, i, z⟩ he
    have := (LoserTreeCopy.mem_remaining seqs _ s i z).mp (h2.mem_iff.mp he)
    exact ⟨this.1, this.2.2⟩

/-- Witness for C23: the sequences `[1, 3]`, `[1, 2]` and the empty sequence
under `<`; the two elements 1 are emitted in the order of their sequences. -/
theorem LoserTreeCopy_stable_merge_sorted_witness :
    1 ≤ [[1, 3], [1, 2], []].length ∧
    (∀ s ∈ [[1, 3], [1, 2], []],
      s.Pairwise (fun a b => (fun a b : Nat => decide (a < b)) b a = false)) ∧
    LoserTreeCopy.merge true (fun a b : Nat => decide (a < b))
        (fun _ => { sup := false, source := 7, key := 0 }) [[1, 3], [1, 2], []]
      = some [(0, 0, 1), (1, 0, 1), (1, 1, 2), (0, 1, 3)] ∧
    ∃ out, LoserTreeCopy.merge true (fun a b : Nat => decide (a < b))
        (fun _ => { sup := false, source := 7, key := 0 }) [[1, 3], [1, 2], []] = some out ∧
      (out.map (fun e => e.2.2)).Perm [[1, 3], [1, 2], []].flatten ∧
      (out.map (fun e => e.2.2)).Pairwise
        (fun a b => (fun a b : Nat => decide (a < b)) b a = false) ∧
      out.Pairwise (fun a b => (fun a b : Nat => decide (a < b)) a.2.2 b.2.2 = false →
        a.1 < b.1 ∨ (a.1 = b.1 ∧ a.2.1 < b.2.1)) ∧
      (∀ e ∈ out, e.1 < [[1, 3], [1, 2], []].length ∧
        ([[1, 3], [1, 2], []].getD e.1 [])[e.2.1]? = some e.2.2) ∧
      out.Perm (LoserTreeCopy.remaining [[1, 3], [1, 2], []] (fun _ => 0)) :=
  ⟨by decide, by decide, by decide,
   LoserTreeCopy_stable_merge_sorted (fun a b : Nat => decide (a < b))
     StrictWeakOrder.nat_lt (fun _ => { sup := false, source := 7, key := 0 })
     [[1, 3], [1, 2], []] (by decide) (by decide)⟩


end Thrill
